import Mathlib

/-!
# Verification development for the Tetris / Natural Actor-Critic code (hiili/rlcc, `+TetrisNAC`)

Shallow embedding of `Tetris.hpp` / `Tetris.cpp` / `Configuration.hpp`, of the critics
(`Critic.hpp`, `LSTDLambda`, `LSPELambda`, `FullTDLambda`), of the controller
(`NaturalActorCritic.hpp` / `NaturalActorCritic.cpp`) and of the main loop of `MexTetrisNAC.cpp`.

Conventions of the embedding
* every C++ `int` is an `Int`; every C++ array is a total function of its `Int` index
  (`bool board[ROWS][COLUMNS]` is `Int → Int → Bool`); an array write is a pointwise update;
* `double` features only ever hold small integers converted from `int` (heights, counts, the
  bias constants `0.0` and `1.0`), so they are embedded as `Int`;
* counted `for` loops whose body changes neither the index nor the bound are `forUp` / `forDown`;
  loops that leave through `break` or through their condition are structural recursions on the
  remaining number of iterations;
* the members `rows` and `columns` are fixed to `ROWS` and `COLUMNS` (the constructor asserts it and
  `mexFunction` constructs `Tetris( 20, 10, ... )`);
* a value pulled from the random stream enters as the argument `draw`, the value of
  `(int)(rstream.rand() * 7.0)`;
* `LOGOBSERVATIONS` is `0`, so `logState` does nothing, and `logReward` is empty: the observation
  log is not part of the state;
* the critics are embedded over an arbitrary type of `double` values, the controller over the
  type `Dbl F` of finite values from an ordered field `F`, infinities and NaN, with exact
  arithmetic on finite values; `std::exp` on finite values enters as the argument `exp`;
* `computeActionProbabilities`, `drawAction` and `act` have a second embedding in which every
  operation is followed by a rounding (`computeActionProbabilitiesRounded`,
  `drawActionRounded`, `actRounded`); `round64` is the rounding of IEEE 754 binary64, to
  nearest with ties to even, each operation rounded once; the exact embedding is the rounded
  one for the rounding that changes nothing;
* `mxAssert` is an assertion that is checked: a method that can fail returns an `Except String`;
* the constant `PETERS_TRICK_MODE` enters the methods that read it as the argument `mode`;
* `dropPiece` and `shiftRows` have a second embedding, `dropPieceChecked`, in which every array
  access is checked against the bounds of the array and an access out of range ends the call
  with `none`;
* the case `HD_FLOODFILL` of the hole count, which is not the compiled one, is embedded as
  `holesFloodFill` together with `SeedFill` of `external/SeedFill.cpp`; the main loop of the
  seed fill takes a number of passes and gives `none` when they run out.
-/

namespace TetrisNAC

/-! ## Constants (`Tetris.hpp`, `Configuration.hpp`) -/

/-- The board height: `#define ROWS 20`. -/
abbrev ROWS : Int := 20

/-- The board width: `#define COLUMNS 10`. -/
abbrev COLUMNS : Int := 10

/-- The length of a state feature vector: `#define STATEDIM (2 * COLUMNS - 1 + 3)`. -/
abbrev STATEDIM : Int := 2 * COLUMNS - 1 + 3

/-- The length of an action feature vector:
`#define STATEACTIONDIM (2 * COLUMNS - 1 + 3 + 1)`. -/
abbrev STATEACTIONDIM : Int := 2 * COLUMNS - 1 + 3 + 1

/-- The capacity of the action arrays: `#define MAXACTIONS (4 * COLUMNS)`. -/
abbrev MAXACTIONS : Int := 4 * COLUMNS

/-- The bias feature of a terminal state: `#define TERMINAL_BIAS_VALUE_S 0.0`. -/
abbrev TERMINAL_BIAS_VALUE_S : Int := 0

/-- The bias feature of an action that leads to termination:
`#define TERMINAL_BIAS_VALUE_A 1.0`. -/
abbrev TERMINAL_BIAS_VALUE_A : Int := 1

/-- The macro `#define ABS(x) ((x)<0?-(x):(x))`. -/
def ABS (x : Int) : Int := if x < 0 then -x else x

/-! ## Arrays and loops -/

/-- Read of a constant table at an `int` index (`d` outside the table). -/
def idx {α : Type} (t : List α) (i : Int) (d : α) : α :=
  if i < 0 then d else t.getD i.toNat d

/-- The array `a` after `a[i] = v`. -/
def set1 {α : Type} (a : Int → α) (i : Int) (v : α) : Int → α :=
  fun j => if j = i then v else a j

/-- The array `a` after `a[r][c] = v`. -/
def set2 {α : Type} (a : Int → Int → α) (r c : Int) (v : α) : Int → Int → α :=
  fun r1 c1 => if r1 = r ∧ c1 = c then v else a r1 c1

/-- Runs `n` iterations of an upward counted loop starting at index `i`. -/
def forLoop {σ : Type} (body : Int → σ → σ) : Nat → Int → σ → σ
  | 0, _, s => s
  | n + 1, i, s => forLoop body n (i + 1) (body i s)

/-- The loop `for( i = lo ; i < hi ; i++ ) body`. -/
def forUp {σ : Type} (lo hi : Int) (body : Int → σ → σ) (s : σ) : σ :=
  forLoop body (hi - lo).toNat lo s

/-- Runs `n` iterations of a downward counted loop starting at index `i`. -/
def forLoopDown {σ : Type} (body : Int → σ → σ) : Nat → Int → σ → σ
  | 0, _, s => s
  | n + 1, i, s => forLoopDown body n (i - 1) (body i s)

/-- The loop `for( i = hi ; i >= lo ; i-- ) body`. -/
def forDown {σ : Type} (hi lo : Int) (body : Int → σ → σ) (s : σ) : σ :=
  forLoopDown body (hi - lo + 1).toNat hi s

/-! ## The piece catalog (`Tetris.cpp`, constants) -/

/-- The table `Tetris::pieceOrientationCounts[7]`. -/
def pieceOrientationCounts (piece : Int) : Int :=
  idx [1, 4, 2, 4, 4, 2, 2] piece 0

/-- The table `Tetris::pieceWidths[7][4]`: piece x orientation. -/
def pieceWidths (piece orientation : Int) : Int :=
  idx (idx
    [[2, 0, 0, 0],
     [3, 2, 3, 2],
     [4, 1, 0, 0],
     [3, 2, 3, 2],
     [3, 2, 3, 2],
     [3, 2, 0, 0],
     [3, 2, 0, 0]] piece []) orientation 0

/-- The table `Tetris::pieceHeights[7][4]`: piece x orientation. -/
def pieceHeights (piece orientation : Int) : Int :=
  idx (idx
    [[2, 0, 0, 0],
     [2, 3, 2, 3],
     [1, 4, 0, 0],
     [2, 3, 2, 3],
     [2, 3, 2, 3],
     [2, 3, 0, 0],
     [2, 3, 0, 0]] piece []) orientation 0

/-- The table `Tetris::pieceActionCounts[7]`. -/
def pieceActionCounts (piece : Int) : Int :=
  idx
    [COLUMNS-1,
     COLUMNS-2 + COLUMNS-1 + COLUMNS-2 + COLUMNS-1,
     COLUMNS-3 + COLUMNS-0,
     COLUMNS-2 + COLUMNS-1 + COLUMNS-2 + COLUMNS-1,
     COLUMNS-2 + COLUMNS-1 + COLUMNS-2 + COLUMNS-1,
     COLUMNS-2 + COLUMNS-1,
     COLUMNS-2 + COLUMNS-1] piece 0

/-- The table `Tetris::pieceTopHeightmaps[7][4][4]`: piece x orientation x column. -/
def pieceTopHeightmaps (piece orientation column : Int) : Int :=
  idx (idx (idx
    [[[0, 0, 0, 0],
      [0, 0, 0, 0],
      [0, 0, 0, 0],
      [0, 0, 0, 0]],
     [[1, 0, 1, 0],
      [1, 0, 0, 0],
      [0, 0, 0, 0],
      [0, 1, 0, 0]],
     [[0, 0, 0, 0],
      [0, 0, 0, 0],
      [0, 0, 0, 0],
      [0, 0, 0, 0]],
     [[0, 1, 1, 0],
      [2, 0, 0, 0],
      [0, 0, 0, 0],
      [0, 0, 0, 0]],
     [[1, 1, 0, 0],
      [0, 0, 0, 0],
      [0, 0, 0, 0],
      [0, 2, 0, 0]],
     [[0, 0, 1, 0],
      [1, 0, 0, 0],
      [0, 0, 0, 0],
      [0, 0, 0, 0]],
     [[1, 0, 0, 0],
      [0, 1, 0, 0],
      [0, 0, 0, 0],
      [0, 0, 0, 0]]] piece []) orientation []) column 0

/-- The table `Tetris::pieceHeightmaps[7][4][4]`: piece x orientation x column (bottom
edge). -/
def pieceHeightmaps (piece orientation column : Int) : Int :=
  idx (idx (idx
    [[[2, 2, 0, 0],
      [0, 0, 0, 0],
      [0, 0, 0, 0],
      [0, 0, 0, 0]],
     [[2, 2, 2, 0],
      [2, 3, 0, 0],
      [1, 2, 1, 0],
      [3, 2, 0, 0]],
     [[1, 1, 1, 1],
      [4, 0, 0, 0],
      [0, 0, 0, 0],
      [0, 0, 0, 0]],
     [[2, 2, 2, 0],
      [3, 3, 0, 0],
      [1, 1, 2, 0],
      [3, 1, 0, 0]],
     [[2, 2, 2, 0],
      [1, 3, 0, 0],
      [2, 1, 1, 0],
      [3, 3, 0, 0]],
     [[1, 2, 2, 0],
      [3, 2, 0, 0],
      [0, 0, 0, 0],
      [0, 0, 0, 0]],
     [[2, 2, 1, 0],
      [2, 3, 0, 0],
      [0, 0, 0, 0],
      [0, 0, 0, 0]]] piece []) orientation []) column 0

/-- The table `Tetris::pieces[7][4][4][4]`: piece x orientation x row x column (`1` is a filled
cell). -/
def pieces (piece orientation row column : Int) : Bool :=
  idx (idx (idx (idx
    [[[[1, 1, 0, 0],
       [1, 1, 0, 0],
       [0, 0, 0, 0],
       [0, 0, 0, 0]],
      [[0, 0, 0, 0],
       [0, 0, 0, 0],
       [0, 0, 0, 0],
       [0, 0, 0, 0]],
      [[0, 0, 0, 0],
       [0, 0, 0, 0],
       [0, 0, 0, 0],
       [0, 0, 0, 0]],
      [[0, 0, 0, 0],
       [0, 0, 0, 0],
       [0, 0, 0, 0],
       [0, 0, 0, 0]]],
     [[[0, 1, 0, 0],
       [1, 1, 1, 0],
       [0, 0, 0, 0],
       [0, 0, 0, 0]],
      [[0, 1, 0, 0],
       [1, 1, 0, 0],
       [0, 1, 0, 0],
       [0, 0, 0, 0]],
      [[1, 1, 1, 0],
       [0, 1, 0, 0],
       [0, 0, 0, 0],
       [0, 0, 0, 0]],
      [[1, 0, 0, 0],
       [1, 1, 0, 0],
       [1, 0, 0, 0],
       [0, 0, 0, 0]]],
     [[[1, 1, 1, 1],
       [0, 0, 0, 0],
       [0, 0, 0, 0],
       [0, 0, 0, 0]],
      [[1, 0, 0, 0],
       [1, 0, 0, 0],
       [1, 0, 0, 0],
       [1, 0, 0, 0]],
      [[0, 0, 0, 0],
       [0, 0, 0, 0],
       [0, 0, 0, 0],
       [0, 0, 0, 0]],
      [[0, 0, 0, 0],
       [0, 0, 0, 0],
       [0, 0, 0, 0],
       [0, 0, 0, 0]]],
     [[[1, 0, 0, 0],
       [1, 1, 1, 0],
       [0, 0, 0, 0],
       [0, 0, 0, 0]],
      [[0, 1, 0, 0],
       [0, 1, 0, 0],
       [1, 1, 0, 0],
       [0, 0, 0, 0]],
      [[1, 1, 1, 0],
       [0, 0, 1, 0],
       [0, 0, 0, 0],
       [0, 0, 0, 0]],
      [[1, 1, 0, 0],
       [1, 0, 0, 0],
       [1, 0, 0, 0],
       [0, 0, 0, 0]]],
     [[[0, 0, 1, 0],
       [1, 1, 1, 0],
       [0, 0, 0, 0],
       [0, 0, 0, 0]],
      [[1, 1, 0, 0],
       [0, 1, 0, 0],
       [0, 1, 0, 0],
       [0, 0, 0, 0]],
      [[1, 1, 1, 0],
       [1, 0, 0, 0],
       [0, 0, 0, 0],
       [0, 0, 0, 0]],
      [[1, 0, 0, 0],
       [1, 0, 0, 0],
       [1, 1, 0, 0],
       [0, 0, 0, 0]]],
     [[[1, 1, 0, 0],
       [0, 1, 1, 0],
       [0, 0, 0, 0],
       [0, 0, 0, 0]],
      [[0, 1, 0, 0],
       [1, 1, 0, 0],
       [1, 0, 0, 0],
       [0, 0, 0, 0]],
      [[0, 0, 0, 0],
       [0, 0, 0, 0],
       [0, 0, 0, 0],
       [0, 0, 0, 0]],
      [[0, 0, 0, 0],
       [0, 0, 0, 0],
       [0, 0, 0, 0],
       [0, 0, 0, 0]]],
     [[[0, 1, 1, 0],
       [1, 1, 0, 0],
       [0, 0, 0, 0],
       [0, 0, 0, 0]],
      [[1, 0, 0, 0],
       [1, 1, 0, 0],
       [0, 1, 0, 0],
       [0, 0, 0, 0]],
      [[0, 0, 0, 0],
       [0, 0, 0, 0],
       [0, 0, 0, 0],
       [0, 0, 0, 0]],
      [[0, 0, 0, 0],
       [0, 0, 0, 0],
       [0, 0, 0, 0],
       [0, 0, 0, 0]]]] piece []) orientation []) row []) column (0 : Nat) != 0

/-! ## The environment state (`Tetris.hpp`) -/

/-- The struct `Tetris::StepData`: the data passed from the environment to the agent. -/
structure StepData where
  transitionReward : Int
  observation : Int → Int
  actions : Int → Int → Int
  isActionTerminal : Int → Bool
  actionCount : Int

/-- The member fields of `class Tetris` that the simulation reads or writes. -/
structure Tetris where
  stepData : StepData
  episode : Int
  terminalState : Bool
  totalClearedRows : Int
  board : Int → Int → Bool
  boardHeightmap : Int → Int
  boardHeightmapMin : Int
  fallingPiece : Int
  clearedRows : Int

/-! ## `Tetris::dropPiece` and `Tetris::shiftRows` -/

/-- The action-expanding loop of `dropPiece` (lines 80-86), entered at `orientation` with `n`
orientations left to try: returns the final `(orientation, action)`; the column is the final
`action`. -/
def expandLoop (fallingPiece : Int) : Nat → Int → Int → Int × Int
  | 0, orientation, action => (orientation, action)
  | n + 1, orientation, action =>
    if orientation < pieceOrientationCounts fallingPiece then
      if action < COLUMNS - pieceWidths fallingPiece orientation + 1 then (orientation, action)
      else expandLoop fallingPiece n (orientation + 1)
        (action - (COLUMNS - pieceWidths fallingPiece orientation + 1))
    else (orientation, action)

/-- The pair `(orientation, column)` that `dropPiece` expands `action` into. -/
def expandAction (fallingPiece action : Int) : Int × Int :=
  expandLoop fallingPiece (pieceOrientationCounts fallingPiece).toNat 0 action

/-- The landing-row loop of `dropPiece` (lines 96-100): the topmost row of the dropped piece. -/
def findRow (boardHeightmap : Int → Int) (fallingPiece orientation column : Int) : Int :=
  forUp 0 (pieceWidths fallingPiece orientation)
    (fun pieceColumn row =>
      let rowc := boardHeightmap (column + pieceColumn)
        - pieceHeightmaps fallingPiece orientation pieceColumn
      if rowc < row then rowc else row)
    ROWS

/-- The placing loops of `dropPiece` (lines 109-111). -/
def placePiece (board : Int → Int → Bool) (fallingPiece orientation row column : Int) :
    Int → Int → Bool :=
  forUp 0 (pieceHeights fallingPiece orientation)
    (fun pieceRow b =>
      forUp 0 (pieceWidths fallingPiece orientation)
        (fun pieceColumn b1 =>
          set2 b1 (row + pieceRow) (column + pieceColumn)
            (b1 (row + pieceRow) (column + pieceColumn)
              || pieces fallingPiece orientation pieceRow pieceColumn))
        b)
    board

/-- The heightmap loop of `dropPiece` (lines 114-123), on the pair
`(boardHeightmap, boardHeightmapMin)`. -/
def updateHeightmap (hm : (Int → Int) × Int) (fallingPiece orientation row column : Int) :
    (Int → Int) × Int :=
  forUp 0 (pieceWidths fallingPiece orientation)
    (fun pieceColumn h =>
      let hm1 := set1 h.1 (column + pieceColumn)
        (row + pieceTopHeightmaps fallingPiece orientation pieceColumn)
      if hm1 (column + pieceColumn) < h.2 then (hm1, hm1 (column + pieceColumn)) else (hm1, h.2))
    hm

/-- The method `Tetris::shiftRows( firstRow, lastRow, shift )` on the board. -/
def shiftRows (board : Int → Int → Bool) (firstRow lastRow shift : Int) : Int → Int → Bool :=
  -- copy downwards
  let copied := forDown lastRow firstRow
    (fun row b => forUp 0 COLUMNS (fun col b1 => set2 b1 (row + shift) col (b1 row col)) b)
    board
  -- clear the new top rows
  forUp firstRow (firstRow + shift)
    (fun row b => forUp 0 COLUMNS (fun col b1 => set2 b1 row col false) b)
    copied

/-- The row check of `dropPiece` (lines 130-133), entered at `col` with `n` columns left: the
value of `col` when the loop is left. -/
def checkRowLoop (board : Int → Int → Bool) (row : Int) : Nat → Int → Int
  | 0, col => col
  | n + 1, col =>
    if col < COLUMNS then
      if !board row col then col else checkRowLoop board row n (col + 1)
    else col

/-- The region scan of `dropPiece` (lines 126-142), on the pair `(board, filledRows)`. -/
def scanRegion (board : Int → Int → Bool) (fallingPiece orientation row : Int) :
    (Int → Int → Bool) × Int :=
  forUp 0 (pieceHeights fallingPiece orientation)
    (fun pieceRow st =>
      let col := checkRowLoop st.1 (row + pieceRow) COLUMNS.toNat 0
      if col = COLUMNS then (shiftRows st.1 row (row + pieceRow - 1) 1, st.2 + 1) else st)
    (board, 0)

/-- The inner loop of the heightmap recomputation (line 155), entered at `row` with `n` rows
left: the value of `row` when the loop is left. -/
def topScanLoop (board : Int → Int → Bool) (col : Int) : Nat → Int → Int
  | 0, row => row
  | n + 1, row =>
    if row < ROWS ∧ board row col = false then topScanLoop board col n (row + 1) else row

/-- The heightmap recomputation of `dropPiece` (lines 154-157). -/
def rescanHeightmap (board : Int → Int → Bool) (boardHeightmapMin : Int) (hm : Int → Int) :
    Int → Int :=
  forUp 0 COLUMNS
    (fun col h =>
      set1 h col (topScanLoop board col (ROWS - boardHeightmapMin).toNat boardHeightmapMin))
    hm

/-- The method `int Tetris::dropPiece( int action )`: the state after the call and the
returned number of cleared rows. -/
def Tetris.dropPiece (s : Tetris) (action : Int) : Tetris × Int :=
  -- expand the action
  let orientation := (expandAction s.fallingPiece action).1
  let column := (expandAction s.fallingPiece action).2
  -- find row (topmost row of the piece)
  let row := findRow s.boardHeightmap s.fallingPiece orientation column
  -- flag terminal state and return if the board would overflow
  if row < 0 then ({ s with terminalState := true }, 0)
  else
    -- place the piece to the board
    let board1 := placePiece s.board s.fallingPiece orientation row column
    -- update the heightmap
    let hm1 := updateHeightmap (s.boardHeightmap, s.boardHeightmapMin)
      s.fallingPiece orientation row column
    -- scan affected region for filled rows, shift down within the region
    let scanned := scanRegion board1 s.fallingPiece orientation row
    let filledRows := scanned.2
    if filledRows > 0 then
      let board2 := shiftRows scanned.1 hm1.2 (row - 1) filledRows
      let hmin2 := hm1.2 + filledRows
      ({ s with
          board := board2
          boardHeightmapMin := hmin2
          boardHeightmap := rescanHeightmap board2 hmin2 hm1.1 }, filledRows)
    else
      ({ s with board := scanned.1, boardHeightmap := hm1.1, boardHeightmapMin := hm1.2 },
        filledRows)

/-! ## State handling and step data -/

/-- The method `void Tetris::resetState()`; `draw` is the value of
`(int)(rstream.rand() * 7.0)`. -/
def Tetris.resetState (s : Tetris) (draw : Int) : Tetris :=
  { s with
    board := forUp 0 ROWS
      (fun row b => forUp 0 COLUMNS (fun col b1 => set2 b1 row col false) b) s.board
    boardHeightmap := forUp 0 COLUMNS (fun col h => set1 h col ROWS) s.boardHeightmap
    boardHeightmapMin := ROWS
    fallingPiece := draw
    clearedRows := 0
    totalClearedRows := 0
    terminalState := false }

/-- The method `void Tetris::advanceState( int action )`; `draw` is the value of
`(int)(rstream.rand() * 7.0)`. -/
def Tetris.advanceState (s : Tetris) (action draw : Int) : Tetris :=
  let dropped := s.dropPiece action
  { dropped.1 with
    clearedRows := dropped.2
    totalClearedRows := dropped.1.totalClearedRows + dropped.2
    fallingPiece := draw }

/-- The hole count of `computeObservation` for `HOLEDEFINITION == HD_UNDERTOPLINE`, the compiled
case of the `switch` (lines 219-223). -/
def holesUnderTopline (board : Int → Int → Bool) (boardHeightmap : Int → Int) : Int :=
  forUp 0 COLUMNS
    (fun col holes =>
      forUp (boardHeightmap col + 1) ROWS
        (fun row holes1 => if !board row col then holes1 + 1 else holes1)
        holes)
    0

/-- The method `void Tetris::computeObservation( double (& observation)[STATEDIM] )`: the
contents of the array `observation` after the call. -/
def Tetris.computeObservation (s : Tetris) (observation : Int → Int) : Int → Int :=
  -- terminal state? value == 0 -> observation == zero vector
  if s.terminalState then
    set1 (forUp 0 STATEDIM (fun i o => set1 o i 0) observation)
      (2 * COLUMNS - 1 + 2) TERMINAL_BIAS_VALUE_S
  else
    -- fill in columns heights and height differences
    let o1 := forUp 0 COLUMNS
      (fun col o =>
        let oh := set1 o col (ROWS - s.boardHeightmap col)
        if col ≥ 1 then set1 oh (COLUMNS + col - 1) (ABS (oh col - oh (col - 1))) else oh)
      observation
    -- set maximum column height
    let o2 := set1 o1 (2 * COLUMNS - 1 + 0) (ROWS - s.boardHeightmapMin)
    -- set number of holes
    let o3 := set1 o2 (2 * COLUMNS - 1 + 1) (holesUnderTopline s.board s.boardHeightmap)
    -- set bias
    set1 o3 (2 * COLUMNS - 1 + 2) 1

/-- The body of the action loop of `computeActions` (lines 275-294); `origBoard`,
`origBoardHeightmap` and `origBoardHeightmapMin` are the snapshot taken before the loop. -/
def computeActionsBody (origBoard : Int → Int → Bool) (origBoardHeightmap : Int → Int)
    (origBoardHeightmapMin : Int) (action : Int) (s : Tetris) : Tetris :=
  -- drop the piece
  let dropped := s.dropPiece action
  let s1 := dropped.1
  let clearedRows := dropped.2
  -- write the state observation vector to the action row
  let row1 := s1.computeObservation (s1.stepData.actions action)
  -- if in terminal state, set the bias feature to the value specified in configuration
  let row2 := if s1.terminalState then set1 row1 (2 * COLUMNS - 1 + 2) TERMINAL_BIAS_VALUE_A
    else row1
  -- add the immediate reward feature
  let row3 := set1 row2 (2 * COLUMNS - 1 + 3) clearedRows
  { s1 with
    stepData := { s1.stepData with
      actions := set1 s1.stepData.actions action row3
      -- set the terminal flag for the action
      isActionTerminal := set1 s1.stepData.isActionTerminal action s1.terminalState }
    -- revert the state
    board := origBoard
    boardHeightmap := origBoardHeightmap
    boardHeightmapMin := origBoardHeightmapMin
    terminalState := false }

/-- The method `void Tetris::computeActions()`. -/
def Tetris.computeActions (s : Tetris) : Tetris :=
  -- if terminal state, then set actionCount to zero and return
  if s.terminalState then { s with stepData := { s.stepData with actionCount := 0 } }
  else
    -- set number of actions
    let s1 : Tetris :=
      { s with stepData := { s.stepData with actionCount := pieceActionCounts s.fallingPiece } }
    -- loop through available actions
    forUp 0 s1.stepData.actionCount
      (computeActionsBody s.board s.boardHeightmap s.boardHeightmapMin) s1

/-- The method `void Tetris::generateStepData()`. -/
def Tetris.generateStepData (s : Tetris) : Tetris :=
  let s1 : Tetris := { s with stepData := { s.stepData with transitionReward := s.clearedRows } }
  let s2 : Tetris :=
    { s1 with stepData := { s1.stepData with
        observation := s1.computeObservation s1.stepData.observation } }
  s2.computeActions

/-- The method `void Tetris::newEpisode()`. -/
def Tetris.newEpisode (s : Tetris) (draw : Int) : Tetris :=
  let s1 := (s.resetState draw).generateStepData
  { s1 with episode := s1.episode + 1 }

/-- The method `double Tetris::step( int action )`: the state after the call and the returned
reward. -/
def Tetris.step (s : Tetris) (action draw : Int) : Tetris × Int :=
  let s1 := (s.advanceState action draw).generateStepData
  (s1, s1.clearedRows)

/-- The states the environment can be in: those produced by `newEpisode` (from any prior state)
and by `step` with an action index below `stepData.actionCount` taken in a non-terminal state;
every drawn piece index lies in `0..6`. -/
inductive Reachable : Tetris → Prop
  | newEpisode (s : Tetris) (draw : Int) (hd : 0 ≤ draw ∧ draw < 7) :
      Reachable (s.newEpisode draw)
  | step (s : Tetris) (action draw : Int) (hs : Reachable s)
      (hterm : s.terminalState = false)
      (ha : 0 ≤ action ∧ action < s.stepData.actionCount)
      (hd : 0 ≤ draw ∧ draw < 7) :
      Reachable (s.step action draw).1

/-! ## Specification-side definitions -/

/-- Whether cell `(r, c)` of the board is covered by a filled cell of the mask of
`(fallingPiece, orientation)` when the top-left corner of the mask is at `(row, column)`. -/
def pieceCell (fallingPiece orientation row column r c : Int) : Bool :=
  decide (row ≤ r ∧ r < row + pieceHeights fallingPiece orientation ∧
    column ≤ c ∧ c < column + pieceWidths fallingPiece orientation)
  && pieces fallingPiece orientation (r - row) (c - column)

/-- The board with the cells of the piece added at the position `(row, column)`. -/
def withPiece (board : Int → Int → Bool) (fallingPiece orientation row column : Int) :
    Int → Int → Bool :=
  fun r c => board r c || pieceCell fallingPiece orientation row column r c

/-- The landing row that `dropPiece( action )` computes in state `s`: the topmost row of the
dropped piece. -/
def landingRow (s : Tetris) (action : Int) : Int :=
  findRow s.boardHeightmap s.fallingPiece (expandAction s.fallingPiece action).1
    (expandAction s.fallingPiece action).2

/-- The board of `s` with the cells of the falling piece added at the landing position of
`action`. -/
def placedBoard (s : Tetris) (action : Int) : Int → Int → Bool :=
  withPiece s.board s.fallingPiece (expandAction s.fallingPiece action).1 (landingRow s action)
    (expandAction s.fallingPiece action).2

/-- Row `r` of a board as the list of its `COLUMNS` cells, left to right. -/
def rowOf (board : Int → Int → Bool) (r : Int) : List Bool :=
  (List.range COLUMNS.toNat).map (fun c : Nat => board r (c : Int))

/-- The `n` rows of a board that start at row `lo`, top to bottom. -/
def rowsFrom (board : Int → Int → Bool) (lo : Int) (n : Nat) : List (List Bool) :=
  (List.range n).map (fun i : Nat => rowOf board (lo + (i : Int)))

/-- The rows of the whole board, top to bottom. -/
def boardRows (board : Int → Int → Bool) : List (List Bool) :=
  rowsFrom board 0 ROWS.toNat

/-- A row is full when every cell of it is filled. -/
def isFullRow (row : List Bool) : Bool := row.all id

/-- A row without any filled cell. -/
def emptyRow : List Bool := List.replicate COLUMNS.toNat false

/-- The number of empty cells of column `col` among the rows `r` of the board selected by
`sel`. -/
def countEmpty (board : Int → Int → Bool) (col : Nat) (sel : Nat → Bool) : Int :=
  (((List.range ROWS.toNat).filter (fun r : Nat => sel r && !board r col)).length : Int)

/-- The number of empty cells strictly below their column's heightmap entry. -/
def emptyBelowTopline (board : Int → Int → Bool) (hm : Int → Int) : Int :=
  ((List.range COLUMNS.toNat).map
    (fun c : Nat => countEmpty board c (fun r => decide (hm c < r)))).sum

/-- The number of empty cells of the board that have a filled cell above them in their
column. -/
def coveredEmptyCells (board : Int → Int → Bool) : Int :=
  ((List.range COLUMNS.toNat).map
    (fun c : Nat => countEmpty board c
      (fun r => (List.range r).any (fun r1 : Nat => board r1 c)))).sum

/-- The row `stepData.actions[action]` as one pass of the action loop of `computeActions`
leaves it when the trial drop is made in state `s` (lines 276-285); `old` is the row before. -/
def actionRow (s : Tetris) (action : Int) (old : Int → Int) : Int → Int :=
  set1
    (if (s.dropPiece action).1.terminalState then
      set1 ((s.dropPiece action).1.computeObservation old) (2 * COLUMNS - 1 + 2)
        TERMINAL_BIAS_VALUE_A
    else (s.dropPiece action).1.computeObservation old)
    (2 * COLUMNS - 1 + 3) (s.dropPiece action).2

/-- The step data describe the current state: they are what `generateStepData` computes from
the state they are stored in. -/
structure StepDataOK (s : Tetris) : Prop where
  reward : s.stepData.transitionReward = s.clearedRows
  observation : ∃ old, s.stepData.observation = s.computeObservation old
  count : s.stepData.actionCount =
    if s.terminalState then 0 else pieceActionCounts s.fallingPiece
  terminal : s.terminalState = false → ∀ a, 0 ≤ a → a < pieceActionCounts s.fallingPiece →
    s.stepData.isActionTerminal a = (s.dropPiece a).1.terminalState
  actions : s.terminalState = false → ∀ a, 0 ≤ a → a < pieceActionCounts s.fallingPiece →
    ∃ old, s.stepData.actions a = actionRow s a old

/-- The number of action indices that precede the first action of `orientation`: the sum over
the earlier orientations of `COLUMNS - pieceWidths + 1`. -/
def orientationOffset (piece : Int) (orientation : Nat) : Int :=
  ((List.range orientation).map (fun o : Nat => COLUMNS - pieceWidths piece o + 1)).sum

/-- A `Tetris` object before its first `newEpisode`, with every field zero. -/
def freshTetris : Tetris :=
  { stepData :=
      { transitionReward := 0
        observation := fun _ => 0
        actions := fun _ _ => 0
        isActionTerminal := fun _ => false
        actionCount := 0 }
    episode := 0
    terminalState := false
    totalClearedRows := 0
    board := fun _ _ => false
    boardHeightmap := fun _ => 0
    boardHeightmapMin := 0
    fallingPiece := 0
    clearedRows := 0 }

/-- A non-terminal state whose stack reaches row 1 in every column, with the square as the
falling piece: every drop overflows. -/
def highStack : Tetris :=
  { freshTetris with
    board := fun r _ => decide (1 ≤ r)
    boardHeightmap := fun _ => 1
    boardHeightmapMin := 1 }

/-- The state after the square has been dropped at the left edge of a fresh board (the next
piece is the T piece). -/
def squareDropped : Tetris := ((freshTetris.newEpisode 0).step 0 1).1

/-- The state after two bars have been laid flat in columns 0-3 and 4-7 of a fresh board, with
the square falling: dropping it in columns 8-9 completes the bottom row. -/
def lineReady : Tetris := (((freshTetris.newEpisode 2).step 0 2).1.step 4 0).1

/-- The state after five upright bars have been stacked in column 0 of a fresh board, with a
sixth bar falling: column 0 is filled to the top. -/
def towerBuilt : Tetris :=
  ((((((freshTetris.newEpisode 2).step 7 2).1.step 7 2).1.step 7 2).1.step 7 2).1.step 7 2).1

/-- The state after the S piece has been dropped flat at the left edge of a fresh board: the
cell under its overhanging left end is a hole. -/
def holeMade : Tetris := ((freshTetris.newEpisode 5).step 0 0).1

/-- The facts about the catalog entry of one `(piece, orientation)` pair that the proofs about
`dropPiece` rest on. -/
structure ShapeOK (p o : Int) : Prop where
  width_pos : 1 ≤ pieceWidths p o
  width_le : pieceWidths p o ≤ 4
  height_pos : 1 ≤ pieceHeights p o
  height_le : pieceHeights p o ≤ 4
  top_nonneg : ∀ pc, 0 ≤ pc → pc < pieceWidths p o → 0 ≤ pieceTopHeightmaps p o pc
  top_lt_bottom : ∀ pc, 0 ≤ pc → pc < pieceWidths p o →
    pieceTopHeightmaps p o pc < pieceHeightmaps p o pc
  bottom_le : ∀ pc, 0 ≤ pc → pc < pieceWidths p o → pieceHeightmaps p o pc ≤ pieceHeights p o
  top_filled : ∀ pc, 0 ≤ pc → pc < pieceWidths p o →
    pieces p o (pieceTopHeightmaps p o pc) pc = true
  cell : ∀ pr pc, 0 ≤ pr → pr < pieceHeights p o → 0 ≤ pc → pc < pieceWidths p o →
    pieces p o pr pc = true → pieceTopHeightmaps p o pc ≤ pr ∧ pr < pieceHeightmaps p o pc
  row_nonempty : ∀ pr, 0 ≤ pr → pr < pieceHeights p o →
    ∃ pc, 0 ≤ pc ∧ pc < pieceWidths p o ∧ pieces p o pr pc = true
  top_zero : ∃ pc, 0 ≤ pc ∧ pc < pieceWidths p o ∧ pieceTopHeightmaps p o pc = 0
  bottom_height : ∃ pc, 0 ≤ pc ∧ pc < pieceWidths p o ∧
    pieceHeightmaps p o pc = pieceHeights p o

/-- The heightmap part of the board invariant: the heightmap holds the topmost filled row of
every column (`ROWS` for an empty column), `boardHeightmapMin` is its minimum, and no row at or
below the top of the stack is empty. -/
structure StackInv (board : Int → Int → Bool) (hm : Int → Int) (hmin : Int) : Prop where
  hm_nonneg : ∀ c, 0 ≤ c → c < COLUMNS → 0 ≤ hm c
  hm_le : ∀ c, 0 ≤ c → c < COLUMNS → hm c ≤ ROWS
  hm_filled : ∀ c, 0 ≤ c → c < COLUMNS → hm c < ROWS → board (hm c) c = true
  hm_above : ∀ c, 0 ≤ c → c < COLUMNS → ∀ r, 0 ≤ r → r < hm c → board r c = false
  min_le : ∀ c, 0 ≤ c → c < COLUMNS → hmin ≤ hm c
  min_attained : ∃ c, 0 ≤ c ∧ c < COLUMNS ∧ hm c = hmin
  no_gap : ∀ r, hmin ≤ r → r < ROWS → ∃ c, 0 ≤ c ∧ c < COLUMNS ∧ board r c = true

/-- The board invariant: the heightmap part, and no row of the board is full. -/
structure BoardInv (board : Int → Int → Bool) (hm : Int → Int) (hmin : Int)
    extends StackInv board hm hmin : Prop where
  no_full_row : ∀ r, 0 ≤ r → r < ROWS → ∃ c, 0 ≤ c ∧ c < COLUMNS ∧ board r c = false

/-! ## The random piece draw -/

/-- The conversion `(int) x` of a finite `double` value to `int`: truncation toward zero. -/
def truncToInt {F : Type} [LinearOrderedField F] [FloorRing F] (x : F) : Int :=
  if 0 ≤ x then ⌊x⌋ else ⌈x⌉

/-- The expression `(int)(rstream.rand() * 7.0)` of `resetState` and `advanceState`, where `u` is
the value returned by `rstream.rand()`. -/
def pieceDraw {F : Type} [LinearOrderedField F] [FloorRing F] (u : F) : Int :=
  truncToInt (u * 7)

/-! ## The critics (`Critic.hpp`, `LSTDLambda`, `LSPELambda`, `FullTDLambda`)

The critics are embedded over an arbitrary type `D` of `double` values with a zero (the value
of an all-zero bit pattern), addition, subtraction and multiplication, so that what is proved
about them does not depend on how `double` arithmetic rounds. `mxAssert` is embedded as an
assertion that is checked: a failed assertion ends the call with the message of the assertion.
Storage that the source leaves uninitialised enters a constructor as an argument. -/

/-- The length of a critic feature vector: `#define VDIM (22+23)`. -/
abbrev VDIM : Int := 22 + 23

/-- The capacity of the sample log of `FullTDLambda`: `#define MAXSAMPLES 1000000`. -/
abbrev MAXSAMPLES : Int := 1000000

/-- The type `enum PetersTrickMode { PTM_OFF, PTM_ON, PTM_CORRECTED }`. -/
inductive PetersTrickMode where
  | PTM_OFF
  | PTM_ON
  | PTM_CORRECTED
  deriving DecidableEq

/-- The configured mode: `const PetersTrickMode PETERS_TRICK_MODE = PTM_ON`. -/
abbrev PETERS_TRICK_MODE : PetersTrickMode := PetersTrickMode.PTM_ON

/-- The switch `#define REJECT_TERMINAL_ACTIONS true`. -/
abbrev REJECT_TERMINAL_ACTIONS : Bool := true

/-- The call `mxAssert( cond, msg )`. -/
def mxAssert (cond : Bool) (msg : String) : Except String Unit :=
  if cond then Except.ok () else Except.error msg

/-- The array `a` after `memset( a, 0, sizeof(a) )`, where `a` has `n` entries. -/
def memsetZero {D : Type} [Zero D] (a : Int → D) (n : Int) : Int → D :=
  fun i => if 0 ≤ i ∧ i < n then 0 else a i

/-- The array `a` after `memset( a, 0, sizeof(a) )`, where `a` has `n` rows of `m` entries. -/
def memsetZero2 {D : Type} [Zero D] (a : Int → Int → D) (n m : Int) : Int → Int → D :=
  fun i j => if (0 ≤ i ∧ i < n) ∧ 0 ≤ j ∧ j < m then 0 else a i j

/-- The array `dst` after `memcpy( &dst[off], src, sizeof(src) )`, where `src` has `n`
entries. -/
def memcpy {D : Type} (dst : Int → D) (off : Int) (src : Int → D) (n : Int) : Int → D :=
  fun i => if off ≤ i ∧ i < off + n then src (i - off) else dst i

/-- The members of `class Critic`. -/
structure Critic (D : Type) where
  VDim : Int
  gamma : D
  lambda : D
  phi0 : Int → D
  phi1 : Int → D

/-- The members of `class LSTDLambda`. -/
structure LSTDLambda (D : Type) extends Critic D where
  A : Int → Int → D
  b : Int → D
  z : Int → D

/-- The members of `class LSPELambda`. -/
structure LSPELambda (D : Type) extends Critic D where
  B : Int → Int → D
  A : Int → Int → D
  b : Int → D
  z : Int → D

/-- The members of `class FullTDLambda`; `s0`, `s1` and `r` are the data of the three
matrices. -/
structure FullTDLambda (D : Type) extends Critic D where
  s0 : Int → D
  s1 : Int → D
  r : Int → D
  n : Int

/-- The constructor `LSTDLambda::LSTDLambda( int VDim, double gamma, double lambda )`; `raw` is
the storage of the object before the call. -/
def LSTDLambda.create {D : Type} [Zero D] (raw : LSTDLambda D) (VDim : Int) (gamma lambda : D) :
    Except String (LSTDLambda D) :=
  -- check board size
  (mxAssert (decide (VDim = VDIM)) "VDim must match the hard-coded value VDIM!").map fun _ =>
    -- init params
    { raw with
      VDim := VDim
      gamma := gamma
      lambda := lambda
      A := memsetZero2 raw.A VDIM VDIM
      b := memsetZero raw.b VDIM
      z := memsetZero raw.z VDIM }

/-- The method `void LSTDLambda::step( double r )`; `mode` is the value of the constant
`PETERS_TRICK_MODE`. The local arrays `z0` and `tmp` are uninitialised in the source: `z0` is
read only in the corrected mode, in which it holds the old `z`, and every entry of `tmp` that is
read has been written before. -/
def LSTDLambda.step {D : Type} [Zero D] [Add D] [Sub D] [Mul D] (mode : PetersTrickMode)
    (self : LSTDLambda D) (r : D) : LSTDLambda D :=
  -- store old z if needed
  let z0 := self.z
  -- update z
  let z := forUp 0 self.VDim
    (fun i z => set1 z i (self.gamma * self.lambda * z i + self.phi0 i)) self.z
  -- update A
  let tmp := forUp 0 self.VDim
    (fun i tmp => set1 tmp i (self.phi0 i - self.gamma * self.phi1 i)) (fun _ => (0 : D))
  let A1 := forUp 0 self.VDim
    (fun i A => forUp 0 self.VDim (fun j A0 => set2 A0 i j (A0 i j + z i * tmp j)) A) self.A
  -- if the corrected version of Peters' trick is in use, then substract the correction term
  let A2 :=
    if mode = PetersTrickMode.PTM_CORRECTED then
      forUp 0 self.VDim
        (fun i A => forUp STATEDIM self.VDim
          (fun j A0 => set2 A0 i j (A0 i j - self.gamma * self.lambda * z0 i * self.phi0 j)) A)
        A1
    else A1
  -- update b
  let b := forUp 0 self.VDim (fun i b => set1 b i (b i + z i * r)) self.b
  { self with z := z, A := A2, b := b }

/-- The constructor `LSPELambda::LSPELambda( int VDim, double gamma, double lambda )`; `raw` is
the storage of the object before the call. -/
def LSPELambda.create {D : Type} [Zero D] (raw : LSPELambda D) (VDim : Int) (gamma lambda : D) :
    Except String (LSPELambda D) :=
  -- check board size
  (mxAssert (decide (VDim = VDIM)) "VDim must match the hard-coded value VDIM!").map fun _ =>
    -- init params
    { raw with
      VDim := VDim
      gamma := gamma
      lambda := lambda
      B := memsetZero2 raw.B VDIM VDIM
      A := memsetZero2 raw.A VDIM VDIM
      b := memsetZero raw.b VDIM
      z := memsetZero raw.z VDIM }

/-- The method `void LSPELambda::step( double r )`. Every entry of the local array `tmp` that
is read has been written before. -/
def LSPELambda.step {D : Type} [Zero D] [Add D] [Sub D] [Mul D] (self : LSPELambda D) (r : D) :
    LSPELambda D :=
  -- update B
  let B := forUp 0 self.VDim
    (fun i B => forUp 0 self.VDim
      (fun j B0 => set2 B0 i j (B0 i j + self.phi0 i * self.phi0 j)) B) self.B
  -- update z
  let z := forUp 0 self.VDim
    (fun i z => set1 z i (self.gamma * self.lambda * z i + self.phi0 i)) self.z
  -- update A
  let tmp := forUp 0 self.VDim
    (fun i tmp => set1 tmp i (self.gamma * self.phi1 i - self.phi0 i)) (fun _ => (0 : D))
  let A := forUp 0 self.VDim
    (fun i A => forUp 0 self.VDim (fun j A0 => set2 A0 i j (A0 i j + z i * tmp j)) A) self.A
  -- update b
  let b := forUp 0 self.VDim (fun i b => set1 b i (b i + z i * r)) self.b
  { self with B := B, z := z, A := A, b := b }

/-- The constructor `FullTDLambda::FullTDLambda( int VDim, double gamma, double lambda )`; `raw`
is the storage of the object before the call. The three matrices are created filled with zeros
(`mxCreateDoubleMatrix`), and the allocation is taken to succeed. -/
def FullTDLambda.create {D : Type} [Zero D] (raw : FullTDLambda D) (VDim : Int)
    (gamma lambda : D) : Except String (FullTDLambda D) :=
  -- check board size
  (mxAssert (decide (VDim = VDIM)) "VDim must match the hard-coded value VDIM!").map fun _ =>
    { raw with
      VDim := VDim
      gamma := gamma
      lambda := lambda
      -- init params
      s0 := fun _ => 0
      s1 := fun _ => 0
      r := fun _ => 0
      -- init sample counter
      n := 0 }

/-- The method `void FullTDLambda::step( double reward )`. -/
def FullTDLambda.step {D : Type} (self : FullTDLambda D) (reward : D) :
    Except String (FullTDLambda D) :=
  -- check that we have buffer space for this sample
  (mxAssert (decide (self.n < MAXSAMPLES)) "Maximum number of samples has been exceeded!").map
    fun _ =>
      -- add data
      let s := forUp 0 self.VDim
        (fun i (s : (Int → D) × (Int → D)) =>
          (set1 s.1 (i * MAXSAMPLES + self.n) (self.phi0 i),
            set1 s.2 (i * MAXSAMPLES + self.n) (self.phi1 i)))
        (self.s0, self.s1)
      { self with
        s0 := s.1
        s1 := s.2
        r := set1 self.r self.n reward
        -- increment sample counter
        n := self.n + 1 }

/-- An object behind a `Critic *`: one of the three critic classes. -/
inductive CriticObject (D : Type) where
  | lstd (c : LSTDLambda D)
  | lspe (c : LSPELambda D)
  | fullTD (c : FullTDLambda D)

/-- The base-class part of the object behind a `Critic *`. -/
def CriticObject.toCritic {D : Type} : CriticObject D → Critic D
  | CriticObject.lstd c => c.toCritic
  | CriticObject.lspe c => c.toCritic
  | CriticObject.fullTD c => c.toCritic

/-- The object after its input registers `phi0` and `phi1` have been overwritten. -/
def CriticObject.setRegisters {D : Type} (c : CriticObject D) (phi0 phi1 : Int → D) :
    CriticObject D :=
  match c with
  | CriticObject.lstd c => CriticObject.lstd { c with phi0 := phi0, phi1 := phi1 }
  | CriticObject.lspe c => CriticObject.lspe { c with phi0 := phi0, phi1 := phi1 }
  | CriticObject.fullTD c => CriticObject.fullTD { c with phi0 := phi0, phi1 := phi1 }

/-- The virtual call `critic->step( r )`; `mode` is the value of `PETERS_TRICK_MODE`. -/
def CriticObject.step {D : Type} [Zero D] [Add D] [Sub D] [Mul D] (mode : PetersTrickMode)
    (c : CriticObject D) (r : D) : Except String (CriticObject D) :=
  match c with
  | CriticObject.lstd c => Except.ok (CriticObject.lstd (c.step mode r))
  | CriticObject.lspe c => Except.ok (CriticObject.lspe (c.step r))
  | CriticObject.fullTD c => (c.step r).map CriticObject.fullTD

/-! ## Drivers and sample objects for the critics -/

/-- The LSPE critic after the inputs of the list have been fed to it in order: for each entry
`(phi0, phi1, r)` the registers are loaded and `step( r )` is called. -/
def LSPELambda.feed {D : Type} [Zero D] [Add D] [Sub D] [Mul D] (c : LSPELambda D) :
    List ((Int → D) × (Int → D) × D) → LSPELambda D
  | [] => c
  | x :: rest =>
    LSPELambda.feed (({ c with phi0 := x.1, phi1 := x.2.1 } : LSPELambda D).step x.2.2) rest

/-- The raw-sample critic after the inputs of the list have been fed to it in order: for each
entry `(phi0, phi1, r)` the registers are loaded and `step( r )` is called; a failed call ends
the run. -/
def FullTDLambda.feed {D : Type} (c : FullTDLambda D) :
    List ((Int → D) × (Int → D) × D) → Except String (FullTDLambda D)
  | [] => Except.ok c
  | x :: rest =>
    match ({ c with phi0 := x.1, phi1 := x.2.1 } : FullTDLambda D).step x.2.2 with
    | Except.ok c1 => FullTDLambda.feed c1 rest
    | Except.error e => Except.error e

/-- An LSTD critic over the integers with `gamma = 2`, `lambda = 3` and non-zero contents. -/
def sampleLSTD : LSTDLambda Int :=
  { VDim := VDIM
    gamma := 2
    lambda := 3
    phi0 := fun i => i + 1
    phi1 := fun i => 2 * i
    A := fun i j => i - j
    b := fun i => 5 * i
    z := fun i => 7 - i }

/-- An LSPE critic over the integers with `gamma = 2`, `lambda = 3`, non-zero contents and a
symmetric `B`. -/
def sampleLSPE : LSPELambda Int :=
  { VDim := VDIM
    gamma := 2
    lambda := 3
    phi0 := fun i => i + 1
    phi1 := fun i => 2 * i
    B := fun i j => i * j
    A := fun i j => i - j
    b := fun i => 5 * i
    z := fun i => 7 - i }

/-- A raw-sample critic over the integers that holds `n` samples. -/
def sampleFullTD (n : Int) : FullTDLambda Int :=
  { VDim := VDIM
    gamma := 2
    lambda := 3
    phi0 := fun i => i + 1
    phi1 := fun i => 2 * i
    s0 := fun k => k
    s1 := fun k => 0 - k
    r := fun k => 3 * k
    n := n }

/-! ## `double` values of the controller

The controller computes with infinities (`-Inf` marks a rejected action), so its `double` values
are embedded as the type `Dbl F`: a finite value from an ordered field `F`, an infinity or a NaN.
Operations on finite values are exact: there is no rounding and no overflow, and there is a
single zero. Operations that involve an infinity or a NaN follow IEEE 754. The function
`std::exp` on finite values enters as the argument `exp`. The operations of the machine, which
round and overflow, are those of the part on rounded arithmetic below (`Dbl.rounded`,
`round64`). -/

/-- A `double` value: finite, `+Inf`, `-Inf` or NaN. -/
inductive Dbl (F : Type) where
  | fin (x : F)
  | posInf
  | negInf
  | nan
  deriving DecidableEq

namespace Dbl

variable {F : Type} [LinearOrderedField F]

/-- The conversion `(double) n` of an `int`, and the value of a feature of the step data. -/
def ofInt (n : Int) : Dbl F := fin (n : F)

/-- Unary minus. -/
def neg : Dbl F → Dbl F
  | fin x => fin (-x)
  | posInf => negInf
  | negInf => posInf
  | nan => nan

/-- Addition. -/
def add : Dbl F → Dbl F → Dbl F
  | fin x, fin y => fin (x + y)
  | fin _, posInf => posInf
  | fin _, negInf => negInf
  | posInf, fin _ => posInf
  | posInf, posInf => posInf
  | posInf, negInf => nan
  | negInf, fin _ => negInf
  | negInf, posInf => nan
  | negInf, negInf => negInf
  | fin _, nan => nan
  | posInf, nan => nan
  | negInf, nan => nan
  | nan, _ => nan

/-- Subtraction. -/
def sub (x y : Dbl F) : Dbl F := add x (neg y)

/-- An infinity of the sign of `x`, and NaN for `x = 0`: the value of `x * Inf` and of `x / 0`
for a finite `x`. -/
def signedInf (x : F) : Dbl F :=
  if x = 0 then nan else if 0 < x then posInf else negInf

/-- Multiplication. -/
def mul : Dbl F → Dbl F → Dbl F
  | fin x, fin y => fin (x * y)
  | fin x, posInf => signedInf x
  | fin x, negInf => signedInf (-x)
  | posInf, fin y => signedInf y
  | negInf, fin y => signedInf (-y)
  | posInf, posInf => posInf
  | posInf, negInf => negInf
  | negInf, posInf => negInf
  | negInf, negInf => posInf
  | fin _, nan => nan
  | posInf, nan => nan
  | negInf, nan => nan
  | nan, _ => nan

/-- Division; a finite value divided by zero is an infinity of its sign, and NaN for `0/0`. -/
def div : Dbl F → Dbl F → Dbl F
  | fin x, fin y => if y = 0 then signedInf x else fin (x / y)
  | fin _, posInf => fin 0
  | fin _, negInf => fin 0
  | posInf, fin y => if 0 ≤ y then posInf else negInf
  | negInf, fin y => if 0 ≤ y then negInf else posInf
  | posInf, posInf => nan
  | posInf, negInf => nan
  | negInf, posInf => nan
  | negInf, negInf => nan
  | fin _, nan => nan
  | posInf, nan => nan
  | negInf, nan => nan
  | nan, _ => nan

/-- The comparison `x < y`; false when one side is a NaN. -/
def lt : Dbl F → Dbl F → Bool
  | fin x, fin y => decide (x < y)
  | fin _, posInf => true
  | fin _, negInf => false
  | posInf, _ => false
  | negInf, fin _ => true
  | negInf, posInf => true
  | negInf, negInf => false
  | fin _, nan => false
  | negInf, nan => false
  | nan, _ => false

/-- The function `std::exp`; `e` is its restriction to finite values. -/
def exp (e : F → F) : Dbl F → Dbl F
  | fin x => fin (e x)
  | posInf => posInf
  | negInf => fin 0
  | nan => nan

instance : Zero (Dbl F) := ⟨fin 0⟩
instance : One (Dbl F) := ⟨fin 1⟩
instance : Add (Dbl F) := ⟨add⟩
instance : Sub (Dbl F) := ⟨sub⟩
instance : Mul (Dbl F) := ⟨mul⟩
instance : Div (Dbl F) := ⟨div⟩

end Dbl

/-! ## The controller (`NaturalActorCritic.hpp`, `NaturalActorCritic.cpp`)

A value pulled from the random stream of the controller enters as the argument `r`, the value
of `rstream.rand()`. The features of the step data, integers in the embedding of the
environment, are converted with `Dbl.ofInt` where the controller reads them. -/

/-- The members of `class NaturalActorCritic` (without the random stream). -/
structure NaturalActorCritic (F : Type) where
  learning : Bool
  thetaDim : Int
  theta : Int → Dbl F
  tau : Dbl F
  firstStep : Bool
  prevStepData : StepData
  action : Int
  prevAction : Int
  actionProbabilities : Int → Dbl F
  prevActionProbabilities : Int → Dbl F
  critic : CriticObject (Dbl F)

section Controller

variable {F : Type} [LinearOrderedField F]

/-- The constructor `NaturalActorCritic::NaturalActorCritic( ... )`; `raw` is the storage of the
object before the call and `rawLSTD`, `rawLSPE`, `rawFullTD` the storage that `new` returns for
the critic. -/
def NaturalActorCritic.create (raw : NaturalActorCritic F) (rawLSTD : LSTDLambda (Dbl F))
    (rawLSPE : LSPELambda (Dbl F)) (rawFullTD : FullTDLambda (Dbl F)) (criticClass : Int)
    (learning : Bool) (thetaDim : Int) (theta : Int → Dbl F) (gamma lambda tau : Dbl F) :
    Except String (NaturalActorCritic F) :=
  -- create the critic
  (if criticClass = 0 then
    (LSTDLambda.create rawLSTD (STATEDIM + STATEACTIONDIM) gamma lambda).map CriticObject.lstd
  else if criticClass = 1 then
    (LSPELambda.create rawLSPE (STATEDIM + STATEACTIONDIM) gamma lambda).map CriticObject.lspe
  else if criticClass = 2 then
    (FullTDLambda.create rawFullTD (STATEDIM + STATEACTIONDIM) gamma lambda).map
      CriticObject.fullTD
  else Except.error "Invalid critic class id!").map fun critic =>
    -- the policy gradient part of phi1 in the critic is always zero. set the entire phi1 to
    -- zero here and do not touch the gradient part after this.
    { raw with
      learning := learning
      thetaDim := thetaDim
      theta := theta
      tau := tau
      critic := critic.setRegisters critic.toCritic.phi0 (memsetZero critic.toCritic.phi1 VDIM) }

/-- The method `void NaturalActorCritic::newEpisode()`. -/
def NaturalActorCritic.newEpisode (self : NaturalActorCritic F) : NaturalActorCritic F :=
  { self with firstStep := true }

/-- The body of the first loop of `computeActionProbabilities` (lines 163-172); the state is
the array `actionProbabilities` with `maxPr`. -/
def scoresBody (s : StepData) (theta : Int → Dbl F) (tau : Dbl F) (action : Int)
    (st : (Int → Dbl F) × Dbl F) : (Int → Dbl F) × Dbl F :=
  let ap :=
    if REJECT_TERMINAL_ACTIONS && s.isActionTerminal action then
      -- disable
      set1 st.1 action Dbl.negInf
    else
      -- add
      forUp 0 STATEACTIONDIM
        (fun i ap => set1 ap action
          (ap action + (Dbl.ofInt (s.actions action i) * theta i) / tau))
        st.1
  -- maintain max value
  (ap, if Dbl.lt st.2 (ap action) then ap action else st.2)

/-- The body of the second loop of `computeActionProbabilities` (lines 178-179); the state is
the array `actionProbabilities` with `sumPr`, and `exp` is `std::exp` on finite values. -/
def weightsBody (exp : F → F) (maxPr : Dbl F) (action : Int) (st : (Int → Dbl F) × Dbl F) :
    (Int → Dbl F) × Dbl F :=
  let ap := set1 st.1 action (Dbl.exp exp (st.1 action - maxPr))
  (ap, st.2 + ap action)

/-- The method `void NaturalActorCritic::computeActionProbabilities( const Tetris::StepData &
s )`; `exp` is `std::exp` on finite values. -/
def NaturalActorCritic.computeActionProbabilities (exp : F → F) (self : NaturalActorCritic F)
    (s : StepData) : NaturalActorCritic F :=
  -- set to zero
  let ap0 := memsetZero self.actionProbabilities MAXACTIONS
  -- (col)actionProbabilities = ((matrix)actions * (col)theta) / tau   (find maximum value)
  let st1 := forUp 0 s.actionCount (scoresBody s self.theta self.tau) (ap0, Dbl.negInf)
  let maxPr := st1.2
  -- (col)actionProbabilities = exp( (col)actionProbabilities - maxPr )   (get sum)
  let st2 := forUp 0 s.actionCount (weightsBody exp maxPr) (st1.1, 0)
  let sumPr := st2.2
  -- (col)actionProbabilities = (col)actionProbabilities / sum( (col)actionProbabilities )
  let ap3 := forUp 0 s.actionCount (fun action ap => set1 ap action (ap action / sumPr)) st2.1
  -- set to the uniform distribution if all actions had -Inf unnormalized probability
  let ap4 :=
    if maxPr = Dbl.negInf then
      forUp 0 s.actionCount (fun action ap => set1 ap action (1 / Dbl.ofInt s.actionCount)) ap3
    else ap3
  { self with actionProbabilities := ap4 }

/-- The loop of `drawAction` (lines 201-204) with `n` passes left: the value of `action` when
the loop is left, through `break` or through its condition. -/
def drawLoop (actionProbabilities : Int → Dbl F) (r : Dbl F) : Nat → Int → Dbl F → Int
  | 0, action, _ => action
  | n + 1, action, sum =>
    if Dbl.lt r (sum + actionProbabilities action) then action
    else drawLoop actionProbabilities r n (action + 1) (sum + actionProbabilities action)

/-- The method `int NaturalActorCritic::drawAction( const Tetris::StepData & s )`; `r` is the
value of `rstream.rand()`. -/
def NaturalActorCritic.drawAction (self : NaturalActorCritic F) (s : StepData) (r : Dbl F) :
    Int :=
  let action := drawLoop self.actionProbabilities r s.actionCount.toNat 0 0
  -- in case of numerical errors
  if action = s.actionCount then action - 1 else action

/-- The method `int NaturalActorCritic::act( const Tetris::StepData & s )`: the object after
the call and the returned action. -/
def NaturalActorCritic.act (exp : F → F) (self : NaturalActorCritic F) (s : StepData)
    (r : Dbl F) : NaturalActorCritic F × Int :=
  let self1 := self.computeActionProbabilities exp s
  (self1, self1.drawAction s r)

/-- The gradient loop of `learn` (lines 130-132 and 138-140): subtracts
`pr[action] * s.actions[action][i]` from `phi[STATEDIM+i]` for every action and every `i`. -/
def gradientLoop (s : StepData) (pr : Int → Dbl F) (phi : Int → Dbl F) : Int → Dbl F :=
  forUp 0 s.actionCount
    (fun action p => forUp 0 STATEACTIONDIM
      (fun i p1 => set1 p1 (STATEDIM + i)
        (p1 (STATEDIM + i) - pr action * Dbl.ofInt (s.actions action i))) p)
    phi

/-- The method `void NaturalActorCritic::learn( s0, pr0, a0, s1, pr1, a1 )`; `mode` is the
value of `PETERS_TRICK_MODE`. -/
def NaturalActorCritic.learn (mode : PetersTrickMode) (self : NaturalActorCritic F)
    (s0 : StepData) (pr0 : Int → Dbl F) (a0 : Int)
    (s1 : StepData) (pr1 : Int → Dbl F) (a1 : Int) : Except String (NaturalActorCritic F) :=
  -- load the state feature parts of phi0 and phi1 into the critic
  let phi0a := memcpy self.critic.toCritic.phi0 0 (fun i => Dbl.ofInt (s0.observation i)) STATEDIM
  let phi1a := memcpy self.critic.toCritic.phi1 0 (fun i => Dbl.ofInt (s1.observation i)) STATEDIM
  -- load the gradient vector part of phi0
  let phi0b := gradientLoop s0 pr0
    (memcpy phi0a STATEDIM (fun i => Dbl.ofInt (s0.actions a0 i)) STATEACTIONDIM)
  -- if Peters' variance reduction trick is not enabled, then load also the gradient vector
  -- part of phi1, otherwise do nothing
  let phi1b :=
    if mode = PetersTrickMode.PTM_OFF then
      gradientLoop s1 pr1
        (memcpy phi1a STATEDIM (fun i => Dbl.ofInt (s1.actions a1 i)) STATEACTIONDIM)
    else phi1a
  -- step the critic
  ((self.critic.setRegisters phi0b phi1b).step mode (Dbl.ofInt s1.transitionReward)).map
    fun critic => { self with critic := critic }

/-- The method `int NaturalActorCritic::step( const Tetris::StepData & stepData )`: the object
after the call and the returned action; `mode` is the value of `PETERS_TRICK_MODE`. -/
def NaturalActorCritic.step (exp : F → F) (mode : PetersTrickMode) (self : NaturalActorCritic F)
    (stepData : StepData) (r : Dbl F) : Except String (NaturalActorCritic F × Int) :=
  -- decide an action for the current step
  let acted := self.act exp stepData r
  let self1 : NaturalActorCritic F := { acted.1 with action := acted.2 }
  -- learn?
  if self1.learning then
    -- learn from the previous transition if not the first step
    (if !self1.firstStep then
      self1.learn mode self1.prevStepData self1.prevActionProbabilities self1.prevAction
        stepData self1.actionProbabilities self1.action
    else Except.ok self1).map fun self2 =>
      -- shift the current state to appear as the previous state
      ({ self2 with
          prevStepData := stepData
          prevActionProbabilities := self2.actionProbabilities
          prevAction := self2.action
          -- make sure that the episode start flag is down
          firstStep := false },
        -- return the action
        self2.action)
  else Except.ok (self1, self1.action)

end Controller

/-! ## Specification-side definitions for the controller -/

/-- The value of `sum` in `drawAction` after the first `k` probabilities have been added, in
the order of the loop: `((0.0 + p[0]) + p[1]) + ... + p[k-1]`. -/
def cumulativeSum {F : Type} [LinearOrderedField F] (p : Int → Dbl F) : Nat → Dbl F
  | 0 => 0
  | k + 1 => cumulativeSum p k + p k

/-- The score of action `a`: the sum over the features `i` of
`(s.actions[a][i] * theta[i]) / tau`, for finite `theta[i] = th i` and `tau = t`. -/
def score {F : Type} [LinearOrderedField F] (s : StepData) (th : Int → F) (t : F) (a : Int) :
    F :=
  ∑ i in Finset.range STATEACTIONDIM.toNat, ((s.actions a i : Int) : F) * th i / t

/-- The unnormalised probability of action `a` after the maximal score `m` has been
subtracted: `exp( score - m )`, and 0 for a rejected action. -/
def shiftedWeight {F : Type} [LinearOrderedField F] (exp : F → F) (s : StepData)
    (th : Int → F) (t m : F) (a : Int) : F :=
  if s.isActionTerminal a then 0 else exp (score s th t a - m)

/-- The value that the gradient loop of `learn` leaves in `phi[STATEDIM+i]` when the entry held
`start` before: `start - pr[0]*s.actions[0][i] - ... - pr[n-1]*s.actions[n-1][i]` for
`n = s.actionCount`, subtracted in the order of the loop. -/
def gradientEntry {F : Type} [LinearOrderedField F] (s : StepData) (pr : Int → Dbl F)
    (start : Dbl F) (i : Int) : Dbl F :=
  forUp 0 s.actionCount (fun b acc => acc - pr b * Dbl.ofInt (s.actions b i)) start

/-! ## Sample objects for the controller -/

/-- A stand-in for `std::exp` on the rationals: positive, increasing, with value 1 at 0. -/
def sampleExp (x : ℚ) : ℚ := if 0 ≤ x then 1 + x else 1 / (1 - x)

/-- Step data with three actions, the middle one flagged terminal. -/
def sampleStepData : StepData :=
  { transitionReward := 1
    observation := fun i => i
    actions := fun a i => if i = 0 then a else if i = 1 then 1 else 0
    isActionTerminal := fun a => decide (a = 1)
    actionCount := 3 }

/-- A controller over the rationals with an empty raw-sample critic, learning switched on and
the action probabilities `1/4, 1/2, 1/4`. -/
def sampleAgent : NaturalActorCritic ℚ :=
  { learning := true
    thetaDim := STATEACTIONDIM
    theta := fun i => Dbl.fin (if i = 0 then 1 / 2 else 1)
    tau := Dbl.fin 2
    firstStep := false
    prevStepData := sampleStepData
    action := 0
    prevAction := 2
    actionProbabilities := fun a => Dbl.fin (if a = 1 then 1 / 2 else 1 / 4)
    prevActionProbabilities := fun a => Dbl.fin (if a = 1 then 1 / 2 else 1 / 4)
    critic := CriticObject.fullTD
      { VDim := VDIM
        gamma := Dbl.fin 1
        lambda := Dbl.fin 1
        phi0 := fun _ => Dbl.nan
        phi1 := fun _ => Dbl.fin 0
        s0 := fun _ => Dbl.fin 0
        s1 := fun _ => Dbl.fin 0
        r := fun _ => Dbl.fin 0
        n := 0 } }

/-! ## The main loop of `mexFunction` (`MexTetrisNAC.cpp`) -/

/-- The critic after the inputs of the list have been fed to it in order: for each entry
`(phi0, phi1, r)` the registers are loaded and `critic->step( r )` is called; a failed call ends
the run. -/
def CriticObject.feed {D : Type} [Zero D] [Add D] [Sub D] [Mul D] (mode : PetersTrickMode)
    (c : CriticObject D) : List ((Int → D) × (Int → D) × D) → Except String (CriticObject D)
  | [] => Except.ok c
  | x :: rest =>
    match (c.setRegisters x.1 x.2.1).step mode x.2.2 with
    | Except.ok c1 => CriticObject.feed mode c1 rest
    | Except.error e => Except.error e

/-- The controller and the environment after `k` passes through the body of the main loop of
`mexFunction` (lines 73-74): `agent.step( environment.stepData )` followed by
`environment.step( action )`. Pass `j` draws `rs j` for the controller and the piece `ds j` for
the environment. The number of passes is decided by the loop condition (terminal state, reward
range and step limit), which is not part of this definition. -/
def mainLoopPasses {F : Type} [LinearOrderedField F] (exp : F → F) (mode : PetersTrickMode)
    (rs : Nat → Dbl F) (ds : Nat → Int) :
    Nat → NaturalActorCritic F × Tetris → Except String (NaturalActorCritic F × Tetris)
  | 0, st => Except.ok st
  | k + 1, st =>
    match mainLoopPasses exp mode rs ds k st with
    | Except.ok st1 =>
      match st1.1.step exp mode st1.2.stepData (rs k) with
      | Except.ok stepped => Except.ok (stepped.1, (st1.2.step stepped.2 (ds k)).1)
      | Except.error e => Except.error e
    | Except.error e => Except.error e

/-- An episode of `mexFunction` (lines 66-78) whose main loop makes `k` passes:
`environment.newEpisode()` (with the piece `d0`), `agent.newEpisode()`, the `k` passes, and the
final `agent.step( environment.stepData )`. -/
def runEpisode {F : Type} [LinearOrderedField F] (exp : F → F) (mode : PetersTrickMode)
    (agent : NaturalActorCritic F) (environment : Tetris) (d0 : Int) (rs : Nat → Dbl F)
    (ds : Nat → Int) (k : Nat) : Except String (NaturalActorCritic F × Tetris) :=
  match mainLoopPasses exp mode rs ds k (agent.newEpisode, environment.newEpisode d0) with
  | Except.ok st1 =>
    (st1.1.step exp mode st1.2.stepData (rs k)).map fun stepped => (stepped.1, st1.2)
  | Except.error e => Except.error e

/-! ## Specification-side definitions for the catalog and the drop -/

/-- The number of filled cells of the 4x4 mask `pieces[piece][orientation]`. -/
def maskCells (piece orientation : Int) : Nat :=
  ((List.range 4).map
    (fun r : Nat =>
      ((List.range 4).filter (fun c : Nat => pieces piece orientation r c)).length)).sum

/-! ## Drivers and specification-side definitions for the replay of one transition -/

/-- The LSTD critic after the inputs of the list have been fed to it in order: for each entry
`(phi0, phi1, r)` the registers are loaded and `step( r )` is called; `mode` is the value of
`PETERS_TRICK_MODE`. -/
def LSTDLambda.feed {D : Type} [Zero D] [Add D] [Sub D] [Mul D] (mode : PetersTrickMode)
    (c : LSTDLambda D) : List ((Int → D) × (Int → D) × D) → LSTDLambda D
  | [] => c
  | x :: rest =>
    LSTDLambda.feed mode
      (({ c with phi0 := x.1, phi1 := x.2.1 } : LSTDLambda D).step mode x.2.2) rest

/-- The factor of the trace after `k` steps with the same `phi0`, for `q = gamma * lambda`:
`1 + q + ... + q^(k-1)`. -/
def traceGain {D : Type} [CommRing D] (q : D) (k : Nat) : D :=
  ∑ j in Finset.range k, q ^ j

/-- The sum of the trace factors of the steps `1..n`. -/
def replayGain {D : Type} [CommRing D] (q : D) (n : Nat) : D :=
  ∑ k in Finset.range n, traceGain q (k + 1)

/-- The feature vector that is 1 at index 0 and 0 elsewhere. -/
def unitFeature : Int → Int := fun i => if i = 0 then 1 else 0

/-! ## Raw storage for the critics of the controller -/

/-- Storage for an LSTD critic over the rationals, before its constructor has run. -/
def sampleRawLSTD : LSTDLambda (Dbl ℚ) :=
  { VDim := 0
    gamma := Dbl.nan
    lambda := Dbl.nan
    phi0 := fun _ => Dbl.nan
    phi1 := fun _ => Dbl.nan
    A := fun _ _ => Dbl.nan
    b := fun _ => Dbl.nan
    z := fun _ => Dbl.nan }

/-- Storage for an LSPE critic over the rationals, before its constructor has run. -/
def sampleRawLSPE : LSPELambda (Dbl ℚ) :=
  { VDim := 0
    gamma := Dbl.nan
    lambda := Dbl.nan
    phi0 := fun _ => Dbl.nan
    phi1 := fun _ => Dbl.nan
    B := fun _ _ => Dbl.nan
    A := fun _ _ => Dbl.nan
    b := fun _ => Dbl.nan
    z := fun _ => Dbl.nan }

/-- Storage for a raw-sample critic over the rationals, before its constructor has run. -/
def sampleRawFullTD : FullTDLambda (Dbl ℚ) :=
  { VDim := 0
    gamma := Dbl.nan
    lambda := Dbl.nan
    phi0 := fun _ => Dbl.nan
    phi1 := fun _ => Dbl.nan
    s0 := fun _ => Dbl.nan
    s1 := fun _ => Dbl.nan
    r := fun _ => Dbl.nan
    n := 7 }

/-! ## Specification-side definitions for the policy without the shift -/

/-- The probability of action `a` as the specification words it, without the shift by the
maximal score: `exp(s_a)` over the sum of `exp(s_b)` over the actions `b` that are not rejected,
and 0 for a rejected action. -/
def softmaxProbability {F : Type} [LinearOrderedField F] (exp : F → F) (s : StepData)
    (th : Int → F) (t : F) (a : Int) : F :=
  if s.isActionTerminal a then 0
  else exp (score s th t a) /
    ∑ b in (Finset.range s.actionCount.toNat).filter
      (fun b : Nat => s.isActionTerminal (b : Int) = false), exp (score s th t (b : Int))

/-- A controller over any ordered field with `theta = (1/2, 1, 1, ...)`, `tau = 2` and an empty
raw-sample critic. -/
def sampleAgentOver (F : Type) [LinearOrderedField F] : NaturalActorCritic F :=
  { learning := true
    thetaDim := STATEACTIONDIM
    theta := fun i => Dbl.fin (if i = 0 then 1 / 2 else 1)
    tau := Dbl.fin 2
    firstStep := true
    prevStepData := sampleStepData
    action := 0
    prevAction := 0
    actionProbabilities := fun _ => Dbl.nan
    prevActionProbabilities := fun _ => Dbl.nan
    critic := CriticObject.fullTD
      { VDim := VDIM
        gamma := Dbl.fin 1
        lambda := Dbl.fin 1
        phi0 := fun _ => Dbl.nan
        phi1 := fun _ => Dbl.fin 0
        s0 := fun _ => Dbl.fin 0
        s1 := fun _ => Dbl.fin 0
        r := fun _ => Dbl.fin 0
        n := 0 } }

/-! ## Specification-side definitions for the column scan -/

/-- The number of empty cells of column `col` above its topmost filled cell: the cells met when
the column is scanned from row 0 downward until the first filled cell or the floor. -/
def leadingEmpty (board : Int → Int → Bool) (col : Int) : Nat :=
  ((List.range ROWS.toNat).takeWhile (fun r : Nat => !board (r : Int) col)).length

/-- The number of filled cells counted when column `col` is scanned downward from its topmost
filled cell until the first empty cell or the floor is met. -/
def topRun (board : Int → Int → Bool) (col : Int) : Nat :=
  (((List.range ROWS.toNat).dropWhile (fun r : Nat => !board (r : Int) col)).takeWhile
    (fun r : Nat => board (r : Int) col)).length

/-! ## Specification-side definitions for the cells of the board -/

/-- The number of filled cells of the board. -/
def filledCells (board : Int → Int → Bool) : Nat :=
  ∑ r in Finset.range ROWS.toNat, ∑ c in Finset.range COLUMNS.toNat,
    if board (r : Int) (c : Int) then 1 else 0

/-! ## A stack that reaches the top with a row that lacks one cell -/

/-- The state reached from a fresh board by the bar (piece 2) dropped upright four times in
column 0 and four times in column 4, flat twice in columns 0-3 and twice in columns 4-7, upright
three times in column 9, then piece 3 in orientation 1 at column 8, piece 5 in orientation 1 at
column 8 and piece 3 in orientation 2 at column 6, with the bar falling next: row 2 is filled in
columns 0-8 and column 9 is filled from row 3 down. -/
def lineAtTop : Tetris :=
  { freshTetris with
    board := fun r c => decide ((0 ≤ c ∧ c < COLUMNS) ∧
      ((r = 1 ∧ 6 ≤ c ∧ c ≤ 8) ∨ (r = 2 ∧ c ≤ 8) ∨ (r = 3 ∧ c ≠ 8) ∨
        (4 ≤ r ∧ r < ROWS ∧ (c = 0 ∨ c = 4 ∨ c = 9)) ∨
        (c = 8 ∧ (r = 4 ∨ r = 5 ∨ r = 7))))
    boardHeightmap := fun c => if c = 9 then 3 else if 6 ≤ c then 1 else 2
    boardHeightmapMin := 1
    fallingPiece := 2 }

/-! ## `dropPiece` and `shiftRows` with every array access checked

A second embedding of `Tetris::dropPiece` and `Tetris::shiftRows` in which every read and write
of `board`, `boardHeightmap` and the piece tables goes through an accessor that fails (`none`)
when the index is outside the array: the board at a row in `0..ROWS-1` and a column in
`0..COLUMNS-1`, the heightmap at an index in `0..COLUMNS-1`, the piece tables at a piece in
`0..6`, an orientation in `0..pieceOrientationCounts[piece]-1` and a row and column in `0..3`.
The statements are those of the first embedding, in the same order. -/

/-- The read `board[r][c]`, checked. -/
def readBoard (board : Int → Int → Bool) (r c : Int) : Option Bool :=
  if (0 ≤ r ∧ r < ROWS) ∧ 0 ≤ c ∧ c < COLUMNS then some (board r c) else none

/-- The write `board[r][c] = v`, checked. -/
def writeBoard (board : Int → Int → Bool) (r c : Int) (v : Bool) : Option (Int → Int → Bool) :=
  if (0 ≤ r ∧ r < ROWS) ∧ 0 ≤ c ∧ c < COLUMNS then some (set2 board r c v) else none

/-- The read `boardHeightmap[c]`, checked. -/
def readHeightmap (hm : Int → Int) (c : Int) : Option Int :=
  if 0 ≤ c ∧ c < COLUMNS then some (hm c) else none

/-- The write `boardHeightmap[c] = v`, checked. -/
def writeHeightmap (hm : Int → Int) (c v : Int) : Option (Int → Int) :=
  if 0 ≤ c ∧ c < COLUMNS then some (set1 hm c v) else none

/-- The read `pieceOrientationCounts[piece]`, checked. -/
def readOrientationCount (piece : Int) : Option Int :=
  if 0 ≤ piece ∧ piece < 7 then some (pieceOrientationCounts piece) else none

/-- The check that `[piece][orientation]` addresses an orientation of the piece. -/
def orientationInRange (piece orientation : Int) : Bool :=
  decide ((0 ≤ piece ∧ piece < 7) ∧ 0 ≤ orientation ∧
    orientation < pieceOrientationCounts piece)

/-- The read `pieceWidths[piece][orientation]`, checked. -/
def readWidth (piece orientation : Int) : Option Int :=
  if orientationInRange piece orientation then some (pieceWidths piece orientation) else none

/-- The read `pieceHeights[piece][orientation]`, checked. -/
def readHeight (piece orientation : Int) : Option Int :=
  if orientationInRange piece orientation then some (pieceHeights piece orientation) else none

/-- The read `pieceTopHeightmaps[piece][orientation][column]`, checked. -/
def readTop (piece orientation column : Int) : Option Int :=
  if orientationInRange piece orientation ∧ 0 ≤ column ∧ column < 4 then
    some (pieceTopHeightmaps piece orientation column)
  else none

/-- The read `pieceHeightmaps[piece][orientation][column]`, checked. -/
def readBottom (piece orientation column : Int) : Option Int :=
  if orientationInRange piece orientation ∧ 0 ≤ column ∧ column < 4 then
    some (pieceHeightmaps piece orientation column)
  else none

/-- The read `pieces[piece][orientation][row][column]`, checked. -/
def readMask (piece orientation row column : Int) : Option Bool :=
  if orientationInRange piece orientation ∧ (0 ≤ row ∧ row < 4) ∧ 0 ≤ column ∧ column < 4 then
    some (pieces piece orientation row column)
  else none

/-- Runs `n` iterations of an upward counted loop whose body can fail. -/
def forLoopChecked {σ : Type} (body : Int → σ → Option σ) : Nat → Int → σ → Option σ
  | 0, _, s => some s
  | n + 1, i, s => (body i s).bind fun s1 => forLoopChecked body n (i + 1) s1

/-- The loop `for( i = lo ; i < hi ; i++ ) body` with a body that can fail. -/
def forUpChecked {σ : Type} (lo hi : Int) (body : Int → σ → Option σ) (s : σ) : Option σ :=
  forLoopChecked body (hi - lo).toNat lo s

/-- Runs `n` iterations of a downward counted loop whose body can fail. -/
def forLoopDownChecked {σ : Type} (body : Int → σ → Option σ) : Nat → Int → σ → Option σ
  | 0, _, s => some s
  | n + 1, i, s => (body i s).bind fun s1 => forLoopDownChecked body n (i - 1) s1

/-- The loop `for( i = hi ; i >= lo ; i-- ) body` with a body that can fail. -/
def forDownChecked {σ : Type} (hi lo : Int) (body : Int → σ → Option σ) (s : σ) : Option σ :=
  forLoopDownChecked body (hi - lo + 1).toNat hi s

/-- The action-expanding loop of `dropPiece` (lines 80-86), checked. -/
def expandLoopChecked (fallingPiece : Int) : Nat → Int → Int → Option (Int × Int)
  | 0, orientation, action => some (orientation, action)
  | n + 1, orientation, action =>
    (readOrientationCount fallingPiece).bind fun count =>
      if orientation < count then
        (readWidth fallingPiece orientation).bind fun width =>
          if action < COLUMNS - width + 1 then some (orientation, action)
          else expandLoopChecked fallingPiece n (orientation + 1)
            (action - (COLUMNS - width + 1))
      else some (orientation, action)

/-- The pair `(orientation, column)` that `dropPiece` expands `action` into, checked. -/
def expandActionChecked (fallingPiece action : Int) : Option (Int × Int) :=
  (readOrientationCount fallingPiece).bind fun count =>
    expandLoopChecked fallingPiece count.toNat 0 action

/-- The landing-row loop of `dropPiece` (lines 96-100), checked. -/
def findRowChecked (boardHeightmap : Int → Int) (fallingPiece orientation column : Int) :
    Option Int :=
  (readWidth fallingPiece orientation).bind fun pieceWidth =>
    forUpChecked 0 pieceWidth
      (fun pieceColumn row =>
        (readHeightmap boardHeightmap (column + pieceColumn)).bind fun h =>
          (readBottom fallingPiece orientation pieceColumn).bind fun bottom =>
            let rowc := h - bottom
            some (if rowc < row then rowc else row))
      ROWS

/-- The placing loops of `dropPiece` (lines 109-111), checked. -/
def placePieceChecked (board : Int → Int → Bool)
    (fallingPiece orientation row column : Int) : Option (Int → Int → Bool) :=
  (readHeight fallingPiece orientation).bind fun pieceHeight =>
    (readWidth fallingPiece orientation).bind fun pieceWidth =>
      forUpChecked 0 pieceHeight
        (fun pieceRow b =>
          forUpChecked 0 pieceWidth
            (fun pieceColumn b1 =>
              (readBoard b1 (row + pieceRow) (column + pieceColumn)).bind fun old =>
                (readMask fallingPiece orientation pieceRow pieceColumn).bind fun cell =>
                  writeBoard b1 (row + pieceRow) (column + pieceColumn) (old || cell))
            b)
        board

/-- The heightmap loop of `dropPiece` (lines 114-123), checked. -/
def updateHeightmapChecked (hm : (Int → Int) × Int)
    (fallingPiece orientation row column : Int) : Option ((Int → Int) × Int) :=
  (readWidth fallingPiece orientation).bind fun pieceWidth =>
    forUpChecked 0 pieceWidth
      (fun pieceColumn h =>
        (readTop fallingPiece orientation pieceColumn).bind fun top =>
          (writeHeightmap h.1 (column + pieceColumn) (row + top)).bind fun hm1 =>
            (readHeightmap hm1 (column + pieceColumn)).bind fun v =>
              some (if v < h.2 then (hm1, v) else (hm1, h.2)))
      hm

/-- The method `Tetris::shiftRows( firstRow, lastRow, shift )` on the board, checked. -/
def shiftRowsChecked (board : Int → Int → Bool) (firstRow lastRow shift : Int) :
    Option (Int → Int → Bool) :=
  -- copy downwards
  (forDownChecked lastRow firstRow
    (fun row b => forUpChecked 0 COLUMNS
      (fun col b1 => (readBoard b1 row col).bind fun v => writeBoard b1 (row + shift) col v) b)
    board).bind fun copied =>
    -- clear the new top rows
    forUpChecked firstRow (firstRow + shift)
      (fun row b => forUpChecked 0 COLUMNS (fun col b1 => writeBoard b1 row col false) b)
      copied

/-- The row check of `dropPiece` (lines 130-133), checked. -/
def checkRowLoopChecked (board : Int → Int → Bool) (row : Int) : Nat → Int → Option Int
  | 0, col => some col
  | n + 1, col =>
    if col < COLUMNS then
      (readBoard board row col).bind fun v =>
        if !v then some col else checkRowLoopChecked board row n (col + 1)
    else some col

/-- The region scan of `dropPiece` (lines 126-142), checked. -/
def scanRegionChecked (board : Int → Int → Bool) (fallingPiece orientation row : Int) :
    Option ((Int → Int → Bool) × Int) :=
  (readHeight fallingPiece orientation).bind fun pieceHeight =>
    forUpChecked 0 pieceHeight
      (fun pieceRow st =>
        (checkRowLoopChecked st.1 (row + pieceRow) COLUMNS.toNat 0).bind fun col =>
          if col = COLUMNS then
            (shiftRowsChecked st.1 row (row + pieceRow - 1) 1).bind fun b => some (b, st.2 + 1)
          else some st)
      (board, 0)

/-- The inner loop of the heightmap recomputation (line 155), checked: the board is read only
when `row < ROWS` holds. -/
def topScanLoopChecked (board : Int → Int → Bool) (col : Int) : Nat → Int → Option Int
  | 0, row => some row
  | n + 1, row =>
    if row < ROWS then
      (readBoard board row col).bind fun v =>
        if v = false then topScanLoopChecked board col n (row + 1) else some row
    else some row

/-- The heightmap recomputation of `dropPiece` (lines 154-157), checked. -/
def rescanHeightmapChecked (board : Int → Int → Bool) (boardHeightmapMin : Int)
    (hm : Int → Int) : Option (Int → Int) :=
  forUpChecked 0 COLUMNS
    (fun col h =>
      (topScanLoopChecked board col (ROWS - boardHeightmapMin).toNat boardHeightmapMin).bind
        fun row => writeHeightmap h col row)
    hm

/-- The method `int Tetris::dropPiece( int action )`, checked: `none` when some access is out
of range, and otherwise the state after the call and the returned number of cleared rows. -/
def Tetris.dropPieceChecked (s : Tetris) (action : Int) : Option (Tetris × Int) :=
  -- expand the action
  (expandActionChecked s.fallingPiece action).bind fun expanded =>
    let orientation := expanded.1
    let column := expanded.2
    -- explicate piece shape information
    if orientationInRange s.fallingPiece orientation then
      -- find row (topmost row of the piece)
      (findRowChecked s.boardHeightmap s.fallingPiece orientation column).bind fun row =>
        -- flag terminal state and return if the board would overflow
        if row < 0 then some ({ s with terminalState := true }, 0)
        else
          -- place the piece to the board
          (placePieceChecked s.board s.fallingPiece orientation row column).bind fun board1 =>
            -- update the heightmap
            (updateHeightmapChecked (s.boardHeightmap, s.boardHeightmapMin)
              s.fallingPiece orientation row column).bind fun hm1 =>
              -- scan affected region for filled rows, shift down within the region
              (scanRegionChecked board1 s.fallingPiece orientation row).bind fun scanned =>
                let filledRows := scanned.2
                if filledRows > 0 then
                  (shiftRowsChecked scanned.1 hm1.2 (row - 1) filledRows).bind fun board2 =>
                    let hmin2 := hm1.2 + filledRows
                    (rescanHeightmapChecked board2 hmin2 hm1.1).bind fun hm2 =>
                      some ({ s with
                          board := board2
                          boardHeightmapMin := hmin2
                          boardHeightmap := hm2 }, filledRows)
                else
                  some ({ s with
                      board := scanned.1
                      boardHeightmap := hm1.1
                      boardHeightmapMin := hm1.2 }, filledRows)
    else none

/-! ## The seed fill (`external/SeedFill.cpp`) and the flood-fill hole count

`HOLEDEFINITION` is compiled as `HD_UNDERTOPLINE`; the case `HD_FLOODFILL` of the `switch` in
`computeObservation` is embedded here next to it, with the seed fill that it calls. The `while`
loop of `SeedFill` has no bound in the source: it is embedded with a number of passes `fuel`,
and the result is `none` when the stack is not empty after `fuel` passes. The parameters `rows`
and `columns` of `SeedFill` are only checked against `ROWS` and `COLUMNS`. -/

/-- The struct `SFWindow`: a rectangle, `xmin`, `ymin`, `xmax`, `ymax` (inclusive). -/
structure SFWindow where
  x0 : Int
  y0 : Int
  x1 : Int
  y1 : Int

/-- The struct `Segment`: a filled horizontal segment of scanline `y` for `xl <= x <= xr`, whose
parent segment was on line `y - dy`. -/
structure Segment where
  y : Int
  xl : Int
  xr : Int
  dy : Int

/-- The function `pixelread( board, x, y )`: `board[y][x]`. -/
def pixelread (board : Int → Int → Bool) (x y : Int) : Bool := board y x

/-- The function `pixelwrite( board, x, y, nv )`: the board after `board[y][x] = nv`. -/
def pixelwrite (board : Int → Int → Bool) (x y : Int) (nv : Bool) : Int → Int → Bool :=
  set2 board y x nv

/-- The depth of the stack: `#define MAX 1000`. -/
abbrev MAX : Int := 1000

/-- The macro `PUSH(Y, XL, XR, DY)`; the top of the stack is the head of the list. -/
def PUSH (win : SFWindow) (stack : List Segment) (Y XL XR DY : Int) : List Segment :=
  if (stack.length : Int) < MAX ∧ Y + DY ≥ win.y0 ∧ Y + DY ≤ win.y1 then
    { y := Y, xl := XL, xr := XR, dy := DY } :: stack
  else stack

/-- The loop of line 72 of `SeedFill`, entered at `x` with `n` passes left: the board and the
value of `x` when the loop is left. -/
def fillLeft (win : SFWindow) (y : Int) (ov nv : Bool) :
    Nat → (Int → Int → Bool) → Int → (Int → Int → Bool) × Int
  | 0, board, x => (board, x)
  | n + 1, board, x =>
    if x ≥ win.x0 ∧ pixelread board x y = ov then
      fillLeft win y ov nv n (pixelwrite board x y nv) (x - 1)
    else (board, x)

/-- The loop of line 79 of `SeedFill`, entered at `x` with `n` passes left: the board and the
value of `x` when the loop is left. -/
def fillRight (win : SFWindow) (y : Int) (ov nv : Bool) :
    Nat → (Int → Int → Bool) → Int → (Int → Int → Bool) × Int
  | 0, board, x => (board, x)
  | n + 1, board, x =>
    if x ≤ win.x1 ∧ pixelread board x y = ov then
      fillRight win y ov nv n (pixelwrite board x y nv) (x + 1)
    else (board, x)

/-- The loop of line 83 of `SeedFill` after its `x++`, entered at `x` with `n` passes left: the
value of `x` when the loop is left. -/
def skipLoop (board : Int → Int → Bool) (y x2 : Int) (ov : Bool) : Nat → Int → Int
  | 0, x => x
  | n + 1, x =>
    if x ≤ x2 ∧ pixelread board x y ≠ ov then skipLoop board y x2 ov n (x + 1) else x

/-- The `do ... while` loop of `SeedFill` (lines 78-85) on the board and the stack, with `n`
passes left; `fromSkip` says that the pass is entered at the label `skip`. Every pass moves `x`
up and the loop is left when `x > x2`; `none` when the passes run out. -/
def spanLoop (win : SFWindow) (y dy x2 : Int) (ov nv : Bool) :
    Nat → Bool → (Int → Int → Bool) × List Segment → Int → Int →
      Option ((Int → Int → Bool) × List Segment)
  | 0, _, _, _, _ => none
  | n + 1, fromSkip, st, x, l =>
    let st1 : ((Int → Int → Bool) × List Segment) × Int :=
      if fromSkip then (st, x)
      else
        let right := fillRight win y ov nv (win.x1 - x + 1).toNat st.1 x
        let stack1 := PUSH win st.2 y l (right.2 - 1) dy
        -- leak on right?
        let stack2 :=
          if right.2 > x2 + 1 then PUSH win stack1 y (x2 + 1) (right.2 - 1) (-dy) else stack1
        ((right.1, stack2), right.2)
    -- skip:
    let x3 := skipLoop st1.1.1 y x2 ov (x2 - st1.2).toNat (st1.2 + 1)
    if x3 ≤ x2 then spanLoop win y dy x2 ov nv n false st1.1 x3 x3 else some st1.1

/-- The `while (sp>stack)` loop of `SeedFill` (lines 65-86) with `fuel` passes left. In the pass
that jumps to `skip` the variable `l` is not read before it is assigned. -/
def fillLoop (win : SFWindow) (ov nv : Bool) :
    Nat → (Int → Int → Bool) → List Segment → Option (Int → Int → Bool)
  | _, board, [] => some board
  | 0, _, _ :: _ => none
  | fuel + 1, board, seg :: stack =>
    -- pop segment off stack and fill a neighboring scan line
    let y := seg.y + seg.dy
    let dy := seg.dy
    let x1 := seg.xl
    let x2 := seg.xr
    let left := fillLeft win y ov nv (x1 - win.x0 + 1).toNat board x1
    let x := left.2
    let spanned :=
      if x ≥ x1 then
        spanLoop win y dy x2 ov nv (x2 - x + 2).toNat true (left.1, stack) x 0
      else
        let l := x + 1
        -- leak on left?
        let stack1 := if l < x1 then PUSH win stack y l (x1 - 1) (-dy) else stack
        spanLoop win y dy x2 ov nv (x2 - (x1 + 1) + 2).toNat false (left.1, stack1) (x1 + 1) l
    spanned.bind fun st => fillLoop win ov nv fuel st.1 st.2

/-- The function `SeedFill( board, rows, columns, x, y, win, nv )`: the board after the call,
`none` when `fuel` passes of the main loop do not empty the stack. -/
def SeedFill (fuel : Nat) (board : Int → Int → Bool) (x y : Int) (win : SFWindow)
    (nv : Bool) : Option (Int → Int → Bool) :=
  -- read pv at seed point
  let ov := pixelread board x y
  if ov = nv ∨ x < win.x0 ∨ x > win.x1 ∨ y < win.y0 ∨ y > win.y1 then some board
  else
    -- needed in some cases, then the seed segment (popped 1st)
    fillLoop win ov nv fuel board (PUSH win (PUSH win [] y x x 1) (y + 1) x x (-1))

/-- The hole count of `computeObservation` for `HOLEDEFINITION == HD_FLOODFILL` (lines 225-233):
for each column in turn the copy of the board is filled from the seed of the column, and then
the cells of the column below its topline that are still empty are counted. -/
def holesFloodFill (fuel : Nat) (board : Int → Int → Bool) (boardHeightmap : Int → Int)
    (boardHeightmapMin : Int) : Option Int :=
  let win : SFWindow :=
    { x0 := 0, y0 := boardHeightmapMin, x1 := COLUMNS - 1, y1 := ROWS - 1 }
  (forUpChecked 0 COLUMNS
    (fun col (st : (Int → Int → Bool) × Int) =>
      (SeedFill fuel st.1 col boardHeightmapMin win true).map fun board1 =>
        (board1,
          -- scan cells below the topline
          forUp (boardHeightmap col + 1) ROWS
            (fun row holes => if !board1 row col then holes + 1 else holes) st.2))
    (board, 0)).map Prod.snd

/-! ## Specification-side definitions for the flood-fill hole count -/

/-- The cell `(r, c)` can be reached from a seed cell `(boardHeightmapMin, col)`, `col` in
`0..COLUMNS-1`, by 4-connected moves through empty cells inside the rows
`boardHeightmapMin..ROWS-1`. -/
inductive FloodConnected (board : Int → Int → Bool) (hmin : Int) : Int → Int → Prop
  | seed (c : Int) (h0 : 0 ≤ c) (h1 : c < COLUMNS) (he : board hmin c = false) :
      FloodConnected board hmin hmin c
  | move (r c r1 c1 : Int) (h : FloodConnected board hmin r c)
      (hadj : (r1 = r ∧ (c1 = c + 1 ∨ c1 = c - 1)) ∨ (c1 = c ∧ (r1 = r + 1 ∨ r1 = r - 1)))
      (hr0 : hmin ≤ r1) (hr1 : r1 < ROWS) (hc0 : 0 ≤ c1) (hc1 : c1 < COLUMNS)
      (he : board r1 c1 = false) : FloodConnected board hmin r1 c1

/-- The state after piece 6 has been dropped flat at the left edge of a fresh board: it fills
the cells (18,1), (18,2), (19,0) and (19,1), so that the cell (19,2) is empty under the
overhang and open to the right. -/
def overhangMade : Tetris := ((freshTetris.newEpisode 6).step 0 0).1

/-! ## Rounded `double` arithmetic

The operations of `Dbl` above compute a finite result exactly. An operation of the machine
returns the exact result rounded to a `double`, which may be an infinity. This part embeds
`computeActionProbabilities`, `drawAction` and `act` a second time, with every operation
followed by a rounding: `rnd` is the rounding of a finite exact result, and `round64` is the
rounding of IEEE 754 binary64 in its default mode, to the nearest `double` with ties to the
even significand (there is a single zero). The function `std::exp` enters as `expD`, from the
finite values to the `double` values, so that it may return `0` or `+Inf`. With `rnd = Dbl.fin`
the rounded embedding is the exact one. -/

namespace Dbl

variable {F : Type} [LinearOrderedField F]

/-- The comparison `x <= y`; false when one side is a NaN. -/
def le : Dbl F → Dbl F → Bool
  | fin x, fin y => decide (x ≤ y)
  | fin _, posInf => true
  | fin _, negInf => false
  | posInf, fin _ => false
  | posInf, posInf => true
  | posInf, negInf => false
  | negInf, fin _ => true
  | negInf, posInf => true
  | negInf, negInf => true
  | fin _, nan => false
  | posInf, nan => false
  | negInf, nan => false
  | nan, _ => false

/-- The rounding of the result of an operation: `rnd` rounds a finite exact result; an
infinity and a NaN are results as they are. -/
def rounded (rnd : F → Dbl F) : Dbl F → Dbl F
  | fin x => rnd x
  | posInf => posInf
  | negInf => negInf
  | nan => nan

/-- Rounded addition. -/
def addRounded (rnd : F → Dbl F) (x y : Dbl F) : Dbl F := rounded rnd (x + y)

/-- Rounded subtraction. -/
def subRounded (rnd : F → Dbl F) (x y : Dbl F) : Dbl F := rounded rnd (x - y)

/-- Rounded multiplication. -/
def mulRounded (rnd : F → Dbl F) (x y : Dbl F) : Dbl F := rounded rnd (x * y)

/-- Rounded division. -/
def divRounded (rnd : F → Dbl F) (x y : Dbl F) : Dbl F := rounded rnd (x / y)

/-- The function `std::exp`; `expD` gives its value, a `double`, at a finite argument. -/
def expRounded (expD : F → Dbl F) : Dbl F → Dbl F
  | fin x => expD x
  | posInf => posInf
  | negInf => fin 0
  | nan => nan

end Dbl

/-- The integer nearest to `y`, the even one of the two when `y` lies halfway. -/
def roundHalfEven (y : ℚ) : Int :=
  if y - ⌊y⌋ < 1 / 2 then ⌊y⌋
  else if 1 / 2 < y - ⌊y⌋ then ⌊y⌋ + 1
  else if ⌊y⌋ % 2 = 0 then ⌊y⌋
  else ⌊y⌋ + 1

/-- The exponent of the unit in the last place of binary64 at `x`: `k - 52` for
`2^k <= |x| < 2^(k+1)`, and `-1074` below `2^(-1022)`, where the values are subnormal. -/
def ulpExponent (x : ℚ) : Int := max (Int.log 2 |x|) (-1022) - 52

/-- The multiple of the unit in the last place at `x` that is nearest to `x`, the one with the
even multiplier when `x` lies halfway between two. -/
def nearest64 (x : ℚ) : ℚ := roundHalfEven (x / 2 ^ ulpExponent x) * 2 ^ ulpExponent x

/-- The rounding of IEEE 754 binary64, to nearest with ties to even: a value of magnitude
`2^1024 - 2^970` or more, halfway between `DBL_MAX` and `2^1024` or beyond, becomes an
infinity; any other value becomes the nearest multiple of its unit in the last place. -/
def round64 (x : ℚ) : Dbl ℚ :=
  if 2 ^ 1024 - 2 ^ 970 ≤ x then Dbl.posInf
  else if x ≤ -(2 ^ 1024 - 2 ^ 970) then Dbl.negInf
  else Dbl.fin (nearest64 x)

section ControllerRounded

variable {F : Type} [LinearOrderedField F]

/-- The body of the first loop of `computeActionProbabilities` (lines 163-172) with rounded
operations; the state is the array `actionProbabilities` with `maxPr`. -/
def scoresBodyRounded (rnd : F → Dbl F) (s : StepData) (theta : Int → Dbl F) (tau : Dbl F)
    (action : Int) (st : (Int → Dbl F) × Dbl F) : (Int → Dbl F) × Dbl F :=
  let ap :=
    if REJECT_TERMINAL_ACTIONS && s.isActionTerminal action then
      -- disable
      set1 st.1 action Dbl.negInf
    else
      -- add
      forUp 0 STATEACTIONDIM
        (fun i ap => set1 ap action
          (Dbl.addRounded rnd (ap action)
            (Dbl.divRounded rnd
              (Dbl.mulRounded rnd (Dbl.ofInt (s.actions action i)) (theta i)) tau)))
        st.1
  -- maintain max value
  (ap, if Dbl.lt st.2 (ap action) then ap action else st.2)

/-- The body of the second loop of `computeActionProbabilities` (lines 178-179) with rounded
operations; the state is the array `actionProbabilities` with `sumPr`. -/
def weightsBodyRounded (rnd expD : F → Dbl F) (maxPr : Dbl F) (action : Int)
    (st : (Int → Dbl F) × Dbl F) : (Int → Dbl F) × Dbl F :=
  let ap := set1 st.1 action (Dbl.expRounded expD (Dbl.subRounded rnd (st.1 action) maxPr))
  (ap, Dbl.addRounded rnd st.2 (ap action))

/-- The method `void NaturalActorCritic::computeActionProbabilities( const Tetris::StepData &
s )` with rounded operations. -/
def NaturalActorCritic.computeActionProbabilitiesRounded (rnd expD : F → Dbl F)
    (self : NaturalActorCritic F) (s : StepData) : NaturalActorCritic F :=
  -- set to zero
  let ap0 := memsetZero self.actionProbabilities MAXACTIONS
  -- (col)actionProbabilities = ((matrix)actions * (col)theta) / tau   (find maximum value)
  let st1 := forUp 0 s.actionCount (scoresBodyRounded rnd s self.theta self.tau)
    (ap0, Dbl.negInf)
  let maxPr := st1.2
  -- (col)actionProbabilities = exp( (col)actionProbabilities - maxPr )   (get sum)
  let st2 := forUp 0 s.actionCount (weightsBodyRounded rnd expD maxPr) (st1.1, 0)
  let sumPr := st2.2
  -- (col)actionProbabilities = (col)actionProbabilities / sum( (col)actionProbabilities )
  let ap3 := forUp 0 s.actionCount
    (fun action ap => set1 ap action (Dbl.divRounded rnd (ap action) sumPr)) st2.1
  -- set to the uniform distribution if all actions had -Inf unnormalized probability
  let ap4 :=
    if maxPr = Dbl.negInf then
      forUp 0 s.actionCount
        (fun action ap => set1 ap action (Dbl.divRounded rnd 1 (Dbl.ofInt s.actionCount))) ap3
    else ap3
  { self with actionProbabilities := ap4 }

/-- The loop of `drawAction` (lines 201-204) with rounded additions and `n` passes left: the
value of `action` when the loop is left, through `break` or through its condition. -/
def drawLoopRounded (rnd : F → Dbl F) (actionProbabilities : Int → Dbl F) (r : Dbl F) :
    Nat → Int → Dbl F → Int
  | 0, action, _ => action
  | n + 1, action, sum =>
    if Dbl.lt r (Dbl.addRounded rnd sum (actionProbabilities action)) then action
    else drawLoopRounded rnd actionProbabilities r n (action + 1)
      (Dbl.addRounded rnd sum (actionProbabilities action))

/-- The method `int NaturalActorCritic::drawAction( const Tetris::StepData & s )` with rounded
additions; `r` is the value of `rstream.rand()`. -/
def NaturalActorCritic.drawActionRounded (rnd : F → Dbl F) (self : NaturalActorCritic F)
    (s : StepData) (r : Dbl F) : Int :=
  let action := drawLoopRounded rnd self.actionProbabilities r s.actionCount.toNat 0 0
  -- in case of numerical errors
  if action = s.actionCount then action - 1 else action

/-- The method `int NaturalActorCritic::act( const Tetris::StepData & s )` with rounded
operations: the object after the call and the returned action. -/
def NaturalActorCritic.actRounded (rnd expD : F → Dbl F) (self : NaturalActorCritic F)
    (s : StepData) (r : Dbl F) : NaturalActorCritic F × Int :=
  let self1 := self.computeActionProbabilitiesRounded rnd expD s
  (self1, self1.drawActionRounded rnd s r)

end ControllerRounded

/-! ## Specification-side definitions for the rounded controller -/

/-- The properties of a rounding that the results on the rounded controller use: zero and one
are not changed, rounding keeps the order (and never gives a NaN), and a rounded value is not
changed by another rounding. -/
structure Rounding {F : Type} [LinearOrderedField F] (rnd : F → Dbl F) : Prop where
  zero : rnd 0 = Dbl.fin 0
  one : rnd 1 = Dbl.fin 1
  mono : ∀ x y, x ≤ y → Dbl.le (rnd x) (rnd y) = true
  idem : ∀ x y, rnd x = Dbl.fin y → rnd y = Dbl.fin y

/-- The properties of `std::exp` that the results on the rounded controller use: its value at
0 is 1, and at an argument that is not positive it is a finite value between 0 and 1. -/
structure ExpBounded {F : Type} [LinearOrderedField F] (expD : F → Dbl F) : Prop where
  zero : expD 0 = Dbl.fin 1
  unit : ∀ x, x ≤ 0 → ∃ y, expD x = Dbl.fin y ∧ 0 ≤ y ∧ y ≤ 1

/-- The score of action `a` as the loop of lines 168-169 accumulates it from `0.0`, every
operation rounded: `(s.actions[a][i] * theta[i]) / tau` added for `i = 0, ..., 22`. -/
def roundedScore {F : Type} [LinearOrderedField F] (rnd : F → Dbl F) (s : StepData)
    (theta : Int → Dbl F) (tau : Dbl F) (a : Int) : Dbl F :=
  forUp 0 STATEACTIONDIM
    (fun i acc => Dbl.addRounded rnd acc
      (Dbl.divRounded rnd (Dbl.mulRounded rnd (Dbl.ofInt (s.actions a i)) (theta i)) tau))
    0

/-- The entry of action `a` after the first loop: `-Inf` for a rejected action and the rounded
score for any other. -/
def storedScore {F : Type} [LinearOrderedField F] (rnd : F → Dbl F) (s : StepData)
    (theta : Int → Dbl F) (tau : Dbl F) (a : Int) : Dbl F :=
  if s.isActionTerminal a then Dbl.negInf else roundedScore rnd s theta tau a

/-- The value of `maxPr` after the first `k` actions: it starts at `-Inf` and takes the entry
of an action that exceeds it. -/
def maxScore {F : Type} [LinearOrderedField F] (sc : Int → Dbl F) : Nat → Dbl F
  | 0 => Dbl.negInf
  | k + 1 => if Dbl.lt (maxScore sc k) (sc k) then sc k else maxScore sc k

/-- The value of a sum that starts at `0.0` after the first `k` entries of `p` have been added
with rounded additions, in the order of the loop. -/
def roundedSum {F : Type} [LinearOrderedField F] (rnd : F → Dbl F) (p : Int → Dbl F) :
    Nat → Dbl F
  | 0 => 0
  | k + 1 => Dbl.addRounded rnd (roundedSum rnd p k) (p k)

/-- The unnormalised probability of action `a` as the second loop stores it:
`exp( entry - maxPr )` with the subtraction rounded. -/
def roundedWeight {F : Type} [LinearOrderedField F] (rnd expD : F → Dbl F) (s : StepData)
    (theta : Int → Dbl F) (tau : Dbl F) (a : Int) : Dbl F :=
  Dbl.expRounded expD (Dbl.subRounded rnd (storedScore rnd s theta tau a)
    (maxScore (storedScore rnd s theta tau) s.actionCount.toNat))

/-! ## Sample objects for the rounded controller -/

/-- A stand-in for `std::exp` with `double` values: the rounded `sampleExp`. -/
def sampleExpRounded (x : ℚ) : Dbl ℚ := round64 (sampleExp x)

/-- Step data with nine actions, as many as the square piece has, of which the last three are
flagged terminal. -/
def tieStepData : StepData :=
  { transitionReward := 0
    observation := fun i => i
    actions := fun a i => if i = 0 then a else if i = 1 then 1 else 0
    isActionTerminal := fun a => decide (6 ≤ a)
    actionCount := 9 }

/-- Step data with three actions, all of them flagged terminal. -/
def rejectedStepData : StepData :=
  { transitionReward := 0
    observation := fun i => i
    actions := fun a i => if i = 0 then a else if i = 1 then 1 else 0
    isActionTerminal := fun _ => true
    actionCount := 3 }

/-- A controller over the rationals with `theta = 0`, the value before any update, and
`tau = 1`. -/
def zeroAgent : NaturalActorCritic ℚ :=
  { sampleAgent with
    theta := fun _ => Dbl.fin 0
    tau := Dbl.fin 1 }

/-- Step data with two actions: the first has the single feature 2, the second is flagged
terminal. -/
def overflowStepData : StepData :=
  { transitionReward := 0
    observation := fun _ => 0
    actions := fun a i => if a = 0 ∧ i = 0 then 2 else 0
    isActionTerminal := fun a => decide (a = 1)
    actionCount := 2 }

/-- A controller over the rationals with the finite `theta = (2^1023, 0, 0, ...)` and
`tau = 1`. -/
def overflowAgent : NaturalActorCritic ℚ :=
  { sampleAgent with
    theta := fun i => Dbl.fin (if i = 0 then 2 ^ 1023 else 0)
    tau := Dbl.fin 1 }

/-! # Theorems -/

/-! ## Arrays and loops -/

@[simp] theorem set1_apply {α : Type} (a : Int → α) (i : Int) (v : α) (j : Int) :
    set1 a i v j = if j = i then v else a j := rfl

@[simp] theorem set2_apply {α : Type} (a : Int → Int → α) (r c : Int) (v : α) (r1 c1 : Int) :
    set2 a r c v r1 c1 = if r1 = r ∧ c1 = c then v else a r1 c1 := rfl

theorem forLoop_invariant {σ : Type} (body : Int → σ → σ) (P : Int → σ → Prop) :
    ∀ (n : Nat) (i : Int) (s : σ), P i s →
      (∀ j t, i ≤ j → j < i + n → P j t → P (j + 1) (body j t)) →
      P (i + n) (forLoop body n i s) := by
  intro n
  induction n with
  | zero => intro i s h _; simpa [forLoop] using h
  | succ n ih =>
    intro i s h hstep
    have h1 : P (i + 1) (body i s) := hstep i s (le_refl _) (by push_cast; omega) h
    have h2 := ih (i + 1) (body i s) h1
      (fun j t hj1 hj2 hP => hstep j t (by omega) (by push_cast; omega) hP)
    have e : i + ((n + 1 : Nat) : Int) = i + 1 + (n : Int) := by push_cast; omega
    rw [e]
    exact h2

/-- Invariant rule for `forUp`: `P i s` says that `s` is the state before iteration `i`. -/
theorem forUp_invariant {σ : Type} (lo hi : Int) (body : Int → σ → σ) (s : σ)
    (P : Int → σ → Prop) (hle : lo ≤ hi) (h0 : P lo s)
    (hstep : ∀ j t, lo ≤ j → j < hi → P j t → P (j + 1) (body j t)) :
    P hi (forUp lo hi body s) := by
  have h := forLoop_invariant body P (hi - lo).toNat lo s h0
    (fun j t h1 h2 hP => hstep j t h1 (by omega) hP)
  have e : lo + ((hi - lo).toNat : Int) = hi := by omega
  rw [e] at h
  exact h

theorem forUp_empty {σ : Type} (lo hi : Int) (body : Int → σ → σ) (s : σ) (h : hi ≤ lo) :
    forUp lo hi body s = s := by
  have e : (hi - lo).toNat = 0 := by omega
  simp [forUp, e, forLoop]

theorem forLoopDown_invariant {σ : Type} (body : Int → σ → σ) (P : Int → σ → Prop) :
    ∀ (n : Nat) (i : Int) (s : σ), P i s →
      (∀ j t, j ≤ i → i - n < j → P j t → P (j - 1) (body j t)) →
      P (i - n) (forLoopDown body n i s) := by
  intro n
  induction n with
  | zero => intro i s h _; simpa [forLoopDown] using h
  | succ n ih =>
    intro i s h hstep
    have h1 : P (i - 1) (body i s) := hstep i s (le_refl _) (by push_cast; omega) h
    have h2 := ih (i - 1) (body i s) h1
      (fun j t hj1 hj2 hP => hstep j t (by omega) (by push_cast; omega) hP)
    have e : i - ((n + 1 : Nat) : Int) = i - 1 - (n : Int) := by push_cast; omega
    rw [e]
    exact h2

/-- Invariant rule for `forDown`: `P i s` says that `s` is the state before iteration `i`. -/
theorem forDown_invariant {σ : Type} (hi lo : Int) (body : Int → σ → σ) (s : σ)
    (P : Int → σ → Prop) (hle : lo ≤ hi + 1) (h0 : P hi s)
    (hstep : ∀ j t, lo ≤ j → j ≤ hi → P j t → P (j - 1) (body j t)) :
    P (lo - 1) (forDown hi lo body s) := by
  have h := forLoopDown_invariant body P (hi - lo + 1).toNat hi s h0
    (fun j t h1 h2 hP => hstep j t (by omega) h1 hP)
  have e : hi - ((hi - lo + 1).toNat : Int) = lo - 1 := by omega
  rw [e] at h
  exact h

theorem forDown_empty {σ : Type} (hi lo : Int) (body : Int → σ → σ) (s : σ) (h : hi < lo) :
    forDown hi lo body s = s := by
  have e : (hi - lo + 1).toNat = 0 := by omega
  simp [forDown, e, forLoopDown]

/-! ## The piece catalog -/

section Catalog
set_option synthInstance.maxSize 4096

theorem catalog_dims : ∀ p : Nat, p < 7 → ∀ o : Nat, o < 4 →
    (o : Int) < pieceOrientationCounts p →
    1 ≤ pieceWidths p o ∧ pieceWidths p o ≤ 4 ∧ 1 ≤ pieceHeights p o ∧ pieceHeights p o ≤ 4 := by
  decide

theorem catalog_columns : ∀ p : Nat, p < 7 → ∀ o : Nat, o < 4 →
    (o : Int) < pieceOrientationCounts p →
    ∀ pc : Nat, pc < 4 → (pc : Int) < pieceWidths p o →
    0 ≤ pieceTopHeightmaps p o pc ∧ pieceTopHeightmaps p o pc < pieceHeightmaps p o pc ∧
    pieceHeightmaps p o pc ≤ pieceHeights p o ∧
    pieces p o (pieceTopHeightmaps p o pc) pc = true := by
  decide

theorem catalog_cells : ∀ p : Nat, p < 7 → ∀ o : Nat, o < 4 →
    (o : Int) < pieceOrientationCounts p →
    ∀ pr : Nat, pr < 4 → ∀ pc : Nat, pc < 4 → pieces p o pr pc = true →
    (pr : Int) < pieceHeights p o ∧ (pc : Int) < pieceWidths p o ∧
    pieceTopHeightmaps p o pc ≤ pr ∧ (pr : Int) < pieceHeightmaps p o pc := by
  decide

theorem catalog_rows : ∀ p : Nat, p < 7 → ∀ o : Nat, o < 4 →
    (o : Int) < pieceOrientationCounts p →
    ∀ pr : Nat, pr < 4 → (pr : Int) < pieceHeights p o →
    ∃ pc : Nat, pc < 4 ∧ (pc : Int) < pieceWidths p o ∧ pieces p o pr pc = true := by
  decide

theorem catalog_extremes : ∀ p : Nat, p < 7 → ∀ o : Nat, o < 4 →
    (o : Int) < pieceOrientationCounts p →
    (∃ pc : Nat, pc < 4 ∧ (pc : Int) < pieceWidths p o ∧ pieceTopHeightmaps p o pc = 0) ∧
    (∃ pc : Nat, pc < 4 ∧ (pc : Int) < pieceWidths p o ∧
      pieceHeightmaps p o pc = pieceHeights p o) := by
  decide

theorem catalog_orientations : ∀ p : Nat, p < 7 →
    1 ≤ pieceOrientationCounts p ∧ pieceOrientationCounts p ≤ 4 := by
  decide

theorem catalog_actionCounts : ∀ p : Nat, p < 7 →
    9 ≤ pieceActionCounts p ∧ pieceActionCounts p ≤ 34 := by
  decide

theorem catalog_expand : ∀ p : Nat, p < 7 → ∀ a : Nat, a < 34 →
    (a : Int) < pieceActionCounts p →
    0 ≤ (expandAction p a).1 ∧ (expandAction p a).1 < pieceOrientationCounts p ∧
    0 ≤ (expandAction p a).2 ∧
    (expandAction p a).2 ≤ COLUMNS - pieceWidths p (expandAction p a).1 := by
  decide

end Catalog

theorem nat_of_range (x : Int) (h0 : 0 ≤ x) : ∃ k : Nat, x = (k : Int) :=
  ⟨x.toNat, by omega⟩

theorem shapeOK_of_valid (p o : Int) (hp0 : 0 ≤ p) (hp1 : p < 7) (ho0 : 0 ≤ o)
    (ho1 : o < pieceOrientationCounts p) : ShapeOK p o := by
  obtain ⟨pn, rfl⟩ := nat_of_range p hp0
  obtain ⟨ok, rfl⟩ := nat_of_range o ho0
  have hpn : pn < 7 := by omega
  have hok : ok < 4 := by have := (catalog_orientations pn hpn).2; omega
  obtain ⟨d1, d2, d3, d4⟩ := catalog_dims pn hpn ok hok ho1
  have hcol := catalog_columns pn hpn ok hok ho1
  have hcell := catalog_cells pn hpn ok hok ho1
  have hrow := catalog_rows pn hpn ok hok ho1
  obtain ⟨⟨t, ht1, ht2, ht3⟩, ⟨u, hu1, hu2, hu3⟩⟩ := catalog_extremes pn hpn ok hok ho1
  refine
    { width_pos := d1, width_le := d2, height_pos := d3, height_le := d4
      top_nonneg := ?_, top_lt_bottom := ?_, bottom_le := ?_, top_filled := ?_
      cell := ?_, row_nonempty := ?_
      top_zero := ⟨t, by omega, ht2, ht3⟩
      bottom_height := ⟨u, by omega, hu2, hu3⟩ }
  · intro pc h0 h1
    obtain ⟨k, rfl⟩ := nat_of_range pc h0
    exact (hcol k (by omega) h1).1
  · intro pc h0 h1
    obtain ⟨k, rfl⟩ := nat_of_range pc h0
    exact (hcol k (by omega) h1).2.1
  · intro pc h0 h1
    obtain ⟨k, rfl⟩ := nat_of_range pc h0
    exact (hcol k (by omega) h1).2.2.1
  · intro pc h0 h1
    obtain ⟨k, rfl⟩ := nat_of_range pc h0
    exact (hcol k (by omega) h1).2.2.2
  · intro pr pc h0 h1 h2 h3 hf
    obtain ⟨k, rfl⟩ := nat_of_range pr h0
    obtain ⟨l, rfl⟩ := nat_of_range pc h2
    have := hcell k (by omega) l (by omega) hf
    exact ⟨this.2.2.1, this.2.2.2⟩
  · intro pr h0 h1
    obtain ⟨k, rfl⟩ := nat_of_range pr h0
    obtain ⟨l, hl1, hl2, hl3⟩ := hrow k (by omega) h1
    exact ⟨l, by omega, hl2, hl3⟩

theorem actionCount_bounds (p : Int) (hp0 : 0 ≤ p) (hp1 : p < 7) :
    9 ≤ pieceActionCounts p ∧ pieceActionCounts p ≤ 34 := by
  obtain ⟨pn, rfl⟩ := nat_of_range p hp0
  exact catalog_actionCounts pn (by omega)

theorem expandAction_valid (p a : Int) (hp0 : 0 ≤ p) (hp1 : p < 7) (ha0 : 0 ≤ a)
    (ha1 : a < pieceActionCounts p) :
    0 ≤ (expandAction p a).1 ∧ (expandAction p a).1 < pieceOrientationCounts p ∧
    0 ≤ (expandAction p a).2 ∧
    (expandAction p a).2 ≤ COLUMNS - pieceWidths p (expandAction p a).1 := by
  obtain ⟨pn, rfl⟩ := nat_of_range p hp0
  obtain ⟨an, rfl⟩ := nat_of_range a ha0
  have hpn : pn < 7 := by omega
  have := (catalog_actionCounts pn hpn).2
  exact catalog_expand pn hpn an (by omega) ha1

theorem expandAction_shape (p a : Int) (hp0 : 0 ≤ p) (hp1 : p < 7) (ha0 : 0 ≤ a)
    (ha1 : a < pieceActionCounts p) : ShapeOK p (expandAction p a).1 :=
  shapeOK_of_valid p _ hp0 hp1 (expandAction_valid p a hp0 hp1 ha0 ha1).1
    (expandAction_valid p a hp0 hp1 ha0 ha1).2.1

/-! ## The parts of `dropPiece` -/

theorem findRow_spec (hm : Int → Int) (p o col : Int) (hw : 0 ≤ pieceWidths p o) :
    findRow hm p o col ≤ ROWS ∧
    (∀ pc, 0 ≤ pc → pc < pieceWidths p o →
      findRow hm p o col ≤ hm (col + pc) - pieceHeightmaps p o pc) ∧
    (findRow hm p o col = ROWS ∨ ∃ pc, 0 ≤ pc ∧ pc < pieceWidths p o ∧
      findRow hm p o col = hm (col + pc) - pieceHeightmaps p o pc) := by
  unfold findRow
  refine forUp_invariant 0 (pieceWidths p o) _ ROWS
    (fun i row => row ≤ ROWS ∧
      (∀ pc, 0 ≤ pc → pc < i → row ≤ hm (col + pc) - pieceHeightmaps p o pc) ∧
      (row = ROWS ∨ ∃ pc, 0 ≤ pc ∧ pc < i ∧ row = hm (col + pc) - pieceHeightmaps p o pc))
    hw ⟨le_refl _, fun pc h1 h2 => by omega, Or.inl rfl⟩ ?_
  rintro j row hj0 hjw ⟨h1, h2, h3⟩
  by_cases hlt : hm (col + j) - pieceHeightmaps p o j < row
  · simp only [hlt, if_true]
    refine ⟨by omega, fun pc hp0 hp1 => ?_, Or.inr ⟨j, hj0, by omega, rfl⟩⟩
    by_cases e : pc = j
    · subst e; exact le_refl _
    · have := h2 pc hp0 (by omega); omega
  · simp only [hlt, if_false]
    refine ⟨h1, fun pc hp0 hp1 => ?_, ?_⟩
    · by_cases e : pc = j
      · subst e; omega
      · exact h2 pc hp0 (by omega)
    · rcases h3 with h3 | ⟨pc, a, b, c⟩
      · exact Or.inl h3
      · exact Or.inr ⟨pc, a, by omega, c⟩

theorem placePiece_eq (board : Int → Int → Bool) (p o row col : Int)
    (hh : 0 ≤ pieceHeights p o) (hw : 0 ≤ pieceWidths p o) :
    placePiece board p o row col = withPiece board p o row col := by
  have inner : ∀ (pr : Int) (b : Int → Int → Bool) (r c : Int),
      forUp 0 (pieceWidths p o)
        (fun pieceColumn b1 => set2 b1 (row + pr) (col + pieceColumn)
          (b1 (row + pr) (col + pieceColumn) || pieces p o pr pieceColumn)) b r c
      = if r = row + pr ∧ col ≤ c ∧ c < col + pieceWidths p o
        then (b r c || pieces p o pr (c - col)) else b r c := by
    intro pr b
    refine forUp_invariant 0 (pieceWidths p o) _ b
      (fun i b1 => ∀ r c, b1 r c = if r = row + pr ∧ col ≤ c ∧ c < col + i
        then (b r c || pieces p o pr (c - col)) else b r c) hw ?_ ?_
    · intro r c
      have : ¬ (r = row + pr ∧ col ≤ c ∧ c < col + 0) := by omega
      rw [if_neg this]
    · intro j b1 hj0 hjw ih r c
      simp only [set2_apply, ih]
      by_cases h1 : r = row + pr ∧ c = col + j
      · obtain ⟨rfl, rfl⟩ := h1
        have e1 : ¬ (col ≤ col + j ∧ col + j < col + j) := by omega
        have e2 : (col ≤ col + j ∧ col + j < col + (j + 1)) := by omega
        have e3 : col + j - col = j := by omega
        simp [e1, e2, e3]
      · have e : (r = row + pr ∧ col ≤ c ∧ c < col + (j + 1)) ↔
            (r = row + pr ∧ col ≤ c ∧ c < col + j) := by
          constructor
          · rintro ⟨a, b, c1⟩; exact ⟨a, b, by omega⟩
          · rintro ⟨a, b, c1⟩; exact ⟨a, b, by omega⟩
        simp only [h1, if_false, e]
  funext r c
  unfold placePiece
  have outer := forUp_invariant 0 (pieceHeights p o)
    (fun pieceRow b => forUp 0 (pieceWidths p o)
        (fun pieceColumn b1 => set2 b1 (row + pieceRow) (col + pieceColumn)
          (b1 (row + pieceRow) (col + pieceColumn) || pieces p o pieceRow pieceColumn)) b)
    board
    (fun i b => ∀ r c, b r c = (board r c ||
      (decide (row ≤ r ∧ r < row + i ∧ col ≤ c ∧ c < col + pieceWidths p o)
        && pieces p o (r - row) (c - col)))) hh ?_ ?_
  · rw [outer r c]; rfl
  · intro r c
    have : ¬ (row ≤ r ∧ r < row + 0 ∧ col ≤ c ∧ c < col + pieceWidths p o) := by omega
    rw [decide_eq_false this]; simp
  · intro j b hj0 hjh ih r c
    beta_reduce
    rw [inner j b r c, ih r c]
    by_cases h1 : r = row + j ∧ col ≤ c ∧ c < col + pieceWidths p o
    · obtain ⟨rfl, h2, h3⟩ := h1
      have e1 : ¬ (row ≤ row + j ∧ row + j < row + j ∧ col ≤ c ∧ c < col + pieceWidths p o) := by
        omega
      have e2 : (row ≤ row + j ∧ row + j < row + (j + 1) ∧ col ≤ c ∧
          c < col + pieceWidths p o) := by omega
      have e3 : row + j - row = j := by omega
      simp [e1, e2, e3, h2, h3]
    · have e : (row ≤ r ∧ r < row + (j + 1) ∧ col ≤ c ∧ c < col + pieceWidths p o) ↔
          (row ≤ r ∧ r < row + j ∧ col ≤ c ∧ c < col + pieceWidths p o) := by
        constructor
        · rintro ⟨a, b, c1, d⟩; exact ⟨a, by omega, c1, d⟩
        · rintro ⟨a, b, c1, d⟩; exact ⟨a, by omega, c1, d⟩
      simp only [h1, if_false, e]

theorem updateHeightmap_spec (hm : Int → Int) (hmin : Int) (p o row col : Int)
    (hw : 0 ≤ pieceWidths p o) :
    (∀ c, (updateHeightmap (hm, hmin) p o row col).1 c =
      if col ≤ c ∧ c < col + pieceWidths p o then row + pieceTopHeightmaps p o (c - col)
      else hm c) ∧
    (updateHeightmap (hm, hmin) p o row col).2 ≤ hmin ∧
    (∀ pc, 0 ≤ pc → pc < pieceWidths p o →
      (updateHeightmap (hm, hmin) p o row col).2 ≤ row + pieceTopHeightmaps p o pc) ∧
    ((updateHeightmap (hm, hmin) p o row col).2 = hmin ∨
      ∃ pc, 0 ≤ pc ∧ pc < pieceWidths p o ∧
        (updateHeightmap (hm, hmin) p o row col).2 = row + pieceTopHeightmaps p o pc) := by
  unfold updateHeightmap
  refine forUp_invariant 0 (pieceWidths p o) _ (hm, hmin)
    (fun i h => (∀ c, h.1 c =
        if col ≤ c ∧ c < col + i then row + pieceTopHeightmaps p o (c - col) else hm c) ∧
      h.2 ≤ hmin ∧
      (∀ pc, 0 ≤ pc → pc < i → h.2 ≤ row + pieceTopHeightmaps p o pc) ∧
      (h.2 = hmin ∨ ∃ pc, 0 ≤ pc ∧ pc < i ∧ h.2 = row + pieceTopHeightmaps p o pc))
    hw ?_ ?_
  · refine ⟨fun c => ?_, le_refl _, fun pc h1 h2 => by omega, Or.inl rfl⟩
    have : ¬ (col ≤ c ∧ c < col + 0) := by omega
    rw [if_neg this]
  · rintro j h hj0 hjw ⟨h1, h2, h3, h4⟩
    have hc : ∀ c, set1 h.1 (col + j) (row + pieceTopHeightmaps p o j) c =
        if col ≤ c ∧ c < col + (j + 1) then row + pieceTopHeightmaps p o (c - col)
        else hm c := by
      intro c
      simp only [set1_apply, h1]
      by_cases e : c = col + j
      · subst e
        have e2 : (col ≤ col + j ∧ col + j < col + (j + 1)) := by omega
        have e3 : col + j - col = j := by omega
        simp [e2, e3]
      · have e2 : (col ≤ c ∧ c < col + (j + 1)) ↔ (col ≤ c ∧ c < col + j) := by
          constructor
          · rintro ⟨a, b⟩; exact ⟨a, by omega⟩
          · rintro ⟨a, b⟩; exact ⟨a, by omega⟩
        simp only [e, if_false, e2]
    have hv : set1 h.1 (col + j) (row + pieceTopHeightmaps p o j) (col + j)
        = row + pieceTopHeightmaps p o j := by simp
    simp only [hv]
    by_cases hlt : row + pieceTopHeightmaps p o j < h.2
    · simp only [hlt, if_true]
      refine ⟨hc, by omega, fun pc hp0 hp1 => ?_, Or.inr ⟨j, hj0, by omega, rfl⟩⟩
      by_cases e : pc = j
      · subst e; exact le_refl _
      · have := h3 pc hp0 (by omega); omega
    · simp only [hlt, if_false]
      refine ⟨hc, h2, fun pc hp0 hp1 => ?_, ?_⟩
      · by_cases e : pc = j
        · subst e; omega
        · exact h3 pc hp0 (by omega)
      · rcases h4 with h4 | ⟨pc, a, b, c⟩
        · exact Or.inl h4
        · exact Or.inr ⟨pc, a, by omega, c⟩

/-- Writing `v r c` to every cell of row `r` (columns `0..COLUMNS-1`), where `v` does not read
the row being written. -/
theorem rowWrite_spec (b : Int → Int → Bool) (dst : Int) (v : (Int → Int → Bool) → Int → Bool)
    (hv : ∀ (b1 : Int → Int → Bool) c, (∀ r1 c1, r1 ≠ dst → b1 r1 c1 = b r1 c1) →
      v b1 c = v b c) (r c : Int) :
    forUp 0 COLUMNS (fun col b1 => set2 b1 dst col (v b1 col)) b r c =
      if r = dst ∧ 0 ≤ c ∧ c < COLUMNS then v b c else b r c := by
  have h := forUp_invariant 0 COLUMNS (fun col b1 => set2 b1 dst col (v b1 col)) b
    (fun i b1 => ∀ r c, b1 r c = if r = dst ∧ 0 ≤ c ∧ c < i then v b c else b r c)
    (by decide) ?_ ?_
  · exact h r c
  · intro r c
    have : ¬ (r = dst ∧ 0 ≤ c ∧ c < 0) := by omega
    rw [if_neg this]
  · intro j b1 hj0 hj1 ih r c
    have hvj : v b1 j = v b j := hv b1 j (fun r1 c1 hne => by
      rw [ih r1 c1]
      have : ¬ (r1 = dst ∧ 0 ≤ c1 ∧ c1 < j) := fun h => hne h.1
      rw [if_neg this])
    simp only [set2_apply, ih, hvj]
    by_cases e : r = dst ∧ c = j
    · obtain ⟨rfl, rfl⟩ := e
      have e2 : (0 ≤ c ∧ c < c + 1) := by omega
      simp [e2]
    · have e2 : (r = dst ∧ 0 ≤ c ∧ c < j + 1) ↔ (r = dst ∧ 0 ≤ c ∧ c < j) := by
        constructor
        · rintro ⟨a, b, c1⟩; exact ⟨a, b, by omega⟩
        · rintro ⟨a, b, c1⟩; exact ⟨a, b, by omega⟩
      simp only [e, if_false, e2]

theorem shiftRows_spec (b : Int → Int → Bool) (firstRow lastRow shift : Int)
    (hs : 1 ≤ shift) (r c : Int) :
    shiftRows b firstRow lastRow shift r c =
      if 0 ≤ c ∧ c < COLUMNS then
        if firstRow ≤ r ∧ r < firstRow + shift then false
        else if firstRow + shift ≤ r ∧ r ≤ lastRow + shift then b (r - shift) c
        else b r c
      else b r c := by
  -- the copy loop
  have copy : ∀ r c, forDown lastRow firstRow
      (fun row b0 => forUp 0 COLUMNS (fun col b1 => set2 b1 (row + shift) col (b1 row col)) b0)
      b r c =
      if (firstRow + shift ≤ r ∧ r ≤ lastRow + shift) ∧ 0 ≤ c ∧ c < COLUMNS
      then b (r - shift) c else b r c := by
    by_cases hle : firstRow ≤ lastRow + 1
    · have h := forDown_invariant lastRow firstRow
        (fun row b0 => forUp 0 COLUMNS
          (fun col b1 => set2 b1 (row + shift) col (b1 row col)) b0) b
        (fun i b0 => ∀ r c, b0 r c =
          if (i + 1 + shift ≤ r ∧ r ≤ lastRow + shift) ∧ 0 ≤ c ∧ c < COLUMNS
          then b (r - shift) c else b r c) hle ?_ ?_
      · intro r c
        have e := h r c
        have e2 : firstRow - 1 + 1 + shift = firstRow + shift := by omega
        rw [e2] at e
        exact e
      · intro r c
        have : ¬ ((lastRow + 1 + shift ≤ r ∧ r ≤ lastRow + shift) ∧ 0 ≤ c ∧ c < COLUMNS) := by
          omega
        rw [if_neg this]
      · intro j b0 hj0 hj1 ih r c
        beta_reduce
        rw [rowWrite_spec b0 (j + shift) (fun b1 col => b1 j col)
          (fun b1 c1 hb => hb j c1 (by omega)) r c]
        rw [ih r c, ih j c]
        have e0 : ¬ ((j + 1 + shift ≤ j ∧ j ≤ lastRow + shift) ∧ 0 ≤ c ∧ c < COLUMNS) := by
          omega
        rw [if_neg e0]
        by_cases e : r = j + shift ∧ 0 ≤ c ∧ c < COLUMNS
        · obtain ⟨rfl, h1, h2⟩ := e
          have e1 : ((j - 1 + 1 + shift ≤ j + shift ∧ j + shift ≤ lastRow + shift) ∧
              0 ≤ c ∧ c < COLUMNS) := by omega
          have e2 : (j + shift = j + shift ∧ 0 ≤ c ∧ c < COLUMNS) := ⟨rfl, h1, h2⟩
          have e3 : j + shift - shift = j := by omega
          rw [if_pos e2, if_pos e1, e3]
        · rw [if_neg e]
          have e2 : ((j - 1 + 1 + shift ≤ r ∧ r ≤ lastRow + shift) ∧ 0 ≤ c ∧ c < COLUMNS) ↔
              ((j + 1 + shift ≤ r ∧ r ≤ lastRow + shift) ∧ 0 ≤ c ∧ c < COLUMNS) := by
            constructor
            · rintro ⟨⟨a, b⟩, c1, d⟩
              refine ⟨⟨?_, b⟩, c1, d⟩
              by_contra hn
              exact e ⟨by omega, c1, d⟩
            · rintro ⟨⟨a, b⟩, c1, d⟩; exact ⟨⟨by omega, b⟩, c1, d⟩
          simp only [e2]
    · intro r c
      rw [forDown_empty _ _ _ _ (by omega)]
      have : ¬ ((firstRow + shift ≤ r ∧ r ≤ lastRow + shift) ∧ 0 ≤ c ∧ c < COLUMNS) := by
        omega
      rw [if_neg this]
  -- the clearing loop
  have clear : ∀ (b0 : Int → Int → Bool) r c, forUp firstRow (firstRow + shift)
      (fun row b2 => forUp 0 COLUMNS (fun col b1 => set2 b1 row col false) b2) b0 r c =
      if (firstRow ≤ r ∧ r < firstRow + shift) ∧ 0 ≤ c ∧ c < COLUMNS then false
      else b0 r c := by
    intro b0
    refine forUp_invariant firstRow (firstRow + shift) _ b0
      (fun i b2 => ∀ r c, b2 r c =
        if (firstRow ≤ r ∧ r < i) ∧ 0 ≤ c ∧ c < COLUMNS then false else b0 r c)
      (by omega) ?_ ?_
    · intro r c
      have : ¬ ((firstRow ≤ r ∧ r < firstRow) ∧ 0 ≤ c ∧ c < COLUMNS) := by omega
      rw [if_neg this]
    · intro j b2 hj0 hj1 ih r c
      beta_reduce
      rw [rowWrite_spec b2 j (fun _ _ => false) (fun _ _ _ => rfl) r c, ih r c]
      by_cases e : r = j ∧ 0 ≤ c ∧ c < COLUMNS
      · obtain ⟨rfl, h1, h2⟩ := e
        have e1 : ((firstRow ≤ r ∧ r < r + 1) ∧ 0 ≤ c ∧ c < COLUMNS) := by omega
        have e2 : (r = r ∧ 0 ≤ c ∧ c < COLUMNS) := ⟨rfl, h1, h2⟩
        rw [if_pos e2, if_pos e1]
      · rw [if_neg e]
        have e2 : ((firstRow ≤ r ∧ r < j + 1) ∧ 0 ≤ c ∧ c < COLUMNS) ↔
            ((firstRow ≤ r ∧ r < j) ∧ 0 ≤ c ∧ c < COLUMNS) := by
          constructor
          · rintro ⟨⟨a, b⟩, c1, d⟩
            refine ⟨⟨a, ?_⟩, c1, d⟩
            by_contra hn
            exact e ⟨by omega, c1, d⟩
          · rintro ⟨⟨a, b⟩, c1, d⟩; exact ⟨⟨a, by omega⟩, c1, d⟩
        simp only [e2]
  unfold shiftRows
  rw [clear, copy]
  by_cases hc : 0 ≤ c ∧ c < COLUMNS
  · simp only [hc, and_true, if_true, and_self]
  · have e1 : ¬ ((firstRow ≤ r ∧ r < firstRow + shift) ∧ 0 ≤ c ∧ c < COLUMNS) :=
      fun h => hc h.2
    have e2 : ¬ ((firstRow + shift ≤ r ∧ r ≤ lastRow + shift) ∧ 0 ≤ c ∧ c < COLUMNS) :=
      fun h => hc h.2
    rw [if_neg e1, if_neg e2, if_neg hc]

theorem checkRowLoop_spec (b : Int → Int → Bool) (row : Int) :
    ∀ (n : Nat) (col : Int), 0 ≤ col → col + n = COLUMNS →
      (checkRowLoop b row n col = COLUMNS ↔ ∀ c, col ≤ c → c < COLUMNS → b row c = true) := by
  intro n
  induction n with
  | zero =>
    intro col h0 h1
    simp only [checkRowLoop]
    constructor
    · intro _ c hc1 hc2; push_cast at h1; omega
    · intro _; push_cast at h1; omega
  | succ n ih =>
    intro col h0 h1
    have hlt : col < COLUMNS := by push_cast at h1; omega
    simp only [checkRowLoop, hlt, if_true]
    by_cases hb : b row col = true
    · simp only [hb, Bool.not_true, Bool.false_eq_true, if_false]
      rw [ih (col + 1) (by omega) (by push_cast at h1 ⊢; omega)]
      constructor
      · intro h c hc1 hc2
        by_cases e : c = col
        · subst e; exact hb
        · exact h c (by omega) hc2
      · intro h c hc1 hc2
        exact h c (by omega) hc2
    · have hb2 : b row col = false := by simpa using hb
      simp only [hb2, Bool.not_false, if_true]
      constructor
      · intro h; omega
      · intro h
        have := h col (le_refl _) hlt
        rw [hb2] at this
        exact absurd this (by decide)

theorem checkRow_full_iff (b : Int → Int → Bool) (row : Int) :
    checkRowLoop b row COLUMNS.toNat 0 = COLUMNS ↔
      ∀ c, 0 ≤ c → c < COLUMNS → b row c = true :=
  checkRowLoop_spec b row COLUMNS.toNat 0 (le_refl _) (by decide)

theorem topScanLoop_spec (b : Int → Int → Bool) (col : Int) :
    ∀ (n : Nat) (row : Int), row + n = ROWS →
      row ≤ topScanLoop b col n row ∧ topScanLoop b col n row ≤ ROWS ∧
      (∀ r, row ≤ r → r < topScanLoop b col n row → b r col = false) ∧
      (topScanLoop b col n row < ROWS → b (topScanLoop b col n row) col = true) := by
  intro n
  induction n with
  | zero =>
    intro row h
    simp only [topScanLoop]
    push_cast at h
    refine ⟨le_refl _, by omega, fun r h1 h2 => by omega, fun h1 => by omega⟩
  | succ n ih =>
    intro row h
    have hlt : row < ROWS := by push_cast at h; omega
    simp only [topScanLoop]
    by_cases hb : b row col = false
    · have hc : row < ROWS ∧ b row col = false := ⟨hlt, hb⟩
      rw [if_pos hc]
      obtain ⟨h1, h2, h3, h4⟩ := ih (row + 1) (by push_cast at h ⊢; omega)
      refine ⟨by omega, h2, fun r hr1 hr2 => ?_, h4⟩
      by_cases e : r = row
      · subst e; exact hb
      · exact h3 r (by omega) hr2
    · have hc : ¬ (row < ROWS ∧ b row col = false) := fun h => hb h.2
      rw [if_neg hc]
      refine ⟨le_refl _, by omega, fun r h1 h2 => by omega, fun _ => by simpa using hb⟩

theorem rescanHeightmap_spec (b : Int → Int → Bool) (hmin : Int) (hm : Int → Int) (c : Int) :
    rescanHeightmap b hmin hm c =
      if 0 ≤ c ∧ c < COLUMNS then topScanLoop b c (ROWS - hmin).toNat hmin else hm c := by
  unfold rescanHeightmap
  have h := forUp_invariant 0 COLUMNS
    (fun col h => set1 h col (topScanLoop b col (ROWS - hmin).toNat hmin)) hm
    (fun i h => ∀ c, h c =
      if 0 ≤ c ∧ c < i then topScanLoop b c (ROWS - hmin).toNat hmin else hm c)
    (by decide) ?_ ?_
  · exact h c
  · intro c
    have : ¬ (0 ≤ c ∧ c < 0) := by omega
    rw [if_neg this]
  · intro j h hj0 hj1 ih c
    simp only [set1_apply, ih]
    by_cases e : c = j
    · subst e
      have e2 : (0 ≤ c ∧ c < c + 1) := by omega
      simp [e2]
    · have e2 : (0 ≤ c ∧ c < j + 1) ↔ (0 ≤ c ∧ c < j) := by
        constructor
        · rintro ⟨a, b⟩; exact ⟨a, by omega⟩
        · rintro ⟨a, b⟩; exact ⟨a, by omega⟩
      simp only [e, if_false, e2]

/-! ## Rows of a board as lists -/

theorem rowOf_length (b : Int → Int → Bool) (r : Int) : (rowOf b r).length = 10 := by
  simp [rowOf]
  rfl

theorem rowOf_congr (b b1 : Int → Int → Bool) (r r1 : Int)
    (h : ∀ c, 0 ≤ c → c < COLUMNS → b r c = b1 r1 c) : rowOf b r = rowOf b1 r1 := by
  unfold rowOf
  apply List.map_congr_left
  intro c hc
  rw [List.mem_range] at hc
  exact h c (by omega) (by have : COLUMNS.toNat = 10 := rfl; omega)

theorem rowOf_eq_iff (b b1 : Int → Int → Bool) (r r1 : Int) :
    rowOf b r = rowOf b1 r1 ↔ ∀ c, 0 ≤ c → c < COLUMNS → b r c = b1 r1 c := by
  constructor
  · intro h c hc0 hc1
    unfold rowOf at h
    have h2 := (List.map_inj_left.mp h) c.toNat
      (List.mem_range.mpr (by have : COLUMNS.toNat = 10 := rfl; omega))
    have e : ((c.toNat : Nat) : Int) = c := by omega
    rw [e] at h2
    exact h2
  · exact rowOf_congr b b1 r r1

theorem isFullRow_rowOf (b : Int → Int → Bool) (r : Int) :
    isFullRow (rowOf b r) = true ↔ ∀ c, 0 ≤ c → c < COLUMNS → b r c = true := by
  unfold isFullRow rowOf
  rw [List.all_eq_true]
  constructor
  · intro h c hc0 hc1
    have := h (b r c) (List.mem_map.mpr ⟨c.toNat,
      List.mem_range.mpr (by have : COLUMNS.toNat = 10 := rfl; omega), by
        have e : ((c.toNat : Nat) : Int) = c := by omega
        rw [e]⟩)
    simpa using this
  · intro h x hx
    obtain ⟨c, hc, rfl⟩ := List.mem_map.mp hx
    rw [List.mem_range] at hc
    simpa using h c (by omega) (by have : COLUMNS.toNat = 10 := rfl; omega)

theorem rowOf_eq_emptyRow (b : Int → Int → Bool) (r : Int) :
    rowOf b r = emptyRow ↔ ∀ c, 0 ≤ c → c < COLUMNS → b r c = false := by
  have h : emptyRow = rowOf (fun _ _ => false) r := by
    unfold emptyRow rowOf
    simp
  rw [h, rowOf_eq_iff]

theorem isFullRow_emptyRow : isFullRow emptyRow = false := by decide

theorem rowsFrom_length (b : Int → Int → Bool) (lo : Int) (n : Nat) :
    (rowsFrom b lo n).length = n := by
  simp [rowsFrom]

theorem rowsFrom_zero (b : Int → Int → Bool) (lo : Int) : rowsFrom b lo 0 = [] := by
  simp [rowsFrom]

theorem rowsFrom_succ (b : Int → Int → Bool) (lo : Int) (n : Nat) :
    rowsFrom b lo (n + 1) = rowsFrom b lo n ++ [rowOf b (lo + n)] := by
  simp [rowsFrom, List.range_succ]

theorem rowsFrom_cons (b : Int → Int → Bool) (lo : Int) (n : Nat) :
    rowsFrom b lo (n + 1) = rowOf b lo :: rowsFrom b (lo + 1) n := by
  simp only [rowsFrom, List.range_succ_eq_map, List.map_cons, List.map_map]
  congr 1
  · simp
  · apply List.map_congr_left
    intro i _
    simp only [Function.comp]
    congr 1
    push_cast
    omega

theorem rowsFrom_add (b : Int → Int → Bool) (lo : Int) (m n : Nat) :
    rowsFrom b lo (m + n) = rowsFrom b lo m ++ rowsFrom b (lo + m) n := by
  induction n with
  | zero => simp [rowsFrom_zero]
  | succ n ih =>
    rw [← Nat.add_assoc, rowsFrom_succ, ih, rowsFrom_succ, List.append_assoc]
    have e : lo + ((m + n : Nat) : Int) = lo + (m : Int) + (n : Int) := by push_cast; omega
    rw [e]

theorem rowsFrom_congr (b b1 : Int → Int → Bool) (lo lo1 : Int) (n : Nat)
    (h : ∀ i : Int, 0 ≤ i → i < n → ∀ c, 0 ≤ c → c < COLUMNS → b (lo + i) c = b1 (lo1 + i) c) :
    rowsFrom b lo n = rowsFrom b1 lo1 n := by
  unfold rowsFrom
  apply List.map_congr_left
  intro i hi
  rw [List.mem_range] at hi
  exact rowOf_congr b b1 _ _ (h i (by omega) (by omega))

theorem rowsFrom_eq_replicate (b : Int → Int → Bool) (lo : Int) (n : Nat)
    (h : ∀ i : Int, 0 ≤ i → i < n → ∀ c, 0 ≤ c → c < COLUMNS → b (lo + i) c = false) :
    rowsFrom b lo n = List.replicate n emptyRow := by
  induction n with
  | zero => simp [rowsFrom_zero]
  | succ n ih =>
    rw [rowsFrom_succ, ih (fun i h0 h1 => h i h0 (by push_cast; omega)),
      (rowOf_eq_emptyRow b (lo + n)).mpr (h n (by omega) (by push_cast; omega)),
      List.replicate_succ']

theorem mem_rowsFrom (b : Int → Int → Bool) (lo : Int) (n : Nat) (x : List Bool) :
    x ∈ rowsFrom b lo n ↔ ∃ i : Int, 0 ≤ i ∧ i < n ∧ x = rowOf b (lo + i) := by
  unfold rowsFrom
  rw [List.mem_map]
  constructor
  · rintro ⟨i, hi, rfl⟩
    rw [List.mem_range] at hi
    exact ⟨i, by omega, by omega, rfl⟩
  · rintro ⟨i, h0, h1, rfl⟩
    refine ⟨i.toNat, List.mem_range.mpr (by omega), ?_⟩
    have e : ((i.toNat : Nat) : Int) = i := by omega
    rw [e]

theorem scanRegion_spec (P : Int → Int → Bool) (p o row : Int) (hh : 0 ≤ pieceHeights p o) :
    (∀ r c, ¬ (row ≤ r ∧ r < row + pieceHeights p o ∧ 0 ≤ c ∧ c < COLUMNS) →
      (scanRegion P p o row).1 r c = P r c) ∧
    rowsFrom (scanRegion P p o row).1 row (pieceHeights p o).toNat =
      List.replicate (scanRegion P p o row).2.toNat emptyRow ++
        (rowsFrom P row (pieceHeights p o).toNat).filter (fun x => !isFullRow x) ∧
    (scanRegion P p o row).2 =
      ((rowsFrom P row (pieceHeights p o).toNat).filter isFullRow).length ∧
    ((scanRegion P p o row).2 = 0 → (scanRegion P p o row).1 = P) := by
  unfold scanRegion
  refine forUp_invariant 0 (pieceHeights p o) _ (P, (0 : Int))
    (fun (i : Int) (st : (Int → Int → Bool) × Int) =>
      (∀ r c, ¬ (row ≤ r ∧ r < row + i ∧ 0 ≤ c ∧ c < COLUMNS) → st.1 r c = P r c) ∧
      rowsFrom st.1 row i.toNat =
        List.replicate st.2.toNat emptyRow ++
          (rowsFrom P row i.toNat).filter (fun x => !isFullRow x) ∧
      st.2 = ((rowsFrom P row i.toNat).filter isFullRow).length ∧
      (st.2 = 0 → st.1 = P)) hh ?_ ?_
  · refine ⟨fun r c _ => rfl, ?_, ?_, fun _ => rfl⟩
    · simp [rowsFrom_zero]
    · simp [rowsFrom_zero]
  · rintro j st hj0 hj1 ⟨ha, hb, hc, hd⟩
    have hjn : (j + 1).toNat = j.toNat + 1 := by omega
    have hjc : ((j.toNat : Nat) : Int) = j := by omega
    have hrow : ∀ c, st.1 (row + j) c = P (row + j) c := fun c => ha (row + j) c (by omega)
    have hfull : checkRowLoop st.1 (row + j) COLUMNS.toNat 0 = COLUMNS ↔
        isFullRow (rowOf P (row + j)) = true := by
      rw [checkRow_full_iff, isFullRow_rowOf]
      constructor
      · intro h c h0 h1; rw [← hrow c]; exact h c h0 h1
      · intro h c h0 h1; rw [hrow c]; exact h c h0 h1
    have hk : 0 ≤ st.2 := by rw [hc]; exact Int.natCast_nonneg _
    by_cases hf : checkRowLoop st.1 (row + j) COLUMNS.toNat 0 = COLUMNS
    · have hfP := hfull.mp hf
      rw [if_pos hf]
      have hsh := shiftRows_spec st.1 row (row + j - 1) 1 (le_refl _)
      refine ⟨fun r c hrc => ?_, ?_, ?_, fun h0 => by simp only at h0; omega⟩
      · simp only
        rw [hsh r c]
        by_cases hcc : 0 ≤ c ∧ c < COLUMNS
        · have e1 : ¬ (row ≤ r ∧ r < row + 1) := by omega
          have e2 : ¬ (row + 1 ≤ r ∧ r ≤ row + j - 1 + 1) := by omega
          rw [if_pos hcc, if_neg e1, if_neg e2]
          exact ha r c (by omega)
        · rw [if_neg hcc]
          exact ha r c (fun h => hcc ⟨h.2.2.1, h.2.2.2⟩)
      · simp only
        rw [hjn, rowsFrom_cons, rowsFrom_succ P, List.filter_append, hjc]
        have e1 : rowOf (shiftRows st.1 row (row + j - 1) 1) row = emptyRow := by
          rw [rowOf_eq_emptyRow]
          intro c h0 h1
          have c1 : row ≤ row ∧ row < row + 1 := by omega
          rw [hsh row c, if_pos ⟨h0, h1⟩, if_pos c1]
        have e2 : rowsFrom (shiftRows st.1 row (row + j - 1) 1) (row + 1) j.toNat =
            rowsFrom st.1 row j.toNat := by
          apply rowsFrom_congr
          intro i hi0 hi1 c h0 h1
          have c1 : ¬ (row ≤ row + 1 + i ∧ row + 1 + i < row + 1) := by omega
          have c2 : row + 1 ≤ row + 1 + i ∧ row + 1 + i ≤ row + j - 1 + 1 := by omega
          have c3 : row + 1 + i - 1 = row + i := by omega
          rw [hsh (row + 1 + i) c, if_pos ⟨h0, h1⟩, if_neg c1, if_pos c2, c3]
        have e3 : (st.2 + 1).toNat = st.2.toNat + 1 := by omega
        rw [e1, e2, hb, e3, List.replicate_succ]
        simp [hfP]
      · simp only
        rw [hjn, rowsFrom_succ P, List.filter_append, hjc, List.length_append, hc]
        simp [hfP]
    · have hfP : isFullRow (rowOf P (row + j)) = false := by
        cases h : isFullRow (rowOf P (row + j))
        · rfl
        · exact absurd (hfull.mpr h) hf
      rw [if_neg hf]
      refine ⟨fun r c hrc => ha r c (by omega), ?_, ?_, hd⟩
      · rw [hjn, rowsFrom_succ, rowsFrom_succ P, List.filter_append, hjc, hb]
        have e1 : rowOf st.1 (row + j) = rowOf P (row + j) :=
          rowOf_congr _ _ _ _ (fun c _ _ => hrow c)
        rw [e1]
        simp [hfP]
      · rw [hjn, rowsFrom_succ P, List.filter_append, hjc, List.length_append, hc]
        simp [hfP]

theorem pieceCell_true_iff (p o row col r c : Int) :
    pieceCell p o row col r c = true ↔
      (row ≤ r ∧ r < row + pieceHeights p o ∧ col ≤ c ∧ c < col + pieceWidths p o) ∧
        pieces p o (r - row) (c - col) = true := by
  simp [pieceCell]

theorem withPiece_apply (b : Int → Int → Bool) (p o row col r c : Int) :
    withPiece b p o row col r c = (b r c || pieceCell p o row col r c) := rfl

theorem withPiece_outside (b : Int → Int → Bool) (p o row col r c : Int)
    (h : ¬ (row ≤ r ∧ r < row + pieceHeights p o)) :
    withPiece b p o row col r c = b r c := by
  rw [withPiece_apply]
  cases hcell : pieceCell p o row col r c
  · simp
  · exfalso
    rw [pieceCell_true_iff] at hcell
    exact h ⟨hcell.1.1, hcell.1.2.1⟩

/-- The landing row of a legal drop: bounded by every column of the piece and attained by one. -/
theorem findRow_landing (hm : Int → Int) (p o col : Int) (sh : ShapeOK p o)
    (hle : ∀ c, 0 ≤ c → c < COLUMNS → hm c ≤ ROWS) (hc0 : 0 ≤ col)
    (hc1 : col ≤ COLUMNS - pieceWidths p o) :
    (∀ pc, 0 ≤ pc → pc < pieceWidths p o →
      findRow hm p o col ≤ hm (col + pc) - pieceHeightmaps p o pc) ∧
    (∃ pc, 0 ≤ pc ∧ pc < pieceWidths p o ∧
      findRow hm p o col = hm (col + pc) - pieceHeightmaps p o pc) ∧
    findRow hm p o col + pieceHeights p o ≤ ROWS := by
  obtain ⟨h1, h2, h3⟩ := findRow_spec hm p o col (by have := sh.width_pos; omega)
  have hw := sh.width_pos
  refine ⟨h2, ?_, ?_⟩
  · rcases h3 with h3 | h3
    · exfalso
      have a := h2 0 (le_refl _) (by omega)
      have b := sh.top_lt_bottom 0 (le_refl _) (by omega)
      have c := sh.top_nonneg 0 (le_refl _) (by omega)
      have d := hle (col + 0) (by omega) (by omega)
      omega
    · exact h3
  · obtain ⟨pc, a, b, c⟩ := sh.bottom_height
    have d := h2 pc a b
    have e := hle (col + pc) (by omega) (by omega)
    omega

theorem placement_inv (board : Int → Int → Bool) (hm : Int → Int) (hmin : Int)
    (p o col : Int) (hI : StackInv board hm hmin) (sh : ShapeOK p o) (hc0 : 0 ≤ col)
    (hc1 : col ≤ COLUMNS - pieceWidths p o) (hr : 0 ≤ findRow hm p o col) :
    StackInv (withPiece board p o (findRow hm p o col) col)
      (updateHeightmap (hm, hmin) p o (findRow hm p o col) col).1
      (updateHeightmap (hm, hmin) p o (findRow hm p o col) col).2 ∧
    (updateHeightmap (hm, hmin) p o (findRow hm p o col) col).2 ≤ findRow hm p o col := by
  obtain ⟨r1, ⟨pcs, r2a, r2b, r2c⟩, r3⟩ := findRow_landing hm p o col sh hI.hm_le hc0 hc1
  obtain ⟨u1, u2, u3, u4⟩ := updateHeightmap_spec hm hmin p o (findRow hm p o col) col
    (by have := sh.width_pos; omega)
  generalize findRow hm p o col = row at *
  generalize (updateHeightmap (hm, hmin) p o row col).1 = hm1 at *
  generalize (updateHeightmap (hm, hmin) p o row col).2 = hmin1 at *
  have hw := sh.width_pos
  -- the heightmap entry of a column under the piece
  have inCol : ∀ c, col ≤ c → c < col + pieceWidths p o →
      hm1 c = row + pieceTopHeightmaps p o (c - col) ∧
      0 ≤ pieceTopHeightmaps p o (c - col) ∧
      pieceTopHeightmaps p o (c - col) < pieceHeightmaps p o (c - col) ∧
      pieceHeightmaps p o (c - col) ≤ pieceHeights p o ∧
      row + pieceHeightmaps p o (c - col) ≤ hm c := by
    intro c h0 h1
    have e := u1 c
    rw [if_pos ⟨h0, h1⟩] at e
    have a := r1 (c - col) (by omega) (by omega)
    have e2 : col + (c - col) = c := by omega
    rw [e2] at a
    exact ⟨e, sh.top_nonneg _ (by omega) (by omega), sh.top_lt_bottom _ (by omega) (by omega),
      sh.bottom_le _ (by omega) (by omega), by omega⟩
  have outCol : ∀ c, ¬ (col ≤ c ∧ c < col + pieceWidths p o) → hm1 c = hm c := by
    intro c h
    have e := u1 c
    rw [if_neg h] at e
    exact e
  refine ⟨?_, ?_⟩
  · refine
      { hm_nonneg := ?_, hm_le := ?_, hm_filled := ?_, hm_above := ?_
        min_le := ?_, min_attained := ?_, no_gap := ?_ }
    · intro c h0 h1
      by_cases hc : col ≤ c ∧ c < col + pieceWidths p o
      · obtain ⟨a, b, _, _, _⟩ := inCol c hc.1 hc.2; omega
      · rw [outCol c hc]; exact hI.hm_nonneg c h0 h1
    · intro c h0 h1
      by_cases hc : col ≤ c ∧ c < col + pieceWidths p o
      · obtain ⟨a, b, c1, d, e⟩ := inCol c hc.1 hc.2
        have := hI.hm_le c h0 h1
        omega
      · rw [outCol c hc]; exact hI.hm_le c h0 h1
    · intro c h0 h1 hlt
      rw [withPiece_apply, Bool.or_eq_true]
      by_cases hc : col ≤ c ∧ c < col + pieceWidths p o
      · obtain ⟨a, b, c1, d, e⟩ := inCol c hc.1 hc.2
        right
        rw [pieceCell_true_iff, a]
        refine ⟨⟨by omega, by omega, hc.1, hc.2⟩, ?_⟩
        have e1 : row + pieceTopHeightmaps p o (c - col) - row
            = pieceTopHeightmaps p o (c - col) := by omega
        rw [e1]
        exact sh.top_filled _ (by omega) (by omega)
      · left
        rw [outCol c hc] at hlt ⊢
        exact hI.hm_filled c h0 h1 hlt
    · intro c h0 h1 r hr0 hr1
      rw [withPiece_apply, Bool.or_eq_false_iff]
      by_cases hc : col ≤ c ∧ c < col + pieceWidths p o
      · obtain ⟨a, b, c1, d, e⟩ := inCol c hc.1 hc.2
        refine ⟨hI.hm_above c h0 h1 r hr0 (by omega), ?_⟩
        cases hcell : pieceCell p o row col r c
        · rfl
        · exfalso
          rw [pieceCell_true_iff] at hcell
          obtain ⟨⟨q1, q2, q3, q4⟩, q5⟩ := hcell
          have := sh.cell (r - row) (c - col) (by omega) (by omega) (by omega) (by omega) q5
          omega
      · rw [outCol c hc] at hr1
        refine ⟨hI.hm_above c h0 h1 r hr0 hr1, ?_⟩
        cases hcell : pieceCell p o row col r c
        · rfl
        · exfalso
          rw [pieceCell_true_iff] at hcell
          exact hc ⟨hcell.1.2.2.1, hcell.1.2.2.2⟩
    · intro c h0 h1
      by_cases hc : col ≤ c ∧ c < col + pieceWidths p o
      · obtain ⟨a, _⟩ := inCol c hc.1 hc.2
        have := u3 (c - col) (by omega) (by omega)
        omega
      · rw [outCol c hc]
        have := hI.min_le c h0 h1
        omega
    · rcases u4 with u4 | ⟨pc, a, b, c⟩
      · obtain ⟨c0, k0, k1, k2⟩ := hI.min_attained
        refine ⟨c0, k0, k1, ?_⟩
        by_cases hc : col ≤ c0 ∧ c0 < col + pieceWidths p o
        · exfalso
          obtain ⟨a, b, c1, d, e⟩ := inCol c0 hc.1 hc.2
          have := u3 (c0 - col) (by omega) (by omega)
          omega
        · rw [outCol c0 hc, k2, u4]
      · refine ⟨col + pc, by omega, by omega, ?_⟩
        obtain ⟨a1, _⟩ := inCol (col + pc) (by omega) (by omega)
        have e1 : col + pc - col = pc := by omega
        rw [e1] at a1
        rw [a1, c]
    · intro r hr0 hr1
      by_cases hge : hmin ≤ r
      · obtain ⟨c, k0, k1, k2⟩ := hI.no_gap r hge hr1
        exact ⟨c, k0, k1, by rw [withPiece_apply, k2]; rfl⟩
      · have hrow : row ≤ r := by
          rcases u4 with u4 | ⟨pc, a, b, c⟩
          · omega
          · have := sh.top_nonneg pc a b
            omega
        have hbot : r < row + pieceHeights p o := by
          have a := sh.bottom_le pcs r2a r2b
          have b := hI.min_le (col + pcs) (by omega) (by omega)
          omega
        obtain ⟨pc, a, b, c⟩ := sh.row_nonempty (r - row) (by omega) (by omega)
        refine ⟨col + pc, by omega, by omega, ?_⟩
        rw [withPiece_apply, Bool.or_eq_true]
        right
        rw [pieceCell_true_iff]
        refine ⟨⟨hrow, hbot, by omega, by omega⟩, ?_⟩
        have e1 : col + pc - col = pc := by omega
        rw [e1]
        exact c
  · obtain ⟨pc, a, b, c⟩ := sh.top_zero
    have := u3 pc a b
    omega

theorem not_full_of_isFullRow_false (b : Int → Int → Bool) (r : Int)
    (h : isFullRow (rowOf b r) = false) : ∃ c, 0 ≤ c ∧ c < COLUMNS ∧ b r c = false := by
  by_contra hn
  have : isFullRow (rowOf b r) = true := by
    rw [isFullRow_rowOf]
    intro c h0 h1
    cases hb : b r c
    · exact absurd ⟨c, h0, h1, hb⟩ hn
    · rfl
  rw [h] at this
  exact absurd this (by decide)

theorem isFullRow_false_of_not_full (b : Int → Int → Bool) (r : Int)
    (h : ∃ c, 0 ≤ c ∧ c < COLUMNS ∧ b r c = false) : isFullRow (rowOf b r) = false := by
  obtain ⟨c, h0, h1, h2⟩ := h
  cases hf : isFullRow (rowOf b r)
  · rfl
  · have := (isFullRow_rowOf b r).mp hf c h0 h1
    rw [h2] at this
    exact absurd this (by decide)

theorem filter_notFull_rowsFrom (b : Int → Int → Bool) (lo : Int) (n : Nat)
    (h : ∀ i : Int, 0 ≤ i → i < n → ∃ c, 0 ≤ c ∧ c < COLUMNS ∧ b (lo + i) c = false) :
    (rowsFrom b lo n).filter (fun x => !isFullRow x) = rowsFrom b lo n ∧
    (rowsFrom b lo n).filter isFullRow = [] := by
  constructor
  · rw [List.filter_eq_self]
    intro x hx
    obtain ⟨i, h0, h1, rfl⟩ := (mem_rowsFrom b lo n x).mp hx
    rw [isFullRow_false_of_not_full b _ (h i h0 h1)]
    rfl
  · rw [List.filter_eq_nil_iff]
    intro x hx
    obtain ⟨i, h0, h1, rfl⟩ := (mem_rowsFrom b lo n x).mp hx
    rw [isFullRow_false_of_not_full b _ (h i h0 h1)]
    decide

theorem filter_replicate_emptyRow (n : Nat) :
    (List.replicate n emptyRow).filter (fun x => !isFullRow x) = List.replicate n emptyRow ∧
    (List.replicate n emptyRow).filter isFullRow = [] := by
  constructor
  · rw [List.filter_eq_self]
    intro x hx
    rw [List.eq_of_mem_replicate hx]
    decide
  · rw [List.filter_eq_nil_iff]
    intro x hx
    rw [List.eq_of_mem_replicate hx]
    decide

/-- The rows of the board with the piece, split at the top of the stack and at the rows of the
piece; the rows outside the piece's rows are not full. -/
theorem rows_of_placed (P : Int → Int → Bool) (hm1 : Int → Int) (hmin1 row : Int) (n : Nat)
    (hP : StackInv P hm1 hmin1) (h0 : 0 ≤ hmin1) (hle : hmin1 ≤ row) (hn : row + n ≤ ROWS)
    (hnofull : ∀ r, 0 ≤ r → r < ROWS → ¬ (row ≤ r ∧ r < row + n) →
      ∃ c, 0 ≤ c ∧ c < COLUMNS ∧ P r c = false) :
    boardRows P = List.replicate hmin1.toNat emptyRow ++ (rowsFrom P hmin1 (row - hmin1).toNat
      ++ (rowsFrom P row n ++ rowsFrom P (row + n) (ROWS - row - n).toNat)) ∧
    (boardRows P).filter (fun x => !isFullRow x) =
      List.replicate hmin1.toNat emptyRow ++ (rowsFrom P hmin1 (row - hmin1).toNat
      ++ ((rowsFrom P row n).filter (fun x => !isFullRow x)
        ++ rowsFrom P (row + n) (ROWS - row - n).toNat)) ∧
    (boardRows P).filter isFullRow = (rowsFrom P row n).filter isFullRow := by
  have e20 : ROWS.toNat = hmin1.toNat + ((row - hmin1).toNat
      + (n + (ROWS - row - n).toNat)) := by
    have : ROWS.toNat = 20 := rfl
    omega
  have i1 : (0 : Int) + (hmin1.toNat : Int) = hmin1 := by omega
  have i2 : hmin1 + ((row - hmin1).toNat : Int) = row := by omega
  have top : rowsFrom P 0 hmin1.toNat = List.replicate hmin1.toNat emptyRow := by
    apply rowsFrom_eq_replicate
    intro i hi0 hi1 c hc0 hc1
    have := hP.min_le c hc0 hc1
    exact hP.hm_above c hc0 hc1 (0 + i) (by omega) (by omega)
  have split : boardRows P = List.replicate hmin1.toNat emptyRow ++
      (rowsFrom P hmin1 (row - hmin1).toNat
      ++ (rowsFrom P row n ++ rowsFrom P (row + n) (ROWS - row - n).toNat)) := by
    unfold boardRows
    rw [e20, rowsFrom_add, rowsFrom_add, rowsFrom_add, i1, i2, top]
  have f2 := filter_notFull_rowsFrom P hmin1 (row - hmin1).toNat
    (fun i hi0 hi1 => hnofull (hmin1 + i) (by omega) (by omega) (by omega))
  have f4 := filter_notFull_rowsFrom P (row + n) (ROWS - row - n).toNat
    (fun i hi0 hi1 => hnofull (row + n + i) (by omega) (by omega) (by omega))
  have f1 := filter_replicate_emptyRow hmin1.toNat
  refine ⟨split, ?_, ?_⟩
  · rw [split, List.filter_append, List.filter_append, List.filter_append, f1.1, f2.1, f4.1]
  · rw [split, List.filter_append, List.filter_append, List.filter_append, f1.2, f2.2, f4.2]
    simp

/-- The rows of the board after the final shift of `dropPiece`, given what the region scan
left. -/
theorem rows_of_cleared (P S : Int → Int → Bool) (hm1 : Int → Int) (hmin1 row : Int)
    (n k : Nat) (hP : StackInv P hm1 hmin1) (h0 : 0 ≤ hmin1) (hle : hmin1 ≤ row)
    (hn : row + n ≤ ROWS) (hk : 1 ≤ k) (hkn : k ≤ n)
    (hout : ∀ r c, ¬ (row ≤ r ∧ r < row + n ∧ 0 ≤ c ∧ c < COLUMNS) → S r c = P r c)
    (hreg : rowsFrom S row n = List.replicate k emptyRow ++
      (rowsFrom P row n).filter (fun x => !isFullRow x)) :
    boardRows (shiftRows S hmin1 (row - 1) k) =
      List.replicate (hmin1.toNat + k) emptyRow ++ (rowsFrom P hmin1 (row - hmin1).toNat
      ++ ((rowsFrom P row n).filter (fun x => !isFullRow x)
        ++ rowsFrom P (row + n) (ROWS - row - n).toNat)) ∧
    rowsFrom (shiftRows S hmin1 (row - 1) k) (hmin1 + k) (ROWS - (hmin1 + k)).toNat =
      rowsFrom P hmin1 (row - hmin1).toNat
      ++ ((rowsFrom P row n).filter (fun x => !isFullRow x)
        ++ rowsFrom P (row + n) (ROWS - row - n).toNat) ∧
    (∀ r c, 0 ≤ r → r < hmin1 + k → 0 ≤ c → c < COLUMNS →
      shiftRows S hmin1 (row - 1) k r c = false) := by
  have hsh := shiftRows_spec S hmin1 (row - 1) k (by omega)
  generalize shiftRows S hmin1 (row - 1) k = final at *
  have e20 : ROWS.toNat = hmin1.toNat + (k + ((row - hmin1).toNat
      + ((n - k) + (ROWS - row - n).toNat))) := by
    have : ROWS.toNat = 20 := rfl
    omega
  have erest : (ROWS - (hmin1 + k)).toNat = (row - hmin1).toNat
      + ((n - k) + (ROWS - row - n).toNat) := by
    have : ROWS.toNat = 20 := rfl
    omega
  have i1 : (0 : Int) + (hmin1.toNat : Int) = hmin1 := by omega
  have i3 : hmin1 + (k : Int) + ((row - hmin1).toNat : Int) = row + k := by omega
  have i4 : row + (k : Int) + ((n - k : Nat) : Int) = row + n := by omega
  -- the rows above the old top of the stack
  have rowsAbove : ∀ r c, 0 ≤ r → r < hmin1 → 0 ≤ c → c < COLUMNS → P r c = false := by
    intro r c hr0 hr1 hc0 hc1
    have := hP.min_le c hc0 hc1
    exact hP.hm_above c hc0 hc1 r hr0 (by omega)
  have empties : ∀ r c, 0 ≤ r → r < hmin1 + k → 0 ≤ c → c < COLUMNS → final r c = false := by
    intro r c hr0 hr1 hc0 hc1
    rw [hsh r c, if_pos ⟨hc0, hc1⟩]
    by_cases c1 : hmin1 ≤ r ∧ r < hmin1 + k
    · rw [if_pos c1]
    · have c2 : ¬ (hmin1 + (k : Int) ≤ r ∧ r ≤ row - 1 + k) := by omega
      rw [if_neg c1, if_neg c2, hout r c (by omega)]
      exact rowsAbove r c hr0 (by omega) hc0 hc1
  have p12 : rowsFrom final 0 (hmin1.toNat + k) = List.replicate (hmin1.toNat + k) emptyRow := by
    apply rowsFrom_eq_replicate
    intro i hi0 hi1 c hc0 hc1
    exact empties (0 + i) c (by omega) (by push_cast at hi1; omega) hc0 hc1
  have p3 : rowsFrom final (hmin1 + k) (row - hmin1).toNat =
      rowsFrom P hmin1 (row - hmin1).toNat := by
    apply rowsFrom_congr
    intro i hi0 hi1 c hc0 hc1
    have c1 : ¬ (hmin1 ≤ hmin1 + (k : Int) + i ∧ hmin1 + (k : Int) + i < hmin1 + k) := by omega
    have c2 : hmin1 + (k : Int) ≤ hmin1 + k + i ∧ hmin1 + (k : Int) + i ≤ row - 1 + k := by
      omega
    have c3 : hmin1 + (k : Int) + i - k = hmin1 + i := by omega
    rw [hsh _ c, if_pos ⟨hc0, hc1⟩, if_neg c1, if_pos c2, c3, hout _ c (by omega)]
  have below : ∀ r c, row + (k : Int) ≤ r → final r c = S r c := by
    intro r c hr
    rw [hsh r c]
    by_cases hc : 0 ≤ c ∧ c < COLUMNS
    · have c1 : ¬ (hmin1 ≤ r ∧ r < hmin1 + k) := by omega
      have c2 : ¬ (hmin1 + (k : Int) ≤ r ∧ r ≤ row - 1 + k) := by omega
      rw [if_pos hc, if_neg c1, if_neg c2]
    · rw [if_neg hc]
  have p4 : rowsFrom final (row + k) (n - k) =
      (rowsFrom P row n).filter (fun x => !isFullRow x) := by
    have e1 : rowsFrom final (row + k) (n - k) = rowsFrom S (row + k) (n - k) :=
      rowsFrom_congr _ _ _ _ _ (fun i hi0 hi1 c _ _ => below _ c (by omega))
    have e2 : n = k + (n - k) := by omega
    rw [e2, rowsFrom_add] at hreg
    have e3 := List.append_inj hreg (by simp [rowsFrom_length])
    rw [e1, ← e2] at *
    exact e3.2
  have p5 : rowsFrom final (row + n) (ROWS - row - n).toNat =
      rowsFrom P (row + n) (ROWS - row - n).toNat := by
    apply rowsFrom_congr
    intro i hi0 hi1 c hc0 hc1
    rw [below _ c (by omega), hout _ c (by omega)]
  have rest : rowsFrom final (hmin1 + k) (ROWS - (hmin1 + k)).toNat =
      rowsFrom P hmin1 (row - hmin1).toNat
      ++ ((rowsFrom P row n).filter (fun x => !isFullRow x)
        ++ rowsFrom P (row + n) (ROWS - row - n).toNat) := by
    rw [erest, rowsFrom_add, rowsFrom_add, i3, i4, p3, p4, p5]
  refine ⟨?_, rest, empties⟩
  unfold boardRows
  have e20b : ROWS.toNat = (hmin1.toNat + k) + (ROWS - (hmin1 + k)).toNat := by
    have : ROWS.toNat = 20 := rfl
    omega
  have i5 : (0 : Int) + ((hmin1.toNat + k : Nat) : Int) = hmin1 + k := by
    push_cast; omega
  rw [e20b, rowsFrom_add, i5, p12, rest]

/-- The board invariant after the rows have been cleared and the heightmap recomputed. -/
theorem cleared_inv (P final : Int → Int → Bool) (hm1 : Int → Int) (hmin1 row : Int)
    (n k : Nat) (hP : StackInv P hm1 hmin1) (h0 : 0 ≤ hmin1) (hle : hmin1 ≤ row)
    (hn : row + n ≤ ROWS) (hkn : k ≤ n)
    (hnofull : ∀ r, 0 ≤ r → r < ROWS → ¬ (row ≤ r ∧ r < row + n) →
      ∃ c, 0 ≤ c ∧ c < COLUMNS ∧ P r c = false)
    (hrest : rowsFrom final (hmin1 + k) (ROWS - (hmin1 + k)).toNat =
      rowsFrom P hmin1 (row - hmin1).toNat
      ++ ((rowsFrom P row n).filter (fun x => !isFullRow x)
        ++ rowsFrom P (row + n) (ROWS - row - n).toNat))
    (hempty : ∀ r c, 0 ≤ r → r < hmin1 + k → 0 ≤ c → c < COLUMNS → final r c = false) :
    BoardInv final (rescanHeightmap final (hmin1 + k) hm1) (hmin1 + k) := by
  -- every row at or below the new top is a non-full row of `P` at or below the old top
  have hrow : ∀ r, hmin1 + (k : Int) ≤ r → r < ROWS →
      isFullRow (rowOf final r) = false ∧
      ∃ r1, hmin1 ≤ r1 ∧ r1 < ROWS ∧ rowOf final r = rowOf P r1 := by
    intro r hr0 hr1
    have hmem : rowOf final r ∈ rowsFrom final (hmin1 + k) (ROWS - (hmin1 + k)).toNat := by
      rw [mem_rowsFrom]
      exact ⟨r - (hmin1 + k), by omega, by omega, by congr 1; omega⟩
    rw [hrest, List.mem_append, List.mem_append] at hmem
    rcases hmem with hmem | hmem | hmem
    · obtain ⟨i, hi0, hi1, e⟩ := (mem_rowsFrom _ _ _ _).mp hmem
      rw [e]
      exact ⟨isFullRow_false_of_not_full P _
        (hnofull (hmin1 + i) (by omega) (by omega) (by omega)),
        hmin1 + i, by omega, by omega, rfl⟩
    · obtain ⟨hm2, hf⟩ := List.mem_filter.mp hmem
      obtain ⟨i, hi0, hi1, e⟩ := (mem_rowsFrom _ _ _ _).mp hm2
      refine ⟨by simpa using hf, row + i, by omega, by omega, e⟩
    · obtain ⟨i, hi0, hi1, e⟩ := (mem_rowsFrom _ _ _ _).mp hmem
      rw [e]
      exact ⟨isFullRow_false_of_not_full P _
        (hnofull (row + n + i) (by omega) (by omega) (by omega)),
        row + n + i, by omega, by omega, rfl⟩
  have hnonempty : ∀ r, hmin1 + (k : Int) ≤ r → r < ROWS →
      ∃ c, 0 ≤ c ∧ c < COLUMNS ∧ final r c = true := by
    intro r hr0 hr1
    obtain ⟨_, r1, a, b, e⟩ := hrow r hr0 hr1
    obtain ⟨c, hc0, hc1, hc2⟩ := hP.no_gap r1 a b
    exact ⟨c, hc0, hc1, by rw [(rowOf_eq_iff _ _ _ _).mp e c hc0 hc1, hc2]⟩
  have hfuel : hmin1 + (k : Int) + ((ROWS - (hmin1 + k)).toNat : Int) = ROWS := by omega
  have hscan : ∀ c, 0 ≤ c → c < COLUMNS →
      hmin1 + (k : Int) ≤ rescanHeightmap final (hmin1 + k) hm1 c ∧
      rescanHeightmap final (hmin1 + k) hm1 c ≤ ROWS ∧
      (∀ r, hmin1 + (k : Int) ≤ r → r < rescanHeightmap final (hmin1 + k) hm1 c →
        final r c = false) ∧
      (rescanHeightmap final (hmin1 + k) hm1 c < ROWS →
        final (rescanHeightmap final (hmin1 + k) hm1 c) c = true) := by
    intro c hc0 hc1
    rw [rescanHeightmap_spec, if_pos ⟨hc0, hc1⟩]
    exact topScanLoop_spec final c _ _ hfuel
  refine
    { hm_nonneg := ?_, hm_le := ?_, hm_filled := ?_, hm_above := ?_
      min_le := ?_, min_attained := ?_, no_gap := hnonempty, no_full_row := ?_ }
  · intro c hc0 hc1
    have := (hscan c hc0 hc1).1
    omega
  · intro c hc0 hc1
    exact (hscan c hc0 hc1).2.1
  · intro c hc0 hc1
    exact (hscan c hc0 hc1).2.2.2
  · intro c hc0 hc1 r hr0 hr1
    by_cases h : r < hmin1 + k
    · exact hempty r c hr0 h hc0 hc1
    · exact (hscan c hc0 hc1).2.2.1 r (by omega) hr1
  · intro c hc0 hc1
    exact (hscan c hc0 hc1).1
  · by_cases h : hmin1 + (k : Int) < ROWS
    · obtain ⟨c, hc0, hc1, hc2⟩ := hnonempty (hmin1 + k) (le_refl _) h
      refine ⟨c, hc0, hc1, ?_⟩
      obtain ⟨a, b, d, e⟩ := hscan c hc0 hc1
      by_contra hne
      have := d (hmin1 + k) (le_refl _) (by omega)
      rw [hc2] at this
      exact absurd this (by decide)
    · refine ⟨0, le_refl _, by decide, ?_⟩
      obtain ⟨a, b, _, _⟩ := hscan 0 (le_refl _) (by decide)
      omega
  · intro r hr0 hr1
    by_cases h : r < hmin1 + k
    · exact ⟨0, le_refl _, by decide, hempty r 0 hr0 h (le_refl _) (by decide)⟩
    · exact not_full_of_isFullRow_false final r (hrow r (by omega) hr1).1

/-! ## `dropPiece` as a whole -/

theorem dropPiece_overflow (s : Tetris) (a : Int) (h : landingRow s a < 0) :
    s.dropPiece a = ({ s with terminalState := true }, 0) := by
  unfold landingRow at h
  simp only [Tetris.dropPiece, h, if_true]

theorem dropPiece_frame (s : Tetris) (a : Int) :
    (s.dropPiece a).1.stepData = s.stepData ∧ (s.dropPiece a).1.episode = s.episode ∧
    (s.dropPiece a).1.totalClearedRows = s.totalClearedRows ∧
    (s.dropPiece a).1.fallingPiece = s.fallingPiece ∧
    (s.dropPiece a).1.clearedRows = s.clearedRows := by
  simp only [Tetris.dropPiece]
  split_ifs <;> simp

theorem dropPiece_terminal (s : Tetris) (a : Int) :
    (s.dropPiece a).1.terminalState = (decide (landingRow s a < 0) || s.terminalState) := by
  unfold landingRow
  simp only [Tetris.dropPiece]
  split_ifs with h1 h2 <;> simp [h1]

/-- The result of a drop depends only on the board, the heightmap, its minimum and the falling
piece. -/
theorem dropPiece_congr (s t : Tetris) (a : Int) (hb : t.board = s.board)
    (hh : t.boardHeightmap = s.boardHeightmap) (hm : t.boardHeightmapMin = s.boardHeightmapMin)
    (hf : t.fallingPiece = s.fallingPiece) :
    (t.dropPiece a).2 = (s.dropPiece a).2 ∧
    (t.dropPiece a).1.board = (s.dropPiece a).1.board ∧
    (t.dropPiece a).1.boardHeightmap = (s.dropPiece a).1.boardHeightmap ∧
    (t.dropPiece a).1.boardHeightmapMin = (s.dropPiece a).1.boardHeightmapMin ∧
    landingRow t a = landingRow s a := by
  unfold landingRow
  simp only [Tetris.dropPiece, hb, hh, hm, hf]
  split_ifs <;> simp [*]

/-- A legal drop that does not overflow: the returned count, the rows of the new board and the
board invariant. -/
theorem dropPiece_lands (s : Tetris) (a : Int)
    (hI : BoardInv s.board s.boardHeightmap s.boardHeightmapMin)
    (hp0 : 0 ≤ s.fallingPiece) (hp1 : s.fallingPiece < 7) (ha0 : 0 ≤ a)
    (ha1 : a < pieceActionCounts s.fallingPiece) (hrow : 0 ≤ landingRow s a) :
    (s.dropPiece a).2 = (((boardRows (placedBoard s a)).filter isFullRow).length : Int) ∧
    boardRows (s.dropPiece a).1.board =
      List.replicate (s.dropPiece a).2.toNat emptyRow ++
        (boardRows (placedBoard s a)).filter (fun x => !isFullRow x) ∧
    ((s.dropPiece a).2 = 0 → (s.dropPiece a).1.board = placedBoard s a) ∧
    BoardInv (s.dropPiece a).1.board (s.dropPiece a).1.boardHeightmap
      (s.dropPiece a).1.boardHeightmapMin := by
  obtain ⟨v1, v2, v3, v4⟩ := expandAction_valid s.fallingPiece a hp0 hp1 ha0 ha1
  have sh := expandAction_shape s.fallingPiece a hp0 hp1 ha0 ha1
  have hnot : ¬ (landingRow s a < 0) := by omega
  unfold placedBoard
  unfold landingRow at hrow hnot ⊢
  simp only [Tetris.dropPiece, hnot, if_false]
  rw [placePiece_eq _ _ _ _ _ (by have := sh.height_pos; omega) (by have := sh.width_pos; omega)]
  obtain ⟨hS, hmle⟩ := placement_inv s.board s.boardHeightmap s.boardHeightmapMin
    s.fallingPiece _ _ hI.toStackInv sh v3 v4 hrow
  obtain ⟨_, _, hrn⟩ := findRow_landing s.boardHeightmap s.fallingPiece _ _ sh
    hI.hm_le v3 v4
  obtain ⟨c1, c2, c3, c4⟩ := scanRegion_spec
    (withPiece s.board s.fallingPiece (expandAction s.fallingPiece a).1
      (findRow s.boardHeightmap s.fallingPiece (expandAction s.fallingPiece a).1
        (expandAction s.fallingPiece a).2) (expandAction s.fallingPiece a).2)
    s.fallingPiece (expandAction s.fallingPiece a).1
    (findRow s.boardHeightmap s.fallingPiece (expandAction s.fallingPiece a).1
        (expandAction s.fallingPiece a).2) (by have := sh.height_pos; omega)
  have hh := sh.height_pos
  generalize (expandAction s.fallingPiece a).1 = o at *
  generalize (expandAction s.fallingPiece a).2 = col at *
  generalize findRow s.boardHeightmap s.fallingPiece o col = row at *
  have hnofull : ∀ r, 0 ≤ r → r < ROWS →
      ¬ (row ≤ r ∧ r < row + ((pieceHeights s.fallingPiece o).toNat : Int)) →
      ∃ c, 0 ≤ c ∧ c < COLUMNS ∧ withPiece s.board s.fallingPiece o row col r c = false := by
    intro r hr0 hr1 hr
    obtain ⟨c, hc0, hc1, hc2⟩ := hI.no_full_row r hr0 hr1
    exact ⟨c, hc0, hc1, by rw [withPiece_outside _ _ _ _ _ _ _ (by omega), hc2]⟩
  generalize withPiece s.board s.fallingPiece o row col = P at *
  generalize updateHeightmap (s.boardHeightmap, s.boardHeightmapMin) s.fallingPiece o row col
    = upd at *
  generalize scanRegion P s.fallingPiece o row = sc at *
  have h0 : 0 ≤ upd.2 := by
    obtain ⟨c, hc0, hc1, hc2⟩ := hS.min_attained
    have := hS.hm_nonneg c hc0 hc1
    omega
  have hnn : row + ((pieceHeights s.fallingPiece o).toNat : Int) ≤ ROWS := by omega
  obtain ⟨q1, q2, q3⟩ := rows_of_placed P upd.1 upd.2 row (pieceHeights s.fallingPiece o).toNat
    hS h0 hmle hnn hnofull
  by_cases hk : sc.2 > 0
  · simp only [hk, if_true]
    have hkn : sc.2.toNat ≤ (pieceHeights s.fallingPiece o).toNat := by
      have := List.length_filter_le isFullRow
        (rowsFrom P row (pieceHeights s.fallingPiece o).toNat)
      rw [rowsFrom_length] at this
      omega
    have ek : ((sc.2.toNat : Nat) : Int) = sc.2 := by omega
    obtain ⟨t1, t2, t3⟩ := rows_of_cleared P sc.1 upd.1 upd.2 row
      (pieceHeights s.fallingPiece o).toNat sc.2.toNat hS h0 hmle hnn (by omega) hkn
      (fun r c h => c1 r c (by omega)) c2
    have inv := cleared_inv P (shiftRows sc.1 upd.2 (row - 1) sc.2.toNat) upd.1 upd.2 row
      (pieceHeights s.fallingPiece o).toNat sc.2.toNat hS h0 hmle hnn hkn hnofull t2 t3
    rw [ek] at t1 inv
    refine ⟨by rw [q3, c3], ?_, fun h => by omega, inv⟩
    rw [t1, q2, List.replicate_add, List.append_assoc, ← List.append_assoc,
      ← List.replicate_add, Nat.add_comm, List.replicate_add, List.append_assoc]
  · simp only [hk, if_false]
    have hz : sc.2 = 0 := by
      have : 0 ≤ sc.2 := by rw [c3]; exact Int.natCast_nonneg _
      omega
    have hSP := c4 hz
    rw [hz] at c3
    have hnil : (rowsFrom P row (pieceHeights s.fallingPiece o).toNat).filter isFullRow = [] :=
      List.length_eq_zero.mp (by omega)
    rw [hnil] at q3
    have hall : ∀ x ∈ boardRows P, isFullRow x = false := by
      intro x hx
      have := (List.filter_eq_nil_iff.mp q3) x hx
      simpa using this
    refine ⟨by rw [q3, hz]; rfl, ?_, fun _ => hSP, ?_⟩
    · rw [hz, hSP]
      have : (boardRows P).filter (fun x => !isFullRow x) = boardRows P := by
        rw [List.filter_eq_self]
        intro x hx
        rw [hall x hx]
        rfl
      rw [this]
      rfl
    · rw [hSP]
      refine { toStackInv := hS, no_full_row := ?_ }
      intro r hr0 hr1
      apply not_full_of_isFullRow_false
      apply hall
      unfold boardRows
      rw [mem_rowsFrom]
      exact ⟨r, hr0, by have : ROWS.toNat = 20 := rfl; omega, by rw [Int.zero_add]⟩

/-! ## `computeObservation` -/

theorem computeObservation_congr (s t : Tetris) (obs : Int → Int)
    (h1 : t.terminalState = s.terminalState) (h2 : t.board = s.board)
    (h3 : t.boardHeightmap = s.boardHeightmap)
    (h4 : t.boardHeightmapMin = s.boardHeightmapMin) :
    t.computeObservation obs = s.computeObservation obs := by
  simp only [Tetris.computeObservation, h1, h2, h3, h4]

theorem computeObservation_terminal (s : Tetris) (obs : Int → Int)
    (h : s.terminalState = true) (i : Int) :
    s.computeObservation obs i =
      if i = 21 then TERMINAL_BIAS_VALUE_S else if 0 ≤ i ∧ i < 22 then 0 else obs i := by
  have hz : ∀ i, forUp 0 STATEDIM (fun i o => set1 o i (0 : Int)) obs i =
      if 0 ≤ i ∧ i < 22 then 0 else obs i := by
    have := forUp_invariant 0 STATEDIM (fun i o => set1 o i (0 : Int)) obs
      (fun n o => ∀ i, o i = if 0 ≤ i ∧ i < n then 0 else obs i) (by decide) ?_ ?_
    · exact this
    · intro i
      have : ¬ (0 ≤ i ∧ i < 0) := by omega
      rw [if_neg this]
    · intro j o hj0 hj1 ih i
      simp only [set1_apply, ih]
      by_cases e : i = j
      · subst e
        have : 0 ≤ i ∧ i < i + 1 := by omega
        simp [this]
      · have e2 : (0 ≤ i ∧ i < j + 1) ↔ (0 ≤ i ∧ i < j) := by
          constructor
          · rintro ⟨a, b⟩; exact ⟨a, by omega⟩
          · rintro ⟨a, b⟩; exact ⟨a, by omega⟩
        simp only [e, if_false, e2]
  simp only [Tetris.computeObservation, h, if_true, set1_apply, hz]
  norm_num

/-- The heights and height differences written by the first loop of `computeObservation`. -/
theorem heightsLoop_spec (hm : Int → Int) (obs : Int → Int) (i : Int) :
    forUp 0 COLUMNS
      (fun col o =>
        let oh := set1 o col (ROWS - hm col)
        if col ≥ 1 then set1 oh (COLUMNS + col - 1) (ABS (oh col - oh (col - 1))) else oh)
      obs i =
    if 0 ≤ i ∧ i < COLUMNS then ROWS - hm i
    else if COLUMNS ≤ i ∧ i < 2 * COLUMNS - 1 then
      ABS ((ROWS - hm (i - COLUMNS + 1)) - (ROWS - hm (i - COLUMNS)))
    else obs i := by
  have := forUp_invariant 0 COLUMNS
    (fun col o =>
        let oh := set1 o col (ROWS - hm col)
        if col ≥ 1 then set1 oh (COLUMNS + col - 1) (ABS (oh col - oh (col - 1))) else oh) obs
    (fun n o => ∀ i, o i =
      if 0 ≤ i ∧ i < n then ROWS - hm i
      else if COLUMNS ≤ i ∧ i < COLUMNS + n - 1 then
        ABS ((ROWS - hm (i - COLUMNS + 1)) - (ROWS - hm (i - COLUMNS)))
      else obs i) (by decide) ?_ ?_
  · exact this i
  · intro i
    have c1 : ¬ (0 ≤ i ∧ i < 0) := by omega
    have c2 : ¬ (COLUMNS ≤ i ∧ i < COLUMNS + 0 - 1) := by omega
    rw [if_neg c1, if_neg c2]
  · intro j o hj0 hj1 ih i
    have hprev : 1 ≤ j → o (j - 1) = ROWS - hm (j - 1) := by
      intro h
      rw [ih (j - 1), if_pos (by omega)]
    by_cases hj : j ≥ 1
    · simp only [hj, if_true, set1_apply]
      have e0 : ¬ (j - 1 = j) := by omega
      simp only [e0, if_false, if_true, hprev hj]
      by_cases e1 : i = COLUMNS + j - 1
      · subst e1
        have c1 : ¬ (0 ≤ COLUMNS + j - 1 ∧ COLUMNS + j - 1 < j + 1) := by omega
        have c2 : COLUMNS ≤ COLUMNS + j - 1 ∧ COLUMNS + j - 1 < COLUMNS + (j + 1) - 1 := by
          omega
        have c3 : COLUMNS + j - 1 - COLUMNS + 1 = j := by omega
        have c4 : COLUMNS + j - 1 - COLUMNS = j - 1 := by omega
        rw [if_pos rfl, if_neg c1, if_pos c2, c3, c4]
      · rw [if_neg e1]
        by_cases e2 : i = j
        · subst e2
          have c1 : 0 ≤ i ∧ i < i + 1 := by omega
          rw [if_pos rfl, if_pos c1]
        · rw [if_neg e2, ih i]
          have c1 : (0 ≤ i ∧ i < j + 1) ↔ (0 ≤ i ∧ i < j) := by
            constructor
            · rintro ⟨a, b⟩; exact ⟨a, by omega⟩
            · rintro ⟨a, b⟩; exact ⟨a, by omega⟩
          have c2 : (COLUMNS ≤ i ∧ i < COLUMNS + (j + 1) - 1) ↔
              (COLUMNS ≤ i ∧ i < COLUMNS + j - 1) := by
            constructor
            · rintro ⟨a, b⟩; exact ⟨a, by omega⟩
            · rintro ⟨a, b⟩; exact ⟨a, by omega⟩
          simp only [c1, c2]
    · have hj2 : j = 0 := by omega
      subst hj2
      simp only [hj, if_false, set1_apply, ih]
      by_cases e2 : i = 0
      · subst e2
        simp
      · have c1 : ¬ (0 ≤ i ∧ i < 0 + 1) := by omega
        have c2 : ¬ (0 ≤ i ∧ i < 0) := by omega
        have c3 : ¬ (COLUMNS ≤ i ∧ i < COLUMNS + (0 + 1) - 1) := by omega
        have c4 : ¬ (COLUMNS ≤ i ∧ i < COLUMNS + 0 - 1) := by omega
        rw [if_neg e2, if_neg c1, if_neg c2, if_neg c3, if_neg c4]

theorem computeObservation_nonterminal (s : Tetris) (obs : Int → Int)
    (h : s.terminalState = false) (i : Int) :
    s.computeObservation obs i =
      if i = 21 then 1
      else if i = 20 then holesUnderTopline s.board s.boardHeightmap
      else if i = 19 then ROWS - s.boardHeightmapMin
      else if 0 ≤ i ∧ i < COLUMNS then ROWS - s.boardHeightmap i
      else if COLUMNS ≤ i ∧ i < 2 * COLUMNS - 1 then
        ABS ((ROWS - s.boardHeightmap (i - COLUMNS + 1)) - (ROWS - s.boardHeightmap (i - COLUMNS)))
      else obs i := by
  unfold Tetris.computeObservation
  rw [h, if_neg (by decide)]
  rw [set1_apply, set1_apply, set1_apply, heightsLoop_spec]
  norm_num

/-- The inner loop of the hole count: the empty cells of one column from row `lo` down. -/
theorem holesColumn_spec (board : Int → Int → Bool) (col : Nat) (lo h0 : Int) (hlo : 0 ≤ lo) :
    forUp lo ROWS (fun row holes1 => if !board row col then holes1 + 1 else holes1) h0 =
      h0 + countEmpty board col (fun r => decide (lo ≤ (r : Int))) := by
  unfold countEmpty
  by_cases hle : lo ≤ ROWS
  · have := forUp_invariant lo ROWS
      (fun row holes1 => if !board row col then holes1 + 1 else holes1) h0
      (fun (i : Int) (h : Int) => h = h0 + (((List.range i.toNat).filter
        (fun r : Nat => decide (lo ≤ (r : Int)) && !board r col)).length : Int)) hle ?_ ?_
    · exact this
    · have : (List.range lo.toNat).filter
          (fun r : Nat => decide (lo ≤ (r : Int)) && !board r col) = [] := by
        rw [List.filter_eq_nil_iff]
        intro r hr
        rw [List.mem_range] at hr
        have : ¬ (lo ≤ (r : Int)) := by omega
        simp [this]
      beta_reduce
      rw [this]
      simp
    · intro j h hj0 hj1 ih
      have e1 : (j + 1).toNat = j.toNat + 1 := by omega
      have e2 : ((j.toNat : Nat) : Int) = j := by omega
      rw [e1, List.range_succ, List.filter_append, List.length_append, ih]
      have e3 : decide (lo ≤ ((j.toNat : Nat) : Int)) = true := by
        rw [e2]; exact decide_eq_true hj0
      cases hb : board j col
      · simp [List.filter_cons, e2, hb, hj0]
        omega
      · simp [List.filter_cons, e2, hb, hj0]
  · rw [forUp_empty _ _ _ _ (by omega)]
    have : (List.range ROWS.toNat).filter
        (fun r : Nat => decide (lo ≤ (r : Int)) && !board r col) = [] := by
      rw [List.filter_eq_nil_iff]
      intro r hr
      rw [List.mem_range] at hr
      have h20 : ROWS.toNat = 20 := rfl
      have : ¬ (lo ≤ (r : Int)) := by omega
      simp [this]
    rw [this]
    simp

theorem holesUnderTopline_eq (board : Int → Int → Bool) (hm : Int → Int)
    (hnn : ∀ c, 0 ≤ c → c < COLUMNS → 0 ≤ hm c) :
    holesUnderTopline board hm = emptyBelowTopline board hm := by
  unfold holesUnderTopline emptyBelowTopline
  have := forUp_invariant 0 COLUMNS
    (fun col holes =>
      forUp (hm col + 1) ROWS
        (fun row holes1 => if !board row col then holes1 + 1 else holes1) holes) (0 : Int)
    (fun (i : Int) (h : Int) => h = ((List.range i.toNat).map
      (fun c : Nat => countEmpty board c (fun r => decide (hm c < r)))).sum)
    (by decide) ?_ ?_
  · exact this
  · simp
  · intro j h hj0 hj1 ih
    have e1 : (j + 1).toNat = j.toNat + 1 := by omega
    have e2 : ((j.toNat : Nat) : Int) = j := by omega
    have hc := holesColumn_spec board j.toNat (hm j + 1) h
      (by have := hnn j hj0 hj1; omega)
    rw [e2] at hc
    beta_reduce
    rw [hc, e1, List.range_succ, List.map_append, List.sum_append, ih]
    simp only [List.map_cons, List.map_nil, List.sum_cons, List.sum_nil, add_zero]
    rw [e2]
    congr 2

/-! ## `computeActions` and `generateStepData` -/

theorem actionRow_congr (s t : Tetris) (a : Int) (old : Int → Int)
    (h1 : t.terminalState = s.terminalState) (hb : t.board = s.board)
    (hh : t.boardHeightmap = s.boardHeightmap) (hm : t.boardHeightmapMin = s.boardHeightmapMin)
    (hf : t.fallingPiece = s.fallingPiece) :
    actionRow t a old = actionRow s a old ∧
    (t.dropPiece a).1.terminalState = (s.dropPiece a).1.terminalState := by
  obtain ⟨c1, c2, c3, c4, c5⟩ := dropPiece_congr s t a hb hh hm hf
  have ht : (t.dropPiece a).1.terminalState = (s.dropPiece a).1.terminalState := by
    rw [dropPiece_terminal, dropPiece_terminal, c5, h1]
  have ho := computeObservation_congr (s.dropPiece a).1 (t.dropPiece a).1 old ht c2 c3 c4
  exact ⟨by simp only [actionRow, c1, ht, ho], ht⟩

theorem computeActionsBody_spec (ob : Int → Int → Bool) (oh : Int → Int) (om : Int) (a : Int)
    (t : Tetris) :
    (computeActionsBody ob oh om a t).board = ob ∧
    (computeActionsBody ob oh om a t).boardHeightmap = oh ∧
    (computeActionsBody ob oh om a t).boardHeightmapMin = om ∧
    (computeActionsBody ob oh om a t).terminalState = false ∧
    (computeActionsBody ob oh om a t).fallingPiece = t.fallingPiece ∧
    (computeActionsBody ob oh om a t).episode = t.episode ∧
    (computeActionsBody ob oh om a t).totalClearedRows = t.totalClearedRows ∧
    (computeActionsBody ob oh om a t).clearedRows = t.clearedRows ∧
    (computeActionsBody ob oh om a t).stepData.transitionReward = t.stepData.transitionReward ∧
    (computeActionsBody ob oh om a t).stepData.observation = t.stepData.observation ∧
    (computeActionsBody ob oh om a t).stepData.actionCount = t.stepData.actionCount ∧
    (computeActionsBody ob oh om a t).stepData.actions =
      set1 t.stepData.actions a (actionRow t a (t.stepData.actions a)) ∧
    (computeActionsBody ob oh om a t).stepData.isActionTerminal =
      set1 t.stepData.isActionTerminal a (t.dropPiece a).1.terminalState := by
  obtain ⟨f1, f2, f3, f4, f5⟩ := dropPiece_frame t a
  simp only [computeActionsBody, actionRow, f1, f2, f3, f4, f5, and_self]

/-- The action loop of `computeActions` run for `n` actions from a non-terminal state. -/
theorem computeActions_loop (s : Tetris) (hterm : s.terminalState = false) (n : Int)
    (hn : 0 ≤ n) :
    (forUp 0 n (computeActionsBody s.board s.boardHeightmap s.boardHeightmapMin) s).board
      = s.board ∧
    (forUp 0 n (computeActionsBody s.board s.boardHeightmap s.boardHeightmapMin)
      s).boardHeightmap = s.boardHeightmap ∧
    (forUp 0 n (computeActionsBody s.board s.boardHeightmap s.boardHeightmapMin)
      s).boardHeightmapMin = s.boardHeightmapMin ∧
    (forUp 0 n (computeActionsBody s.board s.boardHeightmap s.boardHeightmapMin)
      s).terminalState = false ∧
    (forUp 0 n (computeActionsBody s.board s.boardHeightmap s.boardHeightmapMin)
      s).fallingPiece = s.fallingPiece ∧
    (forUp 0 n (computeActionsBody s.board s.boardHeightmap s.boardHeightmapMin)
      s).episode = s.episode ∧
    (forUp 0 n (computeActionsBody s.board s.boardHeightmap s.boardHeightmapMin)
      s).totalClearedRows = s.totalClearedRows ∧
    (forUp 0 n (computeActionsBody s.board s.boardHeightmap s.boardHeightmapMin)
      s).clearedRows = s.clearedRows ∧
    (forUp 0 n (computeActionsBody s.board s.boardHeightmap s.boardHeightmapMin)
      s).stepData.transitionReward = s.stepData.transitionReward ∧
    (forUp 0 n (computeActionsBody s.board s.boardHeightmap s.boardHeightmapMin)
      s).stepData.observation = s.stepData.observation ∧
    (forUp 0 n (computeActionsBody s.board s.boardHeightmap s.boardHeightmapMin)
      s).stepData.actionCount = s.stepData.actionCount ∧
    (∀ a, (forUp 0 n (computeActionsBody s.board s.boardHeightmap s.boardHeightmapMin)
      s).stepData.actions a =
        if 0 ≤ a ∧ a < n then actionRow s a (s.stepData.actions a) else s.stepData.actions a) ∧
    (∀ a, (forUp 0 n (computeActionsBody s.board s.boardHeightmap s.boardHeightmapMin)
      s).stepData.isActionTerminal a =
        if 0 ≤ a ∧ a < n then (s.dropPiece a).1.terminalState
        else s.stepData.isActionTerminal a) := by
  refine forUp_invariant 0 n _ s
    (fun (i : Int) (t : Tetris) =>
      t.board = s.board ∧ t.boardHeightmap = s.boardHeightmap ∧
      t.boardHeightmapMin = s.boardHeightmapMin ∧ t.terminalState = false ∧
      t.fallingPiece = s.fallingPiece ∧ t.episode = s.episode ∧
      t.totalClearedRows = s.totalClearedRows ∧ t.clearedRows = s.clearedRows ∧
      t.stepData.transitionReward = s.stepData.transitionReward ∧
      t.stepData.observation = s.stepData.observation ∧
      t.stepData.actionCount = s.stepData.actionCount ∧
      (∀ a, t.stepData.actions a =
        if 0 ≤ a ∧ a < i then actionRow s a (s.stepData.actions a) else s.stepData.actions a) ∧
      (∀ a, t.stepData.isActionTerminal a =
        if 0 ≤ a ∧ a < i then (s.dropPiece a).1.terminalState
        else s.stepData.isActionTerminal a)) hn ?_ ?_
  · refine ⟨rfl, rfl, rfl, hterm, rfl, rfl, rfl, rfl, rfl, rfl, rfl, fun a => ?_, fun a => ?_⟩
    · have : ¬ (0 ≤ a ∧ a < 0) := by omega
      rw [if_neg this]
    · have : ¬ (0 ≤ a ∧ a < 0) := by omega
      rw [if_neg this]
  · rintro j t hj0 hj1 ⟨i1, i2, i3, i4, i5, i6, i7, i8, i9, i10, i11, i12, i13⟩
    obtain ⟨b1, b2, b3, b4, b5, b6, b7, b8, b9, b10, b11, b12, b13⟩ :=
      computeActionsBody_spec s.board s.boardHeightmap s.boardHeightmapMin j t
    obtain ⟨g1, g2⟩ := actionRow_congr s t j (t.stepData.actions j) (by rw [i4, hterm])
      i1 i2 i3 i5
    refine ⟨b1, b2, b3, b4, by rw [b5, i5], by rw [b6, i6], by rw [b7, i7], by rw [b8, i8],
      by rw [b9, i9], by rw [b10, i10], by rw [b11, i11], fun a => ?_, fun a => ?_⟩
    · rw [b12, set1_apply]
      by_cases e : a = j
      · subst e
        have c1 : 0 ≤ a ∧ a < a + 1 := by omega
        have c2 : ¬ (0 ≤ a ∧ a < a) := by omega
        have e3 := i12 a
        rw [if_neg c2] at e3
        rw [if_pos rfl, if_pos c1, g1, e3]
      · rw [if_neg e, i12 a]
        have c1 : (0 ≤ a ∧ a < j + 1) ↔ (0 ≤ a ∧ a < j) := by
          constructor
          · rintro ⟨x, y⟩; exact ⟨x, by omega⟩
          · rintro ⟨x, y⟩; exact ⟨x, by omega⟩
        simp only [c1]
    · rw [b13, set1_apply]
      by_cases e : a = j
      · subst e
        have c1 : 0 ≤ a ∧ a < a + 1 := by omega
        rw [if_pos rfl, if_pos c1, g2]
      · rw [if_neg e, i13 a]
        have c1 : (0 ≤ a ∧ a < j + 1) ↔ (0 ≤ a ∧ a < j) := by
          constructor
          · rintro ⟨x, y⟩; exact ⟨x, by omega⟩
          · rintro ⟨x, y⟩; exact ⟨x, by omega⟩
        simp only [c1]

theorem idx_nonneg (t : List Int) (i : Int) (h : ∀ x ∈ t, 0 ≤ x) : 0 ≤ idx t i 0 := by
  unfold idx
  split_ifs
  · exact le_refl _
  · rw [List.getD_eq_getElem?_getD]
    cases hg : t[i.toNat]? with
    | none => simp
    | some x =>
      simp only [Option.getD_some]
      exact h x (List.getElem?_mem hg)

theorem pieceActionCounts_nonneg (p : Int) : 0 ≤ pieceActionCounts p := by
  unfold pieceActionCounts
  apply idx_nonneg
  decide

/-- The frame of `computeActions` and the rows it writes. -/
theorem computeActions_spec (s : Tetris) :
    s.computeActions.board = s.board ∧
    s.computeActions.boardHeightmap = s.boardHeightmap ∧
    s.computeActions.boardHeightmapMin = s.boardHeightmapMin ∧
    s.computeActions.terminalState = s.terminalState ∧
    s.computeActions.fallingPiece = s.fallingPiece ∧
    s.computeActions.episode = s.episode ∧
    s.computeActions.totalClearedRows = s.totalClearedRows ∧
    s.computeActions.clearedRows = s.clearedRows ∧
    s.computeActions.stepData.transitionReward = s.stepData.transitionReward ∧
    s.computeActions.stepData.observation = s.stepData.observation ∧
    s.computeActions.stepData.actionCount =
      (if s.terminalState then 0 else pieceActionCounts s.fallingPiece) ∧
    (∀ a, s.computeActions.stepData.actions a =
      if s.terminalState = false ∧ 0 ≤ a ∧ a < pieceActionCounts s.fallingPiece
      then actionRow s a (s.stepData.actions a) else s.stepData.actions a) ∧
    (∀ a, s.computeActions.stepData.isActionTerminal a =
      if s.terminalState = false ∧ 0 ≤ a ∧ a < pieceActionCounts s.fallingPiece
      then (s.dropPiece a).1.terminalState else s.stepData.isActionTerminal a) := by
  cases hterm : s.terminalState
  · have hn := pieceActionCounts_nonneg s.fallingPiece
    have hl := computeActions_loop
      { s with stepData := { s.stepData with actionCount := pieceActionCounts s.fallingPiece } }
      hterm (pieceActionCounts s.fallingPiece) hn
    simp only at hl
    obtain ⟨l1, l2, l3, l4, l5, l6, l7, l8, l9, l10, l11, l12, l13⟩ := hl
    have e : s.computeActions = forUp 0 (pieceActionCounts s.fallingPiece)
        (computeActionsBody s.board s.boardHeightmap s.boardHeightmapMin)
        { s with stepData :=
          { s.stepData with actionCount := pieceActionCounts s.fallingPiece } } := by
      simp only [Tetris.computeActions, hterm, Bool.false_eq_true, if_false]
    rw [e]
    refine ⟨l1, l2, l3, l4, l5, l6, l7, l8, l9, l10, by rw [l11]; rfl, fun a => ?_,
      fun a => ?_⟩
    · rw [l12 a]
      have g := (actionRow_congr s
        { s with stepData :=
          { s.stepData with actionCount := pieceActionCounts s.fallingPiece } } a
        (s.stepData.actions a) rfl rfl rfl rfl rfl).1
      simp only [true_and, g]
    · rw [l13 a]
      have g := (actionRow_congr s
        { s with stepData :=
          { s.stepData with actionCount := pieceActionCounts s.fallingPiece } } a
        (s.stepData.actions a) rfl rfl rfl rfl rfl).2
      simp only [true_and, g]
  · simp [Tetris.computeActions, hterm]

theorem generateStepData_spec (s : Tetris) :
    s.generateStepData.board = s.board ∧
    s.generateStepData.boardHeightmap = s.boardHeightmap ∧
    s.generateStepData.boardHeightmapMin = s.boardHeightmapMin ∧
    s.generateStepData.terminalState = s.terminalState ∧
    s.generateStepData.fallingPiece = s.fallingPiece ∧
    s.generateStepData.episode = s.episode ∧
    s.generateStepData.totalClearedRows = s.totalClearedRows ∧
    s.generateStepData.clearedRows = s.clearedRows ∧
    s.generateStepData.stepData.observation = s.computeObservation s.stepData.observation ∧
    StepDataOK s.generateStepData := by
  have h := computeActions_spec
    { s with stepData := { s.stepData with
        transitionReward := s.clearedRows
        observation := s.computeObservation s.stepData.observation } }
  have e : s.generateStepData = Tetris.computeActions
    { s with stepData := { s.stepData with
        transitionReward := s.clearedRows
        observation := s.computeObservation s.stepData.observation } } := by
    simp only [Tetris.generateStepData, Tetris.computeObservation]
  rw [← e] at h
  simp only at h
  obtain ⟨l1, l2, l3, l4, l5, l6, l7, l8, l9, l10, l11, l12, l13⟩ := h
  have hobs : ∀ old, s.generateStepData.computeObservation old = s.computeObservation old :=
    fun old => computeObservation_congr s _ old l4 l1 l2 l3
  refine ⟨l1, l2, l3, l4, l5, l6, l7, l8, l10, ?_⟩
  refine
    { reward := by rw [l9, l8]
      observation := ⟨s.stepData.observation, by rw [l10, hobs]⟩
      count := by rw [l11, l4, l5]
      terminal := ?_
      actions := ?_ }
  · intro ht a ha0 ha1
    rw [l4] at ht
    rw [l5] at ha1
    have g := (actionRow_congr s s.generateStepData a (s.stepData.actions a) l4 l1 l2 l3 l5).2
    have g2 := (actionRow_congr s
        { s with stepData := { s.stepData with
        transitionReward := s.clearedRows
        observation := s.computeObservation s.stepData.observation } } a
        (s.stepData.actions a) rfl rfl rfl rfl rfl).2
    rw [l13 a, if_pos ⟨ht, ha0, ha1⟩, g, g2]
  · intro ht a ha0 ha1
    rw [l4] at ht
    rw [l5] at ha1
    have g := (actionRow_congr s s.generateStepData a (s.stepData.actions a) l4 l1 l2 l3 l5).1
    have g2 := (actionRow_congr s
        { s with stepData := { s.stepData with
        transitionReward := s.clearedRows
        observation := s.computeObservation s.stepData.observation } } a
        (s.stepData.actions a) rfl rfl rfl rfl rfl).1
    exact ⟨s.stepData.actions a, by rw [l12 a, if_pos ⟨ht, ha0, ha1⟩, g, g2]⟩

/-! ## `resetState`, `newEpisode`, `step` and the reachable states -/

theorem resetState_board (s : Tetris) (draw r c : Int) :
    (s.resetState draw).board r c =
      if (0 ≤ r ∧ r < ROWS) ∧ 0 ≤ c ∧ c < COLUMNS then false else s.board r c := by
  simp only [Tetris.resetState]
  have := forUp_invariant 0 ROWS
    (fun row b => forUp 0 COLUMNS (fun col b1 => set2 b1 row col false) b) s.board
    (fun i b => ∀ r c, b r c =
      if (0 ≤ r ∧ r < i) ∧ 0 ≤ c ∧ c < COLUMNS then false else s.board r c) (by decide) ?_ ?_
  · exact this r c
  · intro r c
    have : ¬ ((0 ≤ r ∧ r < 0) ∧ 0 ≤ c ∧ c < COLUMNS) := by omega
    rw [if_neg this]
  · intro j b hj0 hj1 ih r c
    beta_reduce
    rw [rowWrite_spec b j (fun _ _ => false) (fun _ _ _ => rfl) r c, ih r c]
    by_cases e : r = j ∧ 0 ≤ c ∧ c < COLUMNS
    · obtain ⟨rfl, h1, h2⟩ := e
      have e1 : ((0 ≤ r ∧ r < r + 1) ∧ 0 ≤ c ∧ c < COLUMNS) := by omega
      have e2 : (r = r ∧ 0 ≤ c ∧ c < COLUMNS) := ⟨rfl, h1, h2⟩
      rw [if_pos e2, if_pos e1]
    · rw [if_neg e]
      have e2 : ((0 ≤ r ∧ r < j + 1) ∧ 0 ≤ c ∧ c < COLUMNS) ↔
          ((0 ≤ r ∧ r < j) ∧ 0 ≤ c ∧ c < COLUMNS) := by
        constructor
        · rintro ⟨⟨a, b⟩, c1, d⟩
          refine ⟨⟨a, ?_⟩, c1, d⟩
          by_contra hn
          exact e ⟨by omega, c1, d⟩
        · rintro ⟨⟨a, b⟩, c1, d⟩; exact ⟨⟨a, by omega⟩, c1, d⟩
      simp only [e2]

theorem resetState_heightmap (s : Tetris) (draw c : Int) :
    (s.resetState draw).boardHeightmap c =
      if 0 ≤ c ∧ c < COLUMNS then ROWS else s.boardHeightmap c := by
  simp only [Tetris.resetState]
  have := forUp_invariant 0 COLUMNS (fun col h => set1 h col ROWS) s.boardHeightmap
    (fun i h => ∀ c, h c = if 0 ≤ c ∧ c < i then ROWS else s.boardHeightmap c)
    (by decide) ?_ ?_
  · exact this c
  · intro c
    have : ¬ (0 ≤ c ∧ c < 0) := by omega
    rw [if_neg this]
  · intro j h hj0 hj1 ih c
    simp only [set1_apply, ih]
    by_cases e : c = j
    · subst e
      have e2 : (0 ≤ c ∧ c < c + 1) := by omega
      simp [e2]
    · have e2 : (0 ≤ c ∧ c < j + 1) ↔ (0 ≤ c ∧ c < j) := by
        constructor
        · rintro ⟨a, b⟩; exact ⟨a, by omega⟩
        · rintro ⟨a, b⟩; exact ⟨a, by omega⟩
      simp only [e, if_false, e2]

theorem resetState_inv (s : Tetris) (draw : Int) :
    BoardInv (s.resetState draw).board (s.resetState draw).boardHeightmap
      (s.resetState draw).boardHeightmapMin := by
  have hb := resetState_board s draw
  have hh := resetState_heightmap s draw
  have hm : (s.resetState draw).boardHeightmapMin = ROWS := rfl
  rw [hm]
  refine
    { hm_nonneg := ?_, hm_le := ?_, hm_filled := ?_, hm_above := ?_
      min_le := ?_, min_attained := ?_, no_gap := ?_, no_full_row := ?_ }
  · intro c h0 h1; rw [hh c, if_pos ⟨h0, h1⟩]; decide
  · intro c h0 h1; rw [hh c, if_pos ⟨h0, h1⟩]
  · intro c h0 h1 h2; rw [hh c, if_pos ⟨h0, h1⟩] at h2; omega
  · intro c h0 h1 r hr0 hr1
    rw [hh c, if_pos ⟨h0, h1⟩] at hr1
    rw [hb r c, if_pos ⟨⟨hr0, hr1⟩, h0, h1⟩]
  · intro c h0 h1; rw [hh c, if_pos ⟨h0, h1⟩]
  · exact ⟨0, le_refl _, by decide, by rw [hh 0, if_pos ⟨le_refl _, by decide⟩]⟩
  · intro r hr0 hr1; omega
  · intro r hr0 hr1
    exact ⟨0, le_refl _, by decide, by rw [hb r 0, if_pos ⟨⟨hr0, hr1⟩, le_refl _, by decide⟩]⟩

theorem stepDataOK_congr (s t : Tetris) (h : StepDataOK s) (h0 : t.stepData = s.stepData)
    (h1 : t.terminalState = s.terminalState) (hb : t.board = s.board)
    (hh : t.boardHeightmap = s.boardHeightmap) (hm : t.boardHeightmapMin = s.boardHeightmapMin)
    (hf : t.fallingPiece = s.fallingPiece) (hc : t.clearedRows = s.clearedRows) :
    StepDataOK t := by
  obtain ⟨old, ho⟩ := h.observation
  refine
    { reward := by rw [h0, hc]; exact h.reward
      observation := ⟨old, by rw [h0, ho, computeObservation_congr s t old h1 hb hh hm]⟩
      count := by rw [h0, h1, hf]; exact h.count
      terminal := ?_
      actions := ?_ }
  · intro ht a ha0 ha1
    rw [h1] at ht
    rw [hf] at ha1
    rw [h0, h.terminal ht a ha0 ha1, (actionRow_congr s t a (fun _ => 0) h1 hb hh hm hf).2]
  · intro ht a ha0 ha1
    rw [h1] at ht
    rw [hf] at ha1
    obtain ⟨old2, ho2⟩ := h.actions ht a ha0 ha1
    exact ⟨old2, by rw [h0, ho2, (actionRow_congr s t a old2 h1 hb hh hm hf).1]⟩

/-- A legal drop keeps the board invariant, whether it lands or overflows. -/
theorem dropPiece_inv (s : Tetris) (a : Int)
    (hI : BoardInv s.board s.boardHeightmap s.boardHeightmapMin)
    (hp0 : 0 ≤ s.fallingPiece) (hp1 : s.fallingPiece < 7) (ha0 : 0 ≤ a)
    (ha1 : a < pieceActionCounts s.fallingPiece) :
    BoardInv (s.dropPiece a).1.board (s.dropPiece a).1.boardHeightmap
      (s.dropPiece a).1.boardHeightmapMin := by
  by_cases h : landingRow s a < 0
  · rw [dropPiece_overflow s a h]
    exact hI
  · exact (dropPiece_lands s a hI hp0 hp1 ha0 ha1 (by omega)).2.2.2

/-- The state after `step` in terms of the drop. -/
theorem step_spec (s : Tetris) (a draw : Int) :
    (s.step a draw).1.board = (s.dropPiece a).1.board ∧
    (s.step a draw).1.boardHeightmap = (s.dropPiece a).1.boardHeightmap ∧
    (s.step a draw).1.boardHeightmapMin = (s.dropPiece a).1.boardHeightmapMin ∧
    (s.step a draw).1.terminalState = (s.dropPiece a).1.terminalState ∧
    (s.step a draw).1.fallingPiece = draw ∧
    (s.step a draw).1.episode = s.episode ∧
    (s.step a draw).1.totalClearedRows = s.totalClearedRows + (s.dropPiece a).2 ∧
    (s.step a draw).1.clearedRows = (s.dropPiece a).2 ∧
    (s.step a draw).2 = (s.dropPiece a).2 ∧
    (s.step a draw).1.stepData.observation =
      (s.dropPiece a).1.computeObservation s.stepData.observation ∧
    StepDataOK (s.step a draw).1 := by
  obtain ⟨f1, f2, f3, f4, f5⟩ := dropPiece_frame s a
  obtain ⟨g1, g2, g3, g4, g5, g6, g7, g8, g9, g10⟩ :=
    generateStepData_spec (s.advanceState a draw)
  have e : (s.step a draw).1 = (s.advanceState a draw).generateStepData := rfl
  have e2 : (s.step a draw).2 = (s.advanceState a draw).generateStepData.clearedRows := rfl
  rw [e, e2]
  refine ⟨by rw [g1]; rfl, by rw [g2]; rfl, by rw [g3]; rfl, by rw [g4]; rfl, by rw [g5]; rfl,
    by rw [g6]; exact f2, ?_, by rw [g8]; rfl, by rw [g8]; rfl, ?_, g10⟩
  · rw [g7]
    simp only [Tetris.advanceState, f3]
  · rw [g9]
    have : (s.advanceState a draw).stepData = s.stepData := f1
    rw [this]
    exact computeObservation_congr (s.dropPiece a).1 (s.advanceState a draw) _ rfl rfl rfl rfl

theorem newEpisode_spec (s : Tetris) (draw : Int) :
    (s.newEpisode draw).board = (s.resetState draw).board ∧
    (s.newEpisode draw).boardHeightmap = (s.resetState draw).boardHeightmap ∧
    (s.newEpisode draw).boardHeightmapMin = ROWS ∧
    (s.newEpisode draw).terminalState = false ∧
    (s.newEpisode draw).fallingPiece = draw ∧
    (s.newEpisode draw).totalClearedRows = 0 ∧
    (s.newEpisode draw).clearedRows = 0 ∧
    StepDataOK (s.newEpisode draw) := by
  obtain ⟨g1, g2, g3, g4, g5, g6, g7, g8, g9, g10⟩ :=
    generateStepData_spec (s.resetState draw)
  refine ⟨g1, g2, g3, g4, g5, g7, g8, ?_⟩
  exact stepDataOK_congr (s.resetState draw).generateStepData (s.newEpisode draw) g10
    rfl rfl rfl rfl rfl rfl rfl

/-- Every reachable state satisfies the board invariant, holds a valid falling piece and carries
step data that describe it. -/
theorem reachable_inv (s : Tetris) (h : Reachable s) :
    BoardInv s.board s.boardHeightmap s.boardHeightmapMin ∧
    0 ≤ s.fallingPiece ∧ s.fallingPiece < 7 ∧ StepDataOK s := by
  induction h with
  | newEpisode s draw hd =>
    obtain ⟨n1, n2, n3, n4, n5, n6, n7, n8⟩ := newEpisode_spec s draw
    refine ⟨?_, by rw [n5]; exact hd.1, by rw [n5]; exact hd.2, n8⟩
    have := resetState_inv s draw
    rw [n1, n2, n3]
    exact this
  | step s a draw hs hterm ha hd ih =>
    obtain ⟨hI, hp0, hp1, hOK⟩ := ih
    obtain ⟨t1, t2, t3, t4, t5, t6, t7, t8, t9, t10, t11⟩ := step_spec s a draw
    have hcount := hOK.count
    rw [hterm] at hcount
    simp only [Bool.false_eq_true, if_false] at hcount
    refine ⟨?_, by rw [t5]; exact hd.1, by rw [t5]; exact hd.2, t11⟩
    rw [t1, t2, t3]
    exact dropPiece_inv s a hI hp0 hp1 ha.1 (by rw [← hcount]; exact ha.2)

/-! ## Lemmas shared by the claims -/

set_option maxRecDepth 1000000

/-- The count of actions offered in a reachable non-terminal state. -/
theorem reachable_actionCount (s : Tetris) (h : Reachable s) (hterm : s.terminalState = false) :
    s.stepData.actionCount = pieceActionCounts s.fallingPiece := by
  have := (reachable_inv s h).2.2.2.count
  rw [hterm] at this
  simpa using this

theorem ABS_eq_abs (x : Int) : ABS x = |x| := by
  unfold ABS
  split_ifs with h
  · rw [abs_of_neg h]
  · rw [abs_of_nonneg (by omega)]

section Decoding
set_option synthInstance.maxSize 4096

theorem catalog_decode : ∀ p : Nat, p < 7 → ∀ a : Nat, a < 34 →
    (a : Int) < pieceActionCounts p →
    (a : Int) = orientationOffset p (expandAction p a).1.toNat + (expandAction p a).2 := by
  decide!

theorem catalog_encode : ∀ p : Nat, p < 7 → ∀ o : Nat, o < 4 →
    (o : Int) < pieceOrientationCounts p → ∀ c : Nat, c < 10 →
    (c : Int) ≤ COLUMNS - pieceWidths p o →
    orientationOffset p o + c < pieceActionCounts p ∧
    expandAction p (orientationOffset p o + c) = ((o : Int), (c : Int)) := by
  decide!

theorem catalog_count : ∀ p : Nat, p < 7 →
    pieceActionCounts p = orientationOffset p (pieceOrientationCounts p).toNat := by
  decide!

end Decoding

theorem orientationOffset_nonneg (p : Int) (hp0 : 0 ≤ p) (hp1 : p < 7) (o : Nat)
    (ho : (o : Int) < pieceOrientationCounts p) : 0 ≤ orientationOffset p o := by
  unfold orientationOffset
  apply List.sum_nonneg
  intro x hx
  obtain ⟨k, hk, rfl⟩ := List.mem_map.mp hx
  rw [List.mem_range] at hk
  have := (shapeOK_of_valid p k hp0 hp1 (by omega) (by omega)).width_le
  have hC : COLUMNS = 10 := rfl
  omega

/-- The stored observation of a reachable state is what `computeObservation` writes for it. -/
theorem reachable_observation (s : Tetris) (h : Reachable s) (obs : Int → Int) (i : Int)
    (hi0 : 0 ≤ i) (hi1 : i < STATEDIM) :
    s.stepData.observation i = s.computeObservation obs i := by
  obtain ⟨old, ho⟩ := (reachable_inv s h).2.2.2.observation
  have hS : STATEDIM = 22 := rfl
  have hC : COLUMNS = 10 := rfl
  rw [ho]
  cases hterm : s.terminalState
  · rw [computeObservation_nonterminal _ _ hterm, computeObservation_nonterminal _ _ hterm]
    split_ifs <;> first | rfl | (exfalso; omega)
  · rw [computeObservation_terminal _ _ hterm, computeObservation_terminal _ _ hterm]
    split_ifs <;> first | rfl | (exfalso; omega)

/-- Under the board invariant the cells below the heightmap entry of a column are the cells
with a filled cell above them. -/
theorem emptyBelowTopline_eq_covered (board : Int → Int → Bool) (hm : Int → Int) (hmin : Int)
    (hI : StackInv board hm hmin) : emptyBelowTopline board hm = coveredEmptyCells board := by
  unfold emptyBelowTopline coveredEmptyCells countEmpty
  congr 1
  apply List.map_congr_left
  intro c hc
  rw [List.mem_range] at hc
  have h10 : COLUMNS.toNat = 10 := rfl
  have hC : COLUMNS = 10 := rfl
  have hR : ROWS = 20 := rfl
  have h20 : ROWS.toNat = 20 := rfl
  congr 2
  apply List.filter_congr
  intro r hr
  rw [List.mem_range] at hr
  congr 1
  rw [Bool.eq_iff_iff, decide_eq_true_iff, List.any_eq_true]
  constructor
  · intro hlt
    have hf := hI.hm_filled c (by omega) (by omega) (by omega)
    have hn := hI.hm_nonneg c (by omega) (by omega)
    refine ⟨(hm c).toNat, List.mem_range.mpr (by omega), ?_⟩
    have e : (((hm c).toNat : Nat) : Int) = hm c := by omega
    rw [e]
    exact hf
  · rintro ⟨r1, hr1, hb⟩
    rw [List.mem_range] at hr1
    by_contra hge
    have := hI.hm_above c (by omega) (by omega) r1 (by omega) (by omega)
    rw [hb] at this
    exact absurd this (by decide)

theorem coveredEmptyCells_eq_zero_iff (board : Int → Int → Bool) :
    coveredEmptyCells board = 0 ↔
      ∀ r c, 0 ≤ r → r < ROWS → 0 ≤ c → c < COLUMNS → board r c = false →
        ∀ r1, 0 ≤ r1 → r1 < r → board r1 c = false := by
  have h10 : COLUMNS.toNat = 10 := rfl
  have hC : COLUMNS = 10 := rfl
  have hR : ROWS = 20 := rfl
  have h20 : ROWS.toNat = 20 := rfl
  have hnonneg : ∀ x ∈ (List.range COLUMNS.toNat).map
      (fun c : Nat => countEmpty board c
        (fun r => (List.range r).any (fun r1 : Nat => board r1 c))), (0 : Int) ≤ x := by
    intro x hx
    obtain ⟨c, _, rfl⟩ := List.mem_map.mp hx
    unfold countEmpty
    exact Int.natCast_nonneg _
  unfold coveredEmptyCells
  constructor
  · intro hz r c hr0 hr1 hc0 hc1 hb r1 h0 h1
    by_contra hne
    have hb1 : board r1 c = true := by simpa using hne
    have hmem : countEmpty board c.toNat
        (fun r => (List.range r).any (fun r1 : Nat => board r1 c.toNat)) ∈
        (List.range COLUMNS.toNat).map (fun c : Nat => countEmpty board c
          (fun r => (List.range r).any (fun r1 : Nat => board r1 c))) :=
      List.mem_map.mpr ⟨c.toNat, List.mem_range.mpr (by omega), rfl⟩
    have hle := List.single_le_sum hnonneg _ hmem
    rw [hz] at hle
    have hpos : 0 < countEmpty board c.toNat
        (fun r => (List.range r).any (fun r1 : Nat => board r1 c.toNat)) := by
      unfold countEmpty
      have ec : ((c.toNat : Nat) : Int) = c := by omega
      have er : ((r.toNat : Nat) : Int) = r := by omega
      have e1 : ((r1.toNat : Nat) : Int) = r1 := by omega
      have : r.toNat ∈ (List.range ROWS.toNat).filter
          (fun r : Nat => (List.range r).any (fun r1 : Nat => board r1 c.toNat) &&
            !board r c.toNat) := by
        rw [List.mem_filter]
        refine ⟨List.mem_range.mpr (by omega), ?_⟩
        rw [Bool.and_eq_true, List.any_eq_true]
        refine ⟨⟨r1.toNat, List.mem_range.mpr (by omega), by rw [e1, ec]; exact hb1⟩, ?_⟩
        rw [er, ec, hb]
        rfl
      exact Int.natCast_pos.mpr (List.length_pos_of_mem this)
    omega
  · intro hall
    apply List.sum_eq_zero
    intro x hx
    obtain ⟨c, hc, rfl⟩ := List.mem_map.mp hx
    rw [List.mem_range] at hc
    unfold countEmpty
    have : (List.range ROWS.toNat).filter
        (fun r : Nat => (List.range r).any (fun r1 : Nat => board r1 c) && !board r c) = [] := by
      rw [List.filter_eq_nil_iff]
      intro r hr
      rw [List.mem_range] at hr
      intro hcond
      rw [Bool.and_eq_true, List.any_eq_true] at hcond
      obtain ⟨⟨r1, hr1, hb1⟩, hb⟩ := hcond
      rw [List.mem_range] at hr1
      have hbf : board r c = false := by simpa using hb
      have := hall r c (by omega) (by omega) (by omega) (by omega) hbf r1 (by omega) (by omega)
      rw [hb1] at this
      exact absurd this (by decide)
    rw [this]
    rfl

/-! ## Witness states -/

theorem squareDropped_reachable : Reachable squareDropped :=
  Reachable.step (freshTetris.newEpisode 0) 0 1
    (Reachable.newEpisode freshTetris 0 (by decide)) (by decide!) (by decide!) (by decide)

theorem lineReady_reachable : Reachable lineReady :=
  Reachable.step ((freshTetris.newEpisode 2).step 0 2).1 4 0
    (Reachable.step (freshTetris.newEpisode 2) 0 2
      (Reachable.newEpisode freshTetris 2 (by decide)) (by decide!) (by decide!) (by decide))
    (by decide!) (by decide!) (by decide)

theorem towerBuilt_reachable : Reachable towerBuilt :=
  Reachable.step
    (((((freshTetris.newEpisode 2).step 7 2).1.step 7 2).1.step 7 2).1.step 7 2).1 7 2
    (Reachable.step ((((freshTetris.newEpisode 2).step 7 2).1.step 7 2).1.step 7 2).1 7 2
      (Reachable.step (((freshTetris.newEpisode 2).step 7 2).1.step 7 2).1 7 2
        (Reachable.step ((freshTetris.newEpisode 2).step 7 2).1 7 2
          (Reachable.step (freshTetris.newEpisode 2) 7 2
            (Reachable.newEpisode freshTetris 2 (by decide)) (by decide!) (by decide!)
            (by decide))
          (by decide!) (by decide!) (by decide))
        (by decide!) (by decide!) (by decide))
      (by decide!) (by decide!) (by decide))
    (by decide!) (by decide!) (by decide)

theorem holeMade_reachable : Reachable holeMade :=
  Reachable.step (freshTetris.newEpisode 5) 0 0
    (Reachable.newEpisode freshTetris 5 (by decide)) (by decide!) (by decide!) (by decide)

/-! ## Lemmas about the reset, the critics and the controller -/

theorem pieceDraw_range {F : Type} [LinearOrderedField F] [FloorRing F] (u : F) (h0 : 0 ≤ u)
    (h1 : u < 1) : 0 ≤ pieceDraw u ∧ pieceDraw u < 7 ∧ pieceDraw u = ⌊7 * u⌋ := by
  have hx : (0 : F) ≤ u * 7 := by positivity
  unfold pieceDraw truncToInt
  rw [if_pos hx, mul_comm u 7]
  refine ⟨Int.floor_nonneg.mpr (by linarith), ?_, rfl⟩
  rw [Int.floor_lt]
  push_cast
  linarith

theorem holesUnderTopline_empty (board : Int → Int → Bool) (hm : Int → Int)
    (h : ∀ c, 0 ≤ c → c < COLUMNS → hm c = ROWS) : holesUnderTopline board hm = 0 := by
  unfold holesUnderTopline
  refine forUp_invariant 0 COLUMNS _ (0 : Int) (fun (_ : Int) (x : Int) => x = 0) (by decide) rfl ?_
  intro j t hj0 hj1 ht
  rw [forUp_empty _ _ _ _ (by rw [h j hj0 hj1]; omega)]
  exact ht

/-- On a board whose columns are all empty every legal drop lands. -/
theorem landingRow_empty (s : Tetris) (a : Int)
    (hh : ∀ c, 0 ≤ c → c < COLUMNS → s.boardHeightmap c = ROWS)
    (hp0 : 0 ≤ s.fallingPiece) (hp1 : s.fallingPiece < 7) (ha0 : 0 ≤ a)
    (ha1 : a < pieceActionCounts s.fallingPiece) :
    landingRow s a + pieceHeights s.fallingPiece (expandAction s.fallingPiece a).1 = ROWS := by
  obtain ⟨v1, v2, v3, v4⟩ := expandAction_valid s.fallingPiece a hp0 hp1 ha0 ha1
  have sh := expandAction_shape s.fallingPiece a hp0 hp1 ha0 ha1
  obtain ⟨l1, ⟨pc, l2, l3, l4⟩, l5⟩ := findRow_landing s.boardHeightmap s.fallingPiece _ _ sh
    (fun c c0 c1 => by rw [hh c c0 c1]) v3 v4
  have hb := sh.bottom_le pc l2 l3
  rw [hh _ (by omega) (by omega)] at l4
  unfold landingRow
  omega

theorem expandAction_square (a : Int) (h0 : 0 ≤ a) (h1 : a ≤ 8) : expandAction 0 a = (0, a) := by
  interval_cases a <;> decide

/-- The cells that the square covers. -/
theorem pieceCell_square (row col r c : Int) :
    pieceCell 0 0 row col r c = decide ((r = row ∨ r = row + 1) ∧ (c = col ∨ c = col + 1)) := by
  unfold pieceCell
  have hw : pieceWidths 0 0 = 2 := by decide
  have hh : pieceHeights 0 0 = 2 := by decide
  rw [hw, hh]
  by_cases h : (row ≤ r ∧ r < row + 2 ∧ col ≤ c ∧ c < col + 2)
  · have e : decide ((r = row ∨ r = row + 1) ∧ (c = col ∨ c = col + 1)) = true := by
      rw [decide_eq_true_iff]; omega
    rw [e, decide_eq_true h, Bool.true_and]
    have hr : r - row = 0 ∨ r - row = 1 := by omega
    have hc : c - col = 0 ∨ c - col = 1 := by omega
    rcases hr with hr | hr <;> rcases hc with hc | hc <;> rw [hr, hc] <;> decide
  · have e : decide ((r = row ∨ r = row + 1) ∧ (c = col ∨ c = col + 1)) = false := by
      rw [decide_eq_false_iff_not]; omega
    rw [e, decide_eq_false h, Bool.false_and]

/-- Dropping the square on a board whose cells are all empty. -/
theorem square_on_empty (s : Tetris) (a : Int)
    (hI : BoardInv s.board s.boardHeightmap s.boardHeightmapMin)
    (hb : ∀ r c, 0 ≤ r → r < ROWS → 0 ≤ c → c < COLUMNS → s.board r c = false)
    (hh : ∀ c, 0 ≤ c → c < COLUMNS → s.boardHeightmap c = ROWS)
    (hp : s.fallingPiece = 0) (h0 : 0 ≤ a) (h1 : a ≤ 8) :
    (s.dropPiece a).2 = 0 ∧ (s.dropPiece a).1.terminalState = s.terminalState ∧
    (∀ r c, 0 ≤ r → r < ROWS → 0 ≤ c → c < COLUMNS → (s.dropPiece a).1.board r c =
      decide ((r = 18 ∨ r = 19) ∧ (c = a ∨ c = a + 1))) ∧
    (∀ c, 0 ≤ c → c < COLUMNS → (s.dropPiece a).1.boardHeightmap c =
      if c = a ∨ c = a + 1 then 18 else 20) ∧
    (s.dropPiece a).1.boardHeightmapMin = 18 ∧
    holesUnderTopline (s.dropPiece a).1.board (s.dropPiece a).1.boardHeightmap = 0 := by
  have hC : COLUMNS = 10 := rfl
  have hR : ROWS = 20 := rfl
  have hcnt : pieceActionCounts s.fallingPiece = 9 := by rw [hp]; decide
  have hl := landingRow_empty s a hh (by rw [hp]) (by rw [hp]; decide) h0 (by omega)
  rw [hp, expandAction_square a h0 h1] at hl
  have hl2 : landingRow s a = 18 := by
    have : pieceHeights 0 0 = 2 := by decide
    simp only at hl
    omega
  have hplaced : ∀ r c, 0 ≤ r → r < ROWS → 0 ≤ c → c < COLUMNS → placedBoard s a r c =
      decide ((r = 18 ∨ r = 19) ∧ (c = a ∨ c = a + 1)) := by
    intro r c r0 r1 c0 c1
    unfold placedBoard
    rw [hl2, hp, expandAction_square a h0 h1, withPiece_apply, hb r c r0 r1 c0 c1,
      pieceCell_square, Bool.false_or]
    norm_num
  obtain ⟨d1, -, d3, d4⟩ := dropPiece_lands s a hI (by rw [hp]) (by rw [hp]; decide) h0
    (by omega) (by omega)
  have hnone : (boardRows (placedBoard s a)).filter isFullRow = [] := by
    rw [List.filter_eq_nil_iff]
    intro x hx
    unfold boardRows at hx
    rw [mem_rowsFrom] at hx
    obtain ⟨i, i0, i1, rfl⟩ := hx
    have h20 : ((ROWS.toNat : Nat) : Int) = 20 := rfl
    rw [isFullRow_false_of_not_full]
    · decide
    · by_cases ha : a = 8
      · refine ⟨0, by omega, by omega, ?_⟩
        rw [hplaced _ _ (by omega) (by omega) (by omega) (by omega), decide_eq_false_iff_not]
        omega
      · refine ⟨9, by omega, by omega, ?_⟩
        rw [hplaced _ _ (by omega) (by omega) (by omega) (by omega), decide_eq_false_iff_not]
        omega
  have hz : (s.dropPiece a).2 = 0 := by rw [d1, hnone]; rfl
  have hboard : ∀ r c, 0 ≤ r → r < ROWS → 0 ≤ c → c < COLUMNS → (s.dropPiece a).1.board r c =
      decide ((r = 18 ∨ r = 19) ∧ (c = a ∨ c = a + 1)) := by
    intro r c r0 r1 c0 c1
    rw [d3 hz, hplaced r c r0 r1 c0 c1]
  have hhm : ∀ c, 0 ≤ c → c < COLUMNS → (s.dropPiece a).1.boardHeightmap c =
      if c = a ∨ c = a + 1 then 18 else 20 := by
    intro c c0 c1
    have k1 := d4.hm_nonneg c c0 c1
    have k2 := d4.hm_le c c0 c1
    have k3 := d4.hm_filled c c0 c1
    have k4 := d4.hm_above c c0 c1
    by_cases hc : c = a ∨ c = a + 1
    · rw [if_pos hc]
      by_contra hne
      by_cases hlt : (s.dropPiece a).1.boardHeightmap c < 18
      · have := k3 (by omega)
        rw [hboard _ _ k1 (by omega) c0 c1, decide_eq_true_iff] at this
        omega
      · have := k4 18 (by omega) (by omega)
        rw [hboard _ _ (by omega) (by omega) c0 c1, decide_eq_false_iff_not] at this
        omega
    · rw [if_neg hc]
      by_contra hne
      have := k3 (by omega)
      rw [hboard _ _ k1 (by omega) c0 c1, decide_eq_true_iff] at this
      exact hc this.2
  refine ⟨hz, ?_, hboard, hhm, ?_, ?_⟩
  · rw [dropPiece_terminal]
    have : ¬ (landingRow s a < 0) := by omega
    simp [this]
  · obtain ⟨c, c0, c1, c2⟩ := d4.min_attained
    have k := d4.min_le a (by omega) (by omega)
    rw [hhm a (by omega) (by omega), if_pos (Or.inl rfl)] at k
    rw [hhm c c0 c1] at c2
    split_ifs at c2 <;> omega
  · rw [holesUnderTopline_eq _ _ d4.hm_nonneg, emptyBelowTopline_eq_covered _ _ _ d4.toStackInv,
      coveredEmptyCells_eq_zero_iff]
    intro r c r0 r1 c0 c1 he q q0 q1
    rw [hboard r c r0 r1 c0 c1, decide_eq_false_iff_not] at he
    rw [hboard q c q0 (by omega) c0 c1, decide_eq_false_iff_not]
    omega

/-- A counted loop that rewrites entry `i` of an array in pass `i`. -/
theorem forUp_set1_map {D : Type} (lo n : Int) (f : Int → D → D) (a : Int → D) :
    forUp lo n (fun i x => set1 x i (f i (x i))) a =
      fun j => if lo ≤ j ∧ j < n then f j (a j) else a j := by
  by_cases hn : lo ≤ n
  · have := forUp_invariant lo n (fun i x => set1 x i (f i (x i))) a
      (fun (i : Int) (x : Int → D) => ∀ j, x j = if lo ≤ j ∧ j < i then f j (a j) else a j)
      hn ?_ ?_
    · funext j
      exact this j
    · intro j
      rw [if_neg (by omega)]
    · intro i x hi0 hi1 hx j
      beta_reduce
      rw [set1_apply]
      by_cases hj : j = i
      · subst hj
        rw [if_pos rfl, if_pos (by omega), hx j, if_neg (by omega)]
      · rw [if_neg hj, hx j]
        by_cases h2 : lo ≤ j ∧ j < i
        · rw [if_pos h2, if_pos (by omega)]
        · rw [if_neg h2, if_neg (by omega)]
  · rw [forUp_empty _ _ _ _ (by omega)]
    funext j
    rw [if_neg (by omega)]

/-- Two nested counted loops that rewrite entry `(i, j)` of a matrix in pass `(i, j)`. -/
theorem forUp_set2_map {D : Type} (n lo m : Int) (g : Int → Int → D → D) (a : Int → Int → D) :
    forUp 0 n (fun i A => forUp lo m (fun j A0 => set2 A0 i j (g i j (A0 i j))) A) a =
      fun i j => if (0 ≤ i ∧ i < n) ∧ lo ≤ j ∧ j < m then g i j (a i j) else a i j := by
  have inner : ∀ (i : Int) (A : Int → Int → D),
      forUp lo m (fun j A0 => set2 A0 i j (g i j (A0 i j))) A =
        fun i1 j => if i1 = i ∧ lo ≤ j ∧ j < m then g i j (A i j) else A i1 j := by
    intro i A
    by_cases hm : lo ≤ m
    · have := forUp_invariant lo m (fun j A0 => set2 A0 i j (g i j (A0 i j))) A
        (fun (k : Int) (x : Int → Int → D) => ∀ i1 j, x i1 j =
          if i1 = i ∧ lo ≤ j ∧ j < k then g i j (A i j) else A i1 j) hm ?_ ?_
      · funext i1 j
        exact this i1 j
      · intro i1 j
        rw [if_neg (by omega)]
      · intro k x hk0 hk1 hx i1 j
        beta_reduce
        rw [set2_apply]
        by_cases hj : i1 = i ∧ j = k
        · obtain ⟨h1, h2⟩ := hj
          subst h1 h2
          rw [if_pos ⟨rfl, rfl⟩, if_pos (by omega), hx i1 j, if_neg (by omega)]
        · rw [if_neg hj, hx i1 j]
          by_cases h2 : i1 = i ∧ lo ≤ j ∧ j < k
          · rw [if_pos h2, if_pos (by omega)]
          · rw [if_neg h2, if_neg (by omega)]
    · rw [forUp_empty _ _ _ _ (by omega)]
      funext i1 j
      rw [if_neg (by omega)]
  by_cases hn : 0 ≤ n
  · have := forUp_invariant 0 n
      (fun i A => forUp lo m (fun j A0 => set2 A0 i j (g i j (A0 i j))) A) a
      (fun (k : Int) (x : Int → Int → D) => ∀ i j, x i j =
        if (0 ≤ i ∧ i < k) ∧ lo ≤ j ∧ j < m then g i j (a i j) else a i j) hn ?_ ?_
    · funext i j
      exact this i j
    · intro i j
      rw [if_neg (by omega)]
    · intro k x hk0 hk1 hx i j
      beta_reduce
      rw [inner]
      beta_reduce
      by_cases hj : i = k ∧ lo ≤ j ∧ j < m
      · obtain ⟨h1, h2⟩ := hj
        subst h1
        rw [if_pos ⟨rfl, h2⟩, if_pos (by omega), hx i j, if_neg (by omega)]
      · rw [if_neg hj, hx i j]
        by_cases h2 : (0 ≤ i ∧ i < k) ∧ lo ≤ j ∧ j < m
        · rw [if_pos h2, if_pos (by omega)]
        · rw [if_neg h2, if_neg (by omega)]
  · rw [forUp_empty _ _ _ _ (by omega)]
    funext i j
    rw [if_neg (by omega)]

/-- The fields of an LSTD critic after one `step` outside the corrected mode. -/
theorem LSTDLambda_step_spec {D : Type} [Zero D] [Add D] [Sub D] [Mul D]
    (mode : PetersTrickMode) (hmode : mode ≠ PetersTrickMode.PTM_CORRECTED)
    (c : LSTDLambda D) (r : D) :
    (c.step mode r).toCritic = c.toCritic ∧
    (c.step mode r).z = (fun i => if 0 ≤ i ∧ i < c.VDim
      then c.gamma * c.lambda * c.z i + c.phi0 i else c.z i) ∧
    (c.step mode r).A = (fun i j => if (0 ≤ i ∧ i < c.VDim) ∧ 0 ≤ j ∧ j < c.VDim
      then c.A i j + (c.gamma * c.lambda * c.z i + c.phi0 i) * (c.phi0 j - c.gamma * c.phi1 j)
      else c.A i j) ∧
    (c.step mode r).b = (fun i => if 0 ≤ i ∧ i < c.VDim
      then c.b i + (c.gamma * c.lambda * c.z i + c.phi0 i) * r else c.b i) := by
  simp only [LSTDLambda.step, if_neg hmode]
  rw [forUp_set1_map 0 c.VDim (fun i x => c.gamma * c.lambda * x + c.phi0 i),
    forUp_set1_map 0 c.VDim (fun i _ => c.phi0 i - c.gamma * c.phi1 i)]
  refine ⟨trivial, rfl, ?_, ?_⟩
  · rw [forUp_set2_map c.VDim 0 c.VDim (fun i j x => x +
      (if 0 ≤ i ∧ i < c.VDim then c.gamma * c.lambda * c.z i + c.phi0 i else c.z i) *
      (if 0 ≤ j ∧ j < c.VDim then c.phi0 j - c.gamma * c.phi1 j else 0))]
    funext i j
    by_cases h : (0 ≤ i ∧ i < c.VDim) ∧ 0 ≤ j ∧ j < c.VDim
    · rw [if_pos h, if_pos h, if_pos h.1, if_pos h.2]
    · rw [if_neg h, if_neg h]
  · rw [forUp_set1_map 0 c.VDim (fun i x => x +
      (if 0 ≤ i ∧ i < c.VDim then c.gamma * c.lambda * c.z i + c.phi0 i else c.z i) * r)]
    funext i
    by_cases h : 0 ≤ i ∧ i < c.VDim
    · rw [if_pos h, if_pos h, if_pos h]
    · rw [if_neg h, if_neg h]

/-- The fields of an LSPE critic after one `step`. -/
theorem LSPELambda_step_spec {D : Type} [Zero D] [Add D] [Sub D] [Mul D]
    (c : LSPELambda D) (r : D) :
    (c.step r).toCritic = c.toCritic ∧
    (c.step r).B = (fun i j => if (0 ≤ i ∧ i < c.VDim) ∧ 0 ≤ j ∧ j < c.VDim
      then c.B i j + c.phi0 i * c.phi0 j else c.B i j) ∧
    (c.step r).z = (fun i => if 0 ≤ i ∧ i < c.VDim
      then c.gamma * c.lambda * c.z i + c.phi0 i else c.z i) ∧
    (c.step r).A = (fun i j => if (0 ≤ i ∧ i < c.VDim) ∧ 0 ≤ j ∧ j < c.VDim
      then c.A i j + (c.gamma * c.lambda * c.z i + c.phi0 i) * (c.gamma * c.phi1 j - c.phi0 j)
      else c.A i j) ∧
    (c.step r).b = (fun i => if 0 ≤ i ∧ i < c.VDim
      then c.b i + (c.gamma * c.lambda * c.z i + c.phi0 i) * r else c.b i) := by
  simp only [LSPELambda.step]
  rw [forUp_set1_map 0 c.VDim (fun i x => c.gamma * c.lambda * x + c.phi0 i),
    forUp_set1_map 0 c.VDim (fun i _ => c.gamma * c.phi1 i - c.phi0 i)]
  refine ⟨trivial, ?_, rfl, ?_, ?_⟩
  · rw [forUp_set2_map c.VDim 0 c.VDim (fun i j x => x + c.phi0 i * c.phi0 j)]
  · rw [forUp_set2_map c.VDim 0 c.VDim (fun i j x => x +
      (if 0 ≤ i ∧ i < c.VDim then c.gamma * c.lambda * c.z i + c.phi0 i else c.z i) *
      (if 0 ≤ j ∧ j < c.VDim then c.gamma * c.phi1 j - c.phi0 j else 0))]
    funext i j
    by_cases h : (0 ≤ i ∧ i < c.VDim) ∧ 0 ≤ j ∧ j < c.VDim
    · rw [if_pos h, if_pos h, if_pos h.1, if_pos h.2]
    · rw [if_neg h, if_neg h]
  · rw [forUp_set1_map 0 c.VDim (fun i x => x +
      (if 0 ≤ i ∧ i < c.VDim then c.gamma * c.lambda * c.z i + c.phi0 i else c.z i) * r)]
    funext i
    by_cases h : 0 ≤ i ∧ i < c.VDim
    · rw [if_pos h, if_pos h, if_pos h]
    · rw [if_neg h, if_neg h]

/-- One `step` keeps a symmetric `B` symmetric when the multiplication commutes. -/
theorem LSPELambda_step_symm {D : Type} [Zero D] [Add D] [Sub D] [Mul D]
    (hcomm : ∀ x y : D, x * y = y * x) (c : LSPELambda D) (r : D)
    (hB : ∀ i j, 0 ≤ i → i < c.VDim → 0 ≤ j → j < c.VDim → c.B i j = c.B j i) :
    (c.step r).VDim = c.VDim ∧
    ∀ i j, 0 ≤ i → i < c.VDim → 0 ≤ j → j < c.VDim → (c.step r).B i j = (c.step r).B j i := by
  obtain ⟨s1, s2, -⟩ := LSPELambda_step_spec c r
  refine ⟨congrArg Critic.VDim s1, fun i j i0 i1 j0 j1 => ?_⟩
  rw [s2]
  beta_reduce
  rw [if_pos ⟨⟨i0, i1⟩, j0, j1⟩, if_pos ⟨⟨j0, j1⟩, i0, i1⟩, hB i j i0 i1 j0 j1, hcomm]

/-- Feeding any list of inputs keeps a symmetric `B` symmetric. -/
theorem LSPELambda_feed_symm {D : Type} [Zero D] [Add D] [Sub D] [Mul D]
    (hcomm : ∀ x y : D, x * y = y * x) (inputs : List ((Int → D) × (Int → D) × D)) :
    ∀ (c : LSPELambda D),
      (∀ i j, 0 ≤ i → i < c.VDim → 0 ≤ j → j < c.VDim → c.B i j = c.B j i) →
      (c.feed inputs).VDim = c.VDim ∧
      ∀ i j, 0 ≤ i → i < c.VDim → 0 ≤ j → j < c.VDim →
        (c.feed inputs).B i j = (c.feed inputs).B j i := by
  induction inputs with
  | nil => intro c hB; exact ⟨rfl, hB⟩
  | cons x rest ih =>
    intro c hB
    obtain ⟨v, hs⟩ := LSPELambda_step_symm hcomm
      ({ c with phi0 := x.1, phi1 := x.2.1 } : LSPELambda D) x.2.2 hB
    obtain ⟨v2, hs2⟩ := ih _ (fun i j i0 i1 j0 j1 =>
      hs i j i0 (by rw [v] at i1; exact i1) j0 (by rw [v] at j1; exact j1))
    exact ⟨v2.trans v, fun i j i0 i1 j0 j1 => hs2 i j i0 (by rw [v]; exact i1) j0
      (by rw [v]; exact j1)⟩

/-- The two sample matrices after the copy loop of `FullTDLambda::step`: column `n` of each
holds the register, every other entry is unchanged. -/
theorem fullTD_loop_spec {D : Type} (V n : Int) (phi0 phi1 s0 s1 : Int → D) (hV : 0 ≤ V) :
    (∀ i, 0 ≤ i → i < V →
      (forUp 0 V (fun i (s : (Int → D) × (Int → D)) =>
        (set1 s.1 (i * MAXSAMPLES + n) (phi0 i), set1 s.2 (i * MAXSAMPLES + n) (phi1 i)))
        (s0, s1)).1 (i * MAXSAMPLES + n) = phi0 i ∧
      (forUp 0 V (fun i (s : (Int → D) × (Int → D)) =>
        (set1 s.1 (i * MAXSAMPLES + n) (phi0 i), set1 s.2 (i * MAXSAMPLES + n) (phi1 i)))
        (s0, s1)).2 (i * MAXSAMPLES + n) = phi1 i) ∧
    (∀ k, (∀ i, 0 ≤ i → i < V → k ≠ i * MAXSAMPLES + n) →
      (forUp 0 V (fun i (s : (Int → D) × (Int → D)) =>
        (set1 s.1 (i * MAXSAMPLES + n) (phi0 i), set1 s.2 (i * MAXSAMPLES + n) (phi1 i)))
        (s0, s1)).1 k = s0 k ∧
      (forUp 0 V (fun i (s : (Int → D) × (Int → D)) =>
        (set1 s.1 (i * MAXSAMPLES + n) (phi0 i), set1 s.2 (i * MAXSAMPLES + n) (phi1 i)))
        (s0, s1)).2 k = s1 k) := by
  refine forUp_invariant 0 V _ (s0, s1)
    (fun (j : Int) (s : (Int → D) × (Int → D)) =>
      (∀ i, 0 ≤ i → i < j → s.1 (i * MAXSAMPLES + n) = phi0 i ∧
        s.2 (i * MAXSAMPLES + n) = phi1 i) ∧
      (∀ k, (∀ i, 0 ≤ i → i < j → k ≠ i * MAXSAMPLES + n) → s.1 k = s0 k ∧ s.2 k = s1 k))
    hV ⟨fun i i0 i1 => by omega, fun k _ => ⟨rfl, rfl⟩⟩ ?_
  intro j s j0 j1 ⟨ha, hb⟩
  refine ⟨fun i i0 i1 => ?_, fun k hk => ?_⟩
  · dsimp only
    rw [set1_apply, set1_apply]
    by_cases hij : i = j
    · subst hij
      rw [if_pos rfl, if_pos rfl]
      exact ⟨rfl, rfl⟩
    · have hne : i * MAXSAMPLES + n ≠ j * MAXSAMPLES + n := by
        unfold MAXSAMPLES
        omega
      rw [if_neg hne, if_neg hne]
      exact ha i i0 (by omega)
  · dsimp only
    rw [set1_apply, set1_apply]
    have hne : k ≠ j * MAXSAMPLES + n := hk j j0 (by omega)
    rw [if_neg hne, if_neg hne]
    exact hb k (fun i i0 i1 => hk i i0 (by omega))

/-- One successful call of `FullTDLambda::step`. -/
theorem FullTDLambda_step_ok {D : Type} (c : FullTDLambda D) (reward : D) (hV : 0 ≤ c.VDim)
    (hn : c.n < MAXSAMPLES) :
    ∃ c1, c.step reward = Except.ok c1 ∧ c1.n = c.n + 1 ∧ c1.toCritic = c.toCritic ∧
      c1.r = set1 c.r c.n reward ∧
      (∀ i, 0 ≤ i → i < c.VDim → c1.s0 (i * MAXSAMPLES + c.n) = c.phi0 i ∧
        c1.s1 (i * MAXSAMPLES + c.n) = c.phi1 i) ∧
      (∀ k, (∀ i, 0 ≤ i → i < c.VDim → k ≠ i * MAXSAMPLES + c.n) →
        c1.s0 k = c.s0 k ∧ c1.s1 k = c.s1 k) := by
  obtain ⟨l1, l2⟩ := fullTD_loop_spec c.VDim c.n c.phi0 c.phi1 c.s0 c.s1 hV
  refine ⟨{ c with
      s0 := (forUp 0 c.VDim (fun i (s : (Int → D) × (Int → D)) =>
        (set1 s.1 (i * MAXSAMPLES + c.n) (c.phi0 i), set1 s.2 (i * MAXSAMPLES + c.n) (c.phi1 i)))
        (c.s0, c.s1)).1
      s1 := (forUp 0 c.VDim (fun i (s : (Int → D) × (Int → D)) =>
        (set1 s.1 (i * MAXSAMPLES + c.n) (c.phi0 i), set1 s.2 (i * MAXSAMPLES + c.n) (c.phi1 i)))
        (c.s0, c.s1)).2
      r := set1 c.r c.n reward
      n := c.n + 1 }, ?_, rfl, rfl, rfl, l1, l2⟩
  simp only [FullTDLambda.step, mxAssert, hn, decide_True, if_true]
  rfl

/-- A call of `FullTDLambda::step` on a full log fails. -/
theorem FullTDLambda_step_full {D : Type} (c : FullTDLambda D) (reward : D)
    (hn : ¬ c.n < MAXSAMPLES) :
    c.step reward = Except.error "Maximum number of samples has been exceeded!" := by
  simp only [FullTDLambda.step, mxAssert, hn, decide_False]
  rfl

/-- Feeding a list of inputs that fits into the log appends them as the next columns and keeps
the columns recorded before. -/
theorem FullTDLambda_feed_spec {D : Type} (inputs : List ((Int → D) × (Int → D) × D)) :
    ∀ (c : FullTDLambda D), c.VDim = VDIM → 0 ≤ c.n → c.n + inputs.length ≤ MAXSAMPLES →
      ∃ c1, c.feed inputs = Except.ok c1 ∧ c1.n = c.n + inputs.length ∧ c1.VDim = VDIM ∧
        (∀ (k : Nat) (x : (Int → D) × (Int → D) × D), inputs[k]? = some x →
          c1.r (c.n + k) = x.2.2 ∧
          ∀ i, 0 ≤ i → i < VDIM → c1.s0 (i * MAXSAMPLES + (c.n + k)) = x.1 i ∧
            c1.s1 (i * MAXSAMPLES + (c.n + k)) = x.2.1 i) ∧
        (∀ k, 0 ≤ k → k < c.n → c1.r k = c.r k ∧
          ∀ i, 0 ≤ i → i < VDIM → c1.s0 (i * MAXSAMPLES + k) = c.s0 (i * MAXSAMPLES + k) ∧
            c1.s1 (i * MAXSAMPLES + k) = c.s1 (i * MAXSAMPLES + k)) := by
  induction inputs with
  | nil =>
    intro c hV hn0 hn1
    refine ⟨c, rfl, by simp, hV, ?_, fun k _ _ => ⟨rfl, fun i _ _ => ⟨rfl, rfl⟩⟩⟩
    intro k x hx
    simp at hx
  | cons y rest ih =>
    intro c hV hn0 hn1
    have hlen : ((y :: rest).length : Int) = (rest.length : Int) + 1 := by simp
    have hVD : VDIM = 45 := rfl
    obtain ⟨c1, e1, n1, t1, r1, w1, f1⟩ := FullTDLambda_step_ok
      ({ c with phi0 := y.1, phi1 := y.2.1 } : FullTDLambda D) y.2.2
      (by show 0 ≤ c.VDim; rw [hV]; decide) (by show c.n < MAXSAMPLES; omega)
    have hV1 : c1.VDim = VDIM := by
      have := congrArg Critic.VDim t1
      exact this.trans hV
    have hn : c1.n = c.n + 1 := n1
    obtain ⟨c2, e2, n2, v2, new2, old2⟩ := ih c1 hV1 (by omega) (by omega)
    have hfeed : c.feed (y :: rest) = Except.ok c2 := by
      show (match ({ c with phi0 := y.1, phi1 := y.2.1 } : FullTDLambda D).step y.2.2 with
        | Except.ok c1 => FullTDLambda.feed c1 rest
        | Except.error e => Except.error e) = Except.ok c2
      rw [e1]
      exact e2
    have w1a : ∀ i, 0 ≤ i → i < VDIM →
        c1.s0 (i * MAXSAMPLES + c.n) = y.1 i ∧ c1.s1 (i * MAXSAMPLES + c.n) = y.2.1 i :=
      fun i i0 i1 => w1 i i0 (by show i < c.VDim; rw [hV]; exact i1)
    have f1a : ∀ k, (∀ i, 0 ≤ i → i < VDIM → k ≠ i * MAXSAMPLES + c.n) →
        c1.s0 k = c.s0 k ∧ c1.s1 k = c.s1 k :=
      fun k hk => f1 k (fun i i0 i1 => hk i i0 (by
        have : i < c.VDim := i1
        rw [hV] at this
        exact this))
    refine ⟨c2, hfeed, by omega, v2, ?_, ?_⟩
    · intro k x hx
      cases k with
      | zero =>
        rw [List.getElem?_cons_zero] at hx
        have hx : y = x := Option.some.inj hx
        subst hx
        have o := old2 c.n hn0 (by omega)
        refine ⟨?_, fun i i0 i1 => ?_⟩
        · rw [Nat.cast_zero, add_zero, o.1, r1, set1_apply]
          exact if_pos rfl
        · rw [Nat.cast_zero, add_zero, (o.2 i i0 i1).1, (o.2 i i0 i1).2]
          exact w1a i i0 i1
      | succ k =>
        rw [List.getElem?_cons_succ] at hx
        have := new2 k x hx
        have e : c.n + ((k + 1 : Nat) : Int) = c1.n + (k : Int) := by
          rw [hn]; push_cast; ring
        rw [e]
        exact this
    · intro k k0 k1
      have o := old2 k k0 (by omega)
      refine ⟨?_, fun i i0 i1 => ?_⟩
      · rw [o.1, r1, set1_apply, if_neg (by show k ≠ c.n; omega)]
      · rw [(o.2 i i0 i1).1, (o.2 i i0 i1).2]
        refine f1a _ (fun i2 a0 a1 => ?_)
        unfold MAXSAMPLES at hn1 ⊢
        omega

theorem Dbl_add_fin {F : Type} [LinearOrderedField F] (x y : F) :
    (Dbl.fin x + Dbl.fin y : Dbl F) = Dbl.fin (x + y) := rfl

theorem Dbl_zero_eq {F : Type} [LinearOrderedField F] : (0 : Dbl F) = Dbl.fin 0 := rfl

/-- The running sums of finite probabilities are finite and exact. -/
theorem cumulativeSum_fin {F : Type} [LinearOrderedField F] (p : Int → Dbl F) (q : Int → F)
    (n : Nat)
    (h : ∀ i : Nat, i < n → p i = Dbl.fin (q i)) :
    ∀ k : Nat, k ≤ n → cumulativeSum p k = Dbl.fin (∑ i in Finset.range k, q i) := by
  intro k
  induction k with
  | zero => intro _; simp [cumulativeSum, Dbl_zero_eq]
  | succ k ih =>
    intro hk
    rw [cumulativeSum, ih (by omega), h k (by omega), Dbl_add_fin, Finset.sum_range_succ]

/-- The loop of `drawAction` started at index `a` with the sum of the first `a` probabilities
stops at the first index from `a` on whose running sum exceeds the draw, or at the bound. -/
theorem drawLoop_spec {F : Type} [LinearOrderedField F] (p : Int → Dbl F) (r : Dbl F) (n : Nat) :
    ∀ a : Nat, ∃ j : Nat, drawLoop p r n (a : Int) (cumulativeSum p a) = (j : Int) ∧
      a ≤ j ∧ j ≤ a + n ∧
      (∀ i : Nat, a ≤ i → i < j → Dbl.lt r (cumulativeSum p (i + 1)) = false) ∧
      (j < a + n → Dbl.lt r (cumulativeSum p (j + 1)) = true) := by
  induction n with
  | zero =>
    intro a
    exact ⟨a, rfl, le_refl _, le_refl _, fun i h1 h2 => by omega, fun h => by omega⟩
  | succ n ih =>
    intro a
    cases hlt : Dbl.lt r (cumulativeSum p (a + 1))
    · obtain ⟨j, e, j0, j1, hf, ht⟩ := ih (a + 1)
      refine ⟨j, ?_, by omega, by omega, ?_, fun h => ht (by omega)⟩
      · rw [drawLoop]
        have hlt2 : Dbl.lt r (cumulativeSum p a + p a) = false := hlt
        rw [hlt2]
        simp only [Bool.false_eq_true, if_false]
        have e2 : ((a : Int) + 1) = ((a + 1 : Nat) : Int) := by push_cast; rfl
        rw [e2]
        exact e
      · intro i i0 i1
        by_cases hi : i = a
        · rw [hi]; exact hlt
        · exact hf i (by omega) i1
    · refine ⟨a, ?_, le_refl _, by omega, fun i h1 h2 => by omega, fun _ => hlt⟩
      rw [drawLoop]
      have hlt2 : Dbl.lt r (cumulativeSum p a + p a) = true := hlt
      rw [hlt2]
      simp

/-- The result of `drawAction` for at least one action. -/
theorem drawAction_spec {F : Type} [LinearOrderedField F] (self : NaturalActorCritic F)
    (s : StepData) (r : Dbl F)
    (hc : 1 ≤ s.actionCount) :
    ∃ j : Nat, self.drawAction s r = (j : Int) ∧ (j : Int) < s.actionCount ∧
      (∀ i : Nat, i < j → Dbl.lt r (cumulativeSum self.actionProbabilities (i + 1)) = false) ∧
      (Dbl.lt r (cumulativeSum self.actionProbabilities (j + 1)) = true ∨
        ((j : Int) = s.actionCount - 1 ∧
          ∀ i : Nat, (i : Int) < s.actionCount →
            Dbl.lt r (cumulativeSum self.actionProbabilities (i + 1)) = false)) := by
  obtain ⟨j, e, j0, j1, hf, ht⟩ :=
    drawLoop_spec self.actionProbabilities r s.actionCount.toNat 0
  have e0 : drawLoop self.actionProbabilities r s.actionCount.toNat 0 0 = (j : Int) := e
  have hn : ((s.actionCount.toNat : Nat) : Int) = s.actionCount := by omega
  unfold NaturalActorCritic.drawAction
  simp only [e0]
  by_cases hj : (j : Int) = s.actionCount
  · rw [if_pos hj]
    have hj1 : 1 ≤ j := by omega
    refine ⟨j - 1, by omega, by omega, fun i hi => hf i (by omega) (by omega),
      Or.inr ⟨by omega, fun i hi => hf i (by omega) (by omega)⟩⟩
  · rw [if_neg hj]
    refine ⟨j, rfl, by omega, fun i hi => hf i (by omega) hi, Or.inl (ht (by omega))⟩

theorem Dbl_mul_fin {F : Type} [LinearOrderedField F] (x y : F) :
    (Dbl.fin x * Dbl.fin y : Dbl F) = Dbl.fin (x * y) := rfl

theorem Dbl_div_fin {F : Type} [LinearOrderedField F] (x y : F) (hy : y ≠ 0) :
    (Dbl.fin x / Dbl.fin y : Dbl F) = Dbl.fin (x / y) := by
  show Dbl.div (Dbl.fin x) (Dbl.fin y) = Dbl.fin (x / y)
  rw [Dbl.div, if_neg hy]

theorem Dbl_sub_fin {F : Type} [LinearOrderedField F] (x y : F) :
    (Dbl.fin x - Dbl.fin y : Dbl F) = Dbl.fin (x - y) := by
  show Dbl.add (Dbl.fin x) (Dbl.neg (Dbl.fin y)) = Dbl.fin (x - y)
  rw [Dbl.neg, Dbl.add, sub_eq_add_neg]

theorem Dbl_negInf_sub_fin {F : Type} [LinearOrderedField F] (y : F) :
    (Dbl.negInf - Dbl.fin y : Dbl F) = Dbl.negInf := rfl

/-- The feature loop of `computeActionProbabilities` (lines 168-169) adds the score of the
action to its entry. -/
theorem scoreLoop_spec {F : Type} [LinearOrderedField F] (s : StepData) (theta : Int → Dbl F)
    (th : Int → F) (t : F) (a : Int) (ap : Int → Dbl F) (v : F)
    (hth : ∀ i, 0 ≤ i → i < STATEACTIONDIM → theta i = Dbl.fin (th i)) (ht : t ≠ 0)
    (hv : ap a = Dbl.fin v) :
    forUp 0 STATEACTIONDIM
      (fun i ap => set1 ap a (ap a + (Dbl.ofInt (s.actions a i) * theta i) / Dbl.fin t)) ap =
      set1 ap a (Dbl.fin (v + score s th t a)) := by
  have := forUp_invariant 0 STATEACTIONDIM
    (fun i ap => set1 ap a (ap a + (Dbl.ofInt (s.actions a i) * theta i) / Dbl.fin t)) ap
    (fun (k : Int) (x : Int → Dbl F) => x = set1 ap a (Dbl.fin (v +
      ∑ i in Finset.range k.toNat, ((s.actions a i : Int) : F) * th i / t)))
    (by decide) ?_ ?_
  · exact this
  · funext b
    rw [set1_apply]
    by_cases hb : b = a
    · rw [if_pos hb, hb, hv]
      simp
    · rw [if_neg hb]
  · intro k x k0 k1 hx
    beta_reduce
    have e : (k + 1).toNat = k.toNat + 1 := by omega
    have e2 : ((k.toNat : Nat) : Int) = k := by omega
    rw [e, Finset.sum_range_succ, e2, hx, hth k k0 k1]
    funext b
    simp only [set1_apply]
    by_cases hb : b = a
    · rw [if_pos hb, if_pos hb, if_pos trivial, Dbl.ofInt, Dbl_mul_fin, Dbl_div_fin _ _ ht,
        Dbl_add_fin, add_assoc]
    · rw [if_neg hb, if_neg hb, if_neg hb]

theorem Dbl_lt_negInf {F : Type} [LinearOrderedField F] (x : Dbl F) :
    Dbl.lt x Dbl.negInf = false := by
  cases x <;> rfl

/-- The first loop of `computeActionProbabilities` (lines 161-173): the entries of the actions
hold the scores, `-Inf` for a rejected action, and `maxPr` is the maximal score, `-Inf` if every
action is rejected. -/
theorem scoresLoop_spec {F : Type} [LinearOrderedField F] (s : StepData) (theta : Int → Dbl F)
    (th : Int → F) (t : F) (ap0 : Int → Dbl F)
    (body : Int → (Int → Dbl F) × Dbl F → (Int → Dbl F) × Dbl F)
    (hbody : ∀ a st, body a st =
      ((if s.isActionTerminal a = true then set1 st.1 a Dbl.negInf
        else forUp 0 STATEACTIONDIM
          (fun i ap => set1 ap a (ap a + (Dbl.ofInt (s.actions a i) * theta i) / Dbl.fin t))
          st.1),
       if Dbl.lt st.2
          ((if s.isActionTerminal a = true then set1 st.1 a Dbl.negInf
            else forUp 0 STATEACTIONDIM
              (fun i ap => set1 ap a (ap a + (Dbl.ofInt (s.actions a i) * theta i) / Dbl.fin t))
              st.1) a) = true
        then (if s.isActionTerminal a = true then set1 st.1 a Dbl.negInf
            else forUp 0 STATEACTIONDIM
              (fun i ap => set1 ap a (ap a + (Dbl.ofInt (s.actions a i) * theta i) / Dbl.fin t))
              st.1) a
        else st.2))
    (hth : ∀ i, 0 ≤ i → i < STATEACTIONDIM → theta i = Dbl.fin (th i)) (ht : t ≠ 0)
    (hn : 0 ≤ s.actionCount)
    (h0 : ∀ b, 0 ≤ b → b < s.actionCount → ap0 b = Dbl.fin 0) :
    (∀ b, 0 ≤ b → b < s.actionCount →
      (forUp 0 s.actionCount body (ap0, Dbl.negInf)).1 b =
        if s.isActionTerminal b = true then Dbl.negInf else Dbl.fin (score s th t b)) ∧
    (∀ b, ¬ (0 ≤ b ∧ b < s.actionCount) →
      (forUp 0 s.actionCount body (ap0, Dbl.negInf)).1 b = ap0 b) ∧
    (((forUp 0 s.actionCount body (ap0, Dbl.negInf)).2 = Dbl.negInf ∧
        ∀ b, 0 ≤ b → b < s.actionCount → s.isActionTerminal b = true) ∨
      ∃ m, (forUp 0 s.actionCount body (ap0, Dbl.negInf)).2 = Dbl.fin m ∧
        (∃ b, 0 ≤ b ∧ b < s.actionCount ∧ s.isActionTerminal b = false ∧ score s th t b = m) ∧
        ∀ b, 0 ≤ b → b < s.actionCount → s.isActionTerminal b = false →
          score s th t b ≤ m) := by
  have := forUp_invariant 0 s.actionCount body (ap0, Dbl.negInf)
    (fun (j : Int) (st : (Int → Dbl F) × Dbl F) =>
      (∀ b, 0 ≤ b → b < j → st.1 b =
        if s.isActionTerminal b = true then Dbl.negInf else Dbl.fin (score s th t b)) ∧
      (∀ b, ¬ (0 ≤ b ∧ b < j) → st.1 b = ap0 b) ∧
      ((st.2 = Dbl.negInf ∧ ∀ b, 0 ≤ b → b < j → s.isActionTerminal b = true) ∨
        ∃ m, st.2 = Dbl.fin m ∧
          (∃ b, 0 ≤ b ∧ b < j ∧ s.isActionTerminal b = false ∧ score s th t b = m) ∧
          ∀ b, 0 ≤ b → b < j → s.isActionTerminal b = false → score s th t b ≤ m))
    hn ⟨fun b b0 b1 => by omega, fun b _ => rfl, Or.inl ⟨rfl, fun b b0 b1 => by omega⟩⟩ ?_
  · exact this
  intro j st j0 j1 ⟨ha, hb, hc⟩
  rw [hbody]
  cases hT : s.isActionTerminal j
  · -- the action is scored
    have hj : st.1 j = Dbl.fin 0 := by rw [hb j (by omega), h0 j j0 j1]
    rw [if_neg (by decide), scoreLoop_spec s theta th t j st.1 0 hth ht hj, zero_add]
    have hset : set1 st.1 j (Dbl.fin (score s th t j)) j = Dbl.fin (score s th t j) := by
      rw [set1_apply, if_pos rfl]
    rw [hset]
    refine ⟨fun b b0 b1 => ?_, fun b hb1 => ?_, ?_⟩
    · dsimp only
      rw [set1_apply]
      by_cases hbj : b = j
      · rw [if_pos hbj, hbj, hT, if_neg (by decide)]
      · rw [if_neg hbj]
        exact ha b b0 (by omega)
    · dsimp only
      rw [set1_apply, if_neg (by omega)]
      exact hb b (by omega)
    · dsimp only
      rcases hc with ⟨hm, hall⟩ | ⟨m, hm, ⟨b, b0, b1, b2, b3⟩, hle⟩
      · right
        refine ⟨score s th t j, ?_, ⟨j, j0, by omega, hT, rfl⟩, fun b b0 b1 hTb => ?_⟩
        · rw [hm]
          rfl
        · by_cases hbj : b = j
          · rw [hbj]
          · have := hall b b0 (by omega)
            rw [hTb] at this
            exact absurd this (by decide)
      · right
        rw [hm]
        by_cases hlt : m < score s th t j
        · refine ⟨score s th t j, ?_, ⟨j, j0, by omega, hT, rfl⟩, fun b b0 b1 hTb => ?_⟩
          · have : Dbl.lt (Dbl.fin m) (Dbl.fin (score s th t j)) = true :=
              decide_eq_true hlt
            rw [this, if_pos rfl]
          · by_cases hbj : b = j
            · rw [hbj]
            · exact le_trans (hle b b0 (by omega) hTb) (le_of_lt hlt)
        · refine ⟨m, ?_, ⟨b, b0, by omega, b2, b3⟩, fun b b0 b1 hTb => ?_⟩
          · have : Dbl.lt (Dbl.fin m) (Dbl.fin (score s th t j)) = false :=
              decide_eq_false hlt
            rw [this, if_neg (by decide)]
          · by_cases hbj : b = j
            · rw [hbj]
              exact not_lt.mp hlt
            · exact hle b b0 (by omega) hTb
  · -- the action is rejected
    rw [if_pos rfl]
    have hset : set1 st.1 j (Dbl.negInf : Dbl F) j = Dbl.negInf := by
      rw [set1_apply, if_pos rfl]
    rw [hset, Dbl_lt_negInf, if_neg (by decide)]
    refine ⟨fun b b0 b1 => ?_, fun b hb1 => ?_, ?_⟩
    · dsimp only
      rw [set1_apply]
      by_cases hbj : b = j
      · rw [if_pos hbj, hbj, hT, if_pos rfl]
      · rw [if_neg hbj]
        exact ha b b0 (by omega)
    · dsimp only
      rw [set1_apply, if_neg (by omega)]
      exact hb b (by omega)
    · dsimp only
      rcases hc with ⟨hm, hall⟩ | ⟨m, hm, ⟨b, b0, b1, b2, b3⟩, hle⟩
      · left
        refine ⟨hm, fun b b0 b1 => ?_⟩
        by_cases hbj : b = j
        · rw [hbj, hT]
        · exact hall b b0 (by omega)
      · right
        refine ⟨m, hm, ⟨b, b0, by omega, b2, b3⟩, fun b b0 b1 hTb => ?_⟩
        by_cases hbj : b = j
        · rw [hbj, hT] at hTb
          exact absurd hTb (by decide)
        · exact hle b b0 (by omega) hTb

/-- The second loop of `computeActionProbabilities` (lines 176-180) for a finite `maxPr`: the
entries of the actions hold the shifted weights and `sumPr` is their sum. -/
theorem weightsLoop_spec {F : Type} [LinearOrderedField F] (exp : F → F) (s : StepData)
    (th : Int → F) (t m : F) (ap1 : Int → Dbl F)
    (body : Int → (Int → Dbl F) × Dbl F → (Int → Dbl F) × Dbl F)
    (hbody : ∀ a st, body a st =
      (set1 st.1 a (Dbl.exp exp (st.1 a - Dbl.fin m)),
        st.2 + set1 st.1 a (Dbl.exp exp (st.1 a - Dbl.fin m)) a))
    (hn : 0 ≤ s.actionCount)
    (h1 : ∀ b, 0 ≤ b → b < s.actionCount → ap1 b =
      if s.isActionTerminal b = true then Dbl.negInf else Dbl.fin (score s th t b)) :
    (∀ b, 0 ≤ b → b < s.actionCount →
      (forUp 0 s.actionCount body (ap1, 0)).1 b = Dbl.fin (shiftedWeight exp s th t m b)) ∧
    (∀ b, ¬ (0 ≤ b ∧ b < s.actionCount) → (forUp 0 s.actionCount body (ap1, 0)).1 b = ap1 b) ∧
    (forUp 0 s.actionCount body (ap1, 0)).2 =
      Dbl.fin (∑ b in Finset.range s.actionCount.toNat, shiftedWeight exp s th t m b) := by
  have := forUp_invariant 0 s.actionCount body (ap1, (0 : Dbl F))
    (fun (j : Int) (st : (Int → Dbl F) × Dbl F) =>
      (∀ b, 0 ≤ b → b < j → st.1 b = Dbl.fin (shiftedWeight exp s th t m b)) ∧
      (∀ b, ¬ (0 ≤ b ∧ b < j) → st.1 b = ap1 b) ∧
      st.2 = Dbl.fin (∑ b in Finset.range j.toNat, shiftedWeight exp s th t m b))
    hn ⟨fun b b0 b1 => by omega, fun b _ => rfl, by simp [Dbl_zero_eq]⟩ ?_
  · exact this
  intro j st j0 j1 ⟨ha, hb, hc⟩
  rw [hbody]
  have hw : Dbl.exp exp (st.1 j - Dbl.fin m) = Dbl.fin (shiftedWeight exp s th t m j) := by
    rw [hb j (by omega), h1 j j0 j1]
    unfold shiftedWeight
    cases hT : s.isActionTerminal j
    · rw [if_neg (by decide), if_neg (by decide), Dbl_sub_fin]
      rfl
    · rw [if_pos rfl, if_pos rfl, Dbl_negInf_sub_fin]
      rfl
  rw [hw]
  refine ⟨fun b b0 b1 => ?_, fun b hb1 => ?_, ?_⟩
  · dsimp only
    rw [set1_apply]
    by_cases hbj : b = j
    · rw [if_pos hbj, hbj]
    · rw [if_neg hbj]
      exact ha b b0 (by omega)
  · dsimp only
    rw [set1_apply, if_neg (by omega)]
    exact hb b (by omega)
  · dsimp only
    have e : (j + 1).toNat = j.toNat + 1 := by omega
    have e2 : ((j.toNat : Nat) : Int) = j := by omega
    rw [set1_apply, if_pos rfl, hc, Dbl_add_fin, e, Finset.sum_range_succ, e2]

/-- The shifted weights are non-negative and, when some action is not rejected and `m` is the
score of one of them, their sum is at least 1. -/
theorem shiftedWeight_sum {F : Type} [LinearOrderedField F] (exp : F → F) (s : StepData)
    (th : Int → F) (t m : F) (hexp0 : exp 0 = 1) (hexp : ∀ x, 0 ≤ exp x)
    (hm : ∃ b, 0 ≤ b ∧ b < s.actionCount ∧ s.isActionTerminal b = false ∧ score s th t b = m) :
    (∀ a, 0 ≤ shiftedWeight exp s th t m a) ∧
    1 ≤ ∑ b in Finset.range s.actionCount.toNat, shiftedWeight exp s th t m b := by
  have hnn : ∀ a, 0 ≤ shiftedWeight exp s th t m a := by
    intro a
    unfold shiftedWeight
    split_ifs
    · exact le_refl _
    · exact hexp _
  refine ⟨hnn, ?_⟩
  obtain ⟨b, b0, b1, b2, b3⟩ := hm
  have hmem : b.toNat ∈ Finset.range s.actionCount.toNat := by
    rw [Finset.mem_range]; omega
  have hb : ((b.toNat : Nat) : Int) = b := by omega
  have hone : shiftedWeight exp s th t m (b.toNat : Nat) = 1 := by
    rw [hb]
    unfold shiftedWeight
    rw [b2, if_neg (by decide), b3, sub_self, hexp0]
  calc (1 : F) = shiftedWeight exp s th t m (b.toNat : Nat) := hone.symm
    _ ≤ ∑ b in Finset.range s.actionCount.toNat, shiftedWeight exp s th t m b :=
      Finset.single_le_sum (fun (i : Nat) _ => hnn (i : Int)) hmem

/-- The probabilities that `computeActionProbabilities` stores: the normalised shifted weights
when some action is not rejected, the uniform value when every action is rejected; the entries
outside `0..actionCount-1` are those left by the `memset`. -/
theorem computeActionProbabilities_spec {F : Type} [LinearOrderedField F] (exp : F → F)
    (self : NaturalActorCritic F) (s : StepData) (th : Int → F) (t : F)
    (hth : ∀ i, 0 ≤ i → i < STATEACTIONDIM → self.theta i = Dbl.fin (th i))
    (htau : self.tau = Dbl.fin t) (ht : t ≠ 0)
    (hn0 : 0 ≤ s.actionCount) (hn1 : s.actionCount ≤ MAXACTIONS) :
    ((∃ b, 0 ≤ b ∧ b < s.actionCount ∧ s.isActionTerminal b = false) →
      ∃ m, (∃ b, 0 ≤ b ∧ b < s.actionCount ∧ s.isActionTerminal b = false ∧
          score s th t b = m) ∧
        (∀ b, 0 ≤ b → b < s.actionCount → s.isActionTerminal b = false →
          score s th t b ≤ m) ∧
        ((∑ b in Finset.range s.actionCount.toNat, shiftedWeight exp s th t m b) ≠ 0 →
          ∀ a, 0 ≤ a → a < s.actionCount →
            (self.computeActionProbabilities exp s).actionProbabilities a =
              Dbl.fin (shiftedWeight exp s th t m a /
                ∑ b in Finset.range s.actionCount.toNat, shiftedWeight exp s th t m b))) ∧
    ((∀ b, 0 ≤ b → b < s.actionCount → s.isActionTerminal b = true) →
      ∀ a, 0 ≤ a → a < s.actionCount →
        (self.computeActionProbabilities exp s).actionProbabilities a =
          1 / Dbl.ofInt s.actionCount) ∧
    (∀ a, ¬ (0 ≤ a ∧ a < s.actionCount) →
      (self.computeActionProbabilities exp s).actionProbabilities a =
        memsetZero self.actionProbabilities MAXACTIONS a) := by
  have h0 : ∀ b, 0 ≤ b → b < s.actionCount →
      memsetZero self.actionProbabilities MAXACTIONS b = Dbl.fin 0 := by
    intro b b0 b1
    unfold memsetZero
    rw [if_pos ⟨b0, by omega⟩]
    rfl
  obtain ⟨a1, a2, a3⟩ := scoresLoop_spec s self.theta th t
    (memsetZero self.actionProbabilities MAXACTIONS) (scoresBody s self.theta (Dbl.fin t))
    (fun a st => rfl) hth ht hn0 h0
  simp only [NaturalActorCritic.computeActionProbabilities, htau]
  generalize forUp 0 s.actionCount (scoresBody s self.theta (Dbl.fin t))
    (memsetZero self.actionProbabilities MAXACTIONS, Dbl.negInf) = st1 at a1 a2 a3 ⊢
  rw [forUp_set1_map 0 s.actionCount (fun _ x => x /
      (forUp 0 s.actionCount (weightsBody exp st1.2) (st1.1, 0)).2),
    forUp_set1_map 0 s.actionCount (fun _ _ => 1 / Dbl.ofInt s.actionCount)]
  refine ⟨?_, ?_, ?_⟩
  · rintro ⟨b, b0, b1, b2⟩
    rcases a3 with ⟨_, hall⟩ | ⟨m, hm, hex, hle⟩
    · have := hall b b0 b1
      rw [b2] at this
      exact absurd this (by decide)
    · refine ⟨m, hex, hle, fun hS a a0 a1' => ?_⟩
      obtain ⟨w1, w2, w3⟩ := weightsLoop_spec exp s th t m st1.1 (weightsBody exp (Dbl.fin m))
        (fun a st => rfl) hn0 a1
      rw [hm, if_neg (by simp)]
      rw [if_pos ⟨a0, a1'⟩, w1 a a0 a1', w3, Dbl_div_fin _ _ hS]
  · intro hall a a0 a1'
    rcases a3 with ⟨hm, _⟩ | ⟨m, hm, ⟨b, b0, b1, b2, b3⟩, hle⟩
    · rw [hm, if_pos rfl]
      rw [if_pos ⟨a0, a1'⟩]
    · have := hall b b0 b1
      rw [b2] at this
      exact absurd this (by decide)
  · intro a ha
    have hw : (forUp 0 s.actionCount (weightsBody exp st1.2) (st1.1, 0)).1 a = st1.1 a := by
      have := forUp_invariant 0 s.actionCount (weightsBody exp st1.2) (st1.1, (0 : Dbl F))
        (fun (j : Int) (st : (Int → Dbl F) × Dbl F) => st.1 a = st1.1 a) hn0 rfl ?_
      · exact this
      · intro j st j0 j1 hst
        show set1 st.1 j _ a = st1.1 a
        rw [set1_apply, if_neg (by omega)]
        exact hst
    split_ifs <;> (beta_reduce; rw [if_neg ha, hw, a2 a ha])

theorem Dbl_one_eq {F : Type} [LinearOrderedField F] : (1 : Dbl F) = Dbl.fin 1 := rfl

/-- The probabilities are finite, non-negative and sum to 1; a rejected action has probability
0 when some action is not rejected. -/
theorem policy_distribution {F : Type} [LinearOrderedField F] (exp : F → F)
    (self : NaturalActorCritic F) (s : StepData) (th : Int → F) (t : F)
    (hexp0 : exp 0 = 1) (hexp : ∀ x, 0 ≤ exp x)
    (hth : ∀ i, 0 ≤ i → i < STATEACTIONDIM → self.theta i = Dbl.fin (th i))
    (htau : self.tau = Dbl.fin t) (ht : 0 < t)
    (hn0 : 1 ≤ s.actionCount) (hn1 : s.actionCount ≤ MAXACTIONS) :
    ∃ q : Int → F,
      (∀ a, 0 ≤ a → a < s.actionCount →
        (self.computeActionProbabilities exp s).actionProbabilities a = Dbl.fin (q a) ∧
        0 ≤ q a) ∧
      ∑ a in Finset.range s.actionCount.toNat, q a = 1 ∧
      ((∃ b, 0 ≤ b ∧ b < s.actionCount ∧ s.isActionTerminal b = false) →
        ∀ a, 0 ≤ a → a < s.actionCount → s.isActionTerminal a = true → q a = 0) ∧
      ((∀ b, 0 ≤ b → b < s.actionCount → s.isActionTerminal b = true) →
        ∀ a, 0 ≤ a → a < s.actionCount → q a = 1 / ((s.actionCount : Int) : F)) := by
  obtain ⟨pA, pB, -⟩ := computeActionProbabilities_spec exp self s th t hth htau (ne_of_gt ht)
    (by omega) hn1
  by_cases hex : ∃ b, 0 ≤ b ∧ b < s.actionCount ∧ s.isActionTerminal b = false
  · obtain ⟨m, hm, -, hap⟩ := pA hex
    obtain ⟨hnn, hS⟩ := shiftedWeight_sum exp s th t m hexp0 hexp hm
    have hS0 : (∑ b in Finset.range s.actionCount.toNat, shiftedWeight exp s th t m b) ≠ 0 :=
      ne_of_gt (lt_of_lt_of_le one_pos hS)
    refine ⟨fun a => shiftedWeight exp s th t m a /
      ∑ b in Finset.range s.actionCount.toNat, shiftedWeight exp s th t m b, ?_, ?_, ?_, ?_⟩
    · intro a a0 a1
      exact ⟨hap hS0 a a0 a1, div_nonneg (hnn a) (le_trans zero_le_one hS)⟩
    · rw [← Finset.sum_div, div_self hS0]
    · intro _ a a0 a1 hT
      beta_reduce
      unfold shiftedWeight
      rw [hT, if_pos rfl, zero_div]
    · intro hall
      obtain ⟨b, b0, b1, b2⟩ := hex
      have := hall b b0 b1
      rw [b2] at this
      exact absurd this (by decide)
  · have hall : ∀ b, 0 ≤ b → b < s.actionCount → s.isActionTerminal b = true := by
      intro b b0 b1
      cases hT : s.isActionTerminal b
      · exact absurd ⟨b, b0, b1, hT⟩ hex
      · rfl
    have hnF : (((s.actionCount : Int) : F)) ≠ 0 := by
      have : (0 : Int) < s.actionCount := by omega
      exact ne_of_gt (Int.cast_pos.mpr this)
    refine ⟨fun _ => 1 / ((s.actionCount : Int) : F), ?_, ?_, fun h => absurd h hex,
      fun _ a a0 a1 => rfl⟩
    · intro a a0 a1
      refine ⟨?_, by positivity⟩
      rw [pB hall a a0 a1, Dbl_one_eq, Dbl.ofInt, Dbl_div_fin _ _ hnF]
    · rw [Finset.sum_const, Finset.card_range, nsmul_eq_mul]
      have e : ((s.actionCount.toNat : Nat) : F) = ((s.actionCount : Int) : F) := by
        have h1 : ((s.actionCount.toNat : Nat) : Int) = s.actionCount := by omega
        rw [← Int.cast_natCast, h1]
      rw [e, mul_one_div, div_self hnF]

theorem sampleExp_zero : sampleExp 0 = 1 := by
  unfold sampleExp
  norm_num

theorem sampleExp_nonneg (x : ℚ) : 0 ≤ sampleExp x := by
  unfold sampleExp
  split_ifs with h
  · linarith
  · have : 0 < 1 - x := by linarith
    positivity

theorem sampleAgent_theta (i : Int) (_ : 0 ≤ i) (_ : i < STATEACTIONDIM) :
    sampleAgent.theta i = Dbl.fin ((fun i : Int => if i = 0 then (1 / 2 : ℚ) else 1) i) := rfl

/-- The action that `act` returns when some action is not rejected: its probability is
positive, so it is not a rejected one. -/
theorem act_not_terminal {F : Type} [LinearOrderedField F] (exp : F → F)
    (self : NaturalActorCritic F) (s : StepData) (th : Int → F) (t : F)
    (hexp0 : exp 0 = 1) (hexp : ∀ x, 0 ≤ exp x)
    (hth : ∀ i, 0 ≤ i → i < STATEACTIONDIM → self.theta i = Dbl.fin (th i))
    (htau : self.tau = Dbl.fin t) (ht : 0 < t) (hn1 : s.actionCount ≤ MAXACTIONS)
    (hnt : ∃ b, 0 ≤ b ∧ b < s.actionCount ∧ s.isActionTerminal b = false)
    (r : F) (hr0 : 0 ≤ r) (hr1 : r < 1) :
    0 ≤ (self.act exp s (Dbl.fin r)).2 ∧ (self.act exp s (Dbl.fin r)).2 < s.actionCount ∧
    s.isActionTerminal (self.act exp s (Dbl.fin r)).2 = false := by
  have hn0 : 1 ≤ s.actionCount := by
    obtain ⟨b, b0, b1, -⟩ := hnt
    omega
  obtain ⟨q, hq, hsum, hzero, -⟩ := policy_distribution exp self s th t hexp0 hexp hth htau ht
    hn0 hn1
  obtain ⟨j, e, j1, hf, ht2⟩ := drawAction_spec (self.computeActionProbabilities exp s) s
    (Dbl.fin r) hn0
  have hps := cumulativeSum_fin (self.computeActionProbabilities exp s).actionProbabilities q
    s.actionCount.toNat (fun i hi => (hq i (by omega) (by omega)).1)
  have hact : (self.act exp s (Dbl.fin r)).2 = (j : Int) := e
  rw [hact]
  refine ⟨by omega, j1, ?_⟩
  -- the draw is below the running sum that includes entry `j`
  have hupper : r < ∑ i in Finset.range (j + 1), q i := by
    rcases ht2 with h | ⟨_, h⟩
    · rw [hps (j + 1) (by omega)] at h
      exact of_decide_eq_true h
    · exfalso
      have hlast := h (s.actionCount.toNat - 1) (by omega)
      have e1 : s.actionCount.toNat - 1 + 1 = s.actionCount.toNat := by omega
      rw [e1, hps _ (le_refl _), hsum] at hlast
      have : Dbl.lt (Dbl.fin r) (Dbl.fin (1 : F)) = true := decide_eq_true hr1
      rw [this] at hlast
      exact absurd hlast (by decide)
  -- and not below the running sum before it
  have hlower : ∑ i in Finset.range j, q i ≤ r := by
    cases j with
    | zero => simpa using hr0
    | succ k =>
      have h := hf k (by omega)
      rw [hps (k + 1) (by omega)] at h
      exact not_lt.mp (of_decide_eq_false h)
  rw [Finset.sum_range_succ] at hupper
  have hpos : 0 < q j := by linarith
  cases hT : s.isActionTerminal j
  · rfl
  · have := hzero hnt j (by omega) j1 hT
    rw [this] at hpos
    exact absurd hpos (lt_irrefl _)

theorem forLoop_succ {σ : Type} (body : Int → σ → σ) (n : Nat) :
    ∀ (i : Int) (s : σ), forLoop body (n + 1) i s = body (i + n) (forLoop body n i s) := by
  induction n with
  | zero => intro i s; simp [forLoop]
  | succ n ih =>
    intro i s
    rw [forLoop, ih (i + 1) (body i s)]
    have e : i + 1 + (n : Int) = i + ((n + 1 : Nat) : Int) := by push_cast; ring
    rw [e]
    rfl

/-- One more pass of a counted loop. -/
theorem forUp_succ {σ : Type} (lo hi : Int) (body : Int → σ → σ) (s : σ) (h : lo ≤ hi) :
    forUp lo (hi + 1) body s = body hi (forUp lo hi body s) := by
  unfold forUp
  have e : (hi + 1 - lo).toNat = (hi - lo).toNat + 1 := by omega
  rw [e, forLoop_succ]
  have e2 : lo + (((hi - lo).toNat : Nat) : Int) = hi := by omega
  rw [e2]

/-- The inner loop of the gradient loop of `learn`: one term is subtracted from each entry of
the gradient block. -/
theorem gradientInner_spec {F : Type} [LinearOrderedField F] (g : Int → Dbl F)
    (p : Int → Dbl F) :
    forUp 0 STATEACTIONDIM (fun i p1 => set1 p1 (STATEDIM + i) (p1 (STATEDIM + i) - g i)) p =
      fun k => if STATEDIM ≤ k ∧ k < STATEDIM + STATEACTIONDIM then p k - g (k - STATEDIM)
        else p k := by
  have := forUp_invariant 0 STATEACTIONDIM
    (fun i p1 => set1 p1 (STATEDIM + i) (p1 (STATEDIM + i) - g i)) p
    (fun (j : Int) (x : Int → Dbl F) => ∀ k, x k =
      if STATEDIM ≤ k ∧ k < STATEDIM + j then p k - g (k - STATEDIM) else p k)
    (by decide) ?_ ?_
  · funext k
    exact this k
  · intro k
    rw [if_neg (by omega)]
  · intro j x j0 j1 hx k
    beta_reduce
    rw [set1_apply]
    by_cases hk : k = STATEDIM + j
    · have e : k - STATEDIM = j := by omega
      rw [if_pos hk, if_pos (by omega), e, hx (STATEDIM + j), if_neg (by omega), hk]
    · rw [if_neg hk, hx k]
      by_cases h2 : STATEDIM ≤ k ∧ k < STATEDIM + j
      · rw [if_pos h2, if_pos (by omega)]
      · rw [if_neg h2, if_neg (by omega)]

/-- The gradient loop of `learn`: every entry of the gradient block ends as its
`gradientEntry`, the other entries are unchanged. -/
theorem gradientLoop_spec {F : Type} [LinearOrderedField F] (s : StepData) (pr : Int → Dbl F)
    (phi : Int → Dbl F) :
    gradientLoop s pr phi =
      fun k => if STATEDIM ≤ k ∧ k < STATEDIM + STATEACTIONDIM
        then gradientEntry s pr (phi k) (k - STATEDIM) else phi k := by
  unfold gradientLoop gradientEntry
  by_cases hn : 0 ≤ s.actionCount
  · have := forUp_invariant 0 s.actionCount
      (fun action p => forUp 0 STATEACTIONDIM
        (fun i p1 => set1 p1 (STATEDIM + i)
          (p1 (STATEDIM + i) - pr action * Dbl.ofInt (s.actions action i))) p) phi
      (fun (j : Int) (x : Int → Dbl F) => ∀ k, x k =
        if STATEDIM ≤ k ∧ k < STATEDIM + STATEACTIONDIM
        then forUp 0 j (fun b acc => acc - pr b * Dbl.ofInt (s.actions b (k - STATEDIM))) (phi k)
        else phi k) hn ?_ ?_
    · funext k
      exact this k
    · intro k
      rw [forUp_empty _ _ _ _ (le_refl _)]
      simp
    · intro j x j0 j1 hx k
      beta_reduce
      rw [gradientInner_spec (fun i => pr j * Dbl.ofInt (s.actions j i)) x]
      beta_reduce
      by_cases h2 : STATEDIM ≤ k ∧ k < STATEDIM + STATEACTIONDIM
      · rw [if_pos h2, if_pos h2, forUp_succ _ _ _ _ j0, hx k, if_pos h2]
      · rw [if_neg h2, if_neg h2, hx k, if_neg h2]
  · rw [forUp_empty _ _ _ _ (by omega)]
    funext k
    split_ifs
    · rw [forUp_empty _ _ _ _ (by omega)]
    · rfl

/-- For finite probabilities the gradient entry is the exact difference. -/
theorem gradientEntry_fin {F : Type} [LinearOrderedField F] (s : StepData) (pr : Int → Dbl F)
    (q : Int → F) (x : F) (i : Int)
    (hq : ∀ b, 0 ≤ b → b < s.actionCount → pr b = Dbl.fin (q b)) :
    gradientEntry s pr (Dbl.fin x) i =
      Dbl.fin (x - ∑ b in Finset.range s.actionCount.toNat,
        q b * ((s.actions b i : Int) : F)) := by
  unfold gradientEntry
  by_cases hn : 0 ≤ s.actionCount
  · refine forUp_invariant 0 s.actionCount
      (fun b acc => acc - pr b * Dbl.ofInt (s.actions b i)) (Dbl.fin x)
      (fun (j : Int) (acc : Dbl F) => acc = Dbl.fin (x - ∑ b in Finset.range j.toNat,
        q b * ((s.actions b i : Int) : F))) hn (by simp) ?_
    intro j acc j0 j1 hacc
    beta_reduce
    have e : (j + 1).toNat = j.toNat + 1 := by omega
    have e2 : ((j.toNat : Nat) : Int) = j := by omega
    rw [hacc, hq j j0 j1, Dbl.ofInt, Dbl_mul_fin, Dbl_sub_fin, e, Finset.sum_range_succ, e2,
      sub_add_eq_sub_sub]
  · have e : s.actionCount.toNat = 0 := by omega
    rw [forUp_empty _ _ _ _ (by omega), e]
    simp

/-- The virtual call `critic->step` leaves the base-class part, the registers in particular,
as it is. -/
theorem CriticObject_step_toCritic {D : Type} [Zero D] [Add D] [Sub D] [Mul D]
    (mode : PetersTrickMode) (c c1 : CriticObject D) (r : D)
    (h : c.step mode r = Except.ok c1) : c1.toCritic = c.toCritic := by
  cases c with
  | lstd c =>
    have e : c1 = CriticObject.lstd (c.step mode r) := (Except.ok.inj h).symm
    rw [e]
    rfl
  | lspe c =>
    have e : c1 = CriticObject.lspe (c.step r) := (Except.ok.inj h).symm
    rw [e]
    rfl
  | fullTD c =>
    have h2 : (c.step r).map CriticObject.fullTD = Except.ok c1 := h
    by_cases hn : c.n < MAXSAMPLES
    · simp only [FullTDLambda.step, mxAssert, hn, decide_True, if_true] at h2
      have e : c1 = _ := (Except.ok.inj h2).symm
      rw [e]
      rfl
    · rw [FullTDLambda_step_full c r hn] at h2
      exact absurd h2 (by simp [Except.map])

theorem CriticObject_setRegisters_toCritic {D : Type} (c : CriticObject D)
    (phi0 phi1 : Int → D) :
    (c.setRegisters phi0 phi1).toCritic.phi0 = phi0 ∧
    (c.setRegisters phi0 phi1).toCritic.phi1 = phi1 ∧
    (c.setRegisters phi0 phi1).toCritic.VDim = c.toCritic.VDim := by
  cases c <;> exact ⟨rfl, rfl, rfl⟩

/-- The constructor of the controller succeeds for the three critic kinds and leaves the
register `phi1` of the critic zero. -/
theorem create_phi1_zero {F : Type} [LinearOrderedField F] (raw : NaturalActorCritic F)
    (rawLSTD : LSTDLambda (Dbl F)) (rawLSPE : LSPELambda (Dbl F))
    (rawFullTD : FullTDLambda (Dbl F)) (criticClass : Int) (learning : Bool) (thetaDim : Int)
    (theta : Int → Dbl F) (gamma lambda tau : Dbl F)
    (hc : criticClass = 0 ∨ criticClass = 1 ∨ criticClass = 2) :
    ∃ self0, NaturalActorCritic.create raw rawLSTD rawLSPE rawFullTD criticClass learning
        thetaDim theta gamma lambda tau = Except.ok self0 ∧
      self0.learning = learning ∧
      ∀ i, 0 ≤ i → i < VDIM → self0.critic.toCritic.phi1 i = 0 := by
  rcases hc with h | h | h <;> subst h
  · refine ⟨_, rfl, rfl, fun i i0 i1 => ?_⟩
    exact if_pos ⟨i0, i1⟩
  · refine ⟨_, rfl, rfl, fun i i0 i1 => ?_⟩
    exact if_pos ⟨i0, i1⟩
  · refine ⟨_, rfl, rfl, fun i i0 i1 => ?_⟩
    exact if_pos ⟨i0, i1⟩

/-- A critic step on a critic with room for a sample succeeds; a raw-sample critic then holds
one sample more. -/
theorem CriticObject_step_ok {D : Type} [Zero D] [Add D] [Sub D] [Mul D]
    (mode : PetersTrickMode) (c : CriticObject D) (phi0 phi1 : Int → D) (r : D)
    (hroom : ∀ c0, c = CriticObject.fullTD c0 → c0.n < MAXSAMPLES) :
    ∃ c1, (c.setRegisters phi0 phi1).step mode r = Except.ok c1 ∧
      ∀ c0, c = CriticObject.fullTD c0 → ∃ c2, c1 = CriticObject.fullTD c2 ∧ c2.n = c0.n + 1 := by
  cases c with
  | lstd c => exact ⟨_, rfl, fun c0 h => by cases h⟩
  | lspe c => exact ⟨_, rfl, fun c0 h => by cases h⟩
  | fullTD c =>
    have hn : c.n < MAXSAMPLES := hroom c rfl
    refine ⟨CriticObject.fullTD
      { c with
        phi0 := phi0
        phi1 := phi1
        s0 := (forUp 0 c.VDim (fun i (s : (Int → D) × (Int → D)) =>
          (set1 s.1 (i * MAXSAMPLES + c.n) (phi0 i), set1 s.2 (i * MAXSAMPLES + c.n) (phi1 i)))
          (c.s0, c.s1)).1
        s1 := (forUp 0 c.VDim (fun i (s : (Int → D) × (Int → D)) =>
          (set1 s.1 (i * MAXSAMPLES + c.n) (phi0 i), set1 s.2 (i * MAXSAMPLES + c.n) (phi1 i)))
          (c.s0, c.s1)).2
        r := set1 c.r c.n r
        n := c.n + 1 }, ?_, ?_⟩
    · simp only [CriticObject.setRegisters, CriticObject.step, FullTDLambda.step, mxAssert, hn,
        decide_True, if_true]
      rfl
    · intro c0 h
      cases h
      exact ⟨_, rfl, rfl⟩

/-- Feeding a list and then one more input. -/
theorem CriticObject_feed_append {D : Type} [Zero D] [Add D] [Sub D] [Mul D]
    (mode : PetersTrickMode) (l : List ((Int → D) × (Int → D) × D))
    (x : (Int → D) × (Int → D) × D) :
    ∀ (c c1 c2 : CriticObject D), c.feed mode l = Except.ok c1 →
      (c1.setRegisters x.1 x.2.1).step mode x.2.2 = Except.ok c2 →
      c.feed mode (l ++ [x]) = Except.ok c2 := by
  induction l with
  | nil =>
    intro c c1 c2 h1 h2
    have e : c = c1 := Except.ok.inj h1
    subst e
    show (match (c.setRegisters x.1 x.2.1).step mode x.2.2 with
      | Except.ok c1 => CriticObject.feed mode c1 []
      | Except.error e => Except.error e) = Except.ok c2
    rw [h2]
    rfl
  | cons y rest ih =>
    intro c c1 c2 h1 h2
    have h1' : (match (c.setRegisters y.1 y.2.1).step mode y.2.2 with
      | Except.ok c1 => CriticObject.feed mode c1 rest
      | Except.error e => Except.error e) = Except.ok c1 := h1
    show (match (c.setRegisters y.1 y.2.1).step mode y.2.2 with
      | Except.ok c1 => CriticObject.feed mode c1 (rest ++ [x])
      | Except.error e => Except.error e) = Except.ok c2
    cases hs : (c.setRegisters y.1 y.2.1).step mode y.2.2 with
    | error e =>
      rw [hs] at h1'
      exact absurd h1' (by simp)
    | ok c3 =>
      rw [hs] at h1'
      exact ih c3 c1 c2 h1' h2

/-- The number of samples of a raw-sample critic after a list of inputs has been fed. -/
theorem CriticObject_feed_count {D : Type} [Zero D] [Add D] [Sub D] [Mul D]
    (mode : PetersTrickMode) (l : List ((Int → D) × (Int → D) × D)) :
    ∀ (c c1 : CriticObject D) (c0 : FullTDLambda D), c = CriticObject.fullTD c0 →
      c.feed mode l = Except.ok c1 →
      ∃ c2, c1 = CriticObject.fullTD c2 ∧ c2.n = c0.n + l.length := by
  induction l with
  | nil =>
    intro c c1 c0 hc h1
    have e : c = c1 := Except.ok.inj h1
    exact ⟨c0, by rw [← e, hc], by simp⟩
  | cons y rest ih =>
    intro c c1 c0 hc h1
    have h1' : (match (c.setRegisters y.1 y.2.1).step mode y.2.2 with
      | Except.ok c1 => CriticObject.feed mode c1 rest
      | Except.error e => Except.error e) = Except.ok c1 := h1
    cases hs : (c.setRegisters y.1 y.2.1).step mode y.2.2 with
    | error e =>
      rw [hs] at h1'
      exact absurd h1' (by simp)
    | ok c3 =>
      rw [hs] at h1'
      by_cases hn : c0.n < MAXSAMPLES
      · obtain ⟨c4, e4, h4⟩ := CriticObject_step_ok mode c y.1 y.2.1 y.2.2
          (fun c5 h5 => by rw [hc] at h5; cases h5; exact hn)
        rw [hs] at e4
        have e43 : c3 = c4 := Except.ok.inj e4
        obtain ⟨c6, e6, n6⟩ := h4 c0 hc
        obtain ⟨c2, e2, n2⟩ := ih c3 c1 c6 (by rw [e43, e6]) h1'
        refine ⟨c2, e2, ?_⟩
        rw [n2, n6]
        simp only [List.length_cons]
        push_cast
        ring
      · exfalso
        rw [hc] at hs
        have : (CriticObject.fullTD c0).setRegisters y.1 y.2.1 =
            CriticObject.fullTD { c0 with phi0 := y.1, phi1 := y.2.1 } := rfl
        rw [this] at hs
        have hfull := FullTDLambda_step_full
          ({ c0 with phi0 := y.1, phi1 := y.2.1 } : FullTDLambda D) y.2.2 hn
        simp only [CriticObject.step, hfull] at hs
        exact absurd hs (by simp [Except.map])

/-- What `act` leaves unchanged. -/
theorem act_frame {F : Type} [LinearOrderedField F] (exp : F → F) (self : NaturalActorCritic F)
    (sd : StepData) (r : Dbl F) :
    (self.act exp sd r).1.learning = self.learning ∧
    (self.act exp sd r).1.firstStep = self.firstStep ∧
    (self.act exp sd r).1.critic = self.critic ∧
    (self.act exp sd r).1.prevStepData = self.prevStepData ∧
    (self.act exp sd r).1.prevActionProbabilities = self.prevActionProbabilities ∧
    (self.act exp sd r).1.prevAction = self.prevAction :=
  ⟨rfl, rfl, rfl, rfl, rfl, rfl⟩

/-- The call `step` of the controller with learning switched off. -/
theorem step_not_learning {F : Type} [LinearOrderedField F] (exp : F → F)
    (mode : PetersTrickMode) (self : NaturalActorCritic F) (sd : StepData) (r : Dbl F)
    (hl : self.learning = false) :
    self.step exp mode sd r =
      Except.ok ({ (self.act exp sd r).1 with action := (self.act exp sd r).2 },
        (self.act exp sd r).2) := by
  unfold NaturalActorCritic.step
  simp only [(act_frame exp self sd r).1, hl]
  rfl

/-- The first call of `step` in an episode with learning switched on. -/
theorem step_first {F : Type} [LinearOrderedField F] (exp : F → F)
    (mode : PetersTrickMode) (self : NaturalActorCritic F) (sd : StepData) (r : Dbl F)
    (hl : self.learning = true) (hf : self.firstStep = true) :
    self.step exp mode sd r =
      Except.ok ({ (self.act exp sd r).1 with
          action := (self.act exp sd r).2
          prevStepData := sd
          prevActionProbabilities := (self.act exp sd r).1.actionProbabilities
          prevAction := (self.act exp sd r).2
          firstStep := false },
        (self.act exp sd r).2) := by
  unfold NaturalActorCritic.step
  simp only [(act_frame exp self sd r).1, (act_frame exp self sd r).2.1, hl, hf]
  rfl

/-- A later call of `step` in an episode with learning switched on: one call of `learn` from
the stored step data, probabilities and action to the current ones. -/
theorem step_later {F : Type} [LinearOrderedField F] (exp : F → F)
    (mode : PetersTrickMode) (self : NaturalActorCritic F) (sd : StepData) (r : Dbl F)
    (hl : self.learning = true) (hf : self.firstStep = false) :
    self.step exp mode sd r =
      (NaturalActorCritic.learn mode
        { (self.act exp sd r).1 with action := (self.act exp sd r).2 }
        self.prevStepData self.prevActionProbabilities self.prevAction
        sd (self.act exp sd r).1.actionProbabilities (self.act exp sd r).2).map
        fun self2 =>
          ({ self2 with
              prevStepData := sd
              prevActionProbabilities := self2.actionProbabilities
              prevAction := self2.action
              firstStep := false },
            self2.action) := by
  unfold NaturalActorCritic.step
  simp only [(act_frame exp self sd r).1, (act_frame exp self sd r).2.1, hl, hf]
  rfl

theorem CriticObject_feed_singleton {D : Type} [Zero D] [Add D] [Sub D] [Mul D]
    (mode : PetersTrickMode) (c c1 : CriticObject D) (x : (Int → D) × (Int → D) × D)
    (h : (c.setRegisters x.1 x.2.1).step mode x.2.2 = Except.ok c1) :
    c.feed mode [x] = Except.ok c1 := by
  rw [CriticObject.feed, h]
  rfl

theorem step_first_ok {F : Type} [LinearOrderedField F] (exp : F → F)
    (mode : PetersTrickMode) (self : NaturalActorCritic F) (sd : StepData) (r : Dbl F)
    (hl : self.learning = true) (hf : self.firstStep = true) :
    ∃ stepped, self.step exp mode sd r = Except.ok stepped ∧
      stepped.2 = (self.act exp sd r).2 ∧
      stepped.1.learning = true ∧ stepped.1.firstStep = false ∧
      stepped.1.critic = self.critic :=
  ⟨_, step_first exp mode self sd r hl hf, rfl, hl, rfl, rfl⟩

theorem mainLoopPasses_succ {F : Type} [LinearOrderedField F] (exp : F → F)
    (mode : PetersTrickMode) (rs : Nat → Dbl F) (ds : Nat → Int) (k : Nat)
    (st st1 : NaturalActorCritic F × Tetris) (stepped : NaturalActorCritic F × Int)
    (h1 : mainLoopPasses exp mode rs ds k st = Except.ok st1)
    (h2 : st1.1.step exp mode st1.2.stepData (rs k) = Except.ok stepped) :
    mainLoopPasses exp mode rs ds (k + 1) st =
      Except.ok (stepped.1, (st1.2.step stepped.2 (ds k)).1) := by
  rw [mainLoopPasses, h1]
  dsimp only
  rw [h2]

/-- A later call of `step` with learning switched on and room for a sample in the critic
succeeds and makes one critic update. -/
theorem step_update {F : Type} [LinearOrderedField F] (exp : F → F)
    (mode : PetersTrickMode) (self : NaturalActorCritic F) (sd : StepData) (r : Dbl F)
    (hl : self.learning = true) (hf : self.firstStep = false)
    (hroom : ∀ c0, self.critic = CriticObject.fullTD c0 → c0.n < MAXSAMPLES) :
    ∃ stepped x, self.step exp mode sd r = Except.ok stepped ∧
      stepped.2 = (self.act exp sd r).2 ∧
      stepped.1.learning = true ∧ stepped.1.firstStep = false ∧
      self.critic.feed mode [x] = Except.ok stepped.1.critic ∧
      stepped.1.prevStepData = sd ∧ stepped.1.prevAction = stepped.2 ∧
      stepped.1.prevActionProbabilities = stepped.1.actionProbabilities := by
  rw [step_later exp mode self sd r hl hf]
  unfold NaturalActorCritic.learn
  dsimp only
  generalize hp0 : gradientLoop self.prevStepData self.prevActionProbabilities _ = phi0
  generalize hp1 : (if mode = PetersTrickMode.PTM_OFF then _ else _ : Int → Dbl F) = phi1
  obtain ⟨c1, e1, -⟩ := CriticObject_step_ok mode self.critic phi0 phi1
    (Dbl.ofInt sd.transitionReward) hroom
  have e1' : ((self.act exp sd r).1.critic.setRegisters phi0 phi1).step mode
      (Dbl.ofInt sd.transitionReward) = Except.ok c1 := e1
  rw [e1']
  exact ⟨_, (phi0, phi1, Dbl.ofInt sd.transitionReward), rfl, rfl, hl, rfl,
    CriticObject_feed_singleton mode self.critic c1 _ e1, rfl, rfl, rfl⟩

/-- Feeding inputs does not turn another critic into a raw-sample critic. -/
theorem CriticObject_feed_kind {D : Type} [Zero D] [Add D] [Sub D] [Mul D]
    (mode : PetersTrickMode) (l : List ((Int → D) × (Int → D) × D)) :
    ∀ (c c1 : CriticObject D), c.feed mode l = Except.ok c1 →
      ∀ c2, c1 = CriticObject.fullTD c2 → ∃ c0, c = CriticObject.fullTD c0 := by
  induction l with
  | nil =>
    intro c c1 h1 c2 h2
    have e : c = c1 := Except.ok.inj h1
    exact ⟨c2, by rw [e, h2]⟩
  | cons y rest ih =>
    intro c c1 h1 c2 h2
    cases c with
    | fullTD c0 => exact ⟨c0, rfl⟩
    | lstd c0 =>
      have h1' : CriticObject.feed mode
          (CriticObject.lstd (({ c0 with phi0 := y.1, phi1 := y.2.1 } : LSTDLambda D).step mode
            y.2.2)) rest = Except.ok c1 := h1
      obtain ⟨c3, h3⟩ := ih _ c1 h1' c2 h2
      cases h3
    | lspe c0 =>
      have h1' : CriticObject.feed mode
          (CriticObject.lspe (({ c0 with phi0 := y.1, phi1 := y.2.1 } : LSPELambda D).step
            y.2.2)) rest = Except.ok c1 := h1
      obtain ⟨c3, h3⟩ := ih _ c1 h1' c2 h2
      cases h3

/-- The controller after `k` passes of the main loop with learning switched on: the first
pass makes no critic update and every later pass makes one. -/
theorem mainLoopPasses_spec {F : Type} [LinearOrderedField F] (exp : F → F)
    (mode : PetersTrickMode) (agent : NaturalActorCritic F) (env : Tetris)
    (rs : Nat → Dbl F) (ds : Nat → Int) (hl : agent.learning = true) (k : Nat) :
    (∀ c0, agent.critic = CriticObject.fullTD c0 → c0.n + ((k - 1 : Nat) : Int) ≤ MAXSAMPLES) →
    ∃ st inputs, mainLoopPasses exp mode rs ds k (agent.newEpisode, env) = Except.ok st ∧
      st.1.learning = true ∧ st.1.firstStep = decide (k = 0) ∧
      inputs.length = k - 1 ∧ agent.critic.feed mode inputs = Except.ok st.1.critic := by
  induction k with
  | zero =>
    intro _
    exact ⟨(agent.newEpisode, env), [], rfl, hl, rfl, rfl, rfl⟩
  | succ k ih =>
    intro hcap
    obtain ⟨st, inputs, e, l1, f1, len, hfeed⟩ := ih (fun c0 h0 => by
      have := hcap c0 h0
      have e1 : ((k + 1 - 1 : Nat) : Int) = (k : Int) := by simp
      rw [e1] at this
      have : ((k - 1 : Nat) : Int) ≤ (k : Int) := by omega
      omega)
    by_cases hk : k = 0
    · subst hk
      have hf : st.1.firstStep = true := by rw [f1]; rfl
      obtain ⟨stepped, es, -, l2, f2, hc⟩ := step_first_ok exp mode st.1 st.2.stepData (rs 0)
        l1 hf
      have e0 : st = (agent.newEpisode, env) := (Except.ok.inj e).symm
      refine ⟨(stepped.1, (st.2.step stepped.2 (ds 0)).1), [],
        mainLoopPasses_succ exp mode rs ds 0 _ st stepped e es, l2, ?_, rfl, ?_⟩
      · rw [f2]
        rfl
      · show Except.ok agent.critic = Except.ok stepped.1.critic
        rw [hc, e0]
        rfl
    · have hf : st.1.firstStep = false := by
        rw [f1]
        exact decide_eq_false hk
      have hroom : ∀ c2, st.1.critic = CriticObject.fullTD c2 → c2.n < MAXSAMPLES := by
        intro c2 h2
        obtain ⟨c0, h0⟩ := CriticObject_feed_kind mode inputs agent.critic st.1.critic hfeed c2 h2
        obtain ⟨c3, e3, n3⟩ := CriticObject_feed_count mode inputs agent.critic st.1.critic c0
          h0 hfeed
        rw [h2] at e3
        have e23 : c2 = c3 := CriticObject.fullTD.inj e3
        have := hcap c0 h0
        have e1 : ((k + 1 - 1 : Nat) : Int) = (k : Int) := by simp
        rw [e1] at this
        rw [e23, n3, len]
        have : ((k - 1 : Nat) : Int) < (k : Int) := by omega
        omega
      obtain ⟨stepped, x, es, -, l2, f2, hx, -⟩ := step_update exp mode st.1 st.2.stepData (rs k)
        l1 hf hroom
      refine ⟨(stepped.1, (st.2.step stepped.2 (ds k)).1), inputs ++ [x],
        mainLoopPasses_succ exp mode rs ds k _ st stepped e es, l2, ?_, ?_, ?_⟩
      · rw [f2]
        simp
      · rw [List.length_append, len]
        simp only [List.length_singleton]
        omega
      · rw [CriticObject.feed] at hx
        cases hs : (st.1.critic.setRegisters x.1 x.2.1).step mode x.2.2 with
        | error e1 =>
          rw [hs] at hx
          exact absurd hx (by simp)
        | ok c4 =>
          rw [hs] at hx
          have e4 : c4 = stepped.1.critic := Except.ok.inj hx
          rw [← e4]
          exact CriticObject_feed_append mode inputs x agent.critic st.1.critic c4 hfeed hs

/-- An episode with learning switched on whose main loop makes `k` passes succeeds when the
critic has room for `k` samples, and makes `k` critic updates. -/
theorem runEpisode_spec {F : Type} [LinearOrderedField F] (exp : F → F)
    (mode : PetersTrickMode) (agent : NaturalActorCritic F) (env : Tetris) (d0 : Int)
    (rs : Nat → Dbl F) (ds : Nat → Int) (k : Nat) (hl : agent.learning = true)
    (hcap : ∀ c0, agent.critic = CriticObject.fullTD c0 → c0.n + (k : Int) ≤ MAXSAMPLES) :
    ∃ result inputs, runEpisode exp mode agent env d0 rs ds k = Except.ok result ∧
      inputs.length = k ∧ agent.critic.feed mode inputs = Except.ok result.1.critic := by
  obtain ⟨st, inputs, e, l1, f1, len, hfeed⟩ := mainLoopPasses_spec exp mode agent
    (env.newEpisode d0) rs ds hl k (fun c0 h0 => by
      have := hcap c0 h0
      have : ((k - 1 : Nat) : Int) ≤ (k : Int) := by omega
      omega)
  by_cases hk : k = 0
  · subst hk
    have hf : st.1.firstStep = true := by rw [f1]; rfl
    obtain ⟨stepped, es, -, l2, f2, hc⟩ := step_first_ok exp mode st.1 st.2.stepData (rs 0)
      l1 hf
    refine ⟨(stepped.1, st.2), [], ?_, rfl, ?_⟩
    · rw [runEpisode, e]
      dsimp only
      rw [es]
      rfl
    · have e0 : st = (agent.newEpisode, env.newEpisode d0) := (Except.ok.inj e).symm
      show Except.ok agent.critic = Except.ok stepped.1.critic
      rw [hc, e0]
      rfl
  · have hf : st.1.firstStep = false := by
      rw [f1]
      exact decide_eq_false hk
    have hroom : ∀ c2, st.1.critic = CriticObject.fullTD c2 → c2.n < MAXSAMPLES := by
      intro c2 h2
      obtain ⟨c0, h0⟩ := CriticObject_feed_kind mode inputs agent.critic st.1.critic hfeed c2 h2
      obtain ⟨c3, e3, n3⟩ := CriticObject_feed_count mode inputs agent.critic st.1.critic c0
        h0 hfeed
      rw [h2] at e3
      have e23 : c2 = c3 := CriticObject.fullTD.inj e3
      have := hcap c0 h0
      rw [e23, n3, len]
      have : ((k - 1 : Nat) : Int) < (k : Int) := by omega
      omega
    obtain ⟨stepped, x, es, -, l2, f2, hx, -⟩ := step_update exp mode st.1 st.2.stepData (rs k)
      l1 hf hroom
    refine ⟨(stepped.1, st.2), inputs ++ [x], ?_, ?_, ?_⟩
    · rw [runEpisode, e]
      dsimp only
      rw [es]
      rfl
    · rw [List.length_append, len]
      simp only [List.length_singleton]
      omega
    · rw [CriticObject.feed] at hx
      cases hs : (st.1.critic.setRegisters x.1 x.2.1).step mode x.2.2 with
      | error e1 =>
        rw [hs] at hx
        exact absurd hx (by simp)
      | ok c4 =>
        rw [hs] at hx
        have e4 : c4 = stepped.1.critic := Except.ok.inj hx
        rw [← e4]
        exact CriticObject_feed_append mode inputs x agent.critic st.1.critic c4 hfeed hs

/-- The multiplication of `double` values commutes. -/
theorem Dbl_mul_comm {F : Type} [LinearOrderedField F] (x y : Dbl F) : x * y = y * x := by
  show Dbl.mul x y = Dbl.mul y x
  cases x <;> cases y <;> simp [Dbl.mul, mul_comm]

/-! ## Lemmas about the catalog, the drop, the replay and the checked accesses -/

section CatalogShape
set_option synthInstance.maxSize 4096

theorem catalog_maskCells : ∀ p : Nat, p < 7 → ∀ o : Nat, o < 4 →
    (o : Int) < pieceOrientationCounts p → maskCells p o = 4 := by
  decide

theorem catalog_inside : ∀ p : Nat, p < 7 → ∀ o : Nat, o < 4 →
    (o : Int) < pieceOrientationCounts p →
    ∀ pr : Nat, pr < 4 → ∀ pc : Nat, pc < 4 → pieces p o pr pc = true →
    (pr : Int) < pieceHeights p o ∧ (pc : Int) < pieceWidths p o := by
  decide

theorem catalog_columns_nonempty : ∀ p : Nat, p < 7 → ∀ o : Nat, o < 4 →
    (o : Int) < pieceOrientationCounts p →
    ∀ pc : Nat, pc < 4 → (pc : Int) < pieceWidths p o →
    ∃ pr : Nat, pr < 4 ∧ (pr : Int) < pieceHeights p o ∧ pieces p o pr pc = true := by
  decide

theorem catalog_top : ∀ p : Nat, p < 7 → ∀ o : Nat, o < 4 →
    (o : Int) < pieceOrientationCounts p →
    ∀ pc : Nat, pc < 4 → (pc : Int) < pieceWidths p o →
    pieces p o (pieceTopHeightmaps p o pc) pc = true ∧
    (∀ pr : Nat, pr < 4 → (pr : Int) < pieceTopHeightmaps p o pc → pieces p o pr pc = false) ∧
    pieces p o (pieceHeightmaps p o pc - 1) pc = true ∧
    (∀ pr : Nat, pr < 4 → pieceHeightmaps p o pc ≤ (pr : Int) → pieces p o pr pc = false) := by
  decide

end CatalogShape

/-- A landing drop leaves `boardHeightmapMin` at the smaller of its old value and the landing row,
advanced by the number of cleared rows. -/
theorem dropPiece_heightmapMin (s : Tetris) (a : Int) (hp0 : 0 ≤ s.fallingPiece)
    (hp1 : s.fallingPiece < 7) (ha0 : 0 ≤ a) (ha1 : a < pieceActionCounts s.fallingPiece)
    (hrow : 0 ≤ landingRow s a) :
    (s.dropPiece a).1.boardHeightmapMin =
      min s.boardHeightmapMin (landingRow s a) + (s.dropPiece a).2 := by
  have sh := expandAction_shape s.fallingPiece a hp0 hp1 ha0 ha1
  obtain ⟨u1, u2, u3, u4⟩ := updateHeightmap_spec s.boardHeightmap s.boardHeightmapMin
    s.fallingPiece (expandAction s.fallingPiece a).1 (landingRow s a)
    (expandAction s.fallingPiece a).2 (by have := sh.width_pos; omega)
  have hmin : (updateHeightmap (s.boardHeightmap, s.boardHeightmapMin) s.fallingPiece
      (expandAction s.fallingPiece a).1 (landingRow s a) (expandAction s.fallingPiece a).2).2 =
      min s.boardHeightmapMin (landingRow s a) := by
    obtain ⟨pc, p0, p1, p2⟩ := sh.top_zero
    have hle := u3 pc p0 p1
    rw [p2] at hle
    rcases u4 with h | ⟨qc, q0, q1, q2⟩
    · rw [h] at hle ⊢
      rw [min_eq_left (by omega)]
    · have := sh.top_nonneg qc q0 q1
      rw [min_def]
      split_ifs <;> omega
  have hnot : ¬ (landingRow s a < 0) := by omega
  rw [← hmin]
  unfold landingRow at hnot ⊢
  obtain ⟨-, -, c3, -⟩ := scanRegion_spec
    (placePiece s.board s.fallingPiece (expandAction s.fallingPiece a).1
      (findRow s.boardHeightmap s.fallingPiece (expandAction s.fallingPiece a).1
        (expandAction s.fallingPiece a).2) (expandAction s.fallingPiece a).2)
    s.fallingPiece (expandAction s.fallingPiece a).1
    (findRow s.boardHeightmap s.fallingPiece (expandAction s.fallingPiece a).1
      (expandAction s.fallingPiece a).2) (by have := sh.height_pos; omega)
  simp only [Tetris.dropPiece, hnot, if_false]
  split_ifs with h
  · rfl
  · dsimp only
    omega

/-- The step of an LSPE or raw-sample critic does not read the mode. -/
theorem CriticObject_step_mode {D : Type} [Zero D] [Add D] [Sub D] [Mul D]
    (mode1 mode2 : PetersTrickMode) (c : CriticObject D) (r : D)
    (h : ∀ c0, c ≠ CriticObject.lstd c0) : c.step mode1 r = c.step mode2 r := by
  cases c with
  | lstd c => exact absurd rfl (h c)
  | lspe c => rfl
  | fullTD c => rfl

/-- Loading the registers keeps the kind of the critic. -/
theorem CriticObject_setRegisters_kind {D : Type} (c : CriticObject D) (phi0 phi1 : Int → D)
    (h : ∀ c0, c ≠ CriticObject.lstd c0) :
    ∀ c0, c.setRegisters phi0 phi1 ≠ CriticObject.lstd c0 := by
  cases c with
  | lstd c => exact absurd rfl (h c)
  | lspe c => exact fun c0 hc => by cases hc
  | fullTD c => exact fun c0 hc => by cases hc

/-- The trace factor of the next step. -/
theorem traceGain_succ {D : Type} [CommRing D] (q : D) (k : Nat) :
    traceGain q (k + 1) = q * traceGain q k + 1 := by
  unfold traceGain
  rw [Finset.sum_range_succ', Finset.mul_sum, pow_zero]
  congr 1
  exact Finset.sum_congr rfl fun j _ => by ring

/-- The accumulated factor after one more step. -/
theorem replayGain_succ {D : Type} [CommRing D] (q : D) (n : Nat) :
    replayGain q (n + 1) = replayGain q n + traceGain q (n + 1) :=
  Finset.sum_range_succ _ n

/-- Without a trace (`q = 0`) the accumulated factor is the number of steps. -/
theorem replayGain_zero {D : Type} [CommRing D] (n : Nat) : replayGain (0 : D) n = n := by
  induction n with
  | zero => simp [replayGain]
  | succ n ih =>
    rw [replayGain_succ, ih, traceGain_succ]
    push_cast
    ring

/-- With `q = 1` the trace factor after `k` steps is `k`. -/
theorem traceGain_one {D : Type} [CommRing D] (k : Nat) : traceGain (1 : D) k = k := by
  simp [traceGain]

/-- With `q = 1` twice the accumulated factor is `n * (n + 1)`. -/
theorem replayGain_one {D : Type} [CommRing D] (n : Nat) :
    2 * replayGain (1 : D) n = n * (n + 1) := by
  induction n with
  | zero => simp [replayGain]
  | succ n ih =>
    rw [replayGain_succ, mul_add, ih, traceGain_one]
    push_cast
    ring

/-- One replayed step of an LSTD critic outside the corrected mode: from the statistics of `k`
replayed steps to those of `k + 1`. -/
theorem LSTDLambda_step_replay {D : Type} [CommRing D] (mode : PetersTrickMode)
    (hmode : mode ≠ PetersTrickMode.PTM_CORRECTED) (phi0 phi1 : Int → D) (r : D) (k : Nat)
    (c : LSTDLambda D)
    (hz : ∀ i, 0 ≤ i → i < c.VDim → c.z i = traceGain (c.gamma * c.lambda) k * phi0 i)
    (hb : ∀ i, 0 ≤ i → i < c.VDim →
      c.b i = replayGain (c.gamma * c.lambda) k * (phi0 i * r))
    (hA : ∀ i j, 0 ≤ i → i < c.VDim → 0 ≤ j → j < c.VDim →
      c.A i j = replayGain (c.gamma * c.lambda) k * (phi0 i * (phi0 j - c.gamma * phi1 j))) :
    (({ c with phi0 := phi0, phi1 := phi1 } : LSTDLambda D).step mode r).VDim = c.VDim ∧
    (({ c with phi0 := phi0, phi1 := phi1 } : LSTDLambda D).step mode r).gamma = c.gamma ∧
    (({ c with phi0 := phi0, phi1 := phi1 } : LSTDLambda D).step mode r).lambda = c.lambda ∧
    (∀ i, 0 ≤ i → i < c.VDim →
      (({ c with phi0 := phi0, phi1 := phi1 } : LSTDLambda D).step mode r).z i =
        traceGain (c.gamma * c.lambda) (k + 1) * phi0 i) ∧
    (∀ i, 0 ≤ i → i < c.VDim →
      (({ c with phi0 := phi0, phi1 := phi1 } : LSTDLambda D).step mode r).b i =
        replayGain (c.gamma * c.lambda) (k + 1) * (phi0 i * r)) ∧
    (∀ i j, 0 ≤ i → i < c.VDim → 0 ≤ j → j < c.VDim →
      (({ c with phi0 := phi0, phi1 := phi1 } : LSTDLambda D).step mode r).A i j =
        replayGain (c.gamma * c.lambda) (k + 1) * (phi0 i * (phi0 j - c.gamma * phi1 j))) := by
  obtain ⟨s1, s2, s3, s4⟩ := LSTDLambda_step_spec mode hmode
    ({ c with phi0 := phi0, phi1 := phi1 } : LSTDLambda D) r
  have eV := congrArg Critic.VDim s1
  have eg := congrArg Critic.gamma s1
  have el := congrArg Critic.lambda s1
  refine ⟨eV, eg, el,
    fun i i0 i1 => ?_, fun i i0 i1 => ?_, fun i j i0 i1 j0 j1 => ?_⟩
  · rw [s2]
    dsimp only
    rw [if_pos ⟨i0, i1⟩, hz i i0 i1, traceGain_succ]
    ring
  · rw [s4]
    dsimp only
    rw [if_pos ⟨i0, i1⟩, hz i i0 i1, hb i i0 i1, replayGain_succ, traceGain_succ]
    ring
  · rw [s3]
    dsimp only
    rw [if_pos ⟨⟨i0, i1⟩, j0, j1⟩, hz i i0 i1, hA i j i0 i1 j0 j1, replayGain_succ,
      traceGain_succ]
    ring

/-- The statistics of an LSTD critic outside the corrected mode after `n` more replayed steps. -/
theorem LSTDLambda_feed_replay {D : Type} [CommRing D] (mode : PetersTrickMode)
    (hmode : mode ≠ PetersTrickMode.PTM_CORRECTED) (phi0 phi1 : Int → D) (r : D) (n : Nat) :
    ∀ (k : Nat) (c : LSTDLambda D),
      (∀ i, 0 ≤ i → i < c.VDim → c.z i = traceGain (c.gamma * c.lambda) k * phi0 i) →
      (∀ i, 0 ≤ i → i < c.VDim →
        c.b i = replayGain (c.gamma * c.lambda) k * (phi0 i * r)) →
      (∀ i j, 0 ≤ i → i < c.VDim → 0 ≤ j → j < c.VDim →
        c.A i j = replayGain (c.gamma * c.lambda) k * (phi0 i * (phi0 j - c.gamma * phi1 j))) →
      (∀ i, 0 ≤ i → i < c.VDim →
        (c.feed mode (List.replicate n (phi0, phi1, r))).z i =
          traceGain (c.gamma * c.lambda) (k + n) * phi0 i) ∧
      (∀ i, 0 ≤ i → i < c.VDim →
        (c.feed mode (List.replicate n (phi0, phi1, r))).b i =
          replayGain (c.gamma * c.lambda) (k + n) * (phi0 i * r)) ∧
      (∀ i j, 0 ≤ i → i < c.VDim → 0 ≤ j → j < c.VDim →
        (c.feed mode (List.replicate n (phi0, phi1, r))).A i j =
          replayGain (c.gamma * c.lambda) (k + n) *
            (phi0 i * (phi0 j - c.gamma * phi1 j))) := by
  induction n with
  | zero => exact fun k c hz hb hA => ⟨hz, hb, hA⟩
  | succ n ih =>
    intro k c hz hb hA
    obtain ⟨e1, e2, e3, z1, b1, A1⟩ := LSTDLambda_step_replay mode hmode phi0 phi1 r k c hz hb hA
    have h := ih (k + 1) (({ c with phi0 := phi0, phi1 := phi1 } : LSTDLambda D).step mode r)
      (by rw [e1, e2, e3]; exact z1) (by rw [e1, e2, e3]; exact b1)
      (by rw [e1, e2, e3]; exact A1)
    rw [e1, e2, e3, show k + 1 + n = k + (n + 1) by omega] at h
    exact h

/-- One replayed step of an LSPE critic: from the statistics of `k` replayed steps to those of
`k + 1`. -/
theorem LSPELambda_step_replay {D : Type} [CommRing D] (phi0 phi1 : Int → D) (r : D) (k : Nat)
    (c : LSPELambda D)
    (hz : ∀ i, 0 ≤ i → i < c.VDim → c.z i = traceGain (c.gamma * c.lambda) k * phi0 i)
    (hb : ∀ i, 0 ≤ i → i < c.VDim →
      c.b i = replayGain (c.gamma * c.lambda) k * (phi0 i * r))
    (hA : ∀ i j, 0 ≤ i → i < c.VDim → 0 ≤ j → j < c.VDim →
      c.A i j = replayGain (c.gamma * c.lambda) k * (phi0 i * (c.gamma * phi1 j - phi0 j)))
    (hB : ∀ i j, 0 ≤ i → i < c.VDim → 0 ≤ j → j < c.VDim →
      c.B i j = (k : D) * (phi0 i * phi0 j)) :
    (({ c with phi0 := phi0, phi1 := phi1 } : LSPELambda D).step r).VDim = c.VDim ∧
    (({ c with phi0 := phi0, phi1 := phi1 } : LSPELambda D).step r).gamma = c.gamma ∧
    (({ c with phi0 := phi0, phi1 := phi1 } : LSPELambda D).step r).lambda = c.lambda ∧
    (∀ i, 0 ≤ i → i < c.VDim →
      (({ c with phi0 := phi0, phi1 := phi1 } : LSPELambda D).step r).z i =
        traceGain (c.gamma * c.lambda) (k + 1) * phi0 i) ∧
    (∀ i, 0 ≤ i → i < c.VDim →
      (({ c with phi0 := phi0, phi1 := phi1 } : LSPELambda D).step r).b i =
        replayGain (c.gamma * c.lambda) (k + 1) * (phi0 i * r)) ∧
    (∀ i j, 0 ≤ i → i < c.VDim → 0 ≤ j → j < c.VDim →
      (({ c with phi0 := phi0, phi1 := phi1 } : LSPELambda D).step r).A i j =
        replayGain (c.gamma * c.lambda) (k + 1) * (phi0 i * (c.gamma * phi1 j - phi0 j))) ∧
    (∀ i j, 0 ≤ i → i < c.VDim → 0 ≤ j → j < c.VDim →
      (({ c with phi0 := phi0, phi1 := phi1 } : LSPELambda D).step r).B i j =
        ((k + 1 : Nat) : D) * (phi0 i * phi0 j)) := by
  obtain ⟨s1, sB, s2, s3, s4⟩ := LSPELambda_step_spec
    ({ c with phi0 := phi0, phi1 := phi1 } : LSPELambda D) r
  have eV := congrArg Critic.VDim s1
  have eg := congrArg Critic.gamma s1
  have el := congrArg Critic.lambda s1
  refine ⟨eV, eg, el,
    fun i i0 i1 => ?_, fun i i0 i1 => ?_, fun i j i0 i1 j0 j1 => ?_,
    fun i j i0 i1 j0 j1 => ?_⟩
  · rw [s2]
    dsimp only
    rw [if_pos ⟨i0, i1⟩, hz i i0 i1, traceGain_succ]
    ring
  · rw [s4]
    dsimp only
    rw [if_pos ⟨i0, i1⟩, hz i i0 i1, hb i i0 i1, replayGain_succ, traceGain_succ]
    ring
  · rw [s3]
    dsimp only
    rw [if_pos ⟨⟨i0, i1⟩, j0, j1⟩, hz i i0 i1, hA i j i0 i1 j0 j1, replayGain_succ,
      traceGain_succ]
    ring
  · rw [sB]
    dsimp only
    rw [if_pos ⟨⟨i0, i1⟩, j0, j1⟩, hB i j i0 i1 j0 j1]
    push_cast
    ring

/-- The statistics of an LSPE critic after `n` more replayed steps. -/
theorem LSPELambda_feed_replay {D : Type} [CommRing D] (phi0 phi1 : Int → D) (r : D) (n : Nat) :
    ∀ (k : Nat) (c : LSPELambda D),
      (∀ i, 0 ≤ i → i < c.VDim → c.z i = traceGain (c.gamma * c.lambda) k * phi0 i) →
      (∀ i, 0 ≤ i → i < c.VDim →
        c.b i = replayGain (c.gamma * c.lambda) k * (phi0 i * r)) →
      (∀ i j, 0 ≤ i → i < c.VDim → 0 ≤ j → j < c.VDim →
        c.A i j = replayGain (c.gamma * c.lambda) k * (phi0 i * (c.gamma * phi1 j - phi0 j))) →
      (∀ i j, 0 ≤ i → i < c.VDim → 0 ≤ j → j < c.VDim →
        c.B i j = (k : D) * (phi0 i * phi0 j)) →
      (∀ i, 0 ≤ i → i < c.VDim →
        (c.feed (List.replicate n (phi0, phi1, r))).z i =
          traceGain (c.gamma * c.lambda) (k + n) * phi0 i) ∧
      (∀ i, 0 ≤ i → i < c.VDim →
        (c.feed (List.replicate n (phi0, phi1, r))).b i =
          replayGain (c.gamma * c.lambda) (k + n) * (phi0 i * r)) ∧
      (∀ i j, 0 ≤ i → i < c.VDim → 0 ≤ j → j < c.VDim →
        (c.feed (List.replicate n (phi0, phi1, r))).A i j =
          replayGain (c.gamma * c.lambda) (k + n) *
            (phi0 i * (c.gamma * phi1 j - phi0 j))) ∧
      (∀ i j, 0 ≤ i → i < c.VDim → 0 ≤ j → j < c.VDim →
        (c.feed (List.replicate n (phi0, phi1, r))).B i j =
          ((k + n : Nat) : D) * (phi0 i * phi0 j)) := by
  induction n with
  | zero => exact fun k c hz hb hA hB => ⟨hz, hb, hA, hB⟩
  | succ n ih =>
    intro k c hz hb hA hB
    obtain ⟨e1, e2, e3, z1, b1, A1, B1⟩ := LSPELambda_step_replay phi0 phi1 r k c hz hb hA hB
    have h := ih (k + 1) (({ c with phi0 := phi0, phi1 := phi1 } : LSPELambda D).step r)
      (by rw [e1, e2, e3]; exact z1) (by rw [e1, e2, e3]; exact b1)
      (by rw [e1, e2, e3]; exact A1) (by rw [e1]; exact B1)
    rw [e1, e2, e3, show k + 1 + n = k + (n + 1) by omega] at h
    exact h

/-- A freshly constructed LSTD critic replays a transition outside the corrected mode with the
statistics `z = traceGain * phi0`, `b = replayGain * (phi0 * r)` and
`A = replayGain * (phi0 (phi0 - gamma phi1)^T)`. -/
theorem LSTDLambda_fresh_replay {D : Type} [CommRing D] (mode : PetersTrickMode)
    (hmode : mode ≠ PetersTrickMode.PTM_CORRECTED) (raw : LSTDLambda D) (gamma lambda : D)
    (phi0 phi1 : Int → D) (r : D) (n : Nat) :
    ∃ t, LSTDLambda.create raw VDIM gamma lambda = Except.ok t ∧
      (∀ i, 0 ≤ i → i < VDIM →
        (t.feed mode (List.replicate n (phi0, phi1, r))).z i =
          traceGain (gamma * lambda) n * phi0 i) ∧
      (∀ i, 0 ≤ i → i < VDIM →
        (t.feed mode (List.replicate n (phi0, phi1, r))).b i =
          replayGain (gamma * lambda) n * (phi0 i * r)) ∧
      (∀ i j, 0 ≤ i → i < VDIM → 0 ≤ j → j < VDIM →
        (t.feed mode (List.replicate n (phi0, phi1, r))).A i j =
          replayGain (gamma * lambda) n * (phi0 i * (phi0 j - gamma * phi1 j))) := by
  refine ⟨_, rfl, ?_⟩
  have h := LSTDLambda_feed_replay mode hmode phi0 phi1 r n 0
    ({ raw with
      VDim := VDIM
      gamma := gamma
      lambda := lambda
      A := memsetZero2 raw.A VDIM VDIM
      b := memsetZero raw.b VDIM
      z := memsetZero raw.z VDIM } : LSTDLambda D)
    (fun i i0 i1 => by
      show memsetZero raw.z VDIM i = _
      rw [memsetZero, if_pos ⟨i0, i1⟩]
      simp [traceGain])
    (fun i i0 i1 => by
      show memsetZero raw.b VDIM i = _
      rw [memsetZero, if_pos ⟨i0, i1⟩]
      simp [replayGain])
    (fun i j i0 i1 j0 j1 => by
      show memsetZero2 raw.A VDIM VDIM i j = _
      rw [memsetZero2, if_pos ⟨⟨i0, i1⟩, j0, j1⟩]
      simp [replayGain])
  rw [Nat.zero_add] at h
  exact h

/-- A freshly constructed LSPE critic replays a transition with the statistics
`z = traceGain * phi0`, `b = replayGain * (phi0 * r)`,
`A = replayGain * (phi0 (gamma phi1 - phi0)^T)` and `B = n * (phi0 phi0^T)`. -/
theorem LSPELambda_fresh_replay {D : Type} [CommRing D] (raw : LSPELambda D) (gamma lambda : D)
    (phi0 phi1 : Int → D) (r : D) (n : Nat) :
    ∃ p, LSPELambda.create raw VDIM gamma lambda = Except.ok p ∧
      (∀ i, 0 ≤ i → i < VDIM →
        (p.feed (List.replicate n (phi0, phi1, r))).z i =
          traceGain (gamma * lambda) n * phi0 i) ∧
      (∀ i, 0 ≤ i → i < VDIM →
        (p.feed (List.replicate n (phi0, phi1, r))).b i =
          replayGain (gamma * lambda) n * (phi0 i * r)) ∧
      (∀ i j, 0 ≤ i → i < VDIM → 0 ≤ j → j < VDIM →
        (p.feed (List.replicate n (phi0, phi1, r))).A i j =
          replayGain (gamma * lambda) n * (phi0 i * (gamma * phi1 j - phi0 j))) ∧
      (∀ i j, 0 ≤ i → i < VDIM → 0 ≤ j → j < VDIM →
        (p.feed (List.replicate n (phi0, phi1, r))).B i j = (n : D) * (phi0 i * phi0 j)) := by
  refine ⟨_, rfl, ?_⟩
  have h := LSPELambda_feed_replay phi0 phi1 r n 0
    ({ raw with
      VDim := VDIM
      gamma := gamma
      lambda := lambda
      B := memsetZero2 raw.B VDIM VDIM
      A := memsetZero2 raw.A VDIM VDIM
      b := memsetZero raw.b VDIM
      z := memsetZero raw.z VDIM } : LSPELambda D)
    (fun i i0 i1 => by
      show memsetZero raw.z VDIM i = _
      rw [memsetZero, if_pos ⟨i0, i1⟩]
      simp [traceGain])
    (fun i i0 i1 => by
      show memsetZero raw.b VDIM i = _
      rw [memsetZero, if_pos ⟨i0, i1⟩]
      simp [replayGain])
    (fun i j i0 i1 j0 j1 => by
      show memsetZero2 raw.A VDIM VDIM i j = _
      rw [memsetZero2, if_pos ⟨⟨i0, i1⟩, j0, j1⟩]
      simp [replayGain])
    (fun i j i0 i1 j0 j1 => by
      show memsetZero2 raw.B VDIM VDIM i j = _
      rw [memsetZero2, if_pos ⟨⟨i0, i1⟩, j0, j1⟩]
      simp)
  rw [Nat.zero_add] at h
  exact h

/-- The accumulated factor of one step is 1. -/
theorem replayGain_first {D : Type} [CommRing D] (q : D) : replayGain q 1 = 1 := by
  simp [replayGain, traceGain]

/-- The normalised shifted weights are the probabilities without the shift when `exp` turns
differences into quotients. -/
theorem shiftedWeight_normalised {F : Type} [LinearOrderedField F] (exp : F → F)
    (hpos : ∀ x, 0 < exp x) (hsub : ∀ x y, exp (x - y) = exp x / exp y)
    (s : StepData) (th : Int → F) (t m : F) (a : Int) :
    shiftedWeight exp s th t m a /
        ∑ b in Finset.range s.actionCount.toNat, shiftedWeight exp s th t m b =
      softmaxProbability exp s th t a := by
  have hm : exp m ≠ 0 := ne_of_gt (hpos m)
  have hsum : ∑ b in Finset.range s.actionCount.toNat, shiftedWeight exp s th t m b =
      (∑ b in (Finset.range s.actionCount.toNat).filter
        (fun b : Nat => s.isActionTerminal (b : Int) = false),
          exp (score s th t (b : Int))) / exp m := by
    rw [Finset.sum_filter, Finset.sum_div]
    refine Finset.sum_congr rfl fun b _ => ?_
    unfold shiftedWeight
    cases hb : s.isActionTerminal (b : Int)
    · rw [if_neg (by decide), if_pos rfl, hsub]
    · rw [if_pos rfl, if_neg (by decide), zero_div]
  rw [hsum]
  unfold shiftedWeight softmaxProbability
  cases ha : s.isActionTerminal a
  · rw [if_neg (by decide), if_neg (by decide), hsub, div_div_div_cancel_right₀ hm]
  · rw [if_pos rfl, if_pos rfl, zero_div]

/-- Scanning the numbers `s, s+1, ...` while `p` holds, when `p` holds from `s` up to `h` and
fails at `h`: the scan takes the numbers below `h` and leaves those from `h` on. -/
theorem scan_range (p : Nat → Bool) : ∀ (n s h : Nat), s ≤ h → h ≤ s + n →
    (∀ r, s ≤ r → r < h → p r = true) → (h < s + n → p h = false) →
    (List.range' s n).takeWhile p = List.range' s (h - s) ∧
    (List.range' s n).dropWhile p = List.range' h (s + n - h) := by
  intro n
  induction n with
  | zero =>
    intro s h h1 h2 _ _
    have e : h = s := by omega
    subst e
    simp
  | succ n ih =>
    intro s h h1 h2 ht hf
    rw [List.range'_succ]
    by_cases e : h = s
    · subst e
      have hp : p h = false := hf (by omega)
      rw [List.takeWhile_cons, List.dropWhile_cons, hp]
      have e2 : h + (n + 1) - h = n + 1 := by omega
      rw [e2, Nat.sub_self, List.range'_succ]
      simp
    · have hp : p s = true := ht s (le_refl s) (by omega)
      obtain ⟨i1, i2⟩ := ih (s + 1) h (by omega) (by omega)
        (fun r r0 r1 => ht r (by omega) r1) (fun hlt => hf (by omega))
      rw [List.takeWhile_cons, List.dropWhile_cons, hp]
      have e2 : h - s = (h - (s + 1)) + 1 := by omega
      have e3 : s + (n + 1) - h = s + 1 + n - h := by omega
      rw [e2, List.range'_succ, e3]
      simp [i1, i2]

/-- A scan that takes while `q` holds takes the whole list exactly when `q` holds on all of
it. -/
theorem takeWhile_length_eq (q : Nat → Bool) (l : List Nat) :
    (l.takeWhile q).length = l.length ↔ ∀ x ∈ l, q x = true := by
  constructor
  · intro h
    have := (List.takeWhile_prefix q : (l.takeWhile q) <+: l).eq_of_length h
    exact List.takeWhile_eq_self_iff.mp this
  · intro h
    rw [List.takeWhile_eq_self_iff.mpr h]

/-- Under the heightmap invariant the scan of a column from the top meets `hm col` empty cells
before the first filled cell, and the run of filled cells that follows is at most
`ROWS - hm col` long, with equality exactly when no cell from `hm col` to the floor is
empty. -/
theorem heightmap_scan (board : Int → Int → Bool) (hm : Int → Int) (hmin : Int)
    (hI : StackInv board hm hmin) (col : Int) (c0 : 0 ≤ col) (c1 : col < COLUMNS) :
    (leadingEmpty board col : Int) = hm col ∧
    (topRun board col : Int) ≤ ROWS - hm col ∧
    ((topRun board col : Int) = ROWS - hm col ↔
      ∀ r, hm col ≤ r → r < ROWS → board r col = true) := by
  have h0 := hI.hm_nonneg col c0 c1
  have h1 := hI.hm_le col c0 c1
  have hR : ROWS.toNat = 20 := rfl
  have hRi : ROWS = 20 := rfl
  obtain ⟨t1, t2⟩ := scan_range (fun r : Nat => !board (r : Int) col) 20 0 (hm col).toNat
    (Nat.zero_le _) (by omega)
    (fun r _ r1 => by
      have := hI.hm_above col c0 c1 (r : Int) (by omega) (by omega)
      simp [this])
    (fun hlt => by
      have := hI.hm_filled col c0 c1 (by omega)
      have e : (((hm col).toNat : Nat) : Int) = hm col := Int.toNat_of_nonneg h0
      simp [e, this])
  have hlen : ((List.range' (hm col).toNat (0 + 20 - (hm col).toNat)).takeWhile
      (fun r : Nat => board (r : Int) col)).length ≤
      (List.range' (hm col).toNat (0 + 20 - (hm col).toNat)).length :=
    (List.takeWhile_prefix _).length_le
  rw [List.length_range'] at hlen
  refine ⟨?_, ?_, ?_⟩
  · unfold leadingEmpty
    rw [hR, List.range_eq_range', t1, List.length_range']
    omega
  · unfold topRun
    rw [hR, List.range_eq_range', t2]
    omega
  · unfold topRun
    rw [hR, List.range_eq_range', t2]
    have key := takeWhile_length_eq (fun r : Nat => board (r : Int) col)
      (List.range' (hm col).toNat (0 + 20 - (hm col).toNat))
    rw [List.length_range'] at key
    constructor
    · intro h r r0 r1
      have hx := key.mp (by omega) r.toNat (by
        rw [List.mem_range'_1]
        omega)
      have e : ((r.toNat : Nat) : Int) = r := Int.toNat_of_nonneg (by omega)
      simpa [e] using hx
    · intro h
      have hx := key.mpr (fun x hx => by
        rw [List.mem_range'_1] at hx
        exact h (x : Int) (by omega) (by omega))
      omega

section CatalogCount
set_option synthInstance.maxSize 4096

theorem catalog_cellCount : ∀ p : Nat, p < 7 → ∀ o : Nat, o < 4 →
    (o : Int) < pieceOrientationCounts p →
    (∑ pr in Finset.range 4, ∑ pc in Finset.range 4,
      if pieces p o (pr : Int) (pc : Int) then 1 else 0) = 4 := by
  decide

end CatalogCount

/-- A sum over `0..n-1` of a function that is a shifted copy of `g`, where `g` vanishes from `h`
on, is the sum of `g`. -/
theorem sum_shift (g : Nat → Nat) (R h n m : Nat) (hn : R + h ≤ n) (hm : h ≤ m)
    (hg : ∀ k, h ≤ k → g k = 0) :
    ∑ r in Finset.range n, (if R ≤ r then g (r - R) else 0) = ∑ k in Finset.range m, g k := by
  have e1 : ∑ k in Finset.range m, g k = ∑ k in Finset.range h, g k :=
    (Finset.sum_subset (Finset.range_mono hm)
      (fun k _ hk => hg k (by simpa using hk))).symm
  have e2 : ∑ k in Finset.range (n - R), g k = ∑ k in Finset.range h, g k :=
    (Finset.sum_subset (Finset.range_mono (by omega))
      (fun k _ hk => hg k (by simpa using hk))).symm
  have e3 : n = R + (n - R) := by omega
  rw [e1, ← e2]
  nth_rewrite 1 [e3]
  rw [Finset.sum_range_add]
  have z : ∑ r in Finset.range R, (if R ≤ r then g (r - R) else 0) = 0 :=
    Finset.sum_eq_zero fun r hr => by
      rw [Finset.mem_range] at hr
      rw [if_neg (by omega)]
  rw [z, zero_add]
  refine Finset.sum_congr rfl fun k _ => ?_
  rw [if_pos (by omega), Nat.add_sub_cancel_left]

/-- The cell test of a piece placed at row `R` and column `C`, with natural-number offsets. -/
theorem pieceCell_shift (p o : Int) (R C r c : Nat) :
    pieceCell p o R C r c =
      (decide (R ≤ r ∧ r - R < (pieceHeights p o).toNat ∧
        C ≤ c ∧ c - C < (pieceWidths p o).toNat) &&
        pieces p o ((r - R : Nat) : Int) ((c - C : Nat) : Int)) := by
  rw [Bool.eq_iff_iff, pieceCell_true_iff]
  simp only [Bool.and_eq_true, decide_eq_true_eq]
  constructor
  · rintro ⟨⟨h1, h2, h3, h4⟩, h5⟩
    have e1 : ((r - R : Nat) : Int) = (r : Int) - (R : Int) := by omega
    have e2 : ((c - C : Nat) : Int) = (c : Int) - (C : Int) := by omega
    rw [e1, e2]
    exact ⟨⟨by omega, by omega, by omega, by omega⟩, h5⟩
  · rintro ⟨⟨h1, h2, h3, h4⟩, h5⟩
    have e1 : ((r - R : Nat) : Int) = (r : Int) - (R : Int) := by omega
    have e2 : ((c - C : Nat) : Int) = (c : Int) - (C : Int) := by omega
    rw [e1, e2] at h5
    exact ⟨⟨by omega, by omega, by omega, by omega⟩, h5⟩

/-- A piece placed inside the board covers four cells of it. -/
theorem pieceCell_count (p o : Nat) (hp : p < 7) (ho : o < 4)
    (hv : (o : Int) < pieceOrientationCounts p) (R C : Nat)
    (hR : (R : Int) + pieceHeights p o ≤ ROWS) (hC : (C : Int) + pieceWidths p o ≤ COLUMNS) :
    (∑ r in Finset.range ROWS.toNat, ∑ c in Finset.range COLUMNS.toNat,
      if pieceCell p o R C (r : Int) (c : Int) then 1 else 0) = 4 := by
  obtain ⟨d1, d2, d3, d4⟩ := catalog_dims p hp o ho hv
  have hin := catalog_inside p hp o ho hv
  have hRows : ROWS.toNat = 20 := rfl
  have hCols : COLUMNS.toNat = 10 := rfl
  have hRi : ROWS = 20 := rfl
  have hCi : COLUMNS = 10 := rfl
  rw [← catalog_cellCount p hp o ho hv, hRows, hCols]
  have inner : ∀ k : Nat, k < 4 →
      (∑ c in Finset.range 10,
        if (decide (C ≤ c ∧ c - C < (pieceWidths p o).toNat) &&
          pieces p o (k : Int) ((c - C : Nat) : Int)) then 1 else 0) =
      ∑ pc in Finset.range 4, if pieces p o (k : Int) (pc : Int) then 1 else 0 := by
    intro k hk
    have e := sum_shift
      (fun j => if (decide (j < (pieceWidths p o).toNat) && pieces p o (k : Int) (j : Int))
        then 1 else 0) C (pieceWidths p o).toNat 10 4 (by omega) (by omega)
      (fun j hj => by
        have : ¬ j < (pieceWidths p o).toNat := by omega
        simp [this])
    rw [← (Finset.sum_congr rfl fun pc hpc => by
      rw [Finset.mem_range] at hpc
      cases hc : pieces p o (k : Int) (pc : Int)
      · simp
      · have := (hin k hk pc hpc hc).2
        have h2 : pc < (pieceWidths p o).toNat := by omega
        simp [h2] :
      ∑ pc in Finset.range 4,
        (if (decide (pc < (pieceWidths p o).toNat) && pieces p o (k : Int) (pc : Int))
          then 1 else 0) =
      ∑ pc in Finset.range 4, if pieces p o (k : Int) (pc : Int) then 1 else 0), ← e]
    refine Finset.sum_congr rfl fun c _ => ?_
    by_cases hc : C ≤ c
    · simp [hc]
    · simp [hc]
  have outer := sum_shift
    (fun k => if k < (pieceHeights p o).toNat then
      ∑ pc in Finset.range 4, (if pieces p o (k : Int) (pc : Int) then 1 else 0) else 0)
    R (pieceHeights p o).toNat 20 4 (by omega) (by omega)
    (fun k hk => by
      have : ¬ k < (pieceHeights p o).toNat := by omega
      simp [this])
  rw [← (Finset.sum_congr rfl fun pr hpr => by
    rw [Finset.mem_range] at hpr
    by_cases hk : pr < (pieceHeights p o).toNat
    · rw [if_pos hk]
    · rw [if_neg hk]
      symm
      refine Finset.sum_eq_zero fun pc hpc => ?_
      rw [Finset.mem_range] at hpc
      cases hc : pieces p o (pr : Int) (pc : Int)
      · simp
      · have := (hin pr hpr pc hpc hc).1
        omega :
    ∑ pr in Finset.range 4,
      (if pr < (pieceHeights p o).toNat then
        ∑ pc in Finset.range 4, (if pieces p o (pr : Int) (pc : Int) then 1 else 0) else 0) =
    ∑ pr in Finset.range 4, ∑ pc in Finset.range 4,
      if pieces p o (pr : Int) (pc : Int) then 1 else 0), ← outer]
  refine Finset.sum_congr rfl fun r _ => ?_
  by_cases hr : R ≤ r ∧ r - R < (pieceHeights p o).toNat
  · rw [if_pos hr.1]
    dsimp only
    rw [if_pos hr.2, ← inner (r - R) (by omega)]
    refine Finset.sum_congr rfl fun c _ => ?_
    rw [pieceCell_shift]
    by_cases hc : C ≤ c ∧ c - C < (pieceWidths p o).toNat
    · simp [hr.1, hr.2, hc.1, hc.2]
    · have : ¬ (R ≤ r ∧ r - R < (pieceHeights p o).toNat ∧
          C ≤ c ∧ c - C < (pieceWidths p o).toNat) := fun h => hc ⟨h.2.2.1, h.2.2.2⟩
      rw [decide_eq_false this, decide_eq_false hc, Bool.false_and]
  · have z : (∑ c in Finset.range 10,
        if pieceCell p o R C (r : Int) (c : Int) then 1 else 0) = 0 :=
      Finset.sum_eq_zero fun c _ => by
        rw [pieceCell_shift]
        have : ¬ (R ≤ r ∧ r - R < (pieceHeights p o).toNat ∧
            C ≤ c ∧ c - C < (pieceWidths p o).toNat) := fun h => hr ⟨h.1, h.2.1⟩
        rw [decide_eq_false this, Bool.false_and]
        rfl
    rw [z]
    by_cases h1 : R ≤ r
    · rw [if_pos h1]
      dsimp only
      rw [if_neg (fun h => hr ⟨h1, h⟩)]
    · rw [if_neg h1]

/-- Placing a piece inside the board on cells that are all empty adds four filled cells. -/
theorem withPiece_count (board : Int → Int → Bool) (p o row col : Int) (hp0 : 0 ≤ p)
    (hp1 : p < 7) (ho0 : 0 ≤ o) (ho1 : o < pieceOrientationCounts p) (hr0 : 0 ≤ row)
    (hr1 : row + pieceHeights p o ≤ ROWS) (hc0 : 0 ≤ col)
    (hc1 : col + pieceWidths p o ≤ COLUMNS)
    (hfree : ∀ r c, pieceCell p o row col r c = true → board r c = false) :
    filledCells (withPiece board p o row col) = filledCells board + 4 := by
  obtain ⟨pn, rfl⟩ := nat_of_range p hp0
  obtain ⟨k, rfl⟩ := nat_of_range o ho0
  obtain ⟨R, rfl⟩ := nat_of_range row hr0
  obtain ⟨C, rfl⟩ := nat_of_range col hc0
  have hpn : pn < 7 := by omega
  have hk : k < 4 := by
    have := (catalog_orientations pn hpn).2
    omega
  unfold filledCells
  rw [← pieceCell_count pn k hpn hk ho1 R C hr1 hc1, ← Finset.sum_add_distrib]
  refine Finset.sum_congr rfl fun r _ => ?_
  rw [← Finset.sum_add_distrib]
  refine Finset.sum_congr rfl fun c _ => ?_
  rw [withPiece_apply]
  cases hcell : pieceCell (pn : Int) (k : Int) (R : Int) (C : Int) (r : Int) (c : Int)
  · cases hb : board (r : Int) (c : Int) <;> simp
  · rw [hfree _ _ hcell]
    simp

/-- The lowest cell of every column of a catalog entry is the one above its bottom edge. -/
theorem bottom_filled (p o pc : Int) (hp0 : 0 ≤ p) (hp1 : p < 7) (ho0 : 0 ≤ o)
    (ho1 : o < pieceOrientationCounts p) (h0 : 0 ≤ pc) (h1 : pc < pieceWidths p o) :
    pieces p o (pieceHeightmaps p o pc - 1) pc = true := by
  obtain ⟨pn, rfl⟩ := nat_of_range p hp0
  obtain ⟨k, rfl⟩ := nat_of_range o ho0
  obtain ⟨j, rfl⟩ := nat_of_range pc h0
  have hpn : pn < 7 := by omega
  have hk : k < 4 := by
    have := (catalog_orientations pn hpn).2
    omega
  have hj : j < 4 := by
    have := (catalog_dims pn hpn k hk ho1).2.1
    omega
  exact (catalog_top pn hpn k hk ho1 j hj h1).2.2.1

/-- The stack that reaches the top with a row that lacks one cell satisfies the board
invariant. -/
theorem lineAtTop_inv :
    BoardInv lineAtTop.board lineAtTop.boardHeightmap lineAtTop.boardHeightmapMin := by
  have hC : COLUMNS = 10 := rfl
  have hR : ROWS = 20 := rfl
  have hb : ∀ r c, lineAtTop.board r c = decide ((0 ≤ c ∧ c < COLUMNS) ∧
      ((r = 1 ∧ 6 ≤ c ∧ c ≤ 8) ∨ (r = 2 ∧ c ≤ 8) ∨ (r = 3 ∧ c ≠ 8) ∨
        (4 ≤ r ∧ r < ROWS ∧ (c = 0 ∨ c = 4 ∨ c = 9)) ∨
        (c = 8 ∧ (r = 4 ∨ r = 5 ∨ r = 7)))) := fun _ _ => rfl
  have hh : ∀ c, lineAtTop.boardHeightmap c = if c = 9 then 3 else if 6 ≤ c then 1 else 2 :=
    fun _ => rfl
  have hm : lineAtTop.boardHeightmapMin = 1 := rfl
  refine ⟨⟨fun c c0 c1 => ?_, fun c c0 c1 => ?_, fun c c0 c1 hlt => ?_,
    fun c c0 c1 r r0 r1 => ?_, fun c c0 c1 => ?_, ⟨6, by decide, by decide, rfl⟩,
    fun r r0 r1 => ?_⟩, fun r r0 r1 => ?_⟩
  · rw [hh]
    split_ifs <;> omega
  · rw [hh]
    split_ifs <;> omega
  · rw [hb, hh, decide_eq_true_eq]
    split_ifs <;> omega
  · rw [hh] at r1
    rw [hb, decide_eq_false_iff_not]
    split_ifs at r1 <;> omega
  · rw [hm, hh]
    split_ifs <;> omega
  · rw [hm] at r0
    by_cases h1 : r = 1
    · exact ⟨6, by decide, by decide, by rw [hb, decide_eq_true_eq]; omega⟩
    · exact ⟨0, by decide, by decide, by rw [hb, decide_eq_true_eq]; omega⟩
  · by_cases h3 : r = 3
    · exact ⟨8, by decide, by decide, by rw [hb, decide_eq_false_iff_not]; omega⟩
    · by_cases h2 : r = 2
      · exact ⟨9, by decide, by decide, by rw [hb, decide_eq_false_iff_not]; omega⟩
      · exact ⟨1, by decide, by decide, by rw [hb, decide_eq_false_iff_not]; omega⟩

/-- A checked upward loop whose body succeeds with the value of the unchecked body at every
index of the loop succeeds with the value of the unchecked loop. -/
theorem forLoopChecked_eq {σ : Type} (bodyM : Int → σ → Option σ) (body : Int → σ → σ) :
    ∀ (n : Nat) (i : Int) (s : σ),
      (∀ j t, i ≤ j → j < i + n → bodyM j t = some (body j t)) →
      forLoopChecked bodyM n i s = some (forLoop body n i s) := by
  intro n
  induction n with
  | zero => intro i s _; rfl
  | succ n ih =>
    intro i s h
    rw [forLoopChecked, forLoop, h i s (le_refl i) (by push_cast; omega), Option.some_bind]
    exact ih (i + 1) (body i s) (fun j t h1 h2 => h j t (by omega) (by push_cast; omega))

theorem forUpChecked_eq {σ : Type} (lo hi : Int) (bodyM : Int → σ → Option σ)
    (body : Int → σ → σ) (s : σ)
    (h : ∀ j t, lo ≤ j → j < hi → bodyM j t = some (body j t)) :
    forUpChecked lo hi bodyM s = some (forUp lo hi body s) :=
  forLoopChecked_eq bodyM body (hi - lo).toNat lo s (fun j t h1 h2 => h j t h1 (by omega))

theorem forLoopDownChecked_eq {σ : Type} (bodyM : Int → σ → Option σ) (body : Int → σ → σ) :
    ∀ (n : Nat) (i : Int) (s : σ),
      (∀ j t, j ≤ i → i - n < j → bodyM j t = some (body j t)) →
      forLoopDownChecked bodyM n i s = some (forLoopDown body n i s) := by
  intro n
  induction n with
  | zero => intro i s _; rfl
  | succ n ih =>
    intro i s h
    rw [forLoopDownChecked, forLoopDown, h i s (le_refl i) (by push_cast; omega),
      Option.some_bind]
    exact ih (i - 1) (body i s) (fun j t h1 h2 => h j t (by omega) (by push_cast; omega))

theorem forDownChecked_eq {σ : Type} (hi lo : Int) (bodyM : Int → σ → Option σ)
    (body : Int → σ → σ) (s : σ)
    (h : ∀ j t, lo ≤ j → j ≤ hi → bodyM j t = some (body j t)) :
    forDownChecked hi lo bodyM s = some (forDown hi lo body s) :=
  forLoopDownChecked_eq bodyM body (hi - lo + 1).toNat hi s
    (fun j t h1 h2 => h j t (by omega) h1)

theorem readBoard_eq (board : Int → Int → Bool) (r c : Int) (r0 : 0 ≤ r) (r1 : r < ROWS)
    (c0 : 0 ≤ c) (c1 : c < COLUMNS) : readBoard board r c = some (board r c) :=
  if_pos ⟨⟨r0, r1⟩, c0, c1⟩

theorem writeBoard_eq (board : Int → Int → Bool) (r c : Int) (v : Bool) (r0 : 0 ≤ r)
    (r1 : r < ROWS) (c0 : 0 ≤ c) (c1 : c < COLUMNS) :
    writeBoard board r c v = some (set2 board r c v) :=
  if_pos ⟨⟨r0, r1⟩, c0, c1⟩

theorem readHeightmap_eq (hm : Int → Int) (c : Int) (c0 : 0 ≤ c) (c1 : c < COLUMNS) :
    readHeightmap hm c = some (hm c) :=
  if_pos ⟨c0, c1⟩

theorem writeHeightmap_eq (hm : Int → Int) (c v : Int) (c0 : 0 ≤ c) (c1 : c < COLUMNS) :
    writeHeightmap hm c v = some (set1 hm c v) :=
  if_pos ⟨c0, c1⟩

theorem orientationInRange_eq (p o : Int) (hp0 : 0 ≤ p) (hp1 : p < 7) (ho0 : 0 ≤ o)
    (ho1 : o < pieceOrientationCounts p) : orientationInRange p o = true :=
  decide_eq_true ⟨⟨hp0, hp1⟩, ho0, ho1⟩

/-- The checked action-expanding loop succeeds with the value of the unchecked loop. -/
theorem expandLoopChecked_eq (p : Int) (hp0 : 0 ≤ p) (hp1 : p < 7) :
    ∀ (n : Nat) (o a : Int), 0 ≤ o →
      expandLoopChecked p n o a = some (expandLoop p n o a) := by
  intro n
  induction n with
  | zero => intro o a _; rfl
  | succ n ih =>
    intro o a ho0
    rw [expandLoopChecked, expandLoop, readOrientationCount, if_pos ⟨hp0, hp1⟩,
      Option.some_bind]
    by_cases h : o < pieceOrientationCounts p
    · rw [if_pos h, if_pos h, readWidth, orientationInRange_eq p o hp0 hp1 ho0 h, if_pos rfl,
        Option.some_bind]
      by_cases h2 : a < COLUMNS - pieceWidths p o + 1
      · rw [if_pos h2, if_pos h2]
      · rw [if_neg h2, if_neg h2]
        exact ih (o + 1) _ (by omega)
    · rw [if_neg h, if_neg h]

theorem expandActionChecked_eq (p a : Int) (hp0 : 0 ≤ p) (hp1 : p < 7) :
    expandActionChecked p a = some (expandAction p a) := by
  rw [expandActionChecked, readOrientationCount, if_pos ⟨hp0, hp1⟩, Option.some_bind]
  exact expandLoopChecked_eq p hp0 hp1 _ 0 a (le_refl 0)

/-- The checked landing-row loop succeeds with the value of the unchecked loop when the piece
lies inside the columns of the board. -/
theorem findRowChecked_eq (hm : Int → Int) (p o col : Int)
    (hv : orientationInRange p o = true) (hw : pieceWidths p o ≤ 4) (hc0 : 0 ≤ col)
    (hc1 : col + pieceWidths p o ≤ COLUMNS) :
    findRowChecked hm p o col = some (findRow hm p o col) := by
  rw [findRowChecked, readWidth, hv, if_pos rfl, Option.some_bind]
  refine forUpChecked_eq 0 (pieceWidths p o) _ _ ROWS (fun j t j0 j1 => ?_)
  dsimp only
  rw [readHeightmap_eq hm (col + j) (by omega) (by omega), Option.some_bind, readBottom,
    if_pos ⟨hv, j0, by omega⟩, Option.some_bind]

/-- The checked placing loops succeed with the value of the unchecked loops when the piece lies
inside the board. -/
theorem placePieceChecked_eq (board : Int → Int → Bool) (p o row col : Int)
    (hv : orientationInRange p o = true) (hw : pieceWidths p o ≤ 4) (hh : pieceHeights p o ≤ 4)
    (hr0 : 0 ≤ row) (hr1 : row + pieceHeights p o ≤ ROWS) (hc0 : 0 ≤ col)
    (hc1 : col + pieceWidths p o ≤ COLUMNS) :
    placePieceChecked board p o row col = some (placePiece board p o row col) := by
  rw [placePieceChecked, readHeight, readWidth, hv, if_pos rfl, Option.some_bind, if_pos rfl,
    Option.some_bind]
  refine forUpChecked_eq 0 (pieceHeights p o) _ _ board (fun i b i0 i1 => ?_)
  refine forUpChecked_eq 0 (pieceWidths p o) _ _ b (fun j b1 j0 j1 => ?_)
  dsimp only
  rw [readBoard_eq b1 (row + i) (col + j) (by omega) (by omega) (by omega) (by omega),
    Option.some_bind, readMask, if_pos ⟨hv, ⟨i0, by omega⟩, j0, by omega⟩, Option.some_bind,
    writeBoard_eq b1 (row + i) (col + j) _ (by omega) (by omega) (by omega) (by omega)]

/-- The checked heightmap loop succeeds with the value of the unchecked loop when the piece lies
inside the columns of the board. -/
theorem updateHeightmapChecked_eq (hm : (Int → Int) × Int) (p o row col : Int)
    (hv : orientationInRange p o = true) (hw : pieceWidths p o ≤ 4) (hc0 : 0 ≤ col)
    (hc1 : col + pieceWidths p o ≤ COLUMNS) :
    updateHeightmapChecked hm p o row col = some (updateHeightmap hm p o row col) := by
  rw [updateHeightmapChecked, readWidth, hv, if_pos rfl, Option.some_bind]
  refine forUpChecked_eq 0 (pieceWidths p o) _ _ hm (fun j h j0 j1 => ?_)
  dsimp only
  rw [readTop, if_pos ⟨hv, j0, by omega⟩, Option.some_bind,
    writeHeightmap_eq h.1 (col + j) _ (by omega) (by omega), Option.some_bind,
    readHeightmap_eq _ (col + j) (by omega) (by omega), Option.some_bind]

/-- The checked `shiftRows` succeeds with the value of the unchecked one when the rows it reads
and writes lie inside the board. -/
theorem shiftRowsChecked_eq (board : Int → Int → Bool) (firstRow lastRow shift : Int)
    (h0 : 0 ≤ firstRow) (hs : 0 ≤ shift) (h1 : lastRow + shift < ROWS)
    (h2 : firstRow + shift ≤ ROWS) :
    shiftRowsChecked board firstRow lastRow shift =
      some (shiftRows board firstRow lastRow shift) := by
  have e1 : forDownChecked lastRow firstRow
      (fun row b => forUpChecked 0 COLUMNS
        (fun col b1 => (readBoard b1 row col).bind fun v => writeBoard b1 (row + shift) col v)
        b) board =
      some (forDown lastRow firstRow
        (fun row b => forUp 0 COLUMNS (fun col b1 => set2 b1 (row + shift) col (b1 row col)) b)
        board) := by
    refine forDownChecked_eq lastRow firstRow _ _ board (fun i b i0 i1 => ?_)
    refine forUpChecked_eq 0 COLUMNS _ _ b (fun j b1 j0 j1 => ?_)
    dsimp only
    rw [readBoard_eq b1 i j (by omega) (by omega) j0 j1, Option.some_bind,
      writeBoard_eq b1 (i + shift) j _ (by omega) (by omega) j0 j1]
  rw [shiftRowsChecked, e1, Option.some_bind, shiftRows]
  refine forUpChecked_eq firstRow (firstRow + shift) _ _ _ (fun i b i0 i1 => ?_)
  refine forUpChecked_eq 0 COLUMNS _ _ b (fun j b1 j0 j1 => ?_)
  exact writeBoard_eq b1 i j false (by omega) (by omega) j0 j1

/-- The checked row check succeeds with the value of the unchecked one on a row of the
board. -/
theorem checkRowLoopChecked_eq (board : Int → Int → Bool) (row : Int) (r0 : 0 ≤ row)
    (r1 : row < ROWS) :
    ∀ (n : Nat) (col : Int), 0 ≤ col →
      checkRowLoopChecked board row n col = some (checkRowLoop board row n col) := by
  intro n
  induction n with
  | zero => intro col _; rfl
  | succ n ih =>
    intro col c0
    rw [checkRowLoopChecked, checkRowLoop]
    by_cases h : col < COLUMNS
    · rw [if_pos h, if_pos h, readBoard_eq board row col r0 r1 c0 h, Option.some_bind]
      by_cases h2 : (!board row col) = true
      · rw [if_pos h2, if_pos h2]
      · rw [if_neg h2, if_neg h2]
        exact ih (col + 1) (by omega)
    · rw [if_neg h, if_neg h]

/-- The checked region scan succeeds with the value of the unchecked one when the piece lies
inside the rows of the board. -/
theorem scanRegionChecked_eq (board : Int → Int → Bool) (p o row : Int)
    (hv : orientationInRange p o = true) (hr0 : 0 ≤ row)
    (hr1 : row + pieceHeights p o ≤ ROWS) :
    scanRegionChecked board p o row = some (scanRegion board p o row) := by
  rw [scanRegionChecked, readHeight, hv, if_pos rfl, Option.some_bind]
  refine forUpChecked_eq 0 (pieceHeights p o) _ _ _ (fun i st i0 i1 => ?_)
  dsimp only
  rw [checkRowLoopChecked_eq st.1 (row + i) (by omega) (by omega) _ 0 (le_refl 0),
    Option.some_bind]
  by_cases h : checkRowLoop st.1 (row + i) COLUMNS.toNat 0 = COLUMNS
  · rw [if_pos h, if_pos h,
      shiftRowsChecked_eq st.1 row (row + i - 1) 1 hr0 (by decide) (by omega) (by omega),
      Option.some_bind]
  · rw [if_neg h, if_neg h]

/-- The checked top scan succeeds with the value of the unchecked one in a column of the
board. -/
theorem topScanLoopChecked_eq (board : Int → Int → Bool) (col : Int) (c0 : 0 ≤ col)
    (c1 : col < COLUMNS) :
    ∀ (n : Nat) (row : Int), 0 ≤ row →
      topScanLoopChecked board col n row = some (topScanLoop board col n row) := by
  intro n
  induction n with
  | zero => intro row _; rfl
  | succ n ih =>
    intro row r0
    rw [topScanLoopChecked, topScanLoop]
    by_cases h : row < ROWS
    · rw [if_pos h, readBoard_eq board row col r0 h c0 c1, Option.some_bind]
      by_cases h2 : board row col = false
      · rw [if_pos h2, if_pos ⟨h, h2⟩]
        exact ih (row + 1) (by omega)
      · rw [if_neg h2, if_neg (fun hh => h2 hh.2)]
    · rw [if_neg h, if_neg (fun hh => h hh.1)]

/-- The checked heightmap recomputation succeeds with the value of the unchecked one when the
scan starts at a row that is not negative. -/
theorem rescanHeightmapChecked_eq (board : Int → Int → Bool) (hmin : Int) (hm : Int → Int)
    (h0 : 0 ≤ hmin) :
    rescanHeightmapChecked board hmin hm = some (rescanHeightmap board hmin hm) := by
  rw [rescanHeightmapChecked, rescanHeightmap]
  refine forUpChecked_eq 0 COLUMNS _ _ hm (fun j h j0 j1 => ?_)
  dsimp only
  rw [topScanLoopChecked_eq board j j0 j1 _ hmin h0, Option.some_bind,
    writeHeightmap_eq h j _ j0 j1]

/-- The region scan counts at most as many rows as the piece is high. -/
theorem scanRegion_count_le (P : Int → Int → Bool) (p o row : Int)
    (hh : 0 ≤ pieceHeights p o) :
    0 ≤ (scanRegion P p o row).2 ∧ (scanRegion P p o row).2 ≤ pieceHeights p o := by
  obtain ⟨-, -, c3, -⟩ := scanRegion_spec P p o row hh
  have hle := List.length_filter_le isFullRow (rowsFrom P row (pieceHeights p o).toNat)
  have hlen : (rowsFrom P row (pieceHeights p o).toNat).length = (pieceHeights p o).toNat := by
    simp [rowsFrom]
  rw [hlen] at hle
  rw [c3]
  omega

/-- On a state that satisfies the heightmap invariant, for a valid piece and a legal action,
the checked `dropPiece` succeeds, with the result of the unchecked one: no access of the call
is out of range. -/
theorem dropPieceChecked_eq (s : Tetris) (a : Int)
    (hI : StackInv s.board s.boardHeightmap s.boardHeightmapMin)
    (hp0 : 0 ≤ s.fallingPiece) (hp1 : s.fallingPiece < 7) (ha0 : 0 ≤ a)
    (ha1 : a < pieceActionCounts s.fallingPiece) :
    s.dropPieceChecked a = some (s.dropPiece a) := by
  obtain ⟨v1, v2, v3, v4⟩ := expandAction_valid s.fallingPiece a hp0 hp1 ha0 ha1
  have sh := expandAction_shape s.fallingPiece a hp0 hp1 ha0 ha1
  have hv := orientationInRange_eq _ _ hp0 hp1 v1 v2
  obtain ⟨-, -, f3⟩ := findRow_landing s.boardHeightmap s.fallingPiece
    (expandAction s.fallingPiece a).1 (expandAction s.fallingPiece a).2 sh hI.hm_le v3 v4
  have hw1 := sh.width_pos
  have hw4 := sh.width_le
  have hh1 := sh.height_pos
  have hh4 := sh.height_le
  have hC : COLUMNS = 10 := rfl
  have hR : ROWS = 20 := rfl
  have hmin0 : 0 ≤ s.boardHeightmapMin := by
    obtain ⟨c, c0, c1, e⟩ := hI.min_attained
    rw [← e]
    exact hI.hm_nonneg c c0 c1
  unfold Tetris.dropPieceChecked Tetris.dropPiece
  rw [expandActionChecked_eq _ _ hp0 hp1, Option.some_bind]
  dsimp only
  rw [if_pos hv, findRowChecked_eq _ _ _ _ hv hw4 v3 (by omega), Option.some_bind]
  generalize ho : (expandAction s.fallingPiece a).1 = o at *
  generalize hcol : (expandAction s.fallingPiece a).2 = col at *
  generalize hrow : findRow s.boardHeightmap s.fallingPiece o col = row at *
  by_cases hneg : row < 0
  · rw [if_pos hneg, if_pos hneg]
  · have hr0 : 0 ≤ row := by omega
    obtain ⟨-, u2, u3, u4⟩ := updateHeightmap_spec s.boardHeightmap s.boardHeightmapMin
      s.fallingPiece o row col (by omega)
    obtain ⟨k0, k1⟩ := scanRegion_count_le (placePiece s.board s.fallingPiece o row col)
      s.fallingPiece o row (by omega)
    have hm0 : 0 ≤ (updateHeightmap (s.boardHeightmap, s.boardHeightmapMin) s.fallingPiece o
        row col).2 := by
      rcases u4 with h | ⟨pc, p0, p1, e⟩
      · rw [h]
        exact hmin0
      · have := sh.top_nonneg pc p0 p1
        omega
    have hmr : (updateHeightmap (s.boardHeightmap, s.boardHeightmapMin) s.fallingPiece o
        row col).2 ≤ row := by
      obtain ⟨pc, p0, p1, e⟩ := sh.top_zero
      have := u3 pc p0 p1
      omega
    rw [if_neg hneg, if_neg hneg,
      placePieceChecked_eq _ _ _ _ _ hv hw4 hh4 hr0 f3 v3 (by omega), Option.some_bind,
      updateHeightmapChecked_eq _ _ _ _ _ hv hw4 v3 (by omega), Option.some_bind,
      scanRegionChecked_eq _ _ _ _ hv hr0 f3, Option.some_bind]
    by_cases hf : (scanRegion (placePiece s.board s.fallingPiece o row col) s.fallingPiece o
        row).2 > 0
    · rw [if_pos hf, if_pos hf,
        shiftRowsChecked_eq _ _ _ _ hm0 k0 (by omega) (by omega), Option.some_bind,
        rescanHeightmapChecked_eq _ _ _ (by omega), Option.some_bind]
    · rw [if_neg hf, if_neg hf]

/-- The checks of the checked embedding can fail: for the square, action 9 lies past the last
action, the expansion ends at orientation 1, which the square does not have, and the checked
`dropPiece` stops there; and a read of row `ROWS` of the board fails. -/
theorem dropPieceChecked_out_of_range :
    freshTetris.dropPieceChecked 9 = none ∧ readBoard freshTetris.board ROWS 0 = none ∧
    readHeightmap freshTetris.boardHeightmap COLUMNS = none := by
  refine ⟨?_, rfl, rfl⟩
  have e : expandActionChecked freshTetris.fallingPiece 9 = some (1, 0) := by decide!
  have v : orientationInRange freshTetris.fallingPiece 1 = false := by decide!
  rw [Tetris.dropPieceChecked, e, Option.some_bind]
  dsimp only
  rw [v]
  rfl

/-! ## Lemmas about the critics in step, the gradient block and the seed fill -/

/-- One step of an LSTD critic outside the corrected mode and of an LSPE critic on the same
input keeps the traces and the `b` vectors equal and the `A` matrices opposite. -/
theorem critics_step_sign {D : Type} [CommRing D] (mode : PetersTrickMode)
    (hmode : mode ≠ PetersTrickMode.PTM_CORRECTED) (t : LSTDLambda D) (p : LSPELambda D)
    (phi0 phi1 : Int → D) (r : D) (hV : p.VDim = t.VDim) (hg : p.gamma = t.gamma)
    (hl : p.lambda = t.lambda)
    (hz : ∀ i, 0 ≤ i → i < t.VDim → p.z i = t.z i)
    (hb : ∀ i, 0 ≤ i → i < t.VDim → p.b i = t.b i)
    (hA : ∀ i j, 0 ≤ i → i < t.VDim → 0 ≤ j → j < t.VDim → p.A i j = -t.A i j) :
    (({ p with phi0 := phi0, phi1 := phi1 } : LSPELambda D).step r).VDim =
      (({ t with phi0 := phi0, phi1 := phi1 } : LSTDLambda D).step mode r).VDim ∧
    (({ t with phi0 := phi0, phi1 := phi1 } : LSTDLambda D).step mode r).VDim = t.VDim ∧
    (({ p with phi0 := phi0, phi1 := phi1 } : LSPELambda D).step r).gamma =
      (({ t with phi0 := phi0, phi1 := phi1 } : LSTDLambda D).step mode r).gamma ∧
    (({ p with phi0 := phi0, phi1 := phi1 } : LSPELambda D).step r).lambda =
      (({ t with phi0 := phi0, phi1 := phi1 } : LSTDLambda D).step mode r).lambda ∧
    (∀ i, 0 ≤ i → i < t.VDim →
      (({ p with phi0 := phi0, phi1 := phi1 } : LSPELambda D).step r).z i =
        (({ t with phi0 := phi0, phi1 := phi1 } : LSTDLambda D).step mode r).z i) ∧
    (∀ i, 0 ≤ i → i < t.VDim →
      (({ p with phi0 := phi0, phi1 := phi1 } : LSPELambda D).step r).b i =
        (({ t with phi0 := phi0, phi1 := phi1 } : LSTDLambda D).step mode r).b i) ∧
    (∀ i j, 0 ≤ i → i < t.VDim → 0 ≤ j → j < t.VDim →
      (({ p with phi0 := phi0, phi1 := phi1 } : LSPELambda D).step r).A i j =
        -(({ t with phi0 := phi0, phi1 := phi1 } : LSTDLambda D).step mode r).A i j) := by
  obtain ⟨s1, s2, s3, s4⟩ := LSTDLambda_step_spec mode hmode
    ({ t with phi0 := phi0, phi1 := phi1 } : LSTDLambda D) r
  obtain ⟨q1, -, q2, q3, q4⟩ := LSPELambda_step_spec
    ({ p with phi0 := phi0, phi1 := phi1 } : LSPELambda D) r
  have eV := congrArg Critic.VDim s1
  have eg := congrArg Critic.gamma s1
  have el := congrArg Critic.lambda s1
  have fV := congrArg Critic.VDim q1
  have fg := congrArg Critic.gamma q1
  have fl := congrArg Critic.lambda q1
  refine ⟨fV.trans (hV.trans eV.symm), eV, fg.trans (hg.trans eg.symm),
    fl.trans (hl.trans el.symm), fun i i0 i1 => ?_, fun i i0 i1 => ?_,
    fun i j i0 i1 j0 j1 => ?_⟩
  · have i1p : i < p.VDim := by rw [hV]; exact i1
    rw [s2, q2]
    dsimp only
    rw [if_pos ⟨i0, i1p⟩, if_pos ⟨i0, i1⟩, hz i i0 i1, hg, hl]
  · have i1p : i < p.VDim := by rw [hV]; exact i1
    rw [s4, q4]
    dsimp only
    rw [if_pos ⟨i0, i1p⟩, if_pos ⟨i0, i1⟩, hz i i0 i1, hb i i0 i1, hg, hl]
  · have i1p : i < p.VDim := by rw [hV]; exact i1
    have j1p : j < p.VDim := by rw [hV]; exact j1
    rw [s3, q3]
    dsimp only
    rw [if_pos ⟨⟨i0, i1p⟩, j0, j1p⟩, if_pos ⟨⟨i0, i1⟩, j0, j1⟩, hz i i0 i1,
      hA i j i0 i1 j0 j1, hg, hl]
    ring

/-- Fed the same inputs, an LSTD critic outside the corrected mode and an LSPE critic keep
equal traces, equal `b` vectors and opposite `A` matrices. -/
theorem critics_feed_sign {D : Type} [CommRing D] (mode : PetersTrickMode)
    (hmode : mode ≠ PetersTrickMode.PTM_CORRECTED) (l : List ((Int → D) × (Int → D) × D)) :
    ∀ (t : LSTDLambda D) (p : LSPELambda D), p.VDim = t.VDim → p.gamma = t.gamma →
      p.lambda = t.lambda →
      (∀ i, 0 ≤ i → i < t.VDim → p.z i = t.z i) →
      (∀ i, 0 ≤ i → i < t.VDim → p.b i = t.b i) →
      (∀ i j, 0 ≤ i → i < t.VDim → 0 ≤ j → j < t.VDim → p.A i j = -t.A i j) →
      (∀ i, 0 ≤ i → i < t.VDim → (p.feed l).z i = (t.feed mode l).z i) ∧
      (∀ i, 0 ≤ i → i < t.VDim → (p.feed l).b i = (t.feed mode l).b i) ∧
      (∀ i j, 0 ≤ i → i < t.VDim → 0 ≤ j → j < t.VDim →
        (p.feed l).A i j = -(t.feed mode l).A i j) := by
  induction l with
  | nil => exact fun t p _ _ _ hz hb hA => ⟨hz, hb, hA⟩
  | cons x rest ih =>
    intro t p hV hg hl hz hb hA
    obtain ⟨e1, e2, e3, e4, z1, b1, A1⟩ := critics_step_sign mode hmode t p x.1 x.2.1 x.2.2
      hV hg hl hz hb hA
    have h := ih (({ t with phi0 := x.1, phi1 := x.2.1 } : LSTDLambda D).step mode x.2.2)
      (({ p with phi0 := x.1, phi1 := x.2.1 } : LSPELambda D).step x.2.2) e1 e3 e4
      (by rw [e2]; exact z1) (by rw [e2]; exact b1) (by rw [e2]; exact A1)
    rw [e2] at h
    exact h

/-- The gradient block that `learn` loads for the action `a`: entry `i` is the feature of `a`
minus the mean of the feature under finite probabilities. -/
theorem gradientBlock_fin {F : Type} [LinearOrderedField F] (s : StepData) (pr : Int → Dbl F)
    (q : Int → F) (phi : Int → Dbl F) (a i : Int)
    (hq : ∀ b, 0 ≤ b → b < s.actionCount → pr b = Dbl.fin (q b))
    (hi0 : 0 ≤ i) (hi1 : i < STATEACTIONDIM) :
    gradientLoop s pr
        (memcpy phi STATEDIM (fun k => Dbl.ofInt (s.actions a k)) STATEACTIONDIM)
        (STATEDIM + i) =
      Dbl.fin (((s.actions a i : Int) : F) -
        ∑ b in Finset.range s.actionCount.toNat, q b * ((s.actions b i : Int) : F)) := by
  rw [gradientLoop_spec]
  dsimp only
  rw [if_pos ⟨by omega, by omega⟩, memcpy, if_pos ⟨by omega, by omega⟩,
    show STATEDIM + i - STATEDIM = i by omega]
  exact gradientEntry_fin s pr q _ i hq

/-- The weighted sum of the deviations from the weighted mean is zero when the weights sum
to 1. -/
theorem weighted_deviation_sum {F : Type} [LinearOrderedField F] (n : Nat) (q x : Nat → F)
    (hsum : ∑ b in Finset.range n, q b = 1) :
    ∑ a in Finset.range n, q a * (x a - ∑ b in Finset.range n, q b * x b) = 0 := by
  simp only [mul_sub, Finset.sum_sub_distrib]
  rw [← Finset.sum_mul, hsum, one_mul, sub_self]

/-- Without actions `computeActionProbabilities` only runs its `memset`. -/
theorem computeActionProbabilities_none {F : Type} [LinearOrderedField F] (exp : F → F)
    (self : NaturalActorCritic F) (sd : StepData) (h0 : sd.actionCount = 0) :
    (self.computeActionProbabilities exp sd).actionProbabilities =
      memsetZero self.actionProbabilities MAXACTIONS := by
  simp only [NaturalActorCritic.computeActionProbabilities, h0,
    forUp_empty _ _ _ _ (le_refl (0 : Int)), ite_self]

/-- Without actions `drawAction` returns -1. -/
theorem drawAction_none {F : Type} [LinearOrderedField F] (self : NaturalActorCritic F)
    (sd : StepData) (r : Dbl F) (h0 : sd.actionCount = 0) : self.drawAction sd r = -1 := by
  simp [NaturalActorCritic.drawAction, h0, drawLoop]

theorem overhangMade_reachable : Reachable overhangMade :=
  Reachable.step (freshTetris.newEpisode 6) 0 0
    (Reachable.newEpisode freshTetris 6 (by decide)) (by decide!) (by decide!) (by decide)

/-- With an empty stack the main loop of the seed fill is left at once. -/
theorem fillLoop_nil (win : SFWindow) (ov nv : Bool) (fuel : Nat)
    (board : Int → Int → Bool) : fillLoop win ov nv fuel board [] = some board := by
  cases fuel <;> rfl

/-- A result of the main loop of the seed fill does not depend on the passes that are left
over. -/
theorem fillLoop_mono (win : SFWindow) (ov nv : Bool) (k : Nat) :
    ∀ (fuel : Nat) (board : Int → Int → Bool) (stack : List Segment)
      (v : Int → Int → Bool), fillLoop win ov nv fuel board stack = some v →
      fillLoop win ov nv (fuel + k) board stack = some v := by
  intro fuel
  induction fuel with
  | zero =>
    intro board stack v h
    cases stack with
    | nil =>
      rw [fillLoop_nil] at h ⊢
      exact h
    | cons seg rest => exact absurd h (by simp [fillLoop])
  | succ n ih =>
    intro board stack v h
    cases stack with
    | nil =>
      rw [fillLoop_nil] at h ⊢
      exact h
    | cons seg rest =>
      rw [show n + 1 + k = (n + k) + 1 by omega]
      rw [fillLoop] at h ⊢
      dsimp only at h ⊢
      generalize (if (fillLeft win (seg.y + seg.dy) ov nv (seg.xl - win.x0 + 1).toNat board
        seg.xl).2 ≥ seg.xl then _ else _ :
          Option ((Int → Int → Bool) × List Segment)) = spanned at h ⊢
      cases spanned with
      | none => exact absurd h (by simp)
      | some st =>
        rw [Option.some_bind] at h ⊢
        exact ih st.1 st.2 v h

theorem SeedFill_mono (fuel k : Nat) (board : Int → Int → Bool) (x y : Int) (win : SFWindow)
    (nv : Bool) (v : Int → Int → Bool) (h : SeedFill fuel board x y win nv = some v) :
    SeedFill (fuel + k) board x y win nv = some v := by
  unfold SeedFill at h ⊢
  dsimp only at h ⊢
  split_ifs at h ⊢ with hc
  · exact h
  · exact fillLoop_mono win _ nv k fuel board _ v h

/-- A loop whose body can fail gives the same result with a body that succeeds wherever the
first one does, with the same value. -/
theorem forLoopChecked_imp {σ : Type} (body1 body2 : Int → σ → Option σ)
    (himp : ∀ j t v, body1 j t = some v → body2 j t = some v) :
    ∀ (n : Nat) (i : Int) (s v : σ), forLoopChecked body1 n i s = some v →
      forLoopChecked body2 n i s = some v := by
  intro n
  induction n with
  | zero => exact fun i s v h => h
  | succ n ih =>
    intro i s v h
    rw [forLoopChecked] at h ⊢
    cases hb : body1 i s with
    | none =>
      rw [hb] at h
      exact absurd h (by simp)
    | some t =>
      rw [hb, Option.some_bind] at h
      rw [himp i s t hb, Option.some_bind]
      exact ih (i + 1) t v h

/-- A result of the flood-fill hole count does not depend on the passes that are left over. -/
theorem holesFloodFill_mono (fuel k : Nat) (board : Int → Int → Bool) (hm : Int → Int)
    (hmin : Int) (v : Int) (h : holesFloodFill fuel board hm hmin = some v) :
    holesFloodFill (fuel + k) board hm hmin = some v := by
  unfold holesFloodFill at h ⊢
  dsimp only at h ⊢
  rw [Option.map_eq_some'] at h ⊢
  obtain ⟨st, h1, h2⟩ := h
  refine ⟨st, ?_, h2⟩
  refine forLoopChecked_imp _ _ (fun j t w hw => ?_) _ _ _ _ h1
  rw [Option.map_eq_some'] at hw ⊢
  obtain ⟨b, hb1, hb2⟩ := hw
  exact ⟨b, SeedFill_mono fuel k _ _ _ _ _ b hb1, hb2⟩

/-! ## Lemmas about the rounding of binary64 and the rounded controller -/

theorem roundHalfEven_intCast (n : Int) : roundHalfEven (n : ℚ) = n := by
  unfold roundHalfEven
  rw [Int.floor_intCast, sub_self, if_pos (by norm_num)]

theorem roundHalfEven_bounds (y : ℚ) : ⌊y⌋ ≤ roundHalfEven y ∧ roundHalfEven y ≤ ⌊y⌋ + 1 := by
  unfold roundHalfEven
  split_ifs <;> omega

theorem roundHalfEven_mono {y z : ℚ} (h : y ≤ z) : roundHalfEven y ≤ roundHalfEven z := by
  have hf : ⌊y⌋ ≤ ⌊z⌋ := Int.floor_mono h
  rcases lt_or_eq_of_le hf with hlt | heq
  · exact le_trans (roundHalfEven_bounds y).2 (le_trans hlt (roundHalfEven_bounds z).1)
  · unfold roundHalfEven
    rw [← heq]
    have hd : y - ⌊y⌋ ≤ z - ⌊y⌋ := by linarith
    split_ifs <;> first | omega | (exfalso; linarith)

theorem roundHalfEven_neg (y : ℚ) : roundHalfEven (-y) = -roundHalfEven y := by
  by_cases hy : (⌊y⌋ : ℚ) = y
  · rw [← hy, ← Int.cast_neg, roundHalfEven_intCast, roundHalfEven_intCast]
  · have h1 : (⌊y⌋ : ℚ) < y := lt_of_le_of_ne (Int.floor_le y) hy
    have h2 : y < ⌊y⌋ + 1 := Int.lt_floor_add_one y
    have hf : ⌊-y⌋ = -⌊y⌋ - 1 := by
      rw [Int.floor_eq_iff]
      push_cast
      constructor <;> linarith
    unfold roundHalfEven
    rw [hf]
    push_cast
    split_ifs <;> first | omega | (exfalso; linarith)

theorem roundHalfEven_le_of_lt_half (z : ℚ) (n : Int) (h : z < n + 1 / 2) :
    roundHalfEven z ≤ n := by
  have hf : ⌊z⌋ ≤ n := by
    have : ⌊z⌋ < n + 1 := by
      rw [Int.floor_lt]
      push_cast
      linarith
    omega
  rcases lt_or_eq_of_le hf with hlt | heq
  · have := (roundHalfEven_bounds z).2
    omega
  · unfold roundHalfEven
    rw [heq, if_pos (by linarith)]

theorem two_zpow_succ_split (k : Int) : (2 : ℚ) ^ (k + 1) = 2 ^ 53 * 2 ^ (k - 52) := by
  have h : (2 : ℚ) ^ (53 : Nat) = 2 ^ ((53 : Nat) : Int) := (zpow_natCast 2 53).symm
  rw [h, ← zpow_add₀ (by norm_num : (2 : ℚ) ≠ 0)]
  congr 1
  push_cast
  ring

theorem two_zpow_split (k : Int) : (2 : ℚ) ^ k = 2 ^ 52 * 2 ^ (k - 52) := by
  have h : (2 : ℚ) ^ (52 : Nat) = 2 ^ ((52 : Nat) : Int) := (zpow_natCast 2 52).symm
  rw [h, ← zpow_add₀ (by norm_num : (2 : ℚ) ≠ 0)]
  congr 1
  push_cast
  ring

theorem two_zpow_pos (k : Int) : (0 : ℚ) < 2 ^ k := zpow_pos (by norm_num) k

theorem ulpExponent_neg (x : ℚ) : ulpExponent (-x) = ulpExponent x := by
  unfold ulpExponent
  rw [abs_neg]

theorem nearest64_neg (x : ℚ) : nearest64 (-x) = -nearest64 x := by
  unfold nearest64
  rw [ulpExponent_neg, neg_div, roundHalfEven_neg]
  push_cast
  ring

theorem nearest64_zero : nearest64 0 = 0 := by
  unfold nearest64
  rw [zero_div]
  have := roundHalfEven_intCast 0
  simp only [Int.cast_zero] at this
  rw [this]
  simp

theorem nearest64_nonneg {x : ℚ} (h : 0 ≤ x) : 0 ≤ nearest64 x := by
  unfold nearest64
  have h1 : (0 : ℚ) ≤ x / 2 ^ ulpExponent x := div_nonneg h (le_of_lt (two_zpow_pos _))
  have h2 := roundHalfEven_mono h1
  have h3 := roundHalfEven_intCast 0
  simp only [Int.cast_zero] at h3
  rw [h3] at h2
  exact mul_nonneg (by exact_mod_cast h2) (le_of_lt (two_zpow_pos _))

/-- A positive value lies below the upper end of its binade. -/
theorem lt_zpow_binade {x : ℚ} (k : Int) (hk : Int.log 2 |x| ≤ k) : |x| < 2 ^ (k + 1) := by
  have h := Int.lt_zpow_succ_log_self (by norm_num : 1 < 2) |x|
  simp only [Nat.cast_ofNat] at h
  exact lt_of_lt_of_le h (zpow_le_zpow_right₀ (by norm_num) (by omega))

theorem zpow_log_le {x : ℚ} (hx : x ≠ 0) : (2 : ℚ) ^ Int.log 2 |x| ≤ |x| := by
  have h := Int.zpow_log_le_self (R := ℚ) (b := 2) (r := |x|) (by norm_num) (abs_pos.mpr hx)
  simpa using h

/-- The rounded value of `x` does not exceed the upper end of its binade. -/
theorem nearest64_le_top (x : ℚ) :
    nearest64 x ≤ 2 ^ (max (Int.log 2 |x|) (-1022) + 1) := by
  have hlt := lt_of_le_of_lt (le_abs_self x)
    (lt_zpow_binade (x := x) (max (Int.log 2 |x|) (-1022)) (le_max_left _ _))
  unfold nearest64
  have he : ulpExponent x = max (Int.log 2 |x|) (-1022) - 52 := rfl
  have e53 : ((2 ^ 53 : Int) : ℚ) = 2 ^ 53 := by norm_num
  rw [he, two_zpow_succ_split]
  refine mul_le_mul_of_nonneg_right ?_ (le_of_lt (two_zpow_pos _))
  have h1 : x / 2 ^ (max (Int.log 2 |x|) (-1022) - 52) ≤ ((2 ^ 53 : Int) : ℚ) := by
    rw [div_le_iff₀ (two_zpow_pos _), e53, ← two_zpow_succ_split]
    exact le_of_lt hlt
  have h2 := roundHalfEven_mono h1
  rw [roundHalfEven_intCast] at h2
  rw [← e53]
  exact_mod_cast h2

/-- The rounded value of a positive normal `x` is at least the lower end of its binade. -/
theorem bottom_le_nearest64 {x : ℚ} (hx : 0 < x) (hk : -1022 ≤ Int.log 2 |x|) :
    2 ^ Int.log 2 |x| ≤ nearest64 x := by
  have hle : (2 : ℚ) ^ Int.log 2 |x| ≤ x := by
    have := zpow_log_le (ne_of_gt hx)
    rwa [abs_of_pos hx] at this ⊢
  unfold nearest64
  have he : ulpExponent x = Int.log 2 |x| - 52 := by
    unfold ulpExponent
    rw [max_eq_left hk]
  have e52 : ((2 ^ 52 : Int) : ℚ) = 2 ^ 52 := by norm_num
  rw [he]
  nth_rewrite 1 [two_zpow_split]
  refine mul_le_mul_of_nonneg_right ?_ (le_of_lt (two_zpow_pos _))
  have h1 : ((2 ^ 52 : Int) : ℚ) ≤ x / 2 ^ (Int.log 2 |x| - 52) := by
    rw [le_div_iff₀ (two_zpow_pos _), e52, ← two_zpow_split]
    exact hle
  have h2 := roundHalfEven_mono h1
  rw [roundHalfEven_intCast] at h2
  rw [← e52]
  exact_mod_cast h2

theorem nearest64_mono_pos {x y : ℚ} (hx : 0 < x) (h : x ≤ y) : nearest64 x ≤ nearest64 y := by
  have hy : 0 < y := lt_of_lt_of_le hx h
  have hlog : Int.log 2 |x| ≤ Int.log 2 |y| := by
    rw [abs_of_pos hx, abs_of_pos hy]
    exact Int.log_mono_right hx h
  have hk : max (Int.log 2 |x|) (-1022) ≤ max (Int.log 2 |y|) (-1022) :=
    max_le_max hlog (le_refl _)
  rcases lt_or_eq_of_le hk with hlt | heq
  · have hyk : -1022 ≤ Int.log 2 |y| := by
      by_contra hc
      rw [max_eq_right (by omega : Int.log 2 |y| ≤ -1022)] at hlt
      have := le_max_right (Int.log 2 |x|) (-1022)
      omega
    have hmax : max (Int.log 2 |y|) (-1022) = Int.log 2 |y| := max_eq_left hyk
    refine le_trans (nearest64_le_top x) (le_trans ?_ (bottom_le_nearest64 hy hyk))
    exact zpow_le_zpow_right₀ (by norm_num) (by omega)
  · have he : ulpExponent x = ulpExponent y := by
      unfold ulpExponent
      rw [heq]
    unfold nearest64
    rw [he]
    refine mul_le_mul_of_nonneg_right ?_ (le_of_lt (two_zpow_pos _))
    have := roundHalfEven_mono (div_le_div_of_nonneg_right h (le_of_lt (two_zpow_pos (ulpExponent y))))
    exact_mod_cast this

theorem nearest64_mono {x y : ℚ} (h : x ≤ y) : nearest64 x ≤ nearest64 y := by
  rcases lt_trichotomy x 0 with hx | hx | hx
  · rcases lt_trichotomy y 0 with hy | hy | hy
    · have := nearest64_mono_pos (neg_pos.mpr hy) (neg_le_neg h)
      rw [nearest64_neg, nearest64_neg] at this
      linarith
    · rw [hy, nearest64_zero]
      have := nearest64_nonneg (le_of_lt (neg_pos.mpr hx))
      rw [nearest64_neg] at this
      linarith
    · have h1 := nearest64_nonneg (le_of_lt (neg_pos.mpr hx))
      rw [nearest64_neg] at h1
      have h2 := nearest64_nonneg (le_of_lt hy)
      linarith
  · rw [hx, nearest64_zero]
    exact nearest64_nonneg (by rw [← hx]; exact h)
  · exact nearest64_mono_pos hx h

/-- A value that is an integer multiple of its unit in the last place is not changed. -/
theorem nearest64_of_multiple (v : ℚ) (M : Int) (h : v = M * 2 ^ ulpExponent v) :
    nearest64 v = v := by
  unfold nearest64
  have h1 : v / 2 ^ ulpExponent v = (M : ℚ) := by
    rw [div_eq_iff (ne_of_gt (two_zpow_pos _))]
    exact h
  rw [h1, roundHalfEven_intCast]
  exact h.symm

theorem nearest64_fixed_pos {x : ℚ} (hx : 0 < x) : nearest64 (nearest64 x) = nearest64 x := by
  have hN0 : 0 ≤ roundHalfEven (x / 2 ^ ulpExponent x) := by
    have h2 := roundHalfEven_mono (div_nonneg (le_of_lt hx) (le_of_lt (two_zpow_pos (ulpExponent x))))
    have h3 := roundHalfEven_intCast 0
    simp only [Int.cast_zero] at h3
    rw [h3] at h2
    exact h2
  rcases eq_or_lt_of_le hN0 with hz | hpos
  · have : nearest64 x = 0 := by
      unfold nearest64
      rw [← hz]
      simp
    rw [this, nearest64_zero]
  · have hv : 0 < nearest64 x := by
      unfold nearest64
      exact mul_pos (by exact_mod_cast hpos) (two_zpow_pos _)
    have htop := nearest64_le_top x
    have hlog : Int.log 2 |nearest64 x| ≤ max (Int.log 2 |x|) (-1022) + 1 := by
      rw [abs_of_pos hv]
      have := Int.log_mono_right (b := 2) hv htop
      have e := Int.log_zpow (R := ℚ) (b := 2) (by norm_num) (max (Int.log 2 |x|) (-1022) + 1)
      simp only [Nat.cast_ofNat] at e
      rw [e] at this
      exact this
    have hk0 : -1022 ≤ max (Int.log 2 |x|) (-1022) := le_max_right _ _
    by_cases hc : Int.log 2 |nearest64 x| ≤ max (Int.log 2 |x|) (-1022)
    · -- the unit in the last place of the result is not larger
      have hle : ulpExponent (nearest64 x) ≤ ulpExponent x := by
        unfold ulpExponent
        have : max (Int.log 2 |nearest64 x|) (-1022) ≤ max (Int.log 2 |x|) (-1022) :=
          max_le hc hk0
        omega
      obtain ⟨d, hd⟩ : ∃ d : Nat, ulpExponent x = ulpExponent (nearest64 x) + d :=
        ⟨(ulpExponent x - ulpExponent (nearest64 x)).toNat, by omega⟩
      refine nearest64_of_multiple _ (roundHalfEven (x / 2 ^ ulpExponent x) * 2 ^ d) ?_
      nth_rewrite 1 [nearest64]
      rw [hd, zpow_add₀ (by norm_num : (2 : ℚ) ≠ 0), zpow_natCast]
      push_cast
      ring
    · -- the result is the upper end of the binade, a power of two
      have hlogv : Int.log 2 |nearest64 x| = max (Int.log 2 |x|) (-1022) + 1 := by omega
      have hge := zpow_log_le (ne_of_gt hv)
      rw [hlogv, abs_of_pos hv] at hge
      have hveq : nearest64 x = 2 ^ (max (Int.log 2 |x|) (-1022) + 1) := le_antisymm htop hge
      have hu : ulpExponent (nearest64 x) = max (Int.log 2 |x|) (-1022) + 1 - 52 := by
        unfold ulpExponent
        rw [hlogv, max_eq_left (by omega)]
      refine nearest64_of_multiple _ (2 ^ 52) ?_
      have e52 : ((2 ^ 52 : Int) : ℚ) = 2 ^ 52 := by norm_num
      rw [hu, e52, ← two_zpow_split]
      exact hveq

theorem nearest64_fixed (x : ℚ) : nearest64 (nearest64 x) = nearest64 x := by
  rcases lt_trichotomy x 0 with hx | hx | hx
  · have := nearest64_fixed_pos (neg_pos.mpr hx)
    rw [nearest64_neg, nearest64_neg] at this
    linarith
  · rw [hx, nearest64_zero, nearest64_zero]
  · exact nearest64_fixed_pos hx

/-- Below the overflow threshold the rounded value is below the threshold. -/
theorem nearest64_lt_overflow {x : ℚ} (h : x < 2 ^ 1024 - 2 ^ 970) :
    nearest64 x < 2 ^ 1024 - 2 ^ 970 := by
  rcases le_or_lt x 0 with hx0 | hx0
  · have := nearest64_mono hx0
    rw [nearest64_zero] at this
    exact lt_of_le_of_lt this (by norm_num)
  by_cases hk : max (Int.log 2 |x|) (-1022) ≤ 1022
  · refine lt_of_le_of_lt (nearest64_le_top x) ?_
    refine lt_of_le_of_lt (zpow_le_zpow_right₀ (by norm_num)
      (by omega : max (Int.log 2 |x|) (-1022) + 1 ≤ 1023)) ?_
    norm_num
  · have hlog : Int.log 2 |x| < 1024 := by
      rw [abs_of_pos hx0]
      have := (Int.lt_zpow_iff_log_lt (R := ℚ) (b := 2) (x := 1024) (by norm_num) hx0).mp
      apply this
      refine lt_trans h ?_
      norm_num
    have hmax : max (Int.log 2 |x|) (-1022) = 1023 := by
      rcases le_total (Int.log 2 |x|) (-1022) with h1 | h1
      · rw [max_eq_right h1] at hk
        omega
      · rw [max_eq_left h1] at hk ⊢
        omega
    have hu : ulpExponent x = 971 := by
      unfold ulpExponent
      rw [hmax]
      rfl
    unfold nearest64
    rw [hu]
    have h1 : roundHalfEven (x / 2 ^ (971 : Int)) ≤ 2 ^ 53 - 1 := by
      apply roundHalfEven_le_of_lt_half
      rw [div_lt_iff₀ (two_zpow_pos _)]
      refine lt_of_lt_of_le h ?_
      norm_num
    have h2 : ((roundHalfEven (x / 2 ^ (971 : Int)) : Int) : ℚ) ≤ 2 ^ 53 - 1 := by
      exact_mod_cast h1
    refine lt_of_le_of_lt (mul_le_mul_of_nonneg_right h2 (le_of_lt (two_zpow_pos _))) ?_
    norm_num

theorem round64_zero : round64 0 = Dbl.fin 0 := by
  unfold round64
  rw [if_neg (by norm_num), if_neg (by norm_num), nearest64_zero]

theorem nearest64_one : nearest64 1 = 1 := by
  refine nearest64_of_multiple 1 (2 ^ 52) ?_
  have hu : ulpExponent 1 = -52 := by
    unfold ulpExponent
    rw [abs_one, Int.log_one_right]
    rfl
  rw [hu]
  norm_num

theorem round64_one : round64 1 = Dbl.fin 1 := by
  unfold round64
  rw [if_neg (by norm_num), if_neg (by norm_num), nearest64_one]

theorem round64_posInf {x : ℚ} (h : 2 ^ 1024 - 2 ^ 970 ≤ x) : round64 x = Dbl.posInf := by
  unfold round64
  rw [if_pos h]

theorem round64_fin {x : ℚ} (h1 : -(2 ^ 1024 - 2 ^ 970) < x) (h2 : x < 2 ^ 1024 - 2 ^ 970) :
    round64 x = Dbl.fin (nearest64 x) := by
  unfold round64
  rw [if_neg (not_le.mpr h2), if_neg (not_le.mpr h1)]

theorem round64_cases (x : ℚ) :
    (2 ^ 1024 - 2 ^ 970 ≤ x ∧ round64 x = Dbl.posInf) ∨
    (x ≤ -(2 ^ 1024 - 2 ^ 970) ∧ round64 x = Dbl.negInf) ∨
    ((-(2 ^ 1024 - 2 ^ 970) < x ∧ x < 2 ^ 1024 - 2 ^ 970) ∧
      round64 x = Dbl.fin (nearest64 x)) := by
  by_cases h1 : (2 : ℚ) ^ 1024 - 2 ^ 970 ≤ x
  · exact Or.inl ⟨h1, round64_posInf h1⟩
  · by_cases h2 : x ≤ -((2 : ℚ) ^ 1024 - 2 ^ 970)
    · refine Or.inr (Or.inl ⟨h2, ?_⟩)
      unfold round64
      rw [if_neg h1, if_pos h2]
    · exact Or.inr (Or.inr ⟨⟨not_le.mp h2, not_le.mp h1⟩,
        round64_fin (not_le.mp h2) (not_le.mp h1)⟩)

/-- The rounding of binary64 has the properties of a rounding. -/
theorem round64_rounding : Rounding round64 where
  zero := round64_zero
  one := round64_one
  mono := by
    intro x y hxy
    rcases round64_cases x with ⟨hx, ex⟩ | ⟨hx, ex⟩ | ⟨hx, ex⟩
    · rw [ex, round64_posInf (le_trans hx hxy)]
      rfl
    · rw [ex]
      rcases round64_cases y with ⟨_, ey⟩ | ⟨_, ey⟩ | ⟨_, ey⟩ <;> rw [ey] <;> rfl
    · rw [ex]
      rcases round64_cases y with ⟨_, ey⟩ | ⟨hy, _⟩ | ⟨_, ey⟩
      · rw [ey]
        rfl
      · exfalso
        linarith [hx.1]
      · rw [ey]
        exact decide_eq_true (nearest64_mono hxy)
  idem := by
    intro x y h
    rcases round64_cases x with ⟨_, ex⟩ | ⟨_, ex⟩ | ⟨hx, ex⟩
    · rw [ex] at h
      exact absurd h (by simp)
    · rw [ex] at h
      exact absurd h (by simp)
    · rw [ex] at h
      have hy : nearest64 x = y := Dbl.fin.inj h
      have h2 : nearest64 x < 2 ^ 1024 - 2 ^ 970 := nearest64_lt_overflow hx.2
      have h1 : -(2 ^ 1024 - 2 ^ 970) < nearest64 x := by
        have := nearest64_lt_overflow (x := -x) (by linarith [hx.1])
        rw [nearest64_neg] at this
        linarith
      rw [← hy, round64_fin h1 h2, nearest64_fixed]

/-- A counted loop that rewrites the single entry `a` of an array in every pass folds the
passes over that entry. -/
theorem forUp_set1_fold {D : Type} (lo hi a : Int) (f : Int → D → D) (ap : Int → D)
    (h : lo ≤ hi) :
    forUp lo hi (fun i x => set1 x a (f i (x a))) ap = set1 ap a (forUp lo hi f (ap a)) := by
  have := forUp_invariant lo hi (fun i x => set1 x a (f i (x a))) ap
    (fun (i : Int) (x : Int → D) => x = set1 ap a (forUp lo i f (ap a))) h ?_ ?_
  · exact this
  · beta_reduce
    rw [forUp_empty _ _ _ _ (le_refl lo)]
    funext j
    rw [set1_apply]
    by_cases hj : j = a
    · rw [if_pos hj, hj]
    · rw [if_neg hj]
  · intro i x i0 i1 hx
    beta_reduce
    rw [forUp_succ lo i f (ap a) i0, hx]
    funext j
    simp only [set1_apply]
    by_cases hj : j = a
    · rw [if_pos hj, if_pos hj, if_pos trivial]
    · rw [if_neg hj, if_neg hj, if_neg hj]

theorem roundedSum_congr {F : Type} [LinearOrderedField F] (rnd : F → Dbl F)
    (p q : Int → Dbl F) (n : Nat) (h : ∀ i : Nat, i < n → p i = q i) :
    roundedSum rnd p n = roundedSum rnd q n := by
  induction n with
  | zero => rfl
  | succ n ih =>
    rw [roundedSum, roundedSum, ih (fun i hi => h i (by omega)), h n (by omega)]

/-- The first loop of `computeActionProbabilities` with rounded operations: the entries of the
actions hold the stored scores and `maxPr` is their running maximum. -/
theorem scoresLoopRounded_spec {F : Type} [LinearOrderedField F] (rnd : F → Dbl F)
    (s : StepData) (theta : Int → Dbl F) (tau : Dbl F) (ap0 : Int → Dbl F) (n : Int)
    (hn : 0 ≤ n) (h0 : ∀ a, 0 ≤ a → a < n → ap0 a = 0) :
    forUp 0 n (scoresBodyRounded rnd s theta tau) (ap0, Dbl.negInf) =
      (fun j => if 0 ≤ j ∧ j < n then storedScore rnd s theta tau j else ap0 j,
        maxScore (storedScore rnd s theta tau) n.toNat) := by
  have := forUp_invariant 0 n (scoresBodyRounded rnd s theta tau) (ap0, Dbl.negInf)
    (fun (k : Int) (st : (Int → Dbl F) × Dbl F) => k ≤ n →
      st = (fun j => if 0 ≤ j ∧ j < k then storedScore rnd s theta tau j else ap0 j,
        maxScore (storedScore rnd s theta tau) k.toNat)) hn ?_ ?_
  · exact this (le_refl n)
  · intro _
    refine Prod.ext ?_ rfl
    funext j
    dsimp only
    rw [if_neg (by omega)]
  · intro k st k0 k1 hst _
    have hst' := hst (by omega)
    have hk : st.1 k = 0 := by
      rw [hst']
      dsimp only
      rw [if_neg (by omega), h0 k k0 k1]
    have hap : (if (REJECT_TERMINAL_ACTIONS && s.isActionTerminal k) = true then
          set1 st.1 k Dbl.negInf
        else forUp 0 STATEACTIONDIM
          (fun i ap => set1 ap k
            (Dbl.addRounded rnd (ap k)
              (Dbl.divRounded rnd (Dbl.mulRounded rnd (Dbl.ofInt (s.actions k i)) (theta i))
                tau))) st.1) = set1 st.1 k (storedScore rnd s theta tau k) := by
      unfold storedScore
      cases hT : s.isActionTerminal k
      · rw [if_neg (by simp [REJECT_TERMINAL_ACTIONS]), if_neg (by simp)]
        rw [forUp_set1_fold 0 STATEACTIONDIM k
          (fun i acc => Dbl.addRounded rnd acc
            (Dbl.divRounded rnd (Dbl.mulRounded rnd (Dbl.ofInt (s.actions k i)) (theta i))
              tau)) st.1 (by decide), hk]
        rfl
      · rw [if_pos (by simp [REJECT_TERMINAL_ACTIONS]), if_pos rfl]
    have e : (k + 1).toNat = k.toNat + 1 := by omega
    have e2 : ((k.toNat : Nat) : Int) = k := by omega
    unfold scoresBodyRounded
    dsimp only
    rw [hap, e, maxScore, e2]
    refine Prod.ext ?_ ?_
    · dsimp only
      rw [hst']
      funext j
      simp only [set1_apply]
      by_cases hj : j = k
      · rw [if_pos hj, if_pos (by omega), hj]
      · rw [if_neg hj]
        by_cases h2 : 0 ≤ j ∧ j < k
        · rw [if_pos h2, if_pos (by omega)]
        · rw [if_neg h2, if_neg (by omega)]
    · dsimp only
      rw [set1_apply, if_pos rfl, hst']

/-- The second loop of `computeActionProbabilities` with rounded operations: the entries hold
the weights and `sumPr` is their rounded sum. -/
theorem weightsLoopRounded_spec {F : Type} [LinearOrderedField F] (rnd expD : F → Dbl F)
    (m : Dbl F) (ap1 : Int → Dbl F) (n : Int) (hn : 0 ≤ n) :
    forUp 0 n (weightsBodyRounded rnd expD m) (ap1, 0) =
      (fun j => if 0 ≤ j ∧ j < n then Dbl.expRounded expD (Dbl.subRounded rnd (ap1 j) m)
          else ap1 j,
        roundedSum rnd (fun j => Dbl.expRounded expD (Dbl.subRounded rnd (ap1 j) m))
          n.toNat) := by
  have := forUp_invariant 0 n (weightsBodyRounded rnd expD m) (ap1, 0)
    (fun (k : Int) (st : (Int → Dbl F) × Dbl F) =>
      st = (fun j => if 0 ≤ j ∧ j < k then Dbl.expRounded expD (Dbl.subRounded rnd (ap1 j) m)
          else ap1 j,
        roundedSum rnd (fun j => Dbl.expRounded expD (Dbl.subRounded rnd (ap1 j) m))
          k.toNat)) hn ?_ ?_
  · exact this
  · refine Prod.ext ?_ rfl
    funext j
    dsimp only
    rw [if_neg (by omega)]
  · intro k st k0 k1 hst
    have e : (k + 1).toNat = k.toNat + 1 := by omega
    have e2 : ((k.toNat : Nat) : Int) = k := by omega
    unfold weightsBodyRounded
    dsimp only
    rw [e, roundedSum, e2, hst]
    dsimp only
    rw [if_neg (by omega)]
    refine Prod.ext ?_ ?_
    · dsimp only
      funext j
      simp only [set1_apply]
      by_cases hj : j = k
      · rw [if_pos hj, if_pos (by omega), hj]
      · rw [if_neg hj]
        by_cases h2 : 0 ≤ j ∧ j < k
        · rw [if_pos h2, if_pos (by omega)]
        · rw [if_neg h2, if_neg (by omega)]
    · dsimp only
      rw [set1_apply, if_pos rfl]

/-- The probabilities that `computeActionProbabilities` stores, with rounded operations: the
rounded quotient of the weight and the rounded sum of the weights, and the rounded
`1/actionCount` when `maxPr` is `-Inf`. -/
theorem computeActionProbabilitiesRounded_spec {F : Type} [LinearOrderedField F]
    (rnd expD : F → Dbl F) (self : NaturalActorCritic F) (s : StepData)
    (hn0 : 0 ≤ s.actionCount) (hn : s.actionCount ≤ MAXACTIONS) (a : Int) (a0 : 0 ≤ a)
    (a1 : a < s.actionCount) :
    (self.computeActionProbabilitiesRounded rnd expD s).actionProbabilities a =
      if maxScore (storedScore rnd s self.theta self.tau) s.actionCount.toNat = Dbl.negInf then
        Dbl.divRounded rnd 1 (Dbl.ofInt s.actionCount)
      else Dbl.divRounded rnd (roundedWeight rnd expD s self.theta self.tau a)
        (roundedSum rnd (roundedWeight rnd expD s self.theta self.tau) s.actionCount.toNat) := by
  unfold NaturalActorCritic.computeActionProbabilitiesRounded
  dsimp only
  rw [scoresLoopRounded_spec rnd s self.theta self.tau _ s.actionCount hn0
    (fun b b0 b1 => by
      unfold memsetZero
      rw [if_pos ⟨b0, by omega⟩])]
  dsimp only
  rw [weightsLoopRounded_spec rnd expD _ _ s.actionCount hn0]
  dsimp only
  have h3 : ∀ (S : Dbl F) (ap : Int → Dbl F),
      forUp 0 s.actionCount (fun action ap => set1 ap action (Dbl.divRounded rnd (ap action) S))
        ap = fun j => if 0 ≤ j ∧ j < s.actionCount then Dbl.divRounded rnd (ap j) S else ap j :=
    fun S ap => forUp_set1_map 0 s.actionCount (fun _ x => Dbl.divRounded rnd x S) ap
  have h4 : ∀ (c : Dbl F) (ap : Int → Dbl F),
      forUp 0 s.actionCount (fun action ap => set1 ap action c) ap =
        fun j => if 0 ≤ j ∧ j < s.actionCount then c else ap j :=
    fun c ap => forUp_set1_map 0 s.actionCount (fun _ _ => c) ap
  rw [h3, h4]
  have hsum : roundedSum rnd
      (fun j => Dbl.expRounded expD (Dbl.subRounded rnd
        (if 0 ≤ j ∧ j < s.actionCount then storedScore rnd s self.theta self.tau j
          else memsetZero self.actionProbabilities MAXACTIONS j)
        (maxScore (storedScore rnd s self.theta self.tau) s.actionCount.toNat)))
      s.actionCount.toNat =
      roundedSum rnd (roundedWeight rnd expD s self.theta self.tau) s.actionCount.toNat := by
    refine roundedSum_congr rnd _ _ _ (fun i hi => ?_)
    dsimp only
    rw [if_pos ⟨by omega, by omega⟩]
    rfl
  rw [hsum]
  by_cases hm : maxScore (storedScore rnd s self.theta self.tau) s.actionCount.toNat = Dbl.negInf
  · rw [if_pos hm, if_pos hm, if_pos ⟨a0, a1⟩]
  · rw [if_neg hm, if_neg hm, if_pos ⟨a0, a1⟩, if_pos ⟨a0, a1⟩, if_pos ⟨a0, a1⟩]
    rfl

theorem Dbl_le_fin_zero_left {F : Type} [LinearOrderedField F] (c : F) (z : Dbl F)
    (h : Dbl.le (Dbl.fin c) z = true) : z = Dbl.posInf ∨ ∃ y, z = Dbl.fin y ∧ c ≤ y := by
  cases z with
  | fin y => exact Or.inr ⟨y, rfl, of_decide_eq_true h⟩
  | posInf => exact Or.inl rfl
  | negInf => exact absurd h (by simp [Dbl.le])
  | nan => exact absurd h (by simp [Dbl.le])

theorem Dbl_le_fin_right {F : Type} [LinearOrderedField F] (c : F) (z : Dbl F)
    (h : Dbl.le z (Dbl.fin c) = true) : z = Dbl.negInf ∨ ∃ y, z = Dbl.fin y ∧ y ≤ c := by
  cases z with
  | fin y => exact Or.inr ⟨y, rfl, of_decide_eq_true h⟩
  | posInf => exact absurd h (by simp [Dbl.le])
  | negInf => exact Or.inl rfl
  | nan => exact absurd h (by simp [Dbl.le])

/-- A rounding takes a non-negative value to a non-negative value or to `+Inf`. -/
theorem Rounding.nonneg {F : Type} [LinearOrderedField F] {rnd : F → Dbl F} (hR : Rounding rnd)
    {x : F} (hx : 0 ≤ x) : rnd x = Dbl.posInf ∨ ∃ y, rnd x = Dbl.fin y ∧ 0 ≤ y := by
  have h := hR.mono 0 x hx
  rw [hR.zero] at h
  exact Dbl_le_fin_zero_left 0 _ h

/-- A rounding takes a value of at least 1 to a value of at least 1 or to `+Inf`. -/
theorem Rounding.one_le {F : Type} [LinearOrderedField F] {rnd : F → Dbl F} (hR : Rounding rnd)
    {x : F} (hx : 1 ≤ x) : rnd x = Dbl.posInf ∨ ∃ y, rnd x = Dbl.fin y ∧ 1 ≤ y := by
  have h := hR.mono 1 x hx
  rw [hR.one] at h
  exact Dbl_le_fin_zero_left 1 _ h

/-- A rounding takes a value that is not positive to such a value or to `-Inf`. -/
theorem Rounding.nonpos {F : Type} [LinearOrderedField F] {rnd : F → Dbl F} (hR : Rounding rnd)
    {x : F} (hx : x ≤ 0) : rnd x = Dbl.negInf ∨ ∃ y, rnd x = Dbl.fin y ∧ y ≤ 0 := by
  have h := hR.mono x 0 hx
  rw [hR.zero] at h
  exact Dbl_le_fin_right 0 _ h

/-- A rounding takes a value between 0 and 1 to a finite value between 0 and 1. -/
theorem Rounding.unit {F : Type} [LinearOrderedField F] {rnd : F → Dbl F} (hR : Rounding rnd)
    {x : F} (h0 : 0 ≤ x) (h1 : x ≤ 1) : ∃ y, rnd x = Dbl.fin y ∧ 0 ≤ y ∧ y ≤ 1 := by
  rcases hR.nonneg h0 with h | ⟨y, hy, hy0⟩
  · have h2 := hR.mono x 1 h1
    rw [hR.one, h] at h2
    exact absurd h2 (by simp [Dbl.le])
  · have h2 := hR.mono x 1 h1
    rw [hR.one, hy] at h2
    exact ⟨y, hy, hy0, of_decide_eq_true h2⟩

/-- The exact arithmetic is a rounding. -/
theorem Rounding.exact {F : Type} [LinearOrderedField F] : Rounding (Dbl.fin : F → Dbl F) where
  zero := rfl
  one := rfl
  mono := fun _ _ h => decide_eq_true h
  idem := fun _ _ _ => rfl

/-- The running maximum of the stored scores when the scores of the actions that are not
rejected are finite: `-Inf` while every action is rejected, the largest score after that. -/
theorem maxScore_spec {F : Type} [LinearOrderedField F] (sc : Int → Dbl F) (term : Int → Bool)
    (v : Int → F) (n : Nat)
    (hterm : ∀ a : Nat, a < n → term a = true → sc a = Dbl.negInf)
    (hv : ∀ a : Nat, a < n → term a = false → sc a = Dbl.fin (v a)) :
    ∀ k : Nat, k ≤ n →
      (maxScore sc k = Dbl.negInf ∧ ∀ a : Nat, a < k → term a = true) ∨
      (∃ m : Nat, m < k ∧ term m = false ∧ maxScore sc k = Dbl.fin (v m) ∧
        ∀ a : Nat, a < k → term a = false → v a ≤ v m) := by
  intro k
  induction k with
  | zero =>
    intro _
    exact Or.inl ⟨rfl, fun a ha => by omega⟩
  | succ k ih =>
    intro hk
    rw [maxScore]
    cases hT : term k
    · rw [hv k (by omega) hT]
      rcases ih (by omega) with ⟨e, hall⟩ | ⟨m, m1, mT, e, hmax⟩
      · rw [e]
        refine Or.inr ⟨k, by omega, hT, by simp [Dbl.lt], fun a ha haT => ?_⟩
        rcases Nat.lt_succ_iff_lt_or_eq.mp ha with h | h
        · rw [hall a h] at haT
          exact absurd haT (by decide)
        · rw [h]
      · rw [e]
        by_cases hlt : v m < v k
        · refine Or.inr ⟨k, by omega, hT, by simp [Dbl.lt, hlt], fun a ha haT => ?_⟩
          rcases Nat.lt_succ_iff_lt_or_eq.mp ha with h | h
          · exact le_trans (hmax a h haT) (le_of_lt hlt)
          · rw [h]
        · refine Or.inr ⟨m, by omega, mT, by simp [Dbl.lt, hlt], fun a ha haT => ?_⟩
          rcases Nat.lt_succ_iff_lt_or_eq.mp ha with h | h
          · exact hmax a h haT
          · rw [h]
            exact not_lt.mp hlt
    · rw [hterm k (by omega) hT, Dbl_lt_negInf]
      simp only [Bool.false_eq_true, if_false]
      rcases ih (by omega) with ⟨e, hall⟩ | ⟨m, m1, mT, e, hmax⟩
      · refine Or.inl ⟨e, fun a ha => ?_⟩
        rcases Nat.lt_succ_iff_lt_or_eq.mp ha with h | h
        · exact hall a h
        · rw [h]
          exact hT
      · refine Or.inr ⟨m, by omega, mT, e, fun a ha haT => ?_⟩
        rcases Nat.lt_succ_iff_lt_or_eq.mp ha with h | h
        · exact hmax a h haT
        · rw [h, hT] at haT
          exact absurd haT (by decide)

/-- The rounded sum of finite non-negative entries is non-negative or `+Inf`. -/
theorem roundedSum_nonneg {F : Type} [LinearOrderedField F] {rnd : F → Dbl F}
    (hR : Rounding rnd) (w : Int → Dbl F) (n : Nat)
    (hw : ∀ i : Nat, i < n → ∃ y, w i = Dbl.fin y ∧ 0 ≤ y) :
    ∀ k : Nat, k ≤ n →
      roundedSum rnd w k = Dbl.posInf ∨ ∃ σ, roundedSum rnd w k = Dbl.fin σ ∧ 0 ≤ σ := by
  intro k
  induction k with
  | zero =>
    intro _
    exact Or.inr ⟨0, rfl, le_refl 0⟩
  | succ k ih =>
    intro hk
    obtain ⟨y, hy, hy0⟩ := hw k (by omega)
    rw [roundedSum, hy]
    rcases ih (by omega) with e | ⟨σ, e, hσ⟩
    · rw [e]
      exact Or.inl rfl
    · rw [e]
      exact hR.nonneg (add_nonneg hσ hy0)

/-- The rounded sum of finite non-negative entries of which one is 1 is at least 1 or
`+Inf`. -/
theorem roundedSum_one_le {F : Type} [LinearOrderedField F] {rnd : F → Dbl F}
    (hR : Rounding rnd) (w : Int → Dbl F) (n m : Nat)
    (hw : ∀ i : Nat, i < n → ∃ y, w i = Dbl.fin y ∧ 0 ≤ y) (hm : w m = Dbl.fin 1) :
    ∀ k : Nat, m < k → k ≤ n →
      roundedSum rnd w k = Dbl.posInf ∨ ∃ σ, roundedSum rnd w k = Dbl.fin σ ∧ 1 ≤ σ := by
  intro k
  induction k with
  | zero =>
    intro h _
    omega
  | succ k ih =>
    intro hmk hk
    rw [roundedSum]
    rcases Nat.lt_succ_iff_lt_or_eq.mp hmk with h | h
    · obtain ⟨y, hy, hy0⟩ := hw k (by omega)
      rw [hy]
      rcases ih h (by omega) with e | ⟨σ, e, hσ⟩
      · rw [e]
        exact Or.inl rfl
      · rw [e]
        exact hR.one_le (by linarith)
    · rw [← h, hm]
      rcases roundedSum_nonneg hR w n hw m (by omega) with e | ⟨σ, e, hσ⟩
      · rw [e]
        exact Or.inl rfl
      · rw [e]
        exact hR.one_le (by linarith)

/-- The weights of the second loop when the scores of the actions that are not rejected are
finite and one of them exists: every weight is a finite value between 0 and 1, that of a
rejected action is 0, and that of an action of maximal score is 1. -/
theorem roundedWeight_spec {F : Type} [LinearOrderedField F] (rnd expD : F → Dbl F)
    (hR : Rounding rnd) (hE : ExpBounded expD) (s : StepData) (theta : Int → Dbl F)
    (tau : Dbl F) (v : Int → F)
    (hv : ∀ a, 0 ≤ a → a < s.actionCount → s.isActionTerminal a = false →
      roundedScore rnd s theta tau a = Dbl.fin (v a))
    (hsome : ∃ b, 0 ≤ b ∧ b < s.actionCount ∧ s.isActionTerminal b = false) :
    (∃ M, maxScore (storedScore rnd s theta tau) s.actionCount.toNat = Dbl.fin M) ∧
    (∀ i : Nat, i < s.actionCount.toNat →
      ∃ y, roundedWeight rnd expD s theta tau i = Dbl.fin y ∧ 0 ≤ y ∧ y ≤ 1 ∧
        (s.isActionTerminal i = true → y = 0)) ∧
    ∃ m : Nat, m < s.actionCount.toNat ∧ roundedWeight rnd expD s theta tau m = Dbl.fin 1 := by
  have hsc1 : ∀ a : Nat, a < s.actionCount.toNat → s.isActionTerminal a = true →
      storedScore rnd s theta tau a = Dbl.negInf := by
    intro a _ hT
    rw [storedScore, hT, if_pos rfl]
  have hsc2 : ∀ a : Nat, a < s.actionCount.toNat → s.isActionTerminal a = false →
      storedScore rnd s theta tau a = Dbl.fin (v a) := by
    intro a ha hT
    rw [storedScore, hT, if_neg (by decide), hv a (by omega) (by omega) hT]
  rcases maxScore_spec (storedScore rnd s theta tau) s.isActionTerminal v s.actionCount.toNat
    hsc1 hsc2 s.actionCount.toNat (le_refl _) with ⟨_, hall⟩ | ⟨m, m1, mT, e, hmax⟩
  · obtain ⟨b, b0, b1, bT⟩ := hsome
    have := hall b.toNat (by omega)
    rw [show ((b.toNat : Nat) : Int) = b by omega, bT] at this
    exact absurd this (by decide)
  · refine ⟨⟨v m, e⟩, fun i hi => ?_, m, m1, ?_⟩
    · unfold roundedWeight
      rw [e]
      cases hT : s.isActionTerminal i
      · rw [hsc2 i hi hT]
        have hle : v i - v m ≤ 0 := by linarith [hmax i hi hT]
        have hsub : Dbl.subRounded rnd (Dbl.fin (v i)) (Dbl.fin (v m)) = rnd (v i - v m) := by
          unfold Dbl.subRounded
          rw [Dbl_sub_fin]
          rfl
        rw [hsub]
        rcases hR.nonpos hle with h | ⟨d, hd, hd0⟩
        · rw [h]
          exact ⟨0, rfl, le_refl 0, zero_le_one, fun h => absurd h (by decide)⟩
        · rw [hd]
          obtain ⟨y, hy, hy0, hy1⟩ := hE.unit d hd0
          exact ⟨y, hy, hy0, hy1, fun h => absurd h (by decide)⟩
      · rw [hsc1 i hi hT]
        exact ⟨0, rfl, le_refl 0, zero_le_one, fun _ => rfl⟩
    · unfold roundedWeight
      rw [e, hsc2 m m1 mT]
      unfold Dbl.subRounded
      rw [Dbl_sub_fin, sub_self]
      show Dbl.expRounded expD (rnd 0) = Dbl.fin 1
      rw [hR.zero]
      exact hE.zero

/-- The probabilities of the rounded computation when the scores of the actions that are not
rejected are finite and one of them exists: every probability is a finite value between 0 and
1, and that of a rejected action is 0. -/
theorem roundedPolicy_spec {F : Type} [LinearOrderedField F] (rnd expD : F → Dbl F)
    (hR : Rounding rnd) (hE : ExpBounded expD) (self : NaturalActorCritic F) (s : StepData)
    (v : Int → F)
    (hv : ∀ a, 0 ≤ a → a < s.actionCount → s.isActionTerminal a = false →
      roundedScore rnd s self.theta self.tau a = Dbl.fin (v a))
    (hn : s.actionCount ≤ MAXACTIONS)
    (hsome : ∃ b, 0 ≤ b ∧ b < s.actionCount ∧ s.isActionTerminal b = false)
    (a : Int) (a0 : 0 ≤ a) (a1 : a < s.actionCount) :
    ∃ q, (self.computeActionProbabilitiesRounded rnd expD s).actionProbabilities a = Dbl.fin q ∧
      0 ≤ q ∧ q ≤ 1 ∧ (s.isActionTerminal a = true → q = 0) := by
  obtain ⟨⟨M, hM⟩, hw, m, m1, hm⟩ := roundedWeight_spec rnd expD hR hE s self.theta self.tau v
    hv hsome
  rw [computeActionProbabilitiesRounded_spec rnd expD self s (by omega) hn a a0 a1, hM,
    if_neg (by simp)]
  obtain ⟨y, hy, hy0, hy1, hyT⟩ := hw a.toNat (by omega)
  rw [show ((a.toNat : Nat) : Int) = a by omega] at hy hyT
  rw [hy]
  rcases roundedSum_one_le hR (roundedWeight rnd expD s self.theta self.tau)
    s.actionCount.toNat m (fun i hi => by
      obtain ⟨y, hy, hy0, -⟩ := hw i hi
      exact ⟨y, hy, hy0⟩) hm s.actionCount.toNat m1 (le_refl _) with e | ⟨σ, e, hσ⟩
  · rw [e]
    refine ⟨0, ?_, le_refl 0, zero_le_one, fun _ => rfl⟩
    show rnd 0 = Dbl.fin 0
    exact hR.zero
  · rw [e]
    have hσ0 : σ ≠ 0 := by
      intro h
      rw [h] at hσ
      linarith
    have hdiv : Dbl.divRounded rnd (Dbl.fin y) (Dbl.fin σ) = rnd (y / σ) := by
      unfold Dbl.divRounded
      rw [Dbl_div_fin _ _ hσ0]
      rfl
    rw [hdiv]
    have hσp : 0 < σ := by linarith
    obtain ⟨q, hq, hq0, hq1⟩ := hR.unit (div_nonneg hy0 (le_of_lt hσp))
      ((div_le_one hσp).mpr (by linarith))
    refine ⟨q, hq, hq0, hq1, fun hT => ?_⟩
    rw [hyT hT, zero_div, hR.zero] at hq
    exact (Dbl.fin.inj hq).symm

/-- When every action is rejected, the rounded computation stores the rounded
`1/actionCount` for every action. -/
theorem roundedPolicy_uniform {F : Type} [LinearOrderedField F] (rnd expD : F → Dbl F)
    (self : NaturalActorCritic F) (s : StepData) (hn : s.actionCount ≤ MAXACTIONS)
    (hall : ∀ b, 0 ≤ b → b < s.actionCount → s.isActionTerminal b = true)
    (a : Int) (a0 : 0 ≤ a) (a1 : a < s.actionCount) :
    (self.computeActionProbabilitiesRounded rnd expD s).actionProbabilities a =
      Dbl.divRounded rnd 1 (Dbl.ofInt s.actionCount) := by
  have hsc1 : ∀ b : Nat, b < s.actionCount.toNat → s.isActionTerminal b = true →
      storedScore rnd s self.theta self.tau b = Dbl.negInf := by
    intro b _ hT
    rw [storedScore, hT, if_pos rfl]
  have hsc2 : ∀ b : Nat, b < s.actionCount.toNat → s.isActionTerminal b = false →
      storedScore rnd s self.theta self.tau b = Dbl.fin ((fun _ => (0 : F)) (b : Int)) := by
    intro b hb hT
    rw [hall b (by omega) (by omega)] at hT
    exact absurd hT (by decide)
  rw [computeActionProbabilitiesRounded_spec rnd expD self s (by omega) hn a a0 a1]
  rcases maxScore_spec (storedScore rnd s self.theta self.tau) s.isActionTerminal
    (fun _ => (0 : F)) s.actionCount.toNat hsc1 hsc2 s.actionCount.toNat (le_refl _) with
    ⟨e, _⟩ | ⟨m, m1, mT, _, _⟩
  · rw [if_pos e]
  · rw [hall m (by omega) (by omega)] at mT
    exact absurd mT (by decide)

theorem Dbl_add_fin_zero {F : Type} [LinearOrderedField F] (x : Dbl F) :
    x + Dbl.fin 0 = x := by
  cases x with
  | fin y => rw [Dbl_add_fin, add_zero]
  | posInf => rfl
  | negInf => rfl
  | nan => rfl

theorem Rounding.rounded_idem {F : Type} [LinearOrderedField F] {rnd : F → Dbl F}
    (hR : Rounding rnd) (z : Dbl F) : Dbl.rounded rnd (Dbl.rounded rnd z) = Dbl.rounded rnd z := by
  cases z with
  | fin x =>
    show Dbl.rounded rnd (rnd x) = rnd x
    cases h : rnd x with
    | fin y => exact hR.idem x y h
    | posInf => rfl
    | negInf => rfl
    | nan => rfl
  | posInf => rfl
  | negInf => rfl
  | nan => rfl

/-- A rounded sum is not changed by a rounding. -/
theorem roundedSum_fixed {F : Type} [LinearOrderedField F] {rnd : F → Dbl F}
    (hR : Rounding rnd) (p : Int → Dbl F) (k : Nat) :
    Dbl.rounded rnd (roundedSum rnd p k) = roundedSum rnd p k := by
  cases k with
  | zero => exact hR.zero
  | succ k =>
    rw [roundedSum]
    exact hR.rounded_idem _

/-- Adding a probability that is 0 does not change the rounded running sum. -/
theorem roundedSum_succ_zero {F : Type} [LinearOrderedField F] {rnd : F → Dbl F}
    (hR : Rounding rnd) (p : Int → Dbl F) (k : Nat) (h : p k = Dbl.fin 0) :
    roundedSum rnd p (k + 1) = roundedSum rnd p k := by
  rw [roundedSum, h]
  unfold Dbl.addRounded
  rw [Dbl_add_fin_zero, roundedSum_fixed hR]

/-- The loop of `drawAction` with rounded additions, started at index `a` with the rounded
sum of the first `a` probabilities, stops at the first index from `a` on whose running sum
exceeds the draw, or at the bound. -/
theorem drawLoopRounded_spec {F : Type} [LinearOrderedField F] (rnd : F → Dbl F)
    (p : Int → Dbl F) (r : Dbl F) (n : Nat) :
    ∀ a : Nat, ∃ j : Nat, drawLoopRounded rnd p r n (a : Int) (roundedSum rnd p a) = (j : Int) ∧
      a ≤ j ∧ j ≤ a + n ∧
      (∀ i : Nat, a ≤ i → i < j → Dbl.lt r (roundedSum rnd p (i + 1)) = false) ∧
      (j < a + n → Dbl.lt r (roundedSum rnd p (j + 1)) = true) := by
  induction n with
  | zero =>
    intro a
    exact ⟨a, rfl, le_refl _, le_refl _, fun i h1 h2 => by omega, fun h => by omega⟩
  | succ n ih =>
    intro a
    cases hlt : Dbl.lt r (roundedSum rnd p (a + 1))
    · obtain ⟨j, e, j0, j1, hf, ht⟩ := ih (a + 1)
      refine ⟨j, ?_, by omega, by omega, ?_, fun h => ht (by omega)⟩
      · rw [drawLoopRounded]
        have hlt2 : Dbl.lt r (Dbl.addRounded rnd (roundedSum rnd p a) (p a)) = false := hlt
        rw [hlt2]
        simp only [Bool.false_eq_true, if_false]
        have e2 : ((a : Int) + 1) = ((a + 1 : Nat) : Int) := by push_cast; rfl
        rw [e2]
        exact e
      · intro i i0 i1
        by_cases hi : i = a
        · rw [hi]; exact hlt
        · exact hf i (by omega) i1
    · refine ⟨a, ?_, le_refl _, by omega, fun i h1 h2 => by omega, fun _ => hlt⟩
      rw [drawLoopRounded]
      have hlt2 : Dbl.lt r (Dbl.addRounded rnd (roundedSum rnd p a) (p a)) = true := hlt
      rw [hlt2]
      simp

/-- The result of `drawAction` with rounded additions for at least one action. -/
theorem drawActionRounded_spec {F : Type} [LinearOrderedField F] (rnd : F → Dbl F)
    (self : NaturalActorCritic F) (s : StepData) (r : Dbl F) (hc : 1 ≤ s.actionCount) :
    ∃ j : Nat, self.drawActionRounded rnd s r = (j : Int) ∧ (j : Int) < s.actionCount ∧
      (∀ i : Nat, i < j →
        Dbl.lt r (roundedSum rnd self.actionProbabilities (i + 1)) = false) ∧
      (Dbl.lt r (roundedSum rnd self.actionProbabilities (j + 1)) = true ∨
        ((j : Int) = s.actionCount - 1 ∧
          ∀ i : Nat, (i : Int) < s.actionCount →
            Dbl.lt r (roundedSum rnd self.actionProbabilities (i + 1)) = false)) := by
  obtain ⟨j, e, j0, j1, hf, ht⟩ :=
    drawLoopRounded_spec rnd self.actionProbabilities r s.actionCount.toNat 0
  have e0 : drawLoopRounded rnd self.actionProbabilities r s.actionCount.toNat 0 0 = (j : Int) :=
    e
  have hn : ((s.actionCount.toNat : Nat) : Int) = s.actionCount := by omega
  unfold NaturalActorCritic.drawActionRounded
  simp only [e0]
  by_cases hj : (j : Int) = s.actionCount
  · rw [if_pos hj]
    have hj1 : 1 ≤ j := by omega
    refine ⟨j - 1, by omega, by omega, fun i hi => hf i (by omega) (by omega),
      Or.inr ⟨by omega, fun i hi => hf i (by omega) (by omega)⟩⟩
  · rw [if_neg hj]
    refine ⟨j, rfl, by omega, fun i hi => hf i (by omega) hi, Or.inl (ht (by omega))⟩

/-- The action that `drawAction` returns with rounded additions for a draw that is not
negative: an action whose stored probability is not 0, or the last action when no running sum
exceeds the draw. -/
theorem drawActionRounded_support {F : Type} [LinearOrderedField F] {rnd : F → Dbl F}
    (hR : Rounding rnd) (self : NaturalActorCritic F) (s : StepData) (ρ : F) (hρ : 0 ≤ ρ)
    (hc : 1 ≤ s.actionCount) :
    0 ≤ self.drawActionRounded rnd s (Dbl.fin ρ) ∧
    self.drawActionRounded rnd s (Dbl.fin ρ) < s.actionCount ∧
    (self.actionProbabilities (self.drawActionRounded rnd s (Dbl.fin ρ)) ≠ Dbl.fin 0 ∨
      (self.drawActionRounded rnd s (Dbl.fin ρ) = s.actionCount - 1 ∧
        ∀ i : Nat, (i : Int) < s.actionCount →
          Dbl.lt (Dbl.fin ρ) (roundedSum rnd self.actionProbabilities (i + 1)) = false)) := by
  obtain ⟨j, e, j1, hf, ht⟩ := drawActionRounded_spec rnd self s (Dbl.fin ρ) hc
  rw [e]
  refine ⟨by omega, j1, ?_⟩
  rcases ht with ht | ht
  · refine Or.inl (fun hp => ?_)
    rw [roundedSum_succ_zero hR self.actionProbabilities j hp] at ht
    cases j with
    | zero =>
      have : Dbl.lt (Dbl.fin ρ) (roundedSum rnd self.actionProbabilities 0) = false := by
        show decide (ρ < 0) = false
        exact decide_eq_false (not_lt.mpr hρ)
      rw [this] at ht
      exact absurd ht (by decide)
    | succ j =>
      rw [hf j (by omega)] at ht
      exact absurd ht (by decide)
  · exact Or.inr ht

theorem Dbl_rounded_exact {F : Type} [LinearOrderedField F] (x : Dbl F) :
    Dbl.rounded Dbl.fin x = x := by
  cases x <;> rfl

theorem Dbl_expRounded_exact {F : Type} [LinearOrderedField F] (exp : F → F) (x : Dbl F) :
    Dbl.expRounded (fun y => Dbl.fin (exp y)) x = Dbl.exp exp x := by
  cases x <;> rfl

theorem drawLoopRounded_exact {F : Type} [LinearOrderedField F] (p : Int → Dbl F) (r : Dbl F)
    (n : Nat) : ∀ (a : Int) (sum : Dbl F),
      drawLoopRounded Dbl.fin p r n a sum = drawLoop p r n a sum := by
  induction n with
  | zero => intro a sum; rfl
  | succ n ih =>
    intro a sum
    rw [drawLoopRounded, drawLoop, ih]
    simp only [Dbl.addRounded, Dbl_rounded_exact]

/-- With the exact arithmetic for rounding, the rounded `computeActionProbabilities` is the
exact one. -/
theorem computeActionProbabilitiesRounded_exact {F : Type} [LinearOrderedField F] (exp : F → F)
    (self : NaturalActorCritic F) (s : StepData) :
    self.computeActionProbabilitiesRounded Dbl.fin (fun y => Dbl.fin (exp y)) s =
      self.computeActionProbabilities exp s := by
  have h1 : scoresBodyRounded Dbl.fin s self.theta self.tau = scoresBody s self.theta self.tau := by
    funext action st
    simp only [scoresBodyRounded, scoresBody, Dbl.addRounded, Dbl.divRounded, Dbl.mulRounded,
      Dbl_rounded_exact]
  have h2 : ∀ m : Dbl F, weightsBodyRounded Dbl.fin (fun y => Dbl.fin (exp y)) m =
      weightsBody exp m := by
    intro m
    funext action st
    simp only [weightsBodyRounded, weightsBody, Dbl.addRounded, Dbl.subRounded,
      Dbl_rounded_exact, Dbl_expRounded_exact]
  unfold NaturalActorCritic.computeActionProbabilitiesRounded
    NaturalActorCritic.computeActionProbabilities
  simp only [h1, h2, Dbl.divRounded, Dbl_rounded_exact]

/-- With the exact arithmetic for rounding, the rounded `drawAction` is the exact one. -/
theorem drawActionRounded_exact {F : Type} [LinearOrderedField F] (self : NaturalActorCritic F)
    (s : StepData) (r : Dbl F) : self.drawActionRounded Dbl.fin s r = self.drawAction s r := by
  unfold NaturalActorCritic.drawActionRounded NaturalActorCritic.drawAction
  rw [drawLoopRounded_exact]

/-- With the exact arithmetic for rounding, the rounded `act` is the exact one. -/
theorem actRounded_exact {F : Type} [LinearOrderedField F] (exp : F → F)
    (self : NaturalActorCritic F) (s : StepData) (r : Dbl F) :
    self.actRounded Dbl.fin (fun y => Dbl.fin (exp y)) s r = self.act exp s r := by
  unfold NaturalActorCritic.actRounded NaturalActorCritic.act
  simp only [computeActionProbabilitiesRounded_exact, drawActionRounded_exact]

theorem sampleExpRounded_bounded : ExpBounded sampleExpRounded where
  zero := by
    unfold sampleExpRounded
    rw [sampleExp_zero]
    exact round64_one
  unit := by
    intro x hx
    unfold sampleExpRounded
    refine round64_rounding.unit (sampleExp_nonneg x) ?_
    unfold sampleExp
    by_cases h : 0 ≤ x
    · rw [if_pos h]
      linarith
    · rw [if_neg h, div_le_one (by linarith)]
      linarith

theorem sampleStepData_scores (a : Int) (a0 : 0 ≤ a) (a1 : a < sampleStepData.actionCount)
    (_ : sampleStepData.isActionTerminal a = false) :
    roundedScore round64 sampleStepData sampleAgent.theta sampleAgent.tau a =
      Dbl.fin ((a : ℚ) / 4 + 1 / 2) := by
  have h3 : a < 3 := a1
  interval_cases a <;> decide!

theorem tieStepData_scores (a : Int) (a0 : 0 ≤ a) (a1 : a < tieStepData.actionCount)
    (_ : tieStepData.isActionTerminal a = false) :
    roundedScore round64 tieStepData zeroAgent.theta zeroAgent.tau a =
      Dbl.fin ((fun _ : Int => (0 : ℚ)) a) := by
  have h3 : a < 9 := a1
  interval_cases a <;> decide!

/-- The probabilities stored for the nine actions of `tieStepData` with `theta = 0` and the
rounding of binary64: the `double` nearest to `1/6` for the six actions that are not rejected
and 0 for the rejected ones. -/
theorem tieStepData_probabilities (a : Int) (a0 : 0 ≤ a) (a1 : a < 9) :
    (zeroAgent.computeActionProbabilitiesRounded round64 sampleExpRounded
      tieStepData).actionProbabilities a =
      Dbl.fin (if a < 6 then 6004799503160661 / 36028797018963968 else 0) := by
  interval_cases a <;> decide!

/-- The probability of the specification for an action of `tieStepData` that is not rejected,
with `theta = 0`: one sixth. -/
theorem tieStepData_softmax (e : ℚ → ℚ) (he : ∀ x, 0 < e x) :
    softmaxProbability e tieStepData (fun _ => 0) 1 0 = 1 / 6 := by
  have hscore : ∀ a : Int, score tieStepData (fun _ => (0 : ℚ)) 1 a = 0 := by
    intro a
    simp [score]
  have hcard : ((Finset.range tieStepData.actionCount.toNat).filter
      (fun b : Nat => tieStepData.isActionTerminal (b : Int) = false)).card = 6 := by
    decide
  rw [softmaxProbability, if_neg (by decide)]
  simp only [hscore]
  rw [Finset.sum_const, hcard]
  have h0 : e 0 ≠ 0 := ne_of_gt (he 0)
  field_simp
  ring

/-! # The claims -/

/-- C1 (heightmap invariant). In every state reached from `newEpisode` by `step` calls with a
legal action index taken in non-terminal states, whatever pieces are drawn: for every column,
`boardHeightmap[col]` lies in `0..ROWS`, the cell at that row is filled when the entry is below
`ROWS`, and every cell above it is empty, so the entry is the smallest filled row of the column,
or `ROWS` for a column without filled cell; and `boardHeightmapMin` is the minimum of the
heightmap over the columns (a lower bound that one column attains). -/
theorem C1_heightmap_invariant (s : Tetris) (h : Reachable s) :
    (∀ col, 0 ≤ col → col < COLUMNS →
      0 ≤ s.boardHeightmap col ∧ s.boardHeightmap col ≤ ROWS ∧
      (s.boardHeightmap col < ROWS → s.board (s.boardHeightmap col) col = true) ∧
      (∀ r, 0 ≤ r → r < s.boardHeightmap col → s.board r col = false)) ∧
    (∀ col, 0 ≤ col → col < COLUMNS → s.boardHeightmapMin ≤ s.boardHeightmap col) ∧
    (∃ col, 0 ≤ col ∧ col < COLUMNS ∧ s.boardHeightmap col = s.boardHeightmapMin) := by
  obtain ⟨hI, _⟩ := reachable_inv s h
  exact ⟨fun col h0 h1 => ⟨hI.hm_nonneg col h0 h1, hI.hm_le col h0 h1, hI.hm_filled col h0 h1,
    hI.hm_above col h0 h1⟩, hI.min_le, hI.min_attained⟩

/-- Witness of C1: the state after the square is dropped at the left edge of a fresh board. -/
theorem C1_heightmap_invariant_witness :
    Reachable squareDropped ∧
    ((∀ col, 0 ≤ col → col < COLUMNS →
      0 ≤ squareDropped.boardHeightmap col ∧ squareDropped.boardHeightmap col ≤ ROWS ∧
      (squareDropped.boardHeightmap col < ROWS → squareDropped.board (squareDropped.boardHeightmap col) col = true) ∧
      (∀ r, 0 ≤ r → r < squareDropped.boardHeightmap col → squareDropped.board r col = false)) ∧
    (∀ col, 0 ≤ col → col < COLUMNS → squareDropped.boardHeightmapMin ≤ squareDropped.boardHeightmap col) ∧
    (∃ col, 0 ≤ col ∧ col < COLUMNS ∧ squareDropped.boardHeightmap col = squareDropped.boardHeightmapMin)) :=
  ⟨squareDropped_reachable, C1_heightmap_invariant squareDropped squareDropped_reachable⟩

/-- C2 (line clear). In a reachable non-terminal state, for a legal action whose landing row is
not negative, let `P = placedBoard s a` be the board with the cells of the piece added at the
landing position and `k` the number of full rows of `P`. Then `dropPiece` and `step` return `k`,
`step` leaves the board that `dropPiece` leaves, and the rows of that board are `k` empty rows
followed by the rows of `P` that are not full, in their order; when no row of `P` is full the
result is `0` and the board is `P`. -/
theorem C2_line_clear (s : Tetris) (a draw : Int) (h : Reachable s)
    (hterm : s.terminalState = false) (ha0 : 0 ≤ a) (ha1 : a < s.stepData.actionCount)
    (hrow : 0 ≤ landingRow s a) :
    (s.dropPiece a).2 = (((boardRows (placedBoard s a)).filter isFullRow).length : Int) ∧
    (s.step a draw).2 = (s.dropPiece a).2 ∧
    (s.step a draw).1.board = (s.dropPiece a).1.board ∧
    boardRows (s.dropPiece a).1.board =
      List.replicate ((boardRows (placedBoard s a)).filter isFullRow).length emptyRow ++
        (boardRows (placedBoard s a)).filter (fun x => !isFullRow x) ∧
    (((boardRows (placedBoard s a)).filter isFullRow).length = 0 →
      (s.dropPiece a).2 = 0 ∧ (s.dropPiece a).1.board = placedBoard s a) := by
  obtain ⟨hI, hp0, hp1, _⟩ := reachable_inv s h
  rw [reachable_actionCount s h hterm] at ha1
  obtain ⟨d1, d2, d3, _⟩ := dropPiece_lands s a hI hp0 hp1 ha0 ha1 hrow
  obtain ⟨t1, _, _, _, _, _, _, _, t9, _⟩ := step_spec s a draw
  refine ⟨d1, t9, t1, ?_, fun hz => ?_⟩
  · rw [d2, d1]
    rfl
  · have : (s.dropPiece a).2 = 0 := by rw [d1, hz]; rfl
    exact ⟨this, d3 this⟩

/-- Witness of C2: the square dropped in columns 8-9 completes the bottom row. -/
theorem C2_line_clear_witness :
    Reachable lineReady ∧ lineReady.terminalState = false ∧ (0 : Int) ≤ 8 ∧
    (8 : Int) < lineReady.stepData.actionCount ∧ 0 ≤ landingRow lineReady 8 ∧
    ((lineReady.dropPiece 8).2 = (((boardRows (placedBoard lineReady 8)).filter isFullRow).length : Int) ∧
    (lineReady.step 8 1).2 = (lineReady.dropPiece 8).2 ∧
    (lineReady.step 8 1).1.board = (lineReady.dropPiece 8).1.board ∧
    boardRows (lineReady.dropPiece 8).1.board =
      List.replicate ((boardRows (placedBoard lineReady 8)).filter isFullRow).length emptyRow ++
        (boardRows (placedBoard lineReady 8)).filter (fun x => !isFullRow x) ∧
    (((boardRows (placedBoard lineReady 8)).filter isFullRow).length = 0 →
      (lineReady.dropPiece 8).2 = 0 ∧ (lineReady.dropPiece 8).1.board = placedBoard lineReady 8)) :=
  ⟨lineReady_reachable, by decide!, by decide, by decide!, by decide!,
    C2_line_clear lineReady 8 1 lineReady_reachable (by decide!) (by decide) (by decide!)
      (by decide!)⟩

/-- C3 (overflow). In a reachable non-terminal state and for a legal action, the landing row is
the minimum over the columns of the piece of `boardHeightmap[column+c] - pieceHeightmaps[c]`;
the drop (and so the step) sets the terminal flag exactly when that row is negative; in that
case the board, the heightmap and its minimum are left as they were, the returned reward is `0`
and `totalClearedRows` is unchanged; and when the landing row is not negative the terminal flag
stays false. -/
theorem C3_overflow (s : Tetris) (a draw : Int) (h : Reachable s)
    (hterm : s.terminalState = false) (ha0 : 0 ≤ a) (ha1 : a < s.stepData.actionCount) :
    (∀ c, 0 ≤ c → c < pieceWidths s.fallingPiece (expandAction s.fallingPiece a).1 →
      landingRow s a ≤ s.boardHeightmap ((expandAction s.fallingPiece a).2 + c)
        - pieceHeightmaps s.fallingPiece (expandAction s.fallingPiece a).1 c) ∧
    (∃ c, 0 ≤ c ∧ c < pieceWidths s.fallingPiece (expandAction s.fallingPiece a).1 ∧
      landingRow s a = s.boardHeightmap ((expandAction s.fallingPiece a).2 + c)
        - pieceHeightmaps s.fallingPiece (expandAction s.fallingPiece a).1 c) ∧
    ((s.dropPiece a).1.terminalState = true ↔ landingRow s a < 0) ∧
    ((s.step a draw).1.terminalState = true ↔ landingRow s a < 0) ∧
    (landingRow s a < 0 →
      (s.dropPiece a).1.board = s.board ∧
      (s.dropPiece a).1.boardHeightmap = s.boardHeightmap ∧
      (s.dropPiece a).1.boardHeightmapMin = s.boardHeightmapMin ∧
      (s.dropPiece a).2 = 0 ∧
      (s.step a draw).1.board = s.board ∧
      (s.step a draw).1.boardHeightmap = s.boardHeightmap ∧
      (s.step a draw).1.boardHeightmapMin = s.boardHeightmapMin ∧
      (s.step a draw).2 = 0 ∧
      (s.step a draw).1.totalClearedRows = s.totalClearedRows) ∧
    (0 ≤ landingRow s a →
      (s.dropPiece a).1.terminalState = false ∧ (s.step a draw).1.terminalState = false) := by
  obtain ⟨hI, hp0, hp1, _⟩ := reachable_inv s h
  rw [reachable_actionCount s h hterm] at ha1
  obtain ⟨v1, v2, v3, v4⟩ := expandAction_valid s.fallingPiece a hp0 hp1 ha0 ha1
  have sh := expandAction_shape s.fallingPiece a hp0 hp1 ha0 ha1
  obtain ⟨r1, r2, _⟩ := findRow_landing s.boardHeightmap s.fallingPiece _ _ sh hI.hm_le v3 v4
  obtain ⟨t1, t2, t3, t4, _, _, t7, _, t9, _⟩ := step_spec s a draw
  have hT : (s.dropPiece a).1.terminalState = true ↔ landingRow s a < 0 := by
    rw [dropPiece_terminal, hterm]
    simp
  refine ⟨r1, r2, hT, by rw [t4]; exact hT, fun hneg => ?_, fun hpos => ?_⟩
  · rw [t1, t2, t3, t7, t9, dropPiece_overflow s a hneg]
    exact ⟨rfl, rfl, rfl, rfl, rfl, rfl, rfl, rfl, by simp⟩
  · have : (s.dropPiece a).1.terminalState = false := by
      cases hx : (s.dropPiece a).1.terminalState
      · rfl
      · have := hT.mp hx; omega
    exact ⟨this, by rw [t4]; exact this⟩

/-- Witness of C3: a sixth upright bar dropped on the full column 0 overflows. -/
theorem C3_overflow_witness :
    Reachable towerBuilt ∧ towerBuilt.terminalState = false ∧ (0 : Int) ≤ 7 ∧
    (7 : Int) < towerBuilt.stepData.actionCount ∧
    ((∀ c, 0 ≤ c → c < pieceWidths towerBuilt.fallingPiece (expandAction towerBuilt.fallingPiece 7).1 →
      landingRow towerBuilt 7 ≤ towerBuilt.boardHeightmap ((expandAction towerBuilt.fallingPiece 7).2 + c)
        - pieceHeightmaps towerBuilt.fallingPiece (expandAction towerBuilt.fallingPiece 7).1 c) ∧
    (∃ c, 0 ≤ c ∧ c < pieceWidths towerBuilt.fallingPiece (expandAction towerBuilt.fallingPiece 7).1 ∧
      landingRow towerBuilt 7 = towerBuilt.boardHeightmap ((expandAction towerBuilt.fallingPiece 7).2 + c)
        - pieceHeightmaps towerBuilt.fallingPiece (expandAction towerBuilt.fallingPiece 7).1 c) ∧
    ((towerBuilt.dropPiece 7).1.terminalState = true ↔ landingRow towerBuilt 7 < 0) ∧
    ((towerBuilt.step 7 0).1.terminalState = true ↔ landingRow towerBuilt 7 < 0) ∧
    (landingRow towerBuilt 7 < 0 →
      (towerBuilt.dropPiece 7).1.board = towerBuilt.board ∧
      (towerBuilt.dropPiece 7).1.boardHeightmap = towerBuilt.boardHeightmap ∧
      (towerBuilt.dropPiece 7).1.boardHeightmapMin = towerBuilt.boardHeightmapMin ∧
      (towerBuilt.dropPiece 7).2 = 0 ∧
      (towerBuilt.step 7 0).1.board = towerBuilt.board ∧
      (towerBuilt.step 7 0).1.boardHeightmap = towerBuilt.boardHeightmap ∧
      (towerBuilt.step 7 0).1.boardHeightmapMin = towerBuilt.boardHeightmapMin ∧
      (towerBuilt.step 7 0).2 = 0 ∧
      (towerBuilt.step 7 0).1.totalClearedRows = towerBuilt.totalClearedRows) ∧
    (0 ≤ landingRow towerBuilt 7 →
      (towerBuilt.dropPiece 7).1.terminalState = false ∧ (towerBuilt.step 7 0).1.terminalState = false)) :=
  ⟨towerBuilt_reachable, by decide!, by decide, by decide!,
    C3_overflow towerBuilt 7 0 towerBuilt_reachable (by decide!) (by decide) (by decide!)⟩

/-- C4 (snapshot and restore). For every non-terminal state, whatever its board, heightmap,
minimum and falling piece, `computeActions` leaves `board`, `boardHeightmap`,
`boardHeightmapMin`, `terminalState`, `fallingPiece`, `clearedRows`, `totalClearedRows` and the
episode counter as they were, and of the step data it leaves `transitionReward` and
`observation` as they were: only `actions`, `isActionTerminal` and `actionCount` are written. -/
theorem C4_computeActions_frame (s : Tetris) (hterm : s.terminalState = false) :
    s.computeActions.board = s.board ∧
    s.computeActions.boardHeightmap = s.boardHeightmap ∧
    s.computeActions.boardHeightmapMin = s.boardHeightmapMin ∧
    s.computeActions.terminalState = false ∧
    s.computeActions.fallingPiece = s.fallingPiece ∧
    s.computeActions.clearedRows = s.clearedRows ∧
    s.computeActions.totalClearedRows = s.totalClearedRows ∧
    s.computeActions.episode = s.episode ∧
    s.computeActions.stepData.transitionReward = s.stepData.transitionReward ∧
    s.computeActions.stepData.observation = s.stepData.observation := by
  obtain ⟨l1, l2, l3, l4, l5, l6, l7, l8, l9, l10, _⟩ := computeActions_spec s
  exact ⟨l1, l2, l3, by rw [l4, hterm], l5, l8, l7, l6, l9, l10⟩

/-- Witness of C4: a state in which every trial drop overflows. -/
theorem C4_computeActions_frame_witness :
    highStack.terminalState = false ∧
    (highStack.computeActions.board = highStack.board ∧
    highStack.computeActions.boardHeightmap = highStack.boardHeightmap ∧
    highStack.computeActions.boardHeightmapMin = highStack.boardHeightmapMin ∧
    highStack.computeActions.terminalState = false ∧
    highStack.computeActions.fallingPiece = highStack.fallingPiece ∧
    highStack.computeActions.clearedRows = highStack.clearedRows ∧
    highStack.computeActions.totalClearedRows = highStack.totalClearedRows ∧
    highStack.computeActions.episode = highStack.episode ∧
    highStack.computeActions.stepData.transitionReward = highStack.stepData.transitionReward ∧
    highStack.computeActions.stepData.observation = highStack.stepData.observation) :=
  ⟨rfl, C4_computeActions_frame highStack rfl⟩

/-- C5 (look-ahead agrees with the real step). In a reachable non-terminal state and for an
action index below `stepData.actionCount`: the stored terminal flag of the action is the
terminal flag after `step`; the stored immediate-reward feature (index `STATEDIM`) is the reward
`step` returns; and when the step does not end the episode, the first `STATEDIM` entries of the
stored action row are the observation recomputed after the step, whatever piece is drawn. -/
theorem C5_lookahead (s : Tetris) (a draw : Int) (h : Reachable s)
    (hterm : s.terminalState = false) (ha0 : 0 ≤ a) (ha1 : a < s.stepData.actionCount) :
    s.stepData.isActionTerminal a = (s.step a draw).1.terminalState ∧
    s.stepData.actions a STATEDIM = (s.step a draw).2 ∧
    ((s.step a draw).1.terminalState = false → ∀ i, 0 ≤ i → i < STATEDIM →
      s.stepData.actions a i = (s.step a draw).1.stepData.observation i) := by
  obtain ⟨hI, hp0, hp1, hOK⟩ := reachable_inv s h
  rw [reachable_actionCount s h hterm] at ha1
  obtain ⟨_, _, _, t4, _, _, _, _, t9, t10, _⟩ := step_spec s a draw
  obtain ⟨old, ho⟩ := hOK.actions hterm a ha0 ha1
  have hS : STATEDIM = 22 := rfl
  have hC : COLUMNS = 10 := rfl
  refine ⟨by rw [hOK.terminal hterm a ha0 ha1, t4], ?_, fun hnt i hi0 hi1 => ?_⟩
  · rw [ho, t9]
    simp [actionRow]
  · rw [t4] at hnt
    have hi : i ≠ 2 * COLUMNS - 1 + 3 := by omega
    rw [ho, t10]
    simp only [actionRow, hnt, Bool.false_eq_true, if_false, set1_apply, hi]
    rw [computeObservation_nonterminal _ _ hnt, computeObservation_nonterminal _ _ hnt]
    have c1 : ¬ (¬ (i = 21) ∧ ¬ (i = 20) ∧ ¬ (i = 19) ∧ ¬ (0 ≤ i ∧ i < COLUMNS) ∧
        ¬ (COLUMNS ≤ i ∧ i < 2 * COLUMNS - 1)) := by omega
    split_ifs <;> first | rfl | (exfalso; omega)

/-- Witness of C5: the square dropped in columns 8-9 of the board with two flat bars. -/
theorem C5_lookahead_witness :
    Reachable lineReady ∧ lineReady.terminalState = false ∧ (0 : Int) ≤ 8 ∧
    (8 : Int) < lineReady.stepData.actionCount ∧
    (lineReady.stepData.isActionTerminal 8 = (lineReady.step 8 1).1.terminalState ∧
    lineReady.stepData.actions 8 STATEDIM = (lineReady.step 8 1).2 ∧
    ((lineReady.step 8 1).1.terminalState = false → ∀ i, 0 ≤ i → i < STATEDIM →
      lineReady.stepData.actions 8 i = (lineReady.step 8 1).1.stepData.observation i)) :=
  ⟨lineReady_reachable, by decide!, by decide, by decide!,
    C5_lookahead lineReady 8 1 lineReady_reachable (by decide!) (by decide) (by decide!)⟩

/-- C6 (action decoding is a bijection). For every piece `p` in `0..6`, the expanding loop of
`dropPiece` sends every action index `0 <= a < pieceActionCounts[p]` to a pair
`(orientation, column)` with a valid orientation and `0 <= column <= COLUMNS - width`, and `a`
is the sum of `COLUMNS - width + 1` over the earlier orientations plus the column; every such
pair is the image of the index computed that way, which lies below `pieceActionCounts[p]`; so
the map is one-to-one and onto, in orientation-major then column order, and
`pieceActionCounts[p]` is the number of pairs. -/
theorem C6_action_decoding (p : Int) (hp0 : 0 ≤ p) (hp1 : p < 7) :
    (∀ a, 0 ≤ a → a < pieceActionCounts p →
      0 ≤ (expandAction p a).1 ∧ (expandAction p a).1 < pieceOrientationCounts p ∧
      0 ≤ (expandAction p a).2 ∧
      (expandAction p a).2 ≤ COLUMNS - pieceWidths p (expandAction p a).1 ∧
      a = orientationOffset p (expandAction p a).1.toNat + (expandAction p a).2) ∧
    (∀ o c, 0 ≤ o → o < pieceOrientationCounts p → 0 ≤ c → c ≤ COLUMNS - pieceWidths p o →
      0 ≤ orientationOffset p o.toNat + c ∧
      orientationOffset p o.toNat + c < pieceActionCounts p ∧
      expandAction p (orientationOffset p o.toNat + c) = (o, c)) ∧
    (∀ a b, 0 ≤ a → a < pieceActionCounts p → 0 ≤ b → b < pieceActionCounts p →
      expandAction p a = expandAction p b → a = b) ∧
    pieceActionCounts p = orientationOffset p (pieceOrientationCounts p).toNat := by
  obtain ⟨pn, rfl⟩ := nat_of_range p hp0
  have hpn : pn < 7 := by omega
  have hcnt := (catalog_actionCounts pn hpn).2
  have hdec : ∀ a, 0 ≤ a → a < pieceActionCounts pn →
      a = orientationOffset pn (expandAction pn a).1.toNat + (expandAction pn a).2 := by
    intro a ha0 ha1
    obtain ⟨an, rfl⟩ := nat_of_range a ha0
    exact catalog_decode pn hpn an (by omega) ha1
  refine ⟨fun a ha0 ha1 => ?_, fun o c ho0 ho1 hc0 hc1 => ?_, fun a b ha0 ha1 hb0 hb1 e => ?_,
    catalog_count pn hpn⟩
  · obtain ⟨v1, v2, v3, v4⟩ := expandAction_valid pn a hp0 hp1 ha0 ha1
    exact ⟨v1, v2, v3, v4, hdec a ha0 ha1⟩
  · obtain ⟨k, rfl⟩ := nat_of_range o ho0
    obtain ⟨l, rfl⟩ := nat_of_range c hc0
    have hk : k < 4 := by have := (catalog_orientations pn hpn).2; omega
    have hw := (shapeOK_of_valid pn k hp0 hp1 ho0 ho1).width_pos
    have hC : COLUMNS = 10 := rfl
    obtain ⟨e1, e2⟩ := catalog_encode pn hpn k hk ho1 l (by omega) hc1
    have e3 : ((k : Nat) : Int).toNat = k := by omega
    rw [e3]
    exact ⟨by have := orientationOffset_nonneg pn hp0 hp1 k ho1; omega, e1, e2⟩
  · rw [hdec a ha0 ha1, hdec b hb0 hb1, e]

/-- Witness of C6: the T piece (piece 1). -/
theorem C6_action_decoding_witness :
    (0 : Int) ≤ 1 ∧ (1 : Int) < 7 ∧
    ((∀ a, 0 ≤ a → a < pieceActionCounts 1 →
      0 ≤ (expandAction 1 a).1 ∧ (expandAction 1 a).1 < pieceOrientationCounts 1 ∧
      0 ≤ (expandAction 1 a).2 ∧
      (expandAction 1 a).2 ≤ COLUMNS - pieceWidths 1 (expandAction 1 a).1 ∧
      a = orientationOffset 1 (expandAction 1 a).1.toNat + (expandAction 1 a).2) ∧
    (∀ o c, 0 ≤ o → o < pieceOrientationCounts 1 → 0 ≤ c → c ≤ COLUMNS - pieceWidths 1 o →
      0 ≤ orientationOffset 1 o.toNat + c ∧
      orientationOffset 1 o.toNat + c < pieceActionCounts 1 ∧
      expandAction 1 (orientationOffset 1 o.toNat + c) = (o, c)) ∧
    (∀ a b, 0 ≤ a → a < pieceActionCounts 1 → 0 ≤ b → b < pieceActionCounts 1 →
      expandAction 1 a = expandAction 1 b → a = b) ∧
    pieceActionCounts 1 = orientationOffset 1 (pieceOrientationCounts 1).toNat) :=
  ⟨by decide, by decide, C6_action_decoding 1 (by decide) (by decide)⟩

/-- C7 (observation of a non-terminal state). In a reachable non-terminal state,
`computeObservation` writes, whatever the array held before: the height `ROWS - heightmap[col]`
at index `col`, a value in `0..ROWS`; the absolute difference of the heights of columns `col`
and `col-1` at index `COLUMNS + col - 1` for `col` in `1..9`; `ROWS - boardHeightmapMin` at index
19, which is the maximum of the ten heights; the number of empty cells below their column's
heightmap entry at index 20; and the bias `1` at index 21. The observation stored in the step
data is this vector. -/
theorem C7_observation (s : Tetris) (obs : Int → Int) (h : Reachable s)
    (hterm : s.terminalState = false) :
    (∀ col, 0 ≤ col → col < COLUMNS →
      s.computeObservation obs col = ROWS - s.boardHeightmap col ∧
      0 ≤ s.computeObservation obs col ∧ s.computeObservation obs col ≤ ROWS) ∧
    (∀ col, 1 ≤ col → col < COLUMNS →
      s.computeObservation obs (COLUMNS + col - 1) =
        |s.computeObservation obs col - s.computeObservation obs (col - 1)|) ∧
    s.computeObservation obs 19 = ROWS - s.boardHeightmapMin ∧
    (∀ col, 0 ≤ col → col < COLUMNS →
      s.computeObservation obs col ≤ s.computeObservation obs 19) ∧
    (∃ col, 0 ≤ col ∧ col < COLUMNS ∧
      s.computeObservation obs col = s.computeObservation obs 19) ∧
    s.computeObservation obs 20 = emptyBelowTopline s.board s.boardHeightmap ∧
    s.computeObservation obs 21 = 1 ∧
    (∀ i, 0 ≤ i → i < STATEDIM → s.stepData.observation i = s.computeObservation obs i) := by
  obtain ⟨hI, _⟩ := reachable_inv s h
  have hC : COLUMNS = 10 := rfl
  have hR : ROWS = 20 := rfl
  have hcol : ∀ col, 0 ≤ col → col < COLUMNS →
      s.computeObservation obs col = ROWS - s.boardHeightmap col := by
    intro col h0 h1
    rw [computeObservation_nonterminal _ _ hterm, if_neg (by omega), if_neg (by omega),
      if_neg (by omega), if_pos ⟨h0, h1⟩]
  have h19 : s.computeObservation obs 19 = ROWS - s.boardHeightmapMin := by
    rw [computeObservation_nonterminal _ _ hterm]
    simp
  refine ⟨fun col h0 h1 => ?_, fun col h0 h1 => ?_, h19, fun col h0 h1 => ?_, ?_, ?_, ?_,
    fun i hi0 hi1 => reachable_observation s h obs i hi0 hi1⟩
  · have a := hI.hm_nonneg col h0 h1
    have b := hI.hm_le col h0 h1
    rw [hcol col h0 h1]
    exact ⟨rfl, by omega, by omega⟩
  · rw [hcol col (by omega) h1, hcol (col - 1) (by omega) (by omega),
      computeObservation_nonterminal _ _ hterm, if_neg (by omega), if_neg (by omega),
      if_neg (by omega), if_neg (by omega), if_pos (by omega), ABS_eq_abs]
    have e1 : COLUMNS + col - 1 - COLUMNS + 1 = col := by omega
    have e2 : COLUMNS + col - 1 - COLUMNS = col - 1 := by omega
    rw [e1, e2]
  · rw [hcol col h0 h1, h19]
    have := hI.min_le col h0 h1
    omega
  · obtain ⟨c, c0, c1, c2⟩ := hI.min_attained
    exact ⟨c, c0, c1, by rw [hcol c c0 c1, h19, c2]⟩
  · rw [computeObservation_nonterminal _ _ hterm, if_neg (by omega), if_pos rfl]
    exact holesUnderTopline_eq s.board s.boardHeightmap hI.hm_nonneg
  · rw [computeObservation_nonterminal _ _ hterm, if_pos rfl]

/-- Witness of C7: the state after the square is dropped at the left edge of a fresh board. -/
theorem C7_observation_witness :
    Reachable squareDropped ∧ squareDropped.terminalState = false ∧
    ((∀ col, 0 ≤ col → col < COLUMNS →
      squareDropped.computeObservation (fun _ => 0) col = ROWS - squareDropped.boardHeightmap col ∧
      0 ≤ squareDropped.computeObservation (fun _ => 0) col ∧ squareDropped.computeObservation (fun _ => 0) col ≤ ROWS) ∧
    (∀ col, 1 ≤ col → col < COLUMNS →
      squareDropped.computeObservation (fun _ => 0) (COLUMNS + col - 1) =
        |squareDropped.computeObservation (fun _ => 0) col - squareDropped.computeObservation (fun _ => 0) (col - 1)|) ∧
    squareDropped.computeObservation (fun _ => 0) 19 = ROWS - squareDropped.boardHeightmapMin ∧
    (∀ col, 0 ≤ col → col < COLUMNS →
      squareDropped.computeObservation (fun _ => 0) col ≤ squareDropped.computeObservation (fun _ => 0) 19) ∧
    (∃ col, 0 ≤ col ∧ col < COLUMNS ∧
      squareDropped.computeObservation (fun _ => 0) col = squareDropped.computeObservation (fun _ => 0) 19) ∧
    squareDropped.computeObservation (fun _ => 0) 20 = emptyBelowTopline squareDropped.board squareDropped.boardHeightmap ∧
    squareDropped.computeObservation (fun _ => 0) 21 = 1 ∧
    (∀ i, 0 ≤ i → i < STATEDIM → squareDropped.stepData.observation i = squareDropped.computeObservation (fun _ => 0) i)) :=
  ⟨squareDropped_reachable, by decide!,
    C7_observation squareDropped (fun _ => 0) squareDropped_reachable (by decide!)⟩

/-- C8 (hole count, the compiled under-topline strategy). In a reachable non-terminal state the
hole feature (index 20 of what `computeObservation` writes, and of the stored observation) is
the number of cells of the board that are empty and have a filled cell above them in their
column; it is `0` exactly when no column has an empty cell under a filled one. -/
theorem C8_hole_count (s : Tetris) (obs : Int → Int) (h : Reachable s)
    (hterm : s.terminalState = false) :
    s.computeObservation obs 20 = coveredEmptyCells s.board ∧
    s.stepData.observation 20 = coveredEmptyCells s.board ∧
    (s.computeObservation obs 20 = 0 ↔
      ∀ r c, 0 ≤ r → r < ROWS → 0 ≤ c → c < COLUMNS → s.board r c = false →
        ∀ r1, 0 ≤ r1 → r1 < r → s.board r1 c = false) := by
  obtain ⟨hI, _⟩ := reachable_inv s h
  have e : s.computeObservation obs 20 = coveredEmptyCells s.board := by
    rw [computeObservation_nonterminal _ _ hterm, if_neg (by omega), if_pos rfl,
      holesUnderTopline_eq s.board s.boardHeightmap hI.hm_nonneg,
      emptyBelowTopline_eq_covered s.board s.boardHeightmap s.boardHeightmapMin hI.toStackInv]
  refine ⟨e, ?_, ?_⟩
  · rw [reachable_observation s h obs 20 (by decide) (by decide), e]
  · rw [e]
    exact coveredEmptyCells_eq_zero_iff s.board

/-- Witness of C8: the S piece laid flat on the floor leaves one hole. -/
theorem C8_hole_count_witness :
    Reachable holeMade ∧ holeMade.terminalState = false ∧
    (holeMade.computeObservation (fun _ => 0) 20 = coveredEmptyCells holeMade.board ∧
    holeMade.stepData.observation 20 = coveredEmptyCells holeMade.board ∧
    (holeMade.computeObservation (fun _ => 0) 20 = 0 ↔
      ∀ r c, 0 ≤ r → r < ROWS → 0 ≤ c → c < COLUMNS → holeMade.board r c = false →
        ∀ r1, 0 ≤ r1 → r1 < r → holeMade.board r1 c = false)) :=
  ⟨holeMade_reachable, by decide!,
    C8_hole_count holeMade (fun _ => 0) holeMade_reachable (by decide!)⟩

/-- C9 (terminal state signalling). In a reachable non-terminal state and for every action:
when the step overflows the board (it leaves the environment terminal), every entry of the
regenerated observation is `0` except the bias entry (index 21), which holds
`TERMINAL_BIAS_VALUE_S`, and `stepData.actionCount` is `0`; and in the non-terminal state
itself `actionCount` is `pieceActionCounts[fallingPiece]`, which is at least 9. -/
theorem C9_terminal_signalling (s : Tetris) (a draw : Int) (h : Reachable s)
    (hterm : s.terminalState = false) :
    ((s.step a draw).1.terminalState = true →
      (∀ i, 0 ≤ i → i < STATEDIM → i ≠ 21 → (s.step a draw).1.stepData.observation i = 0) ∧
      (s.step a draw).1.stepData.observation 21 = TERMINAL_BIAS_VALUE_S ∧
      (s.step a draw).1.stepData.actionCount = 0) ∧
    ((s.step a draw).1.terminalState = true ↔ landingRow s a < 0) ∧
    s.stepData.actionCount = pieceActionCounts s.fallingPiece ∧
    9 ≤ pieceActionCounts s.fallingPiece := by
  obtain ⟨hI, hp0, hp1, hOK⟩ := reachable_inv s h
  obtain ⟨_, _, _, t4, _, _, _, _, _, t10, t11⟩ := step_spec s a draw
  have hS : STATEDIM = 22 := rfl
  refine ⟨fun hT => ⟨fun i hi0 hi1 hne => ?_, ?_, ?_⟩, ?_, reachable_actionCount s h hterm,
    (actionCount_bounds s.fallingPiece hp0 hp1).1⟩
  · rw [t10, computeObservation_terminal _ _ (by rw [← t4]; exact hT), if_neg hne,
      if_pos ⟨hi0, by omega⟩]
  · rw [t10, computeObservation_terminal _ _ (by rw [← t4]; exact hT), if_pos rfl]
  · rw [t11.count, hT]
    rfl
  · rw [t4, dropPiece_terminal, hterm]
    simp

/-- Witness of C9: a sixth upright bar dropped on the full column 0 ends the episode. -/
theorem C9_terminal_signalling_witness :
    Reachable towerBuilt ∧ towerBuilt.terminalState = false ∧
    (((towerBuilt.step 7 0).1.terminalState = true →
      (∀ i, 0 ≤ i → i < STATEDIM → i ≠ 21 → (towerBuilt.step 7 0).1.stepData.observation i = 0) ∧
      (towerBuilt.step 7 0).1.stepData.observation 21 = TERMINAL_BIAS_VALUE_S ∧
      (towerBuilt.step 7 0).1.stepData.actionCount = 0) ∧
    ((towerBuilt.step 7 0).1.terminalState = true ↔ landingRow towerBuilt 7 < 0) ∧
    towerBuilt.stepData.actionCount = pieceActionCounts towerBuilt.fallingPiece ∧
    9 ≤ pieceActionCounts towerBuilt.fallingPiece) :=
  ⟨towerBuilt_reachable, by decide!,
    C9_terminal_signalling towerBuilt 7 0 towerBuilt_reachable (by decide!)⟩

/-- C10 (features of a terminating action). For every non-terminal state and every action index
below the `actionCount` that `computeActions` sets whose terminal flag it sets: every entry of
the action row is `0` except the bias entry (index 21), which is `TERMINAL_BIAS_VALUE_A`, and
the immediate-reward entry (index 22), which is the number of cleared rows returned by the
trial drop. -/
theorem C10_terminating_action (s : Tetris) (a : Int) (hterm : s.terminalState = false)
    (ha0 : 0 ≤ a) (ha1 : a < s.computeActions.stepData.actionCount)
    (hT : s.computeActions.stepData.isActionTerminal a = true) :
    (∀ i, 0 ≤ i → i < STATEACTIONDIM → i ≠ 21 → i ≠ 22 →
      s.computeActions.stepData.actions a i = 0) ∧
    s.computeActions.stepData.actions a 21 = TERMINAL_BIAS_VALUE_A ∧
    s.computeActions.stepData.actions a 22 = (s.dropPiece a).2 := by
  obtain ⟨_, _, _, _, _, _, _, _, _, _, l11, l12, l13⟩ := computeActions_spec s
  rw [l11, hterm] at ha1
  simp only [Bool.false_eq_true, if_false] at ha1
  rw [l13 a, if_pos ⟨hterm, ha0, ha1⟩] at hT
  have hrow := l12 a
  rw [if_pos ⟨hterm, ha0, ha1⟩] at hrow
  rw [hrow]
  have hSA : STATEACTIONDIM = 23 := rfl
  have hC : COLUMNS = 10 := rfl
  refine ⟨fun i hi0 hi1 h21 h22 => ?_, ?_, ?_⟩
  · simp only [actionRow, hT, if_true, set1_apply]
    rw [if_neg (by omega), if_neg (by omega), computeObservation_terminal _ _ hT, if_neg h21,
      if_pos ⟨hi0, by omega⟩]
  · simp [actionRow, hT, COLUMNS]
  · simp [actionRow, COLUMNS]

/-- Witness of C10: the square dropped in columns 3-4 of a stack that reaches row 1. -/
theorem C10_terminating_action_witness :
    highStack.terminalState = false ∧ (0 : Int) ≤ 3 ∧
    (3 : Int) < highStack.computeActions.stepData.actionCount ∧
    highStack.computeActions.stepData.isActionTerminal 3 = true ∧
    ((∀ i, 0 ≤ i → i < STATEACTIONDIM → i ≠ 21 → i ≠ 22 →
      highStack.computeActions.stepData.actions 3 i = 0) ∧
    highStack.computeActions.stepData.actions 3 21 = TERMINAL_BIAS_VALUE_A ∧
    highStack.computeActions.stepData.actions 3 22 = (highStack.dropPiece 3).2) :=
  ⟨rfl, by decide, by decide!, by decide!,
    C10_terminating_action highStack 3 rfl (by decide) (by decide!) (by decide!)⟩

/-- Counterexample to C11 as stated, with the rounding of binary64. For the finite
`theta = (2^1023, 0, ...)`, `tau = 1` and two actions, the product `2 * 2^1023` overflows and
the probability stored for action 0 is a NaN; for `theta = 0`, `tau = 1` and six actions that
are not rejected, each gets the `double` nearest to `1/6` and the sum of the nine stored
probabilities is not 1; for three actions that are all flagged terminal each gets the `double`
nearest to `1/3`, which is not `1/3`. (The only finite argument of `exp` in these
computations is 0.) -/
theorem C11_policy_distribution_counterexample :
    ((1 : Int) ≤ overflowStepData.actionCount ∧
      (∀ i, overflowAgent.theta i = Dbl.fin (if i = 0 then 2 ^ 1023 else 0)) ∧
      overflowAgent.tau = Dbl.fin 1 ∧
      (overflowAgent.computeActionProbabilitiesRounded round64 sampleExpRounded
        overflowStepData).actionProbabilities 0 = Dbl.nan) ∧
    ((1 : Int) ≤ tieStepData.actionCount ∧ (∀ i, zeroAgent.theta i = Dbl.fin 0) ∧
      zeroAgent.tau = Dbl.fin 1 ∧
      (∀ a : Int, 0 ≤ a → a < 9 →
        (zeroAgent.computeActionProbabilitiesRounded round64 sampleExpRounded
          tieStepData).actionProbabilities a =
          Dbl.fin (if a < 6 then 6004799503160661 / 36028797018963968 else 0)) ∧
      ∑ a in Finset.range 9,
        (if a < 6 then (6004799503160661 / 36028797018963968 : ℚ) else 0) ≠ 1) ∧
    ((1 : Int) ≤ rejectedStepData.actionCount ∧
      (∀ b, rejectedStepData.isActionTerminal b = true) ∧
      (zeroAgent.computeActionProbabilitiesRounded round64 sampleExpRounded
        rejectedStepData).actionProbabilities 0 =
          Dbl.fin (6004799503160661 / 18014398509481984) ∧
      (6004799503160661 / 18014398509481984 : ℚ) ≠ 1 / 3) := by
  refine ⟨⟨by decide, fun _ => rfl, rfl, by decide!⟩,
    ⟨by decide, fun _ => rfl, rfl, tieStepData_probabilities, by decide!⟩,
    by decide, fun _ => rfl, by decide!, by norm_num⟩

/-- C11 (policy distribution), amended to rounded arithmetic. Let `rnd` be a rounding and
`exp` have `exp 0 = 1` and finite values between 0 and 1 at the arguments that are not
positive. For step data with `1 <= actionCount <= MAXACTIONS` in which the score computed for
every action that is not rejected is finite (no overflow), `computeActionProbabilities` stores
for every action a finite probability between 0 and 1; if every action is flagged terminal
(`REJECT_TERMINAL_ACTIONS` is on), each probability is the rounded `1/actionCount`; and when
the arithmetic is exact, with finite `theta` and `tau > 0`, the probabilities sum to 1. -/
theorem C11_policy_distribution {F : Type} [LinearOrderedField F] (rnd expD : F → Dbl F)
    (hR : Rounding rnd) (hE : ExpBounded expD) (self : NaturalActorCritic F) (s : StepData)
    (v : Int → F)
    (hv : ∀ a, 0 ≤ a → a < s.actionCount → s.isActionTerminal a = false →
      roundedScore rnd s self.theta self.tau a = Dbl.fin (v a))
    (hn0 : 1 ≤ s.actionCount) (hn1 : s.actionCount ≤ MAXACTIONS) :
    (∀ a, 0 ≤ a → a < s.actionCount →
      ∃ q, (self.computeActionProbabilitiesRounded rnd expD s).actionProbabilities a =
        Dbl.fin q ∧ 0 ≤ q ∧ q ≤ 1) ∧
    REJECT_TERMINAL_ACTIONS = true ∧
    ((∀ b, 0 ≤ b → b < s.actionCount → s.isActionTerminal b = true) →
      ∀ a, 0 ≤ a → a < s.actionCount →
        (self.computeActionProbabilitiesRounded rnd expD s).actionProbabilities a =
          rnd (1 / ((s.actionCount : Int) : F))) ∧
    (∀ (exp : F → F) (th : Int → F) (t : F), rnd = Dbl.fin →
      expD = (fun x => Dbl.fin (exp x)) → (∀ x, 0 ≤ exp x) →
      (∀ i, 0 ≤ i → i < STATEACTIONDIM → self.theta i = Dbl.fin (th i)) →
      self.tau = Dbl.fin t → 0 < t →
      ∃ q : Int → F,
        (∀ a, 0 ≤ a → a < s.actionCount →
          (self.computeActionProbabilitiesRounded rnd expD s).actionProbabilities a =
            Dbl.fin (q a)) ∧
        ∑ a in Finset.range s.actionCount.toNat, q a = 1) := by
  have hcast : (((s.actionCount : Int) : F)) ≠ 0 := by
    have : (0 : F) < ((s.actionCount : Int) : F) := by exact_mod_cast (by omega : 0 < s.actionCount)
    exact ne_of_gt this
  have huni : ∀ a, 0 ≤ a → a < s.actionCount →
      (∀ b, 0 ≤ b → b < s.actionCount → s.isActionTerminal b = true) →
      (self.computeActionProbabilitiesRounded rnd expD s).actionProbabilities a =
        rnd (1 / ((s.actionCount : Int) : F)) := by
    intro a a0 a1 hall
    rw [roundedPolicy_uniform rnd expD self s hn1 hall a a0 a1]
    unfold Dbl.divRounded
    rw [Dbl_one_eq, Dbl.ofInt, Dbl_div_fin _ _ hcast]
    rfl
  refine ⟨fun a a0 a1 => ?_, rfl, fun hall a a0 a1 => huni a a0 a1 hall, ?_⟩
  · by_cases hsome : ∃ b, 0 ≤ b ∧ b < s.actionCount ∧ s.isActionTerminal b = false
    · obtain ⟨q, hq, hq0, hq1, -⟩ := roundedPolicy_spec rnd expD hR hE self s v hv hn1 hsome
        a a0 a1
      exact ⟨q, hq, hq0, hq1⟩
    · have hall : ∀ b, 0 ≤ b → b < s.actionCount → s.isActionTerminal b = true := by
        intro b b0 b1
        by_contra hb
        exact hsome ⟨b, b0, b1, by simpa using hb⟩
      rw [huni a a0 a1 hall]
      have h1 : (1 : F) ≤ ((s.actionCount : Int) : F) := by exact_mod_cast hn0
      have hpos : (0 : F) < ((s.actionCount : Int) : F) := by linarith
      exact hR.unit (div_nonneg zero_le_one (le_of_lt hpos)) ((div_le_one hpos).mpr h1)
  · intro exp th t hrnd hexpD hexp hth htau ht
    have hexp0 : exp 0 = 1 := by
      have := hE.zero
      rw [hexpD] at this
      exact Dbl.fin.inj this
    obtain ⟨q, hq, hsum, -, -⟩ := policy_distribution exp self s th t hexp0 hexp hth htau ht
      hn0 hn1
    refine ⟨q, fun a a0 a1 => ?_, hsum⟩
    rw [hrnd, hexpD, computeActionProbabilitiesRounded_exact]
    exact (hq a a0 a1).1

/-- Witness of C11: the rounding of binary64 with the sample controller
(`theta = (1/2, 1, 1, ...)`, `tau = 2`) on the sample step data with three actions, whose
scores are `1/2` and `1`. -/
theorem C11_policy_distribution_witness :
    Rounding round64 ∧ ExpBounded sampleExpRounded ∧
    (∀ a, 0 ≤ a → a < sampleStepData.actionCount → sampleStepData.isActionTerminal a = false →
      roundedScore round64 sampleStepData sampleAgent.theta sampleAgent.tau a =
        Dbl.fin ((a : ℚ) / 4 + 1 / 2)) ∧
    1 ≤ sampleStepData.actionCount ∧ sampleStepData.actionCount ≤ MAXACTIONS ∧
    ∀ a, 0 ≤ a → a < sampleStepData.actionCount →
      ∃ q, (sampleAgent.computeActionProbabilitiesRounded round64 sampleExpRounded
        sampleStepData).actionProbabilities a = Dbl.fin q ∧ 0 ≤ q ∧ q ≤ 1 :=
  ⟨round64_rounding, sampleExpRounded_bounded, sampleStepData_scores, by decide, by decide,
    (C11_policy_distribution round64 sampleExpRounded round64_rounding sampleExpRounded_bounded
      sampleAgent sampleStepData (fun a => (a : ℚ) / 4 + 1 / 2) sampleStepData_scores
      (by decide) (by decide)).1⟩

/-- Counterexample to C12 as stated, with the rounding of binary64. For `theta = 0`, `tau = 1`
and nine actions of which the last three are flagged terminal, the six other actions get the
`double` nearest to `1/6`, the running sum of `drawAction` ends at `1 - 2^-53`, and for the
draw `r = 1 - 2^-53` of `[0,1)` no running sum exceeds `r`: `act` returns the last action, 8,
which is flagged terminal. For `theta = (2^1023, 0, ...)` the action flagged terminal gets a
NaN, not 0. -/
theorem C12_terminal_rejection_counterexample :
    ((∃ b, 0 ≤ b ∧ b < tieStepData.actionCount ∧ tieStepData.isActionTerminal b = false) ∧
      (∀ i, zeroAgent.theta i = Dbl.fin 0) ∧ zeroAgent.tau = Dbl.fin 1 ∧
      (0 : ℚ) ≤ 1 - 1 / 2 ^ 53 ∧ (1 - 1 / 2 ^ 53 : ℚ) < 1 ∧
      roundedSum round64 (zeroAgent.computeActionProbabilitiesRounded round64 sampleExpRounded
        tieStepData).actionProbabilities 9 = Dbl.fin (1 - 1 / 2 ^ 53) ∧
      (zeroAgent.actRounded round64 sampleExpRounded tieStepData
        (Dbl.fin (1 - 1 / 2 ^ 53))).2 = 8 ∧
      tieStepData.isActionTerminal 8 = true) ∧
    ((∃ b, 0 ≤ b ∧ b < overflowStepData.actionCount ∧
        overflowStepData.isActionTerminal b = false) ∧
      (∀ i, overflowAgent.theta i = Dbl.fin (if i = 0 then 2 ^ 1023 else 0)) ∧
      overflowAgent.tau = Dbl.fin 1 ∧ overflowStepData.isActionTerminal 1 = true ∧
      (overflowAgent.computeActionProbabilitiesRounded round64 sampleExpRounded
        overflowStepData).actionProbabilities 1 = Dbl.nan) :=
  ⟨⟨⟨0, by decide⟩, fun _ => rfl, rfl, by norm_num, by norm_num, by decide!, by decide!, rfl⟩,
    ⟨0, by decide⟩, fun _ => rfl, rfl, rfl, by decide!⟩

/-- C12 (terminal-action rejection), amended to rounded arithmetic. Let `rnd` be a rounding
and `exp` have `exp 0 = 1` and finite values between 0 and 1 at the arguments that are not
positive. For step data with at most `MAXACTIONS` actions of which at least one is not flagged
terminal, and in which the score computed for every action that is not rejected is finite (no
overflow): every action flagged terminal gets probability exactly 0; for every draw `r >= 0`
the action returned by `act` is an index below `actionCount` that is not flagged terminal,
unless no running sum of `drawAction` exceeds `r`, in which case it is the last action,
whatever its flag; and when the arithmetic is exact, with finite `theta` and `tau > 0`, the
action returned for a draw in `[0,1)` is never flagged terminal. -/
theorem C12_terminal_rejection {F : Type} [LinearOrderedField F] (rnd expD : F → Dbl F)
    (hR : Rounding rnd) (hE : ExpBounded expD) (self : NaturalActorCritic F) (s : StepData)
    (v : Int → F)
    (hv : ∀ a, 0 ≤ a → a < s.actionCount → s.isActionTerminal a = false →
      roundedScore rnd s self.theta self.tau a = Dbl.fin (v a))
    (hn1 : s.actionCount ≤ MAXACTIONS)
    (hnt : ∃ b, 0 ≤ b ∧ b < s.actionCount ∧ s.isActionTerminal b = false) :
    (∀ a, 0 ≤ a → a < s.actionCount → s.isActionTerminal a = true →
      (self.computeActionProbabilitiesRounded rnd expD s).actionProbabilities a = Dbl.fin 0) ∧
    (∀ r : F, 0 ≤ r →
      (self.actRounded rnd expD s (Dbl.fin r)).1 =
        self.computeActionProbabilitiesRounded rnd expD s ∧
      (self.actRounded rnd expD s (Dbl.fin r)).2 =
        (self.computeActionProbabilitiesRounded rnd expD s).drawActionRounded rnd s
          (Dbl.fin r) ∧
      0 ≤ (self.actRounded rnd expD s (Dbl.fin r)).2 ∧
      (self.actRounded rnd expD s (Dbl.fin r)).2 < s.actionCount ∧
      (s.isActionTerminal (self.actRounded rnd expD s (Dbl.fin r)).2 = false ∨
        ((self.actRounded rnd expD s (Dbl.fin r)).2 = s.actionCount - 1 ∧
          ∀ i : Nat, (i : Int) < s.actionCount →
            Dbl.lt (Dbl.fin r) (roundedSum rnd
              (self.computeActionProbabilitiesRounded rnd expD s).actionProbabilities
              (i + 1)) = false))) ∧
    (∀ (exp : F → F) (th : Int → F) (t : F), rnd = Dbl.fin →
      expD = (fun x => Dbl.fin (exp x)) → (∀ x, 0 ≤ exp x) →
      (∀ i, 0 ≤ i → i < STATEACTIONDIM → self.theta i = Dbl.fin (th i)) →
      self.tau = Dbl.fin t → 0 < t →
      ∀ r : F, 0 ≤ r → r < 1 →
        s.isActionTerminal (self.actRounded rnd expD s (Dbl.fin r)).2 = false) := by
  have hn0 : 1 ≤ s.actionCount := by
    obtain ⟨b, b0, b1, -⟩ := hnt
    omega
  have hzero : ∀ a, 0 ≤ a → a < s.actionCount → s.isActionTerminal a = true →
      (self.computeActionProbabilitiesRounded rnd expD s).actionProbabilities a =
        Dbl.fin 0 := by
    intro a a0 a1 hT
    obtain ⟨q, hq, -, -, hqT⟩ := roundedPolicy_spec rnd expD hR hE self s v hv hn1 hnt a a0 a1
    rw [hq, hqT hT]
  refine ⟨hzero, fun r hr0 => ⟨rfl, rfl, ?_⟩, ?_⟩
  · obtain ⟨h0, h1, h2⟩ := drawActionRounded_support hR
      (self.computeActionProbabilitiesRounded rnd expD s) s r hr0 hn0
    refine ⟨h0, h1, ?_⟩
    rcases h2 with h2 | h2
    · left
      by_contra hT
      exact h2 (hzero _ h0 h1 (by simpa using hT))
    · exact Or.inr h2
  · intro exp th t hrnd hexpD hexp hth htau ht r hr0 hr1
    have hexp0 : exp 0 = 1 := by
      have := hE.zero
      rw [hexpD] at this
      exact Dbl.fin.inj this
    rw [hrnd, hexpD, actRounded_exact]
    exact (act_not_terminal exp self s th t hexp0 hexp hth htau ht hn1 hnt r hr0 hr1).2.2

/-- Witness of C12: the rounding of binary64 with `theta = 0` on the step data with nine
actions; action 6 is flagged terminal and gets probability 0. -/
theorem C12_terminal_rejection_witness :
    Rounding round64 ∧ ExpBounded sampleExpRounded ∧
    (∀ a, 0 ≤ a → a < tieStepData.actionCount → tieStepData.isActionTerminal a = false →
      roundedScore round64 tieStepData zeroAgent.theta zeroAgent.tau a = Dbl.fin 0) ∧
    tieStepData.actionCount ≤ MAXACTIONS ∧
    (∃ b, 0 ≤ b ∧ b < tieStepData.actionCount ∧ tieStepData.isActionTerminal b = false) ∧
    tieStepData.isActionTerminal 6 = true ∧
    (zeroAgent.computeActionProbabilitiesRounded round64 sampleExpRounded
      tieStepData).actionProbabilities 6 = Dbl.fin 0 :=
  ⟨round64_rounding, sampleExpRounded_bounded, tieStepData_scores, by decide, ⟨0, by decide⟩,
    rfl,
    (C12_terminal_rejection round64 sampleExpRounded round64_rounding sampleExpRounded_bounded
      zeroAgent tieStepData (fun _ => 0) tieStepData_scores (by decide) ⟨0, by decide⟩).1 6
      (by decide) (by decide) rfl⟩

/-- C13 (sampling). For at least one action, any array of probabilities and any draw `r`,
`drawAction` returns an index in `0..actionCount-1`: the smallest `i` below `actionCount` with
`r < p[0] + ... + p[i]` (the sum as the loop computes it, left to right from `0.0`) if there is
one, and `actionCount - 1` otherwise. For finite probabilities and a finite draw the comparison
is that of the draw with the exact sum. -/
theorem C13_sampling {F : Type} [LinearOrderedField F] (self : NaturalActorCritic F)
    (s : StepData) (r : Dbl F) (hc : 1 ≤ s.actionCount) :
    0 ≤ self.drawAction s r ∧ self.drawAction s r < s.actionCount ∧
    (∀ i : Nat, (i : Int) < s.actionCount →
      Dbl.lt r (cumulativeSum self.actionProbabilities (i + 1)) = true →
      (∀ k : Nat, k < i → Dbl.lt r (cumulativeSum self.actionProbabilities (k + 1)) = false) →
      self.drawAction s r = i) ∧
    ((∀ i : Nat, (i : Int) < s.actionCount →
      Dbl.lt r (cumulativeSum self.actionProbabilities (i + 1)) = false) →
      self.drawAction s r = s.actionCount - 1) ∧
    (∀ (q : Int → F) (x : F), r = Dbl.fin x →
      (∀ i : Nat, (i : Int) < s.actionCount → self.actionProbabilities i = Dbl.fin (q i)) →
      ∀ i : Nat, (i : Int) < s.actionCount →
        (Dbl.lt r (cumulativeSum self.actionProbabilities (i + 1)) = true ↔
          x < ∑ k in Finset.range (i + 1), q k)) := by
  obtain ⟨j, e, j1, hf, ht⟩ := drawAction_spec self s r hc
  refine ⟨by rw [e]; omega, by rw [e]; exact j1, ?_, ?_, ?_⟩
  · intro i hi hlt hbefore
    rw [e]
    rcases Nat.lt_trichotomy j i with h | h | h
    · rcases ht with ht | ⟨_, ht⟩
      · rw [hbefore j h] at ht
        exact absurd ht (by decide)
      · rw [ht i hi] at hlt
        exact absurd hlt (by decide)
    · rw [h]
    · rw [hf i h] at hlt
      exact absurd hlt (by decide)
  · intro hall
    rw [e]
    rcases ht with ht | ⟨h, _⟩
    · rw [hall j j1] at ht
      exact absurd ht (by decide)
    · exact h
  · intro q x hr hq i hi
    rw [cumulativeSum_fin self.actionProbabilities q s.actionCount.toNat
      (fun k hk => hq k (by omega)) (i + 1) (by omega), hr]
    exact decide_eq_true_iff

/-- Witness of C13: with the probabilities `1/4, 1/2, 1/4` the draw `1/2` selects action 1 and
the draw `2` the last action. -/
theorem C13_sampling_witness :
    (1 : Int) ≤ sampleStepData.actionCount ∧
    sampleAgent.drawAction sampleStepData (Dbl.fin (1 / 2)) = 1 ∧
    sampleAgent.drawAction sampleStepData (Dbl.fin 2) = 3 - 1 :=
  ⟨by decide,
    (C13_sampling sampleAgent sampleStepData (Dbl.fin (1 / 2)) (by decide)).2.2.1 1 (by decide)
      (by
        simp only [cumulativeSum, sampleAgent, Dbl_zero_eq, Dbl_add_fin, Dbl.lt]
        norm_num)
      (fun k hk => by
        have hk0 : k = 0 := by omega
        subst hk0
        simp only [cumulativeSum, sampleAgent, Dbl_zero_eq, Dbl_add_fin, Dbl.lt]
        norm_num),
    (C13_sampling sampleAgent sampleStepData (Dbl.fin 2) (by decide)).2.2.2.1
      (fun i hi => by
        have hi3 : i < 3 := by
          have : (i : Int) < 3 := hi
          omega
        interval_cases i <;>
          simp only [cumulativeSum, sampleAgent, Dbl_zero_eq, Dbl_add_fin, Dbl.lt] <;> norm_num)⟩

/-- C14 (LSTD(lambda) update). With the variance-reduction mode off or on, one call of
`LSTDLambda::step( r )` on any critic state yields, for all `i`, `j` in `0..VDIM-1`,
`z'[i] = gamma*lambda*z[i] + phi0[i]`, `A'[i][j] = A[i][j] + z'[i]*(phi0[j] - gamma*phi1[j])`
and `b'[i] = b[i] + z'[i]*r`, with the updated trace `z'` in the updates of `A` and `b`; the
registers, `gamma` and `lambda` are unchanged; and the constructor called with `VDIM` succeeds
and returns a critic whose `z`, `A` and `b` are zero. -/
theorem C14_lstd_update {D : Type} [Zero D] [Add D] [Sub D] [Mul D] (mode : PetersTrickMode)
    (c : LSTDLambda D) (r : D)
    (hmode : mode = PetersTrickMode.PTM_OFF ∨ mode = PetersTrickMode.PTM_ON)
    (hV : c.VDim = VDIM) :
    (∀ i, 0 ≤ i → i < VDIM → (c.step mode r).z i = c.gamma * c.lambda * c.z i + c.phi0 i) ∧
    (∀ i j, 0 ≤ i → i < VDIM → 0 ≤ j → j < VDIM →
      (c.step mode r).A i j =
        c.A i j + (c.step mode r).z i * (c.phi0 j - c.gamma * c.phi1 j)) ∧
    (∀ i, 0 ≤ i → i < VDIM → (c.step mode r).b i = c.b i + (c.step mode r).z i * r) ∧
    (c.step mode r).toCritic = c.toCritic ∧
    (∀ (raw : LSTDLambda D) (gamma lambda : D), ∃ f,
      LSTDLambda.create raw VDIM gamma lambda = Except.ok f ∧
      f.VDim = VDIM ∧ f.gamma = gamma ∧ f.lambda = lambda ∧
      (∀ i, 0 ≤ i → i < VDIM → f.z i = 0 ∧ f.b i = 0) ∧
      (∀ i j, 0 ≤ i → i < VDIM → 0 ≤ j → j < VDIM → f.A i j = 0)) := by
  have hne : mode ≠ PetersTrickMode.PTM_CORRECTED := by
    rcases hmode with h | h <;> rw [h] <;> decide
  obtain ⟨s1, s2, s3, s4⟩ := LSTDLambda_step_spec mode hne c r
  rw [hV] at s2 s3 s4
  refine ⟨fun i i0 i1 => ?_, fun i j i0 i1 j0 j1 => ?_, fun i i0 i1 => ?_, s1, ?_⟩
  · rw [s2]
    exact if_pos ⟨i0, i1⟩
  · rw [s2, s3]
    beta_reduce
    rw [if_pos ⟨⟨i0, i1⟩, j0, j1⟩, if_pos ⟨i0, i1⟩]
  · rw [s2, s4]
    beta_reduce
    rw [if_pos ⟨i0, i1⟩, if_pos ⟨i0, i1⟩]
  · intro raw gamma lambda
    refine ⟨_, rfl, rfl, rfl, rfl, fun i i0 i1 => ⟨if_pos ⟨i0, i1⟩, if_pos ⟨i0, i1⟩⟩,
      fun i j i0 i1 j0 j1 => if_pos ⟨⟨i0, i1⟩, j0, j1⟩⟩

/-- Witness of C14: the sample critic over the integers, stepped in the configured mode. -/
theorem C14_lstd_update_witness :
    (PETERS_TRICK_MODE = PetersTrickMode.PTM_OFF ∨ PETERS_TRICK_MODE = PetersTrickMode.PTM_ON) ∧
    sampleLSTD.VDim = VDIM ∧
    (sampleLSTD.step PETERS_TRICK_MODE 4).z 3 = 2 * 3 * 4 + 4 ∧
    (sampleLSTD.step PETERS_TRICK_MODE 4).A 3 5 = (3 - 5) + 28 * (6 - 2 * 10) ∧
    (sampleLSTD.step PETERS_TRICK_MODE 4).b 3 = 15 + 28 * 4 :=
  ⟨Or.inr rfl, rfl,
    (C14_lstd_update PETERS_TRICK_MODE sampleLSTD 4 (Or.inr rfl) rfl).1 3 (by decide) (by decide),
    by
      have h := C14_lstd_update PETERS_TRICK_MODE sampleLSTD 4 (Or.inr rfl) rfl
      rw [h.2.1 3 5 (by decide) (by decide) (by decide) (by decide),
        h.1 3 (by decide) (by decide)]
      decide,
    by
      have h := C14_lstd_update PETERS_TRICK_MODE sampleLSTD 4 (Or.inr rfl) rfl
      rw [h.2.2.1 3 (by decide) (by decide), h.1 3 (by decide) (by decide)]
      decide⟩

/-- C15 (LSPE(lambda) update). One call of `LSPELambda::step( r )` on any critic state yields,
for all `i`, `j` in `0..VDIM-1`, `B'[i][j] = B[i][j] + phi0[i]*phi0[j]`,
`z'[i] = gamma*lambda*z[i] + phi0[i]`, `A'[i][j] = A[i][j] + z'[i]*(gamma*phi1[j] - phi0[j])` and
`b'[i] = b[i] + z'[i]*r`; the constructor called with `VDIM` succeeds and returns a critic whose
`z`, `B`, `A` and `b` are zero; and, the multiplication of `double` values being commutative, a
symmetric `B` (that of a fresh critic in particular) is symmetric after any list of inputs has
been fed to the critic. -/
theorem C15_lspe_update {D : Type} [Zero D] [Add D] [Sub D] [Mul D]
    (c : LSPELambda D) (r : D) (hV : c.VDim = VDIM) (hcomm : ∀ x y : D, x * y = y * x) :
    (∀ i j, 0 ≤ i → i < VDIM → 0 ≤ j → j < VDIM →
      (c.step r).B i j = c.B i j + c.phi0 i * c.phi0 j) ∧
    (∀ i, 0 ≤ i → i < VDIM → (c.step r).z i = c.gamma * c.lambda * c.z i + c.phi0 i) ∧
    (∀ i j, 0 ≤ i → i < VDIM → 0 ≤ j → j < VDIM →
      (c.step r).A i j = c.A i j + (c.step r).z i * (c.gamma * c.phi1 j - c.phi0 j)) ∧
    (∀ i, 0 ≤ i → i < VDIM → (c.step r).b i = c.b i + (c.step r).z i * r) ∧
    (c.step r).toCritic = c.toCritic ∧
    (∀ (raw : LSPELambda D) (gamma lambda : D), ∃ f,
      LSPELambda.create raw VDIM gamma lambda = Except.ok f ∧
      f.VDim = VDIM ∧ f.gamma = gamma ∧ f.lambda = lambda ∧
      (∀ i, 0 ≤ i → i < VDIM → f.z i = 0 ∧ f.b i = 0) ∧
      (∀ i j, 0 ≤ i → i < VDIM → 0 ≤ j → j < VDIM → f.B i j = 0 ∧ f.A i j = 0) ∧
      ∀ inputs i j, 0 ≤ i → i < VDIM → 0 ≤ j → j < VDIM →
        (f.feed inputs).B i j = (f.feed inputs).B j i) ∧
    ((∀ i j, 0 ≤ i → i < VDIM → 0 ≤ j → j < VDIM → c.B i j = c.B j i) →
      ∀ inputs i j, 0 ≤ i → i < VDIM → 0 ≤ j → j < VDIM →
        (c.feed inputs).B i j = (c.feed inputs).B j i) := by
  obtain ⟨s1, s2, s3, s4, s5⟩ := LSPELambda_step_spec c r
  rw [hV] at s2 s3 s4 s5
  refine ⟨fun i j i0 i1 j0 j1 => ?_, fun i i0 i1 => ?_, fun i j i0 i1 j0 j1 => ?_,
    fun i i0 i1 => ?_, s1, ?_, ?_⟩
  · rw [s2]
    exact if_pos ⟨⟨i0, i1⟩, j0, j1⟩
  · rw [s3]
    exact if_pos ⟨i0, i1⟩
  · rw [s3, s4]
    beta_reduce
    rw [if_pos ⟨⟨i0, i1⟩, j0, j1⟩, if_pos ⟨i0, i1⟩]
  · rw [s3, s5]
    beta_reduce
    rw [if_pos ⟨i0, i1⟩, if_pos ⟨i0, i1⟩]
  · intro raw gamma lambda
    refine ⟨_, rfl, rfl, rfl, rfl, fun i i0 i1 => ⟨if_pos ⟨i0, i1⟩, if_pos ⟨i0, i1⟩⟩,
      fun i j i0 i1 j0 j1 => ⟨if_pos ⟨⟨i0, i1⟩, j0, j1⟩, if_pos ⟨⟨i0, i1⟩, j0, j1⟩⟩, ?_⟩
    intro inputs
    refine (LSPELambda_feed_symm hcomm inputs
      ({ raw with
          VDim := VDIM
          gamma := gamma
          lambda := lambda
          B := memsetZero2 raw.B VDIM VDIM
          A := memsetZero2 raw.A VDIM VDIM
          b := memsetZero raw.b VDIM
          z := memsetZero raw.z VDIM } : LSPELambda D) ?_).2
    intro i j i0 i1 j0 j1
    exact (if_pos ⟨⟨i0, i1⟩, j0, j1⟩ : memsetZero2 raw.B VDIM VDIM i j = 0).trans
      (if_pos ⟨⟨j0, j1⟩, i0, i1⟩ : memsetZero2 raw.B VDIM VDIM j i = 0).symm
  · intro hB inputs
    have := (LSPELambda_feed_symm hcomm inputs c (by rw [hV]; exact hB)).2
    rw [hV] at this
    exact this

/-- Witness of C15: the sample critic over the integers. -/
theorem C15_lspe_update_witness :
    sampleLSPE.VDim = VDIM ∧ (∀ x y : Int, x * y = y * x) ∧
    (sampleLSPE.step 4).B 3 5 = 3 * 5 + 4 * 6 ∧
    (sampleLSPE.step 4).z 3 = 2 * 3 * 4 + 4 ∧
    (sampleLSPE.feed [(fun i => i, fun _ => 1, 2), (fun i => 3 - i, fun i => i, 0)]).B 2 7 =
      (sampleLSPE.feed [(fun i => i, fun _ => 1, 2), (fun i => 3 - i, fun i => i, 0)]).B 7 2 :=
  ⟨rfl, Int.mul_comm,
    (C15_lspe_update sampleLSPE 4 rfl Int.mul_comm).1 3 5 (by decide) (by decide) (by decide)
      (by decide),
    (C15_lspe_update sampleLSPE 4 rfl Int.mul_comm).2.1 3 (by decide) (by decide),
    (C15_lspe_update sampleLSPE 4 rfl Int.mul_comm).2.2.2.2.2.2
      (fun i j _ _ _ _ => Int.mul_comm i j) _ 2 7 (by decide) (by decide) (by decide)
      (by decide)⟩

/-- C16 (raw-sample recorder). For a `FullTDLambda` critic that holds `n` samples,
`0 <= n <= MAXSAMPLES = 1000000`: `step( reward )` fails with the capacity message exactly when
`n = MAXSAMPLES`, and a failed call yields no new state; when `n < MAXSAMPLES` it succeeds,
stores `phi0[i]` at `s0[i*MAXSAMPLES + n]` and `phi1[i]` at `s1[i*MAXSAMPLES + n]` for every
`i < VDIM`, stores the reward at `r[n]`, increases `n` by one and leaves the `n` samples
recorded before unchanged; and feeding `m` inputs with `n + m <= MAXSAMPLES` succeeds and leaves
the `m` transitions in call order in the columns `n .. n+m-1` of the log (the whole log for a
fresh critic, whose `n` is 0). -/
theorem C16_fulltd_recorder {D : Type} [Zero D] (c : FullTDLambda D) (reward : D)
    (hV : c.VDim = VDIM) (hn0 : 0 ≤ c.n) (hn1 : c.n ≤ MAXSAMPLES) :
    MAXSAMPLES = 1000000 ∧
    (c.n = MAXSAMPLES ↔
      c.step reward = Except.error "Maximum number of samples has been exceeded!") ∧
    (c.n = MAXSAMPLES → ∀ c1, c.step reward ≠ Except.ok c1) ∧
    (c.n < MAXSAMPLES → ∃ c1, c.step reward = Except.ok c1 ∧ c1.n = c.n + 1 ∧
      c1.r c.n = reward ∧
      (∀ i, 0 ≤ i → i < VDIM → c1.s0 (i * MAXSAMPLES + c.n) = c.phi0 i ∧
        c1.s1 (i * MAXSAMPLES + c.n) = c.phi1 i) ∧
      (∀ k, 0 ≤ k → k < c.n → c1.r k = c.r k ∧
        ∀ i, 0 ≤ i → i < VDIM → c1.s0 (i * MAXSAMPLES + k) = c.s0 (i * MAXSAMPLES + k) ∧
          c1.s1 (i * MAXSAMPLES + k) = c.s1 (i * MAXSAMPLES + k))) ∧
    (∀ inputs : List ((Int → D) × (Int → D) × D), c.n + inputs.length ≤ MAXSAMPLES →
      ∃ c1, c.feed inputs = Except.ok c1 ∧ c1.n = c.n + inputs.length ∧
        (∀ (k : Nat) (x : (Int → D) × (Int → D) × D), inputs[k]? = some x →
          c1.r (c.n + k) = x.2.2 ∧
          ∀ i, 0 ≤ i → i < VDIM → c1.s0 (i * MAXSAMPLES + (c.n + k)) = x.1 i ∧
            c1.s1 (i * MAXSAMPLES + (c.n + k)) = x.2.1 i) ∧
        (∀ k, 0 ≤ k → k < c.n → c1.r k = c.r k ∧
          ∀ i, 0 ≤ i → i < VDIM → c1.s0 (i * MAXSAMPLES + k) = c.s0 (i * MAXSAMPLES + k) ∧
            c1.s1 (i * MAXSAMPLES + k) = c.s1 (i * MAXSAMPLES + k))) ∧
    (∀ (raw : FullTDLambda D) (gamma lambda : D), ∃ f,
      FullTDLambda.create raw VDIM gamma lambda = Except.ok f ∧ f.VDim = VDIM ∧ f.n = 0) := by
  refine ⟨rfl, ⟨fun h => FullTDLambda_step_full c reward (by omega), fun h => ?_⟩,
    fun h c1 => ?_, fun h => ?_, fun inputs hlen => ?_, fun raw gamma lambda => ⟨_, rfl, rfl, rfl⟩⟩
  · by_contra hne
    obtain ⟨c1, e1, -⟩ := FullTDLambda_step_ok c reward (by rw [hV]; decide) (by omega)
    rw [e1] at h
    exact absurd h (by simp)
  · rw [FullTDLambda_step_full c reward (by omega)]
    simp
  · obtain ⟨c1, e1, n1, t1, r1, w1, f1⟩ := FullTDLambda_step_ok c reward
      (by rw [hV]; decide) h
    refine ⟨c1, e1, n1, by rw [r1, set1_apply]; exact if_pos rfl,
      fun i i0 i1 => w1 i i0 (by rw [hV]; exact i1), fun k k0 k1 => ⟨?_, fun i i0 i1 => ?_⟩⟩
    · rw [r1, set1_apply, if_neg (by omega)]
    · refine f1 _ (fun i2 a0 a1 => ?_)
      rw [hV] at a1
      have hVD : VDIM = 45 := rfl
      unfold MAXSAMPLES at h ⊢
      omega
  · obtain ⟨c1, e1, n1, -, p1, p2⟩ := FullTDLambda_feed_spec inputs c hV hn0 hlen
    exact ⟨c1, e1, n1, p1, p2⟩

/-- Witness of C16: the sample critic over the integers with a full log and with two samples. -/
theorem C16_fulltd_recorder_witness :
    (sampleFullTD MAXSAMPLES).VDim = VDIM ∧ (0 : Int) ≤ (sampleFullTD MAXSAMPLES).n ∧
    (sampleFullTD MAXSAMPLES).n ≤ MAXSAMPLES ∧
    (sampleFullTD MAXSAMPLES).step 9 =
      Except.error "Maximum number of samples has been exceeded!" ∧
    (∃ c1, (sampleFullTD 2).step 9 = Except.ok c1 ∧ c1.n = 3 ∧ c1.r 2 = 9 ∧
      c1.s0 (4 * MAXSAMPLES + 2) = 5 ∧ c1.s0 (4 * MAXSAMPLES + 1) = 4 * MAXSAMPLES + 1) :=
  ⟨rfl, by decide, by decide,
    (C16_fulltd_recorder (sampleFullTD MAXSAMPLES) 9 rfl (by decide) (by decide)).2.1.mp rfl,
    by
      obtain ⟨c1, e1, n1, r1, w1, f1⟩ :=
        (C16_fulltd_recorder (sampleFullTD 2) 9 rfl (by decide) (by decide)).2.2.2.1 (by decide)
      exact ⟨c1, e1, n1, r1, (w1 4 (by decide) (by decide)).1,
        ((f1 1 (by decide) (by decide)).2 4 (by decide) (by decide)).1⟩⟩

/-- C17 (critic inputs built by the controller). With the variance-reduction mode not off (it
is configured on), `learn( s0, pr0, a0, s1, pr1, a1 )` is one call `critic->step` with the
reward `s1.transitionReward` on the critic whose registers hold: `phi0[0..STATEDIM)` the
observation of `s0`; `phi0[STATEDIM+i]`, for `i < STATEACTIONDIM`, the feature
`s0.actions[a0][i]` minus the terms `pr0[b]*s0.actions[b][i]` for `b < s0.actionCount`
(subtracted in the order of the loop; for finite probabilities this is the exact difference with
the sum); `phi1[0..STATEDIM)` the observation of `s1`; and `phi1[STATEDIM..VDIM)` untouched.
The critic step keeps the registers, and the constructor of the controller leaves `phi1` zero,
so the gradient block of `phi1` is zero at every update. The value `transitionReward` of the
step data that an environment step produces is the reward that the step returns. -/
theorem C17_critic_inputs {F : Type} [LinearOrderedField F] (mode : PetersTrickMode)
    (self : NaturalActorCritic F) (s0 : StepData) (pr0 : Int → Dbl F) (a0 : Int)
    (s1 : StepData) (pr1 : Int → Dbl F) (a1 : Int) (hmode : mode ≠ PetersTrickMode.PTM_OFF) :
    PETERS_TRICK_MODE = PetersTrickMode.PTM_ON ∧
    (∃ phi0 phi1 : Int → Dbl F,
      self.learn mode s0 pr0 a0 s1 pr1 a1 =
        ((self.critic.setRegisters phi0 phi1).step mode (Dbl.ofInt s1.transitionReward)).map
          (fun critic => { self with critic := critic }) ∧
      (∀ i, 0 ≤ i → i < STATEDIM → phi0 i = Dbl.ofInt (s0.observation i)) ∧
      (∀ i, 0 ≤ i → i < STATEACTIONDIM →
        phi0 (STATEDIM + i) = gradientEntry s0 pr0 (Dbl.ofInt (s0.actions a0 i)) i) ∧
      (∀ q : Int → F, (∀ b, 0 ≤ b → b < s0.actionCount → pr0 b = Dbl.fin (q b)) →
        ∀ i, 0 ≤ i → i < STATEACTIONDIM →
          phi0 (STATEDIM + i) = Dbl.fin (((s0.actions a0 i : Int) : F) -
            ∑ b in Finset.range s0.actionCount.toNat, q b * ((s0.actions b i : Int) : F))) ∧
      (∀ i, 0 ≤ i → i < STATEDIM → phi1 i = Dbl.ofInt (s1.observation i)) ∧
      (∀ i, STATEDIM ≤ i → i < VDIM → phi1 i = self.critic.toCritic.phi1 i) ∧
      ((∀ i, STATEDIM ≤ i → i < VDIM → self.critic.toCritic.phi1 i = 0) →
        ∀ i, STATEDIM ≤ i → i < VDIM → phi1 i = 0) ∧
      (∀ self1, self.learn mode s0 pr0 a0 s1 pr1 a1 = Except.ok self1 →
        self1.critic.toCritic.phi0 = phi0 ∧ self1.critic.toCritic.phi1 = phi1)) ∧
    (∀ (raw : NaturalActorCritic F) (rawLSTD : LSTDLambda (Dbl F))
      (rawLSPE : LSPELambda (Dbl F)) (rawFullTD : FullTDLambda (Dbl F)) (criticClass : Int)
      (learning : Bool) (thetaDim : Int) (theta : Int → Dbl F) (gamma lambda tau : Dbl F),
      criticClass = 0 ∨ criticClass = 1 ∨ criticClass = 2 →
      ∃ self0, NaturalActorCritic.create raw rawLSTD rawLSPE rawFullTD criticClass learning
          thetaDim theta gamma lambda tau = Except.ok self0 ∧
        ∀ i, 0 ≤ i → i < VDIM → self0.critic.toCritic.phi1 i = 0) ∧
    (∀ (env : Tetris) (action draw : Int),
      (env.step action draw).1.stepData.transitionReward = (env.step action draw).2) := by
  have hS : STATEDIM = 22 := rfl
  have hSA : STATEACTIONDIM = 23 := rfl
  have hV : VDIM = 45 := rfl
  refine ⟨rfl, ⟨gradientLoop s0 pr0
      (memcpy (memcpy self.critic.toCritic.phi0 0 (fun i => Dbl.ofInt (s0.observation i))
        STATEDIM) STATEDIM (fun i => Dbl.ofInt (s0.actions a0 i)) STATEACTIONDIM),
    memcpy self.critic.toCritic.phi1 0 (fun i => Dbl.ofInt (s1.observation i)) STATEDIM,
    ?_, ?_, ?_, ?_, ?_, ?_, ?_, ?_⟩, ?_, ?_⟩
  · simp only [NaturalActorCritic.learn, if_neg hmode]
  · intro i i0 i1
    rw [gradientLoop_spec]
    beta_reduce
    rw [if_neg (by omega)]
    unfold memcpy
    rw [if_neg (by omega), if_pos (by omega), sub_zero]
  · intro i i0 i1
    rw [gradientLoop_spec]
    beta_reduce
    rw [if_pos (by omega)]
    unfold memcpy
    rw [if_pos (by omega), add_sub_cancel_left]
  · intro q hq i i0 i1
    rw [gradientLoop_spec]
    beta_reduce
    rw [if_pos (by omega)]
    unfold memcpy
    rw [if_pos (by omega), add_sub_cancel_left]
    exact gradientEntry_fin s0 pr0 q _ i hq
  · intro i i0 i1
    unfold memcpy
    rw [if_pos (by omega), sub_zero]
  · intro i i0 i1
    unfold memcpy
    rw [if_neg (by omega)]
  · intro hz i i0 i1
    unfold memcpy
    rw [if_neg (by omega)]
    exact hz i i0 i1
  · intro self1 h1
    simp only [NaturalActorCritic.learn, if_neg hmode] at h1
    cases hstep : (self.critic.setRegisters (gradientLoop s0 pr0
      (memcpy (memcpy self.critic.toCritic.phi0 0 (fun i => Dbl.ofInt (s0.observation i))
        STATEDIM) STATEDIM (fun i => Dbl.ofInt (s0.actions a0 i)) STATEACTIONDIM))
      (memcpy self.critic.toCritic.phi1 0 (fun i => Dbl.ofInt (s1.observation i))
        STATEDIM)).step mode (Dbl.ofInt s1.transitionReward) with
    | error e =>
      rw [hstep] at h1
      exact absurd h1 (by simp [Except.map])
    | ok c1 =>
      rw [hstep] at h1
      have e : self1 = { self with critic := c1 } := (Except.ok.inj h1).symm
      have hk := CriticObject_step_toCritic mode _ c1 _ hstep
      obtain ⟨k0, k1, -⟩ := CriticObject_setRegisters_toCritic self.critic
        (gradientLoop s0 pr0
          (memcpy (memcpy self.critic.toCritic.phi0 0 (fun i => Dbl.ofInt (s0.observation i))
            STATEDIM) STATEDIM (fun i => Dbl.ofInt (s0.actions a0 i)) STATEACTIONDIM))
        (memcpy self.critic.toCritic.phi1 0 (fun i => Dbl.ofInt (s1.observation i)) STATEDIM)
      rw [e]
      show c1.toCritic.phi0 = _ ∧ c1.toCritic.phi1 = _
      rw [hk]
      exact ⟨k0, k1⟩
  · intro raw rawLSTD rawLSPE rawFullTD criticClass learning thetaDim theta gamma lambda tau hc
    obtain ⟨self0, e, -, hz⟩ := create_phi1_zero raw rawLSTD rawLSPE rawFullTD criticClass
      learning thetaDim theta gamma lambda tau hc
    exact ⟨self0, e, hz⟩
  · intro env action draw
    obtain ⟨-, -, -, -, -, -, -, t8, t9, -, t11⟩ := step_spec env action draw
    rw [t11.reward, t8, t9]

/-- Witness of C17: the sample controller in the configured mode; its probabilities are finite
and the gradient block of the register `phi1` of its critic is zero. -/
theorem C17_critic_inputs_witness :
    PETERS_TRICK_MODE ≠ PetersTrickMode.PTM_OFF ∧
    ∃ phi0 phi1 : Int → Dbl ℚ,
      sampleAgent.learn PETERS_TRICK_MODE sampleStepData sampleAgent.prevActionProbabilities 2
          sampleStepData sampleAgent.actionProbabilities 0 =
        ((sampleAgent.critic.setRegisters phi0 phi1).step PETERS_TRICK_MODE
          (Dbl.ofInt sampleStepData.transitionReward)).map
          (fun critic => { sampleAgent with critic := critic }) ∧
      phi0 3 = Dbl.fin 3 ∧
      phi0 (STATEDIM + 0) = Dbl.fin (2 - (1 / 4 * 0 + 1 / 2 * 1 + 1 / 4 * 2)) ∧
      phi1 (STATEDIM + 5) = 0 := by
  obtain ⟨-, ⟨phi0, phi1, h1, h2, -, h4, -, -, h7, -⟩, -, -⟩ :=
    C17_critic_inputs PETERS_TRICK_MODE sampleAgent sampleStepData
      sampleAgent.prevActionProbabilities 2 sampleStepData sampleAgent.actionProbabilities 0
      (by decide)
  refine ⟨by decide, phi0, phi1, h1, h2 3 (by decide) (by decide), ?_,
    h7 (fun i _ _ => rfl) _ (by decide) (by decide)⟩
  rw [h4 (fun a => if a = 1 then 1 / 2 else 1 / 4) (fun b _ _ => rfl) 0 (by decide) (by decide)]
  congr 1
  have e : sampleStepData.actionCount.toNat = 3 := rfl
  rw [e]
  simp [Finset.sum_range_succ, sampleStepData]

/-- C18 (one-step lag of the controller). With learning enabled: the first call of `step` after
`newEpisode` succeeds, leaves the critic as it is and stores the current step data,
probabilities and action; a later call is exactly one call of `learn` with the stored step
data, probabilities and action as origin and the current ones as destination, and when the
critic has room for a sample it succeeds and makes one critic update, whatever the step data
(a terminal state with `actionCount = 0` included); so an episode whose main loop makes `K`
passes (`K` environment steps) followed by the final controller step makes exactly `K` critic
updates, which a raw-sample critic counts in `n`. With learning disabled a call succeeds and
leaves the critic as it is. -/
theorem C18_one_step_lag {F : Type} [LinearOrderedField F] (exp : F → F)
    (mode : PetersTrickMode) (self : NaturalActorCritic F) (sd : StepData) (r : Dbl F) :
    (self.learning = true →
      ∃ stepped, self.newEpisode.step exp mode sd r = Except.ok stepped ∧
        stepped.1.critic = self.critic ∧ stepped.1.firstStep = false ∧
        stepped.1.prevStepData = sd ∧ stepped.1.prevAction = stepped.2 ∧
        stepped.1.prevActionProbabilities = stepped.1.actionProbabilities) ∧
    (self.learning = true → self.firstStep = false →
      self.step exp mode sd r =
        (NaturalActorCritic.learn mode
          { (self.act exp sd r).1 with action := (self.act exp sd r).2 }
          self.prevStepData self.prevActionProbabilities self.prevAction
          sd (self.act exp sd r).1.actionProbabilities (self.act exp sd r).2).map
          fun self2 =>
            ({ self2 with
                prevStepData := sd
                prevActionProbabilities := self2.actionProbabilities
                prevAction := self2.action
                firstStep := false },
              self2.action)) ∧
    (self.learning = true → self.firstStep = false →
      (∀ c0, self.critic = CriticObject.fullTD c0 → c0.n < MAXSAMPLES) →
      ∃ stepped x, self.step exp mode sd r = Except.ok stepped ∧
        self.critic.feed mode [x] = Except.ok stepped.1.critic ∧
        stepped.1.firstStep = false ∧
        stepped.1.prevStepData = sd ∧ stepped.1.prevAction = stepped.2 ∧
        stepped.1.prevActionProbabilities = stepped.1.actionProbabilities) ∧
    (∀ (env : Tetris) (d0 : Int) (rs : Nat → Dbl F) (ds : Nat → Int) (K : Nat),
      self.learning = true →
      (∀ c0, self.critic = CriticObject.fullTD c0 → c0.n + (K : Int) ≤ MAXSAMPLES) →
      ∃ result inputs, runEpisode exp mode self env d0 rs ds K = Except.ok result ∧
        inputs.length = K ∧ self.critic.feed mode inputs = Except.ok result.1.critic ∧
        ∀ c0, self.critic = CriticObject.fullTD c0 →
          ∃ cK, result.1.critic = CriticObject.fullTD cK ∧ cK.n = c0.n + (K : Int)) ∧
    (self.learning = false →
      ∃ stepped, self.step exp mode sd r = Except.ok stepped ∧
        stepped.1.critic = self.critic) := by
  refine ⟨fun hl => ?_, fun hl hf => step_later exp mode self sd r hl hf,
    fun hl hf hroom => ?_, fun env d0 rs ds K hl hcap => ?_, fun hl => ?_⟩
  · exact ⟨_, step_first exp mode self.newEpisode sd r hl rfl, rfl, rfl, rfl, rfl, rfl⟩
  · obtain ⟨stepped, x, es, -, -, f2, hx, p1, p2, p3⟩ := step_update exp mode self sd r hl hf
      hroom
    exact ⟨stepped, x, es, hx, f2, p1, p2, p3⟩
  · obtain ⟨result, inputs, e, len, hfeed⟩ := runEpisode_spec exp mode self env d0 rs ds K hl
      hcap
    refine ⟨result, inputs, e, len, hfeed, fun c0 h0 => ?_⟩
    obtain ⟨cK, eK, nK⟩ := CriticObject_feed_count mode inputs self.critic result.1.critic c0
      h0 hfeed
    exact ⟨cK, eK, by rw [nK, len]⟩
  · exact ⟨_, step_not_learning exp mode self sd r hl, rfl⟩

/-- Witness of C18: the sample controller, whose raw-sample critic is empty, in an episode of
three environment steps from a fresh environment: the critic holds three samples at the end. -/
theorem C18_one_step_lag_witness :
    sampleAgent.learning = true ∧
    (∀ c0, sampleAgent.critic = CriticObject.fullTD c0 → c0.n + ((3 : Nat) : Int) ≤ MAXSAMPLES) ∧
    ∃ result inputs,
      runEpisode sampleExp PETERS_TRICK_MODE sampleAgent freshTetris 0
        (fun _ => Dbl.fin (1 / 2)) (fun _ => 0) 3 = Except.ok result ∧
      inputs.length = 3 ∧
      sampleAgent.critic.feed PETERS_TRICK_MODE inputs = Except.ok result.1.critic ∧
      ∃ cK, result.1.critic = CriticObject.fullTD cK ∧ cK.n = 3 := by
  have hcap : ∀ c0, sampleAgent.critic = CriticObject.fullTD c0 →
      c0.n + ((3 : Nat) : Int) ≤ MAXSAMPLES := by
    intro c0 h0
    have e : c0.n = 0 := by
      have := CriticObject.fullTD.inj h0
      rw [← this]
    rw [e]
    decide
  obtain ⟨result, inputs, e, len, hfeed, hn⟩ :=
    (C18_one_step_lag sampleExp PETERS_TRICK_MODE sampleAgent sampleStepData
      (Dbl.fin (1 / 2))).2.2.2.1 freshTetris 0 (fun _ => Dbl.fin (1 / 2)) (fun _ => 0) 3 rfl hcap
  obtain ⟨cK, eK, nK⟩ := hn _ rfl
  exact ⟨rfl, hcap, result, inputs, e, len, hfeed, cK, eK, by rw [nK]; rfl⟩

/-- C19 (reset): after `newEpisode`, from any prior state `s` and for any value `u` in `[0,1)`
returned by `rstream.rand()`, every board cell is empty, every heightmap entry and the heightmap
minimum are `ROWS = 20`, `clearedRows` and `totalClearedRows` are 0, the terminal flag is clear,
the falling piece is `floor(7u)` and lies in `0..6`, and the step data hold reward 0, an
observation that is zero except for the bias 1 (the last entry), the action count of the falling
piece and no action flagged terminal. -/
theorem C19_reset {F : Type} [LinearOrderedField F] [FloorRing F] (s : Tetris) (u : F)
    (h0 : 0 ≤ u) (h1 : u < 1) :
    (∀ r c, 0 ≤ r → r < ROWS → 0 ≤ c → c < COLUMNS →
      (s.newEpisode (pieceDraw u)).board r c = false) ∧
    (∀ c, 0 ≤ c → c < COLUMNS → (s.newEpisode (pieceDraw u)).boardHeightmap c = ROWS) ∧
    (s.newEpisode (pieceDraw u)).boardHeightmapMin = ROWS ∧ ROWS = 20 ∧
    (s.newEpisode (pieceDraw u)).clearedRows = 0 ∧
    (s.newEpisode (pieceDraw u)).totalClearedRows = 0 ∧
    (s.newEpisode (pieceDraw u)).terminalState = false ∧
    (s.newEpisode (pieceDraw u)).fallingPiece = ⌊7 * u⌋ ∧
    0 ≤ (s.newEpisode (pieceDraw u)).fallingPiece ∧
    (s.newEpisode (pieceDraw u)).fallingPiece ≤ 6 ∧
    (s.newEpisode (pieceDraw u)).stepData.transitionReward = 0 ∧
    (∀ i, 0 ≤ i → i < STATEDIM →
      (s.newEpisode (pieceDraw u)).stepData.observation i = if i = STATEDIM - 1 then 1 else 0) ∧
    (s.newEpisode (pieceDraw u)).stepData.actionCount =
      pieceActionCounts (s.newEpisode (pieceDraw u)).fallingPiece ∧
    (∀ a, 0 ≤ a → a < (s.newEpisode (pieceDraw u)).stepData.actionCount →
      (s.newEpisode (pieceDraw u)).stepData.isActionTerminal a = false) := by
  obtain ⟨d0, d1, d2⟩ := pieceDraw_range u h0 h1
  obtain ⟨n1, n2, n3, n4, n5, n6, n7, n8⟩ := newEpisode_spec s (pieceDraw u)
  have hC : COLUMNS = 10 := rfl
  have hR : ROWS = 20 := rfl
  have hS : STATEDIM = 22 := rfl
  have hb : ∀ r c, 0 ≤ r → r < ROWS → 0 ≤ c → c < COLUMNS →
      (s.newEpisode (pieceDraw u)).board r c = false := by
    intro r c r0 r1 c0 c1
    rw [n1, resetState_board, if_pos ⟨⟨r0, r1⟩, c0, c1⟩]
  have hh : ∀ c, 0 ≤ c → c < COLUMNS → (s.newEpisode (pieceDraw u)).boardHeightmap c = ROWS := by
    intro c c0 c1
    rw [n2, resetState_heightmap, if_pos ⟨c0, c1⟩]
  have hcount : (s.newEpisode (pieceDraw u)).stepData.actionCount =
      pieceActionCounts (s.newEpisode (pieceDraw u)).fallingPiece := by
    have := n8.count
    rw [n4] at this
    simpa using this
  refine ⟨hb, hh, n3, rfl, n7, n6, n4, by rw [n5, d2], by rw [n5]; exact d0,
    by rw [n5]; omega, by rw [n8.reward, n7], ?_, hcount, ?_⟩
  · intro i i0 i1
    obtain ⟨old, ho⟩ := n8.observation
    rw [ho, computeObservation_nonterminal _ _ n4, holesUnderTopline_empty _ _ hh, n3]
    have e1 : ∀ c, 0 ≤ c → c < COLUMNS →
        ROWS - (s.newEpisode (pieceDraw u)).boardHeightmap c = 0 := by
      intro c c0 c1
      rw [hh c c0 c1]; omega
    split_ifs with a1 a2 a3 a4 a5 a6 a7 a8 a9 a10 <;>
      first
        | rfl
        | (exfalso; omega)
        | exact e1 i (by omega) (by omega)
        | (rw [hh _ (by omega) (by omega), hh _ (by omega) (by omega)]; decide)
  · intro a a0 a1
    rw [hcount] at a1
    rw [n8.terminal n4 a a0 a1, dropPiece_terminal, n4]
    have hl := landingRow_empty (s.newEpisode (pieceDraw u)) a hh (by rw [n5]; exact d0)
      (by rw [n5]; exact d1) a0 a1
    have sh := expandAction_shape (s.newEpisode (pieceDraw u)).fallingPiece a
      (by rw [n5]; exact d0) (by rw [n5]; exact d1) a0 a1
    have := sh.height_le
    have : ¬ (landingRow (s.newEpisode (pieceDraw u)) a < 0) := by omega
    simp [this]

/-- Witness of C19: a fresh environment and the draw `1/2`, which selects piece 3. -/
theorem C19_reset_witness :
    (0 : ℚ) ≤ 1 / 2 ∧ (1 / 2 : ℚ) < 1 ∧
    (freshTetris.newEpisode (pieceDraw (1 / 2 : ℚ))).fallingPiece = ⌊7 * (1 / 2 : ℚ)⌋ ∧
    (freshTetris.newEpisode (pieceDraw (1 / 2 : ℚ))).stepData.actionCount =
      pieceActionCounts (freshTetris.newEpisode (pieceDraw (1 / 2 : ℚ))).fallingPiece ∧
    pieceDraw (1 / 2 : ℚ) = 3 :=
  ⟨by norm_num, by norm_num,
    (C19_reset freshTetris (1 / 2 : ℚ) (by norm_num) (by norm_num)).2.2.2.2.2.2.2.1,
    (C19_reset freshTetris (1 / 2 : ℚ) (by norm_num) (by norm_num)).2.2.2.2.2.2.2.2.2.2.2.2.1,
    by
      unfold pieceDraw truncToInt
      rw [if_pos (by norm_num), Int.floor_eq_iff]
      norm_num⟩

/-- C20 (square piece on the empty board): on the board left by `newEpisode` with the square as
falling piece (from any prior state `t`), for every action `a` in `0..8` the call `step(a)`
returns reward 0, fills exactly the cells of rows 18 and 19 in columns `a` and `a + 1`, sets the
heightmap to 18 in these two columns and 20 elsewhere, and stores an observation whose height
entries are 2 at positions `a` and `a + 1` and 0 elsewhere, with maximum height 2, hole count 0
and bias 1; for `a = 0` the height entries are `[2,2,0,0,0,0,0,0,0,0]`. -/
theorem C20_square_on_empty_board (t : Tetris) (a draw : Int) (h0 : 0 ≤ a) (h1 : a ≤ 8) :
    ((t.newEpisode 0).step a draw).2 = 0 ∧
    (∀ r c, 0 ≤ r → r < ROWS → 0 ≤ c → c < COLUMNS →
      ((t.newEpisode 0).step a draw).1.board r c =
        decide ((r = 18 ∨ r = 19) ∧ (c = a ∨ c = a + 1))) ∧
    (∀ c, 0 ≤ c → c < COLUMNS →
      ((t.newEpisode 0).step a draw).1.boardHeightmap c = if c = a ∨ c = a + 1 then 18 else 20) ∧
    (∀ i, 0 ≤ i → i < COLUMNS →
      ((t.newEpisode 0).step a draw).1.stepData.observation i =
        if i = a ∨ i = a + 1 then 2 else 0) ∧
    ((t.newEpisode 0).step a draw).1.stepData.observation (2 * COLUMNS - 1) = 2 ∧
    ((t.newEpisode 0).step a draw).1.stepData.observation (2 * COLUMNS - 1 + 1) = 0 ∧
    ((t.newEpisode 0).step a draw).1.stepData.observation (2 * COLUMNS - 1 + 2) = 1 ∧
    (a = 0 → (List.range 10).map
      (fun i : Nat => ((t.newEpisode 0).step a draw).1.stepData.observation i) =
        [2, 2, 0, 0, 0, 0, 0, 0, 0, 0]) := by
  obtain ⟨n1, n2, n3, n4, n5, n6, n7, n8⟩ := newEpisode_spec t 0
  have hC : COLUMNS = 10 := rfl
  have hR : ROWS = 20 := rfl
  have hI : BoardInv (t.newEpisode 0).board (t.newEpisode 0).boardHeightmap
      (t.newEpisode 0).boardHeightmapMin := by
    rw [n1, n2, n3]
    exact resetState_inv t 0
  obtain ⟨q1, q2, q3, q4, q5, q6⟩ := square_on_empty (t.newEpisode 0) a hI
    (fun r c r0 r1 c0 c1 => by rw [n1, resetState_board, if_pos ⟨⟨r0, r1⟩, c0, c1⟩])
    (fun c c0 c1 => by rw [n2, resetState_heightmap, if_pos ⟨c0, c1⟩]) n5 h0 h1
  obtain ⟨t1, t2, t3, t4, t5, t6, t7, t8, t9, t10, t11⟩ := step_spec (t.newEpisode 0) a draw
  have hterm : ((t.newEpisode 0).dropPiece a).1.terminalState = false := by rw [q2, n4]
  have hobs : ∀ i, 0 ≤ i → i < COLUMNS →
      ((t.newEpisode 0).step a draw).1.stepData.observation i =
        if i = a ∨ i = a + 1 then 2 else 0 := by
    intro i i0 i1
    rw [t10, computeObservation_nonterminal _ _ hterm, q4 i i0 i1]
    split_ifs <;> first | (exfalso; omega) | omega
  refine ⟨by rw [t9, q1], fun r c r0 r1 c0 c1 => by rw [t1, q3 r c r0 r1 c0 c1],
    fun c c0 c1 => by rw [t2, q4 c c0 c1], hobs, ?_, ?_, ?_, ?_⟩
  · rw [t10, computeObservation_nonterminal _ _ hterm, q5]
    norm_num
  · rw [t10, computeObservation_nonterminal _ _ hterm, q6]
    norm_num
  · rw [t10, computeObservation_nonterminal _ _ hterm]
    norm_num
  · intro ha
    subst ha
    simp only [List.range, List.range.loop, List.map]
    rw [hobs _ (by decide) (by decide), hobs _ (by decide) (by decide),
      hobs _ (by decide) (by decide), hobs _ (by decide) (by decide),
      hobs _ (by decide) (by decide), hobs _ (by decide) (by decide),
      hobs _ (by decide) (by decide), hobs _ (by decide) (by decide),
      hobs _ (by decide) (by decide), hobs _ (by decide) (by decide)]
    decide

/-- Witness of C20: the square dropped at the left edge after `newEpisode` on a fresh
environment. -/
theorem C20_square_on_empty_board_witness :
    (0 : Int) ≤ 0 ∧ (0 : Int) ≤ 8 ∧
    ((freshTetris.newEpisode 0).step 0 1).2 = 0 ∧
    (List.range 10).map
      (fun i : Nat => ((freshTetris.newEpisode 0).step 0 1).1.stepData.observation i) =
        [2, 2, 0, 0, 0, 0, 0, 0, 0, 0] :=
  ⟨by decide, by decide,
    (C20_square_on_empty_board freshTetris 0 1 (by decide) (by decide)).1,
    (C20_square_on_empty_board freshTetris 0 1 (by decide) (by decide)).2.2.2.2.2.2.2 rfl⟩

/-- Counterexample to C21 as stated: with `gamma = lambda = 1`, `phi0` the unit vector of index
0, `phi1 = 0` and reward 1, two replayed steps of a freshly constructed LSTD critic give
`A[0][0] = 3` and `b[0] = 3`, while one step gives `A[0][0] = 1` and `b[0] = 1`: the
statistics are tripled, not doubled. -/
theorem C21_replay_counterexample :
    ∃ t, LSTDLambda.create sampleLSTD VDIM 1 1 = Except.ok t ∧
      (t.feed PETERS_TRICK_MODE (List.replicate 2 (unitFeature, fun _ => 0, 1))).A 0 0 = 3 ∧
      (t.feed PETERS_TRICK_MODE (List.replicate 1 (unitFeature, fun _ => 0, 1))).A 0 0 = 1 ∧
      (t.feed PETERS_TRICK_MODE (List.replicate 2 (unitFeature, fun _ => 0, 1))).b 0 = 3 ∧
      (t.feed PETERS_TRICK_MODE (List.replicate 1 (unitFeature, fun _ => 0, 1))).b 0 = 1 ∧
      (t.feed PETERS_TRICK_MODE (List.replicate 2 (unitFeature, fun _ => 0, 1))).A 0 0 ≠
        2 * (t.feed PETERS_TRICK_MODE (List.replicate 1 (unitFeature, fun _ => 0, 1))).A 0 0 ∧
      (t.feed PETERS_TRICK_MODE (List.replicate 2 (unitFeature, fun _ => 0, 1))).b 0 ≠
        2 * (t.feed PETERS_TRICK_MODE (List.replicate 1 (unitFeature, fun _ => 0, 1))).b 0 := by
  obtain ⟨t, e, -, b2, A2⟩ := LSTDLambda_fresh_replay PETERS_TRICK_MODE (by decide) sampleLSTD
    1 1 unitFeature (fun _ => 0) 1 2
  obtain ⟨t1, e1, -, b1, A1⟩ := LSTDLambda_fresh_replay PETERS_TRICK_MODE (by decide) sampleLSTD
    1 1 unitFeature (fun _ => 0) 1 1
  rw [e] at e1
  cases e1
  have g2 : replayGain ((1 : Int) * 1) 2 = 3 := by decide
  have g1 : replayGain ((1 : Int) * 1) 1 = 1 := by decide
  have hA2 := A2 0 0 (by decide) (by decide) (by decide) (by decide)
  have hA1 := A1 0 0 (by decide) (by decide) (by decide) (by decide)
  have hb2 := b2 0 (by decide) (by decide)
  have hb1 := b1 0 (by decide) (by decide)
  rw [g2] at hA2 hb2
  rw [g1] at hA1 hb1
  have u : unitFeature 0 = 1 := rfl
  rw [u] at hA2 hA1 hb2 hb1
  refine ⟨t, e, ?_, ?_, ?_, ?_, ?_, ?_⟩
  · rw [hA2]; decide
  · rw [hA1]; decide
  · rw [hb2]; decide
  · rw [hb1]; decide
  · rw [hA2, hA1]; decide
  · rw [hb2, hb1]; decide

/-- C21, amended (replay of one transition). In exact arithmetic (the values form a
commutative ring), for a freshly constructed LSTD critic outside the corrected mode and a
freshly constructed LSPE critic, `N` calls of `step` with the same registers and reward give
`B = N * B1` for LSPE, and `A = G * A1`, `b = G * b1`, `z = g * z1` for both, where
`g = 1 + q + ... + q^(N-1)` with `q = gamma * lambda` is the trace factor and `G` is the sum
of the trace factors of the steps `1..N`; `G = N` when `gamma * lambda = 0`, and
`2 G = N (N + 1)` when `gamma * lambda = 1`. -/
theorem C21_replay {D : Type} [CommRing D] (mode : PetersTrickMode)
    (hmode : mode ≠ PetersTrickMode.PTM_CORRECTED) (rawT : LSTDLambda D) (rawP : LSPELambda D)
    (gamma lambda : D) (phi0 phi1 : Int → D) (r : D) (N : Nat) :
    ∃ t p, LSTDLambda.create rawT VDIM gamma lambda = Except.ok t ∧
      LSPELambda.create rawP VDIM gamma lambda = Except.ok p ∧
      (∀ i j, 0 ≤ i → i < VDIM → 0 ≤ j → j < VDIM →
        (t.feed mode (List.replicate N (phi0, phi1, r))).A i j =
          replayGain (gamma * lambda) N * (t.feed mode [(phi0, phi1, r)]).A i j ∧
        (t.feed mode (List.replicate N (phi0, phi1, r))).b i =
          replayGain (gamma * lambda) N * (t.feed mode [(phi0, phi1, r)]).b i ∧
        (t.feed mode (List.replicate N (phi0, phi1, r))).z i =
          traceGain (gamma * lambda) N * (t.feed mode [(phi0, phi1, r)]).z i ∧
        (p.feed (List.replicate N (phi0, phi1, r))).A i j =
          replayGain (gamma * lambda) N * (p.feed [(phi0, phi1, r)]).A i j ∧
        (p.feed (List.replicate N (phi0, phi1, r))).b i =
          replayGain (gamma * lambda) N * (p.feed [(phi0, phi1, r)]).b i ∧
        (p.feed (List.replicate N (phi0, phi1, r))).z i =
          traceGain (gamma * lambda) N * (p.feed [(phi0, phi1, r)]).z i ∧
        (p.feed (List.replicate N (phi0, phi1, r))).B i j =
          (N : D) * (p.feed [(phi0, phi1, r)]).B i j) ∧
      (gamma * lambda = 0 → replayGain (gamma * lambda) N = N) ∧
      (gamma * lambda = 1 → 2 * replayGain (gamma * lambda) N = N * (N + 1)) := by
  obtain ⟨t, et, zt, bt, At⟩ := LSTDLambda_fresh_replay mode hmode rawT gamma lambda phi0 phi1
    r N
  obtain ⟨t1, et1, zt1, bt1, At1⟩ := LSTDLambda_fresh_replay mode hmode rawT gamma lambda phi0
    phi1 r 1
  obtain ⟨p, ep, zp, bp, Ap, Bp⟩ := LSPELambda_fresh_replay rawP gamma lambda phi0 phi1 r N
  obtain ⟨p1, ep1, zp1, bp1, Ap1, Bp1⟩ := LSPELambda_fresh_replay rawP gamma lambda phi0 phi1
    r 1
  rw [et] at et1
  cases et1
  rw [ep] at ep1
  cases ep1
  have g1 : traceGain (gamma * lambda) 1 = 1 := by simp [traceGain]
  refine ⟨t, p, et, ep, fun i j i0 i1 j0 j1 => ?_, fun h => ?_, fun h => ?_⟩
  · have e1 : [(phi0, phi1, r)] = List.replicate 1 (phi0, phi1, r) := rfl
    rw [e1, At i j i0 i1 j0 j1, At1 i j i0 i1 j0 j1, bt i i0 i1, bt1 i i0 i1, zt i i0 i1,
      zt1 i i0 i1, Ap i j i0 i1 j0 j1, Ap1 i j i0 i1 j0 j1, bp i i0 i1, bp1 i i0 i1,
      zp i i0 i1, zp1 i i0 i1, Bp i j i0 i1 j0 j1, Bp1 i j i0 i1 j0 j1, replayGain_first, g1]
    simp
  · rw [h]
    exact replayGain_zero N
  · rw [h]
    exact replayGain_one N

/-- Witness of C21, amended: the integers, `gamma = lambda = 1` and three replayed steps in the
shipped mode. -/
theorem C21_replay_witness :
    PETERS_TRICK_MODE ≠ PetersTrickMode.PTM_CORRECTED ∧
    ∃ t p, LSTDLambda.create sampleLSTD VDIM 1 1 = Except.ok t ∧
      LSPELambda.create sampleLSPE VDIM 1 1 = Except.ok p ∧
      (t.feed PETERS_TRICK_MODE (List.replicate 3 (unitFeature, fun _ => 0, 1))).A 0 0 =
        replayGain ((1 : Int) * 1) 3 *
          (t.feed PETERS_TRICK_MODE [(unitFeature, fun _ => 0, 1)]).A 0 0 ∧
      (p.feed (List.replicate 3 (unitFeature, fun _ => 0, 1))).B 0 0 =
        ((3 : Nat) : Int) * (p.feed [(unitFeature, fun _ => 0, 1)]).B 0 0 ∧
      replayGain ((1 : Int) * 1) 3 = 6 :=
  ⟨by decide,
    (C21_replay PETERS_TRICK_MODE (by decide) sampleLSTD sampleLSPE 1 1 unitFeature
      (fun _ => 0) 1 3).imp fun _ h => h.imp fun _ h2 =>
        ⟨h2.1, h2.2.1, (h2.2.2.1 0 0 (by decide) (by decide) (by decide) (by decide)).1,
          (h2.2.2.1 0 0 (by decide) (by decide) (by decide) (by decide)).2.2.2.2.2.2,
          by decide⟩⟩

/-- Counterexample to C22 as stated: the constructor of the controller succeeds for the LSPE
critic (class 1), and the first two calls of `step` in the corrected mode succeed as well. -/
theorem C22_corrected_mode_counterexample :
    ∃ agent c stepped1 stepped2,
      NaturalActorCritic.create sampleAgent sampleRawLSTD sampleRawLSPE sampleRawFullTD 1 true
        STATEACTIONDIM sampleAgent.theta (Dbl.fin 1) (Dbl.fin 1) (Dbl.fin 2) = Except.ok agent ∧
      agent.critic = CriticObject.lspe c ∧
      agent.newEpisode.step sampleExp PetersTrickMode.PTM_CORRECTED sampleStepData
        (Dbl.fin (1 / 2)) = Except.ok stepped1 ∧
      stepped1.1.step sampleExp PetersTrickMode.PTM_CORRECTED sampleStepData
        (Dbl.fin (1 / 2)) = Except.ok stepped2 := by
  obtain ⟨s1, e1, -, l1, f1, c1⟩ := step_first_ok sampleExp PetersTrickMode.PTM_CORRECTED
    (({ sampleAgent with
        critic := (CriticObject.lspe
          { sampleRawLSPE with
            VDim := STATEDIM + STATEACTIONDIM
            gamma := Dbl.fin 1
            lambda := Dbl.fin 1
            B := memsetZero2 sampleRawLSPE.B VDIM VDIM
            A := memsetZero2 sampleRawLSPE.A VDIM VDIM
            b := memsetZero sampleRawLSPE.b VDIM
            z := memsetZero sampleRawLSPE.z VDIM }).setRegisters sampleRawLSPE.phi0
              (memsetZero sampleRawLSPE.phi1 VDIM) } : NaturalActorCritic ℚ).newEpisode)
    sampleStepData (Dbl.fin (1 / 2)) rfl rfl
  obtain ⟨s2, -, e2, -⟩ := step_update sampleExp PetersTrickMode.PTM_CORRECTED s1.1
    sampleStepData (Dbl.fin (1 / 2)) l1 f1 (fun c0 h0 => by rw [c1] at h0; cases h0)
  exact ⟨_, _, s1, s2, rfl, rfl, e1, e2⟩

/-- C22, amended (critic kind and variance-reduction mode). The constructor of the controller
does not read the mode: it succeeds for each of the three critic kinds and builds a critic of
that kind. With an LSPE or raw-sample critic the corrected mode acts as the mode `PTM_ON`: the
critic step and `learn` give the same result in both modes; only the LSTD step reads the
corrected mode. -/
theorem C22_corrected_mode {F : Type} [LinearOrderedField F] (raw : NaturalActorCritic F)
    (rawLSTD : LSTDLambda (Dbl F)) (rawLSPE : LSPELambda (Dbl F))
    (rawFullTD : FullTDLambda (Dbl F)) (criticClass : Int) (learning : Bool) (thetaDim : Int)
    (theta : Int → Dbl F) (gamma lambda tau : Dbl F)
    (hc : criticClass = 0 ∨ criticClass = 1 ∨ criticClass = 2) :
    ∃ agent, NaturalActorCritic.create raw rawLSTD rawLSPE rawFullTD criticClass learning
        thetaDim theta gamma lambda tau = Except.ok agent ∧
      (criticClass = 0 → ∃ c, agent.critic = CriticObject.lstd c) ∧
      (criticClass = 1 → ∃ c, agent.critic = CriticObject.lspe c) ∧
      (criticClass = 2 → ∃ c, agent.critic = CriticObject.fullTD c) ∧
      ∀ (self : NaturalActorCritic F), (∀ c0, self.critic ≠ CriticObject.lstd c0) →
        (∀ r, self.critic.step PetersTrickMode.PTM_CORRECTED r =
          self.critic.step PetersTrickMode.PTM_ON r) ∧
        ∀ s0 pr0 a0 s1 pr1 a1,
          self.learn PetersTrickMode.PTM_CORRECTED s0 pr0 a0 s1 pr1 a1 =
            self.learn PetersTrickMode.PTM_ON s0 pr0 a0 s1 pr1 a1 := by
  have hrest : ∀ (self : NaturalActorCritic F), (∀ c0, self.critic ≠ CriticObject.lstd c0) →
      (∀ r, self.critic.step PetersTrickMode.PTM_CORRECTED r =
        self.critic.step PetersTrickMode.PTM_ON r) ∧
      ∀ s0 pr0 a0 s1 pr1 a1,
        self.learn PetersTrickMode.PTM_CORRECTED s0 pr0 a0 s1 pr1 a1 =
          self.learn PetersTrickMode.PTM_ON s0 pr0 a0 s1 pr1 a1 := by
    intro self hk
    refine ⟨fun r => CriticObject_step_mode _ _ _ r hk, fun s0 pr0 a0 s1 pr1 a1 => ?_⟩
    unfold NaturalActorCritic.learn
    dsimp only
    rw [if_neg (by decide), if_neg (by decide)]
    rw [CriticObject_step_mode PetersTrickMode.PTM_CORRECTED PetersTrickMode.PTM_ON _ _
      (CriticObject_setRegisters_kind _ _ _ hk)]
  rcases hc with h | h | h <;> subst h
  · exact ⟨_, rfl, fun _ => ⟨_, rfl⟩, fun h => absurd h (by decide),
      fun h => absurd h (by decide), hrest⟩
  · exact ⟨_, rfl, fun h => absurd h (by decide), fun _ => ⟨_, rfl⟩,
      fun h => absurd h (by decide), hrest⟩
  · exact ⟨_, rfl, fun h => absurd h (by decide), fun h => absurd h (by decide),
      fun _ => ⟨_, rfl⟩, hrest⟩

/-- Witness of C22, amended: the raw-sample critic (class 2) over the rationals. -/
theorem C22_corrected_mode_witness :
    ∃ agent, NaturalActorCritic.create sampleAgent sampleRawLSTD sampleRawLSPE sampleRawFullTD
      2 true STATEACTIONDIM sampleAgent.theta (Dbl.fin 1) (Dbl.fin 1) (Dbl.fin 2) =
        Except.ok agent ∧
      ∃ c, agent.critic = CriticObject.fullTD c :=
  (C22_corrected_mode sampleAgent sampleRawLSTD sampleRawLSPE sampleRawFullTD 2 true
    STATEACTIONDIM sampleAgent.theta (Dbl.fin 1) (Dbl.fin 1) (Dbl.fin 2)
    (Or.inr (Or.inr rfl))).imp fun _ h => ⟨h.1, h.2.2.2.1 rfl⟩

/-- Counterexample to C23 as stated: the bias entry of the action row of a terminating action
(the square dropped in columns 3-4 of the stack that reaches row 1) equals the bias entry of the
observation of a non-terminal state (the state after `newEpisode`); both are 1. -/
theorem C23_bias_constants_counterexample :
    highStack.computeActions.stepData.isActionTerminal 3 = true ∧
    (freshTetris.newEpisode 0).terminalState = false ∧
    highStack.computeActions.stepData.actions 3 21 =
      (freshTetris.newEpisode 0).stepData.observation 21 ∧
    TERMINAL_BIAS_VALUE_A = 1 := by
  refine ⟨by decide!, (newEpisode_spec freshTetris 0).2.2.2.1, ?_, rfl⟩
  obtain ⟨old, ho⟩ := (newEpisode_spec freshTetris 0).2.2.2.2.2.2.2.observation
  rw [ho, computeObservation_nonterminal _ _ (newEpisode_spec freshTetris 0).2.2.2.1,
    if_pos rfl]
  decide!

/-- C23, amended (bias constants). The bias written for an action that leads to termination,
`TERMINAL_BIAS_VALUE_A`, equals the bias 1 that `computeObservation` writes for a non-terminal
state; both differ from the bias `TERMINAL_BIAS_VALUE_S` that it writes for a terminal state. -/
theorem C23_bias_constants (s : Tetris) (obs : Int → Int) :
    (s.terminalState = false → s.computeObservation obs 21 = TERMINAL_BIAS_VALUE_A) ∧
    (s.terminalState = true → s.computeObservation obs 21 = TERMINAL_BIAS_VALUE_S) ∧
    (∀ a, s.terminalState = false → 0 ≤ a → a < s.computeActions.stepData.actionCount →
      s.computeActions.stepData.isActionTerminal a = true →
      s.computeActions.stepData.actions a 21 = TERMINAL_BIAS_VALUE_A) ∧
    TERMINAL_BIAS_VALUE_A = 1 ∧ TERMINAL_BIAS_VALUE_S = 0 ∧
    TERMINAL_BIAS_VALUE_A ≠ TERMINAL_BIAS_VALUE_S := by
  refine ⟨fun h => ?_, fun h => ?_, fun a hterm a0 a1 hT => ?_, rfl, rfl, by decide⟩
  · rw [computeObservation_nonterminal _ _ h]
    rfl
  · rw [computeObservation_terminal _ _ h]
    rfl
  · obtain ⟨_, _, _, _, _, _, _, _, _, _, l11, l12, l13⟩ := computeActions_spec s
    rw [l11, hterm] at a1
    simp only [Bool.false_eq_true, if_false] at a1
    rw [l13 a, if_pos ⟨hterm, a0, a1⟩] at hT
    rw [l12 a, if_pos ⟨hterm, a0, a1⟩]
    simp [actionRow, hT, COLUMNS]

/-- Witness of C23, amended: the stack that reaches row 1, where action 3 terminates. -/
theorem C23_bias_constants_witness :
    highStack.terminalState = false ∧
    highStack.computeObservation (fun _ => 0) 21 = TERMINAL_BIAS_VALUE_A ∧
    highStack.computeActions.stepData.actions 3 21 = TERMINAL_BIAS_VALUE_A :=
  ⟨rfl, (C23_bias_constants highStack (fun _ => 0)).1 rfl,
    (C23_bias_constants highStack (fun _ => 0)).2.2.1 3 rfl (by decide) (by decide!)
      (by decide!)⟩

/-- C24 (reward feature of a terminating action), what the code does: in every non-terminal
state, an action that `computeActions` flags as terminal is one whose landing row is negative;
its trial drop returns 0 before the piece is placed and before any row is cleared, so the
immediate-reward feature of its action row is 0, and the bias feature is
`TERMINAL_BIAS_VALUE_A`. -/
theorem C24_terminating_reward (s : Tetris) (a : Int) (hterm : s.terminalState = false)
    (ha0 : 0 ≤ a) (ha1 : a < pieceActionCounts s.fallingPiece)
    (hT : s.computeActions.stepData.isActionTerminal a = true) :
    landingRow s a < 0 ∧
    s.dropPiece a = ({ s with terminalState := true }, 0) ∧
    s.computeActions.stepData.actions a (2 * COLUMNS - 1 + 3) = 0 ∧
    s.computeActions.stepData.actions a (2 * COLUMNS - 1 + 2) = TERMINAL_BIAS_VALUE_A := by
  obtain ⟨-, -, -, -, -, -, -, -, -, -, -, l12, l13⟩ := computeActions_spec s
  rw [l13 a, if_pos ⟨hterm, ha0, ha1⟩] at hT
  have hneg : landingRow s a < 0 := by
    have h := dropPiece_terminal s a
    rw [hT, hterm, Bool.or_false] at h
    exact of_decide_eq_true h.symm
  have hd := dropPiece_overflow s a hneg
  refine ⟨hneg, hd, ?_, ?_⟩
  · rw [l12 a, if_pos ⟨hterm, ha0, ha1⟩, actionRow, set1_apply, if_pos rfl, hd]
  · rw [l12 a, if_pos ⟨hterm, ha0, ha1⟩, actionRow, set1_apply, if_neg (by decide), hT,
      if_pos rfl, set1_apply, if_pos rfl]

/-- Witness of C24: in the stack that reaches the top with row 2 lacking only its cell in
column 9, the upright bar in column 9 (action 16) would fill that cell, but its landing row is
-1: the action is flagged terminal and its immediate-reward feature is 0. -/
theorem C24_terminating_reward_witness :
    BoardInv lineAtTop.board lineAtTop.boardHeightmap lineAtTop.boardHeightmapMin ∧
    lineAtTop.terminalState = false ∧
    lineAtTop.computeActions.stepData.isActionTerminal 16 = true ∧
    isFullRow (rowOf (placedBoard lineAtTop 16) 2) = true ∧
    landingRow lineAtTop 16 = -1 ∧
    lineAtTop.computeActions.stepData.actions 16 22 = 0 ∧
    lineAtTop.computeActions.stepData.actions 16 21 = 1 :=
  ⟨lineAtTop_inv, rfl, by decide!, by decide!, by decide!,
    (C24_terminating_reward lineAtTop 16 rfl (by decide) (by decide!) (by decide!)).2.2.1,
    (C24_terminating_reward lineAtTop 16 rfl (by decide) (by decide!) (by decide!)).2.2.2⟩

/-- Counterexample to C25 as stated: after the S piece has been dropped at the left edge of a
fresh board, column 0 has its topmost filled cell in row 18 with an empty cell below it: the
scan from the top counts one filled cell, but the heightmap entry is 18, not `ROWS - 1`. -/
theorem C25_heightmap_count_counterexample :
    Reachable holeMade ∧ holeMade.boardHeightmap 0 = 18 ∧ topRun holeMade.board 0 = 1 ∧
    holeMade.board 18 0 = true ∧ holeMade.board 19 0 = false ∧
    holeMade.boardHeightmap 0 ≠ ROWS - (topRun holeMade.board 0 : Int) :=
  ⟨holeMade_reachable, by decide!, by decide!, by decide!, by decide!, by decide!⟩

/-- C25, amended (heightmap and the column scan). For any sequence of valid actions from
`newEpisode` and every column `col`, `boardHeightmap[col]` is the number of empty cells that a
scan of the column from the top meets before the first filled cell (the row of the topmost
filled cell, `ROWS` for an empty column); the run of filled cells counted from there down to
the first empty cell or the floor is at most the column height `ROWS - boardHeightmap[col]`,
and equals it exactly when the column has no empty cell below its topmost filled cell. -/
theorem C25_heightmap_count (s : Tetris) (h : Reachable s) (col : Int) (c0 : 0 ≤ col)
    (c1 : col < COLUMNS) :
    s.boardHeightmap col = (leadingEmpty s.board col : Int) ∧
    (s.boardHeightmap col < ROWS → s.board (s.boardHeightmap col) col = true) ∧
    (∀ r, 0 ≤ r → r < s.boardHeightmap col → s.board r col = false) ∧
    (topRun s.board col : Int) ≤ ROWS - s.boardHeightmap col ∧
    ((topRun s.board col : Int) = ROWS - s.boardHeightmap col ↔
      ∀ r, s.boardHeightmap col ≤ r → r < ROWS → s.board r col = true) := by
  obtain ⟨hI, -⟩ := reachable_inv s h
  obtain ⟨e1, e2, e3⟩ := heightmap_scan s.board s.boardHeightmap s.boardHeightmapMin
    hI.toStackInv col c0 c1
  exact ⟨e1.symm, hI.hm_filled col c0 c1, hI.hm_above col c0 c1, e2, e3⟩

/-- Witness of C25, amended: column 1 of the board with the S piece at the left edge, where the
run of two filled cells is the column height. -/
theorem C25_heightmap_count_witness :
    Reachable holeMade ∧ holeMade.boardHeightmap 1 = (leadingEmpty holeMade.board 1 : Int) ∧
    (topRun holeMade.board 1 : Int) ≤ ROWS - holeMade.boardHeightmap 1 :=
  ⟨holeMade_reachable,
    (C25_heightmap_count holeMade holeMade_reachable 1 (by decide) (by decide)).1,
    (C25_heightmap_count holeMade holeMade_reachable 1 (by decide) (by decide)).2.2.2.1⟩

/-- C26 (the gravity drop is collision-free and supported). For every state that satisfies the
heightmap invariant and every legal action whose landing row is not negative: every cell of the
placed piece lies on an empty cell of the board, inside rows `0..ROWS-1` and columns
`0..COLUMNS-1`; the placing loops add exactly 4 filled cells; and in at least one column of the
piece the cell directly below the lowest cell of the piece is the floor or a filled cell. -/
theorem C26_gravity_drop (s : Tetris) (a : Int)
    (hI : StackInv s.board s.boardHeightmap s.boardHeightmapMin)
    (hp0 : 0 ≤ s.fallingPiece) (hp1 : s.fallingPiece < 7) (ha0 : 0 ≤ a)
    (ha1 : a < pieceActionCounts s.fallingPiece) (hrow : 0 ≤ landingRow s a) :
    (∀ r c, pieceCell s.fallingPiece (expandAction s.fallingPiece a).1 (landingRow s a)
        (expandAction s.fallingPiece a).2 r c = true →
      s.board r c = false ∧ 0 ≤ r ∧ r < ROWS ∧ 0 ≤ c ∧ c < COLUMNS) ∧
    (∀ r c, placePiece s.board s.fallingPiece (expandAction s.fallingPiece a).1
        (landingRow s a) (expandAction s.fallingPiece a).2 r c =
      (s.board r c || pieceCell s.fallingPiece (expandAction s.fallingPiece a).1
        (landingRow s a) (expandAction s.fallingPiece a).2 r c)) ∧
    filledCells (placePiece s.board s.fallingPiece (expandAction s.fallingPiece a).1
      (landingRow s a) (expandAction s.fallingPiece a).2) = filledCells s.board + 4 ∧
    (∃ pc, 0 ≤ pc ∧ pc < pieceWidths s.fallingPiece (expandAction s.fallingPiece a).1 ∧
      pieceCell s.fallingPiece (expandAction s.fallingPiece a).1 (landingRow s a)
        (expandAction s.fallingPiece a).2
        (landingRow s a +
          pieceHeightmaps s.fallingPiece (expandAction s.fallingPiece a).1 pc - 1)
        ((expandAction s.fallingPiece a).2 + pc) = true ∧
      (∀ r, pieceCell s.fallingPiece (expandAction s.fallingPiece a).1 (landingRow s a)
          (expandAction s.fallingPiece a).2 r ((expandAction s.fallingPiece a).2 + pc) = true →
        r ≤ landingRow s a +
          pieceHeightmaps s.fallingPiece (expandAction s.fallingPiece a).1 pc - 1) ∧
      (landingRow s a + pieceHeightmaps s.fallingPiece (expandAction s.fallingPiece a).1 pc =
          ROWS ∨
        (landingRow s a + pieceHeightmaps s.fallingPiece (expandAction s.fallingPiece a).1 pc <
            ROWS ∧
          s.board
            (landingRow s a +
              pieceHeightmaps s.fallingPiece (expandAction s.fallingPiece a).1 pc)
            ((expandAction s.fallingPiece a).2 + pc) = true))) := by
  obtain ⟨v1, v2, v3, v4⟩ := expandAction_valid s.fallingPiece a hp0 hp1 ha0 ha1
  have sh := expandAction_shape s.fallingPiece a hp0 hp1 ha0 ha1
  obtain ⟨f1, ⟨qc, q0, q1, q2⟩, f3⟩ := findRow_landing s.boardHeightmap s.fallingPiece
    (expandAction s.fallingPiece a).1 (expandAction s.fallingPiece a).2 sh hI.hm_le v3 v4
  generalize ho : (expandAction s.fallingPiece a).1 = o at *
  generalize hcol : (expandAction s.fallingPiece a).2 = col at *
  have hrow2 : landingRow s a = findRow s.boardHeightmap s.fallingPiece o col := by
    rw [landingRow, ho, hcol]
  rw [hrow2] at hrow ⊢
  generalize findRow s.boardHeightmap s.fallingPiece o col = row at *
  have hCi : COLUMNS = 10 := rfl
  have hfree : ∀ r c, pieceCell s.fallingPiece o row col r c = true →
      s.board r c = false ∧ 0 ≤ r ∧ r < ROWS ∧ 0 ≤ c ∧ c < COLUMNS := by
    intro r c hcell
    rw [pieceCell_true_iff] at hcell
    obtain ⟨⟨c1, c2, c3, c4⟩, c5⟩ := hcell
    have hcellb := sh.cell (r - row) (c - col) (by omega) (by omega) (by omega) (by omega) c5
    have hb := f1 (c - col) (by omega) (by omega)
    rw [show col + (c - col) = c by omega] at hb
    refine ⟨hI.hm_above c (by omega) (by omega) r (by omega) (by omega), by omega, by omega,
      by omega, by omega⟩
  refine ⟨hfree, fun r c => ?_, ?_, qc, q0, q1, ?_, fun r hcell => ?_, ?_⟩
  · rw [placePiece_eq _ _ _ _ _ (by have := sh.height_pos; omega)
      (by have := sh.width_pos; omega), withPiece_apply]
  · rw [placePiece_eq _ _ _ _ _ (by have := sh.height_pos; omega)
      (by have := sh.width_pos; omega)]
    exact withPiece_count s.board s.fallingPiece o row col hp0 hp1 v1 v2 hrow f3 v3 (by omega)
      (fun r c h => (hfree r c h).1)
  · rw [pieceCell_true_iff]
    have t1 := sh.top_lt_bottom qc q0 q1
    have t2 := sh.top_nonneg qc q0 q1
    have t3 := sh.bottom_le qc q0 q1
    refine ⟨⟨by omega, by omega, by omega, by omega⟩, ?_⟩
    rw [show row + pieceHeightmaps s.fallingPiece o qc - 1 - row =
        pieceHeightmaps s.fallingPiece o qc - 1 by omega,
      show col + qc - col = qc by omega]
    exact bottom_filled s.fallingPiece o qc hp0 hp1 v1 v2 q0 q1
  · rw [pieceCell_true_iff] at hcell
    obtain ⟨⟨c1, c2, -, -⟩, c5⟩ := hcell
    rw [show col + qc - col = qc by omega] at c5
    have := (sh.cell (r - row) qc (by omega) (by omega) q0 q1 c5).2
    omega
  · have hle := hI.hm_le (col + qc) (by omega) (by omega)
    rcases lt_or_eq_of_le hle with h | h
    · right
      have e : row + pieceHeightmaps s.fallingPiece o qc = s.boardHeightmap (col + qc) := by
        omega
      rw [e]
      exact ⟨h, hI.hm_filled (col + qc) (by omega) (by omega) h⟩
    · left
      omega

/-- Witness of C26: the square dropped at the left edge onto the S piece. -/
theorem C26_gravity_drop_witness :
    0 ≤ landingRow holeMade 0 ∧
    filledCells (placePiece holeMade.board holeMade.fallingPiece
      (expandAction holeMade.fallingPiece 0).1 (landingRow holeMade 0)
      (expandAction holeMade.fallingPiece 0).2) = filledCells holeMade.board + 4 :=
  ⟨by decide!,
    (C26_gravity_drop holeMade 0 (reachable_inv holeMade holeMade_reachable).1.toStackInv
      (by decide!) (by decide!) (by decide) (by decide!) (by decide!)).2.2.1⟩

/-- C27 (board shape invariant). In every state reached from `newEpisode` by legal steps no row
of the board is completely filled and every row from `boardHeightmapMin` down to the floor
holds a filled cell; and a legal drop that lands leaves `boardHeightmapMin` at the smaller of
its old value and the landing row plus the number of cleared rows, which is again the minimum
of the heightmap and the top of a stack without empty rows. -/
theorem C27_board_shape (s : Tetris) (h : Reachable s) :
    (∀ r, 0 ≤ r → r < ROWS → ∃ c, 0 ≤ c ∧ c < COLUMNS ∧ s.board r c = false) ∧
    (∀ r, s.boardHeightmapMin ≤ r → r < ROWS → ∃ c, 0 ≤ c ∧ c < COLUMNS ∧ s.board r c = true) ∧
    (∀ a, 0 ≤ a → a < pieceActionCounts s.fallingPiece → 0 ≤ landingRow s a →
      (s.dropPiece a).1.boardHeightmapMin =
        min s.boardHeightmapMin (landingRow s a) + (s.dropPiece a).2 ∧
      (∀ c, 0 ≤ c → c < COLUMNS →
        (s.dropPiece a).1.boardHeightmapMin ≤ (s.dropPiece a).1.boardHeightmap c) ∧
      (∃ c, 0 ≤ c ∧ c < COLUMNS ∧
        (s.dropPiece a).1.boardHeightmap c = (s.dropPiece a).1.boardHeightmapMin) ∧
      (∀ r, (s.dropPiece a).1.boardHeightmapMin ≤ r → r < ROWS →
        ∃ c, 0 ≤ c ∧ c < COLUMNS ∧ (s.dropPiece a).1.board r c = true)) := by
  obtain ⟨hI, hp0, hp1, -⟩ := reachable_inv s h
  refine ⟨hI.no_full_row, hI.no_gap, fun a a0 a1 hrow => ?_⟩
  have hD := dropPiece_inv s a hI hp0 hp1 a0 a1
  exact ⟨dropPiece_heightmapMin s a hp0 hp1 a0 a1 hrow, hD.min_le, hD.min_attained, hD.no_gap⟩

/-- Witness of C27: the state after the S piece has been dropped at the left edge. -/
theorem C27_board_shape_witness :
    Reachable holeMade ∧
    (∀ r, 0 ≤ r → r < ROWS → ∃ c, 0 ≤ c ∧ c < COLUMNS ∧ holeMade.board r c = false) ∧
    (∀ r, holeMade.boardHeightmapMin ≤ r → r < ROWS →
      ∃ c, 0 ≤ c ∧ c < COLUMNS ∧ holeMade.board r c = true) :=
  ⟨holeMade_reachable, (C27_board_shape holeMade holeMade_reachable).1,
    (C27_board_shape holeMade holeMade_reachable).2.1⟩

/-- C28 (index safety of the drop). For every reachable non-terminal state, every falling piece
in `0..6` and every action in `0..pieceActionCounts[piece]-1`: the embedding of `dropPiece` and
`shiftRows` in which every access is checked (the board at a row in `0..ROWS-1` and a column in
`0..COLUMNS-1`, the heightmap at an index in `0..COLUMNS-1`, the piece tables at an orientation
below `pieceOrientationCounts[piece]`) succeeds, with the result of `dropPiece`; and the action
count is at most 34, below `MAXACTIONS = 40`, while `computeActions` leaves every row of
`stepData.actions` and `stepData.isActionTerminal` outside `0..actionCount-1` as it was. -/
theorem C28_index_safety (s : Tetris) (h : Reachable s) (hterm : s.terminalState = false)
    (p a : Int) (hp0 : 0 ≤ p) (hp1 : p < 7) (ha0 : 0 ≤ a) (ha1 : a < pieceActionCounts p) :
    ({ s with fallingPiece := p } : Tetris).dropPieceChecked a =
      some (({ s with fallingPiece := p } : Tetris).dropPiece a) ∧
    (0 ≤ (expandAction p a).1 ∧ (expandAction p a).1 < pieceOrientationCounts p) ∧
    s.stepData.actionCount = pieceActionCounts s.fallingPiece ∧
    s.computeActions.stepData.actionCount = pieceActionCounts s.fallingPiece ∧
    (0 ≤ s.stepData.actionCount ∧ s.stepData.actionCount ≤ 34 ∧
      s.stepData.actionCount ≤ MAXACTIONS) ∧
    (∀ b, ¬ (0 ≤ b ∧ b < s.stepData.actionCount) →
      s.computeActions.stepData.actions b = s.stepData.actions b ∧
      s.computeActions.stepData.isActionTerminal b = s.stepData.isActionTerminal b) := by
  obtain ⟨hI, q0, q1, -⟩ := reachable_inv s h
  obtain ⟨v1, v2, -, -⟩ := expandAction_valid p a hp0 hp1 ha0 ha1
  have hcount := reachable_actionCount s h hterm
  obtain ⟨b1, b2⟩ := actionCount_bounds s.fallingPiece q0 q1
  obtain ⟨-, -, -, -, -, -, -, -, -, -, l11, l12, l13⟩ := computeActions_spec s
  refine ⟨dropPieceChecked_eq ({ s with fallingPiece := p } : Tetris) a hI.toStackInv hp0 hp1
    ha0 ha1, ⟨v1, v2⟩, hcount, ?_, ⟨by omega, by omega, ?_⟩, fun b hb => ?_⟩
  · rw [l11, hterm]
    rfl
  · have hM : MAXACTIONS = 40 := rfl
    omega
  · rw [hcount] at hb
    rw [l12 b, l13 b, if_neg (fun hh => hb hh.2), if_neg (fun hh => hb hh.2)]
    exact ⟨rfl, rfl⟩

/-- Witness of C28: the board with the S piece at the left edge, and the bar dropped upright in
column 9. -/
theorem C28_index_safety_witness :
    Reachable holeMade ∧ holeMade.terminalState = false ∧
    ({ holeMade with fallingPiece := 2 } : Tetris).dropPieceChecked 16 =
      some (({ holeMade with fallingPiece := 2 } : Tetris).dropPiece 16) ∧
    holeMade.stepData.actionCount ≤ MAXACTIONS :=
  ⟨holeMade_reachable, by decide!,
    (C28_index_safety holeMade holeMade_reachable (by decide!) 2 16 (by decide) (by decide)
      (by decide) (by decide)).1,
    (C28_index_safety holeMade holeMade_reachable (by decide!) 2 16 (by decide) (by decide)
      (by decide) (by decide)).2.2.2.2.1.2.2⟩

/-- C29 (piece catalog consistency). For every piece `p` in `0..6` and every orientation `o`
below `pieceOrientationCounts[p]`: the mask `pieces[p][o]` has exactly 4 filled cells, all within
its first `pieceHeights[p][o]` rows and first `pieceWidths[p][o]` columns, with a filled cell in
each of these rows and columns; for every column `c` below the width,
`pieceTopHeightmaps[p][o][c]` is the row of the topmost filled cell of column `c` and
`pieceHeightmaps[p][o][c]` is one more than the row of its lowest filled cell; the top is 0 in
some column and the bottom is the height in some column; and `pieceActionCounts[p]` is the sum
over the orientations of `COLUMNS - pieceWidths[p][o] + 1`. -/
theorem C29_catalog_consistency (p o : Int) (hp0 : 0 ≤ p) (hp1 : p < 7) (ho0 : 0 ≤ o)
    (ho1 : o < pieceOrientationCounts p) :
    maskCells p o = 4 ∧
    (∀ r c, 0 ≤ r → r < 4 → 0 ≤ c → c < 4 → pieces p o r c = true →
      r < pieceHeights p o ∧ c < pieceWidths p o) ∧
    (∀ r, 0 ≤ r → r < pieceHeights p o →
      ∃ c, 0 ≤ c ∧ c < pieceWidths p o ∧ pieces p o r c = true) ∧
    (∀ c, 0 ≤ c → c < pieceWidths p o →
      ∃ r, 0 ≤ r ∧ r < pieceHeights p o ∧ pieces p o r c = true) ∧
    (∀ c, 0 ≤ c → c < pieceWidths p o →
      0 ≤ pieceTopHeightmaps p o c ∧
      pieces p o (pieceTopHeightmaps p o c) c = true ∧
      (∀ r, 0 ≤ r → r < pieceTopHeightmaps p o c → pieces p o r c = false) ∧
      pieceHeightmaps p o c ≤ pieceHeights p o ∧
      pieces p o (pieceHeightmaps p o c - 1) c = true ∧
      (∀ r, pieceHeightmaps p o c ≤ r → r < 4 → pieces p o r c = false)) ∧
    (∃ c, 0 ≤ c ∧ c < pieceWidths p o ∧ pieceTopHeightmaps p o c = 0) ∧
    (∃ c, 0 ≤ c ∧ c < pieceWidths p o ∧ pieceHeightmaps p o c = pieceHeights p o) ∧
    pieceActionCounts p =
      ((List.range (pieceOrientationCounts p).toNat).map
        (fun k : Nat => COLUMNS - pieceWidths p k + 1)).sum := by
  obtain ⟨pn, rfl⟩ := nat_of_range p hp0
  obtain ⟨ok, rfl⟩ := nat_of_range o ho0
  have hpn : pn < 7 := by omega
  have hcnt := (catalog_orientations pn hpn).2
  have hok : ok < 4 := by omega
  obtain ⟨w0, w1, h0, h1⟩ := catalog_dims pn hpn ok hok ho1
  have sh := shapeOK_of_valid pn ok hp0 hp1 ho0 ho1
  refine ⟨catalog_maskCells pn hpn ok hok ho1, ?_, sh.row_nonempty, ?_, ?_, sh.top_zero,
    sh.bottom_height, ?_⟩
  · intro r c r0 r1 c0 c1 hrc
    obtain ⟨rn, rfl⟩ := nat_of_range r r0
    obtain ⟨cn, rfl⟩ := nat_of_range c c0
    exact catalog_inside pn hpn ok hok ho1 rn (by omega) cn (by omega) hrc
  · intro c c0 c1
    obtain ⟨cn, rfl⟩ := nat_of_range c c0
    obtain ⟨pr, a1, a2, a3⟩ := catalog_columns_nonempty pn hpn ok hok ho1 cn (by omega) c1
    exact ⟨pr, by omega, a2, a3⟩
  · intro c c0 c1
    obtain ⟨cn, rfl⟩ := nat_of_range c c0
    obtain ⟨t1, t2, t3, t4⟩ := catalog_top pn hpn ok hok ho1 cn (by omega) c1
    have tnn := sh.top_nonneg cn c0 c1
    have tlt := sh.top_lt_bottom cn c0 c1
    have ble := sh.bottom_le cn c0 c1
    refine ⟨tnn, t1, ?_, ble, t3, ?_⟩
    · intro r r0 r1
      obtain ⟨rn, rfl⟩ := nat_of_range r r0
      exact t2 rn (by omega) r1
    · intro r r0 r1
      obtain ⟨rn, rfl⟩ := nat_of_range r (by omega)
      exact t4 rn (by omega) r0
  · exact catalog_count pn hpn

/-- Witness of C29: the T piece (piece 1) in its second orientation. -/
theorem C29_catalog_consistency_witness :
    (0 : Int) ≤ 1 ∧ (1 : Int) < 7 ∧ (1 : Int) < pieceOrientationCounts 1 ∧
    maskCells 1 1 = 4 ∧
    pieceActionCounts 1 =
      ((List.range (pieceOrientationCounts 1).toNat).map
        (fun k : Nat => COLUMNS - pieceWidths 1 k + 1)).sum :=
  ⟨by decide, by decide, by decide,
    (C29_catalog_consistency 1 1 (by decide) (by decide) (by decide) (by decide)).1,
    (C29_catalog_consistency 1 1 (by decide) (by decide) (by decide) (by decide)).2.2.2.2.2.2.2⟩

/-- Counterexample to C30 as stated, with the rounding of binary64. For the finite
`theta = (2^1023, 0, ...)`, `tau = 1` and two actions of which the second is rejected, the
score of action 0 is `2^1024`: the probability of the specification is 1 for every positive
`exp`, and the probability that `computeActionProbabilities` stores is a NaN, because the
product `2 * 2^1023` overflows. For `theta = 0`, `tau = 1` and six actions that are not
rejected, the probability of the specification is `1/6` and the stored probability is the
`double` nearest to it, which is another number. -/
theorem C30_max_shift_counterexample :
    ((∃ b, 0 ≤ b ∧ b < overflowStepData.actionCount ∧
        overflowStepData.isActionTerminal b = false) ∧
      (∀ i, overflowAgent.theta i = Dbl.fin (if i = 0 then 2 ^ 1023 else 0)) ∧
      overflowAgent.tau = Dbl.fin 1 ∧ overflowStepData.isActionTerminal 0 = false ∧
      (∀ e : ℚ → ℚ, (∀ x, 0 < e x) →
        softmaxProbability e overflowStepData (fun i => if i = 0 then 2 ^ 1023 else 0) 1 0 =
          1) ∧
      (overflowAgent.computeActionProbabilitiesRounded round64 sampleExpRounded
        overflowStepData).actionProbabilities 0 = Dbl.nan) ∧
    ((∃ b, 0 ≤ b ∧ b < tieStepData.actionCount ∧ tieStepData.isActionTerminal b = false) ∧
      (∀ i, zeroAgent.theta i = Dbl.fin 0) ∧ zeroAgent.tau = Dbl.fin 1 ∧
      tieStepData.isActionTerminal 0 = false ∧
      (∀ e : ℚ → ℚ, (∀ x, 0 < e x) →
        softmaxProbability e tieStepData (fun _ => 0) 1 0 = 1 / 6) ∧
      (zeroAgent.computeActionProbabilitiesRounded round64 sampleExpRounded
        tieStepData).actionProbabilities 0 =
          Dbl.fin (6004799503160661 / 36028797018963968) ∧
      (6004799503160661 / 36028797018963968 : ℚ) ≠ 1 / 6) := by
  refine ⟨⟨⟨0, by decide⟩, fun _ => rfl, rfl, rfl, fun e he => ?_, by decide!⟩,
    ⟨0, by decide⟩, fun _ => rfl, rfl, rfl, tieStepData_softmax,
    tieStepData_probabilities 0 (le_refl 0) (by decide), by norm_num⟩
  have hfilter : (Finset.range overflowStepData.actionCount.toNat).filter
      (fun b : Nat => overflowStepData.isActionTerminal (b : Int) = false) = {0} := by
    decide
  rw [softmaxProbability, if_neg (by decide), hfilter, Finset.sum_singleton]
  exact div_self (ne_of_gt (he _))

/-- C30 (the shift by the maximum does not change the distribution), amended to exact
arithmetic. When no operation rounds (the rounding is the exact arithmetic) and `exp` is
positive and turns differences into quotients, for step data with at least one action that is
not flagged terminal, finite `theta` and `tau > 0`: `computeActionProbabilities` stores for
every action `a` the probability of the specification without the shift, `exp(s_a)` over the
sum of `exp(s_b)` over the actions that are not rejected, which is 0 for a rejected action. -/
theorem C30_max_shift {F : Type} [LinearOrderedField F] (exp : F → F)
    (hpos : ∀ x, 0 < exp x) (hsub : ∀ x y, exp (x - y) = exp x / exp y)
    (self : NaturalActorCritic F) (s : StepData) (th : Int → F) (t : F)
    (hth : ∀ i, 0 ≤ i → i < STATEACTIONDIM → self.theta i = Dbl.fin (th i))
    (htau : self.tau = Dbl.fin t) (ht : 0 < t) (hn : s.actionCount ≤ MAXACTIONS)
    (hsome : ∃ b, 0 ≤ b ∧ b < s.actionCount ∧ s.isActionTerminal b = false) :
    (∀ a, 0 ≤ a → a < s.actionCount →
      (self.computeActionProbabilitiesRounded Dbl.fin (fun x => Dbl.fin (exp x))
        s).actionProbabilities a = Dbl.fin (softmaxProbability exp s th t a)) ∧
    (∀ a, 0 ≤ a → a < s.actionCount → s.isActionTerminal a = false →
      (self.computeActionProbabilitiesRounded Dbl.fin (fun x => Dbl.fin (exp x))
        s).actionProbabilities a =
        Dbl.fin (exp (score s th t a) /
          ∑ b in (Finset.range s.actionCount.toNat).filter
            (fun b : Nat => s.isActionTerminal (b : Int) = false),
              exp (score s th t (b : Int)))) ∧
    (∀ a, 0 ≤ a → a < s.actionCount → s.isActionTerminal a = true →
      (self.computeActionProbabilitiesRounded Dbl.fin (fun x => Dbl.fin (exp x))
        s).actionProbabilities a = Dbl.fin 0) := by
  have hn0 : 0 ≤ s.actionCount := by
    obtain ⟨b, b0, b1, -⟩ := hsome
    omega
  have hexp0 : exp 0 = 1 := by
    have h := hsub 0 0
    rw [sub_zero, div_self (ne_of_gt (hpos 0))] at h
    exact h
  obtain ⟨pA, -, -⟩ := computeActionProbabilities_spec exp self s th t hth htau (ne_of_gt ht)
    hn0 hn
  obtain ⟨m, hm, -, hap⟩ := pA hsome
  obtain ⟨-, hS⟩ := shiftedWeight_sum exp s th t m hexp0 (fun x => le_of_lt (hpos x)) hm
  have hS0 : (∑ b in Finset.range s.actionCount.toNat, shiftedWeight exp s th t m b) ≠ 0 :=
    ne_of_gt (lt_of_lt_of_le one_pos hS)
  have hall : ∀ a, 0 ≤ a → a < s.actionCount →
      (self.computeActionProbabilitiesRounded Dbl.fin (fun x => Dbl.fin (exp x))
        s).actionProbabilities a = Dbl.fin (softmaxProbability exp s th t a) := by
    intro a a0 a1
    rw [computeActionProbabilitiesRounded_exact, hap hS0 a a0 a1,
      shiftedWeight_normalised exp hpos hsub]
  refine ⟨hall, fun a a0 a1 hT => ?_, fun a a0 a1 hT => ?_⟩
  · rw [hall a a0 a1, softmaxProbability, hT, if_neg (by decide)]
  · rw [hall a a0 a1, softmaxProbability, hT, if_pos rfl]

/-- Witness of C30: the real numbers with the real exponential, three actions of which the
middle one is rejected. -/
theorem C30_max_shift_witness :
    (∀ x, 0 < Real.exp x) ∧ (∀ x y, Real.exp (x - y) = Real.exp x / Real.exp y) ∧
    (∃ b, 0 ≤ b ∧ b < sampleStepData.actionCount ∧ sampleStepData.isActionTerminal b = false) ∧
    (((sampleAgentOver ℝ).computeActionProbabilitiesRounded Dbl.fin
      (fun x => Dbl.fin (Real.exp x)) sampleStepData).actionProbabilities 0 =
        Dbl.fin (softmaxProbability Real.exp sampleStepData
          (fun i => if i = 0 then 1 / 2 else 1) 2 0)) ∧
    (((sampleAgentOver ℝ).computeActionProbabilitiesRounded Dbl.fin
      (fun x => Dbl.fin (Real.exp x)) sampleStepData).actionProbabilities 1 = Dbl.fin 0) :=
  ⟨Real.exp_pos, Real.exp_sub, ⟨0, le_refl 0, by decide, rfl⟩,
    (C30_max_shift Real.exp Real.exp_pos Real.exp_sub (sampleAgentOver ℝ) sampleStepData
      (fun i => if i = 0 then 1 / 2 else 1) 2 (fun _ _ _ => rfl) rfl (by norm_num)
      (by decide) ⟨0, le_refl 0, by decide, rfl⟩).1 0 (le_refl 0) (by decide),
    (C30_max_shift Real.exp Real.exp_pos Real.exp_sub (sampleAgentOver ℝ) sampleStepData
      (fun i => if i = 0 then 1 / 2 else 1) 2 (fun _ _ _ => rfl) rfl (by norm_num)
      (by decide) ⟨0, le_refl 0, by decide, rfl⟩).2.2 1 (by decide) (by decide) rfl⟩

/-- C31 (LSTD and LSPE accumulate the same statistics up to sign). For every `gamma` and
`lambda`, every sequence of `(phi0, phi1, reward)` inputs and every number `k` of steps taken,
a fresh LSTD critic outside the corrected mode and a fresh LSPE critic fed the first `k`
inputs have equal traces `z`, equal vectors `b`, and the LSPE matrix `A` is the negation of the
LSTD matrix `A` entry by entry. -/
theorem C31_lstd_lspe_sign {D : Type} [CommRing D] (mode : PetersTrickMode)
    (hmode : mode = PetersTrickMode.PTM_OFF ∨ mode = PetersTrickMode.PTM_ON)
    (rawT : LSTDLambda D) (rawP : LSPELambda D) (gamma lambda : D)
    (l : List ((Int → D) × (Int → D) × D)) (k : Nat) :
    ∃ t p, LSTDLambda.create rawT VDIM gamma lambda = Except.ok t ∧
      LSPELambda.create rawP VDIM gamma lambda = Except.ok p ∧
      (∀ i, 0 ≤ i → i < VDIM → (p.feed (l.take k)).z i = (t.feed mode (l.take k)).z i) ∧
      (∀ i, 0 ≤ i → i < VDIM → (p.feed (l.take k)).b i = (t.feed mode (l.take k)).b i) ∧
      (∀ i j, 0 ≤ i → i < VDIM → 0 ≤ j → j < VDIM →
        (p.feed (l.take k)).A i j = -(t.feed mode (l.take k)).A i j) := by
  have hm : mode ≠ PetersTrickMode.PTM_CORRECTED := by
    rcases hmode with h | h <;> rw [h] <;> decide
  refine ⟨_, _, rfl, rfl, ?_⟩
  exact critics_feed_sign mode hm (l.take k)
    ({ rawT with
      VDim := VDIM
      gamma := gamma
      lambda := lambda
      A := memsetZero2 rawT.A VDIM VDIM
      b := memsetZero rawT.b VDIM
      z := memsetZero rawT.z VDIM } : LSTDLambda D)
    ({ rawP with
      VDim := VDIM
      gamma := gamma
      lambda := lambda
      B := memsetZero2 rawP.B VDIM VDIM
      A := memsetZero2 rawP.A VDIM VDIM
      b := memsetZero rawP.b VDIM
      z := memsetZero rawP.z VDIM } : LSPELambda D) rfl rfl rfl
    (fun i i0 i1 => by
      show memsetZero rawP.z VDIM i = memsetZero rawT.z VDIM i
      rw [memsetZero, memsetZero, if_pos ⟨i0, i1⟩, if_pos ⟨i0, i1⟩])
    (fun i i0 i1 => by
      show memsetZero rawP.b VDIM i = memsetZero rawT.b VDIM i
      rw [memsetZero, memsetZero, if_pos ⟨i0, i1⟩, if_pos ⟨i0, i1⟩])
    (fun i j i0 i1 j0 j1 => by
      show memsetZero2 rawP.A VDIM VDIM i j = -memsetZero2 rawT.A VDIM VDIM i j
      rw [memsetZero2, memsetZero2, if_pos ⟨⟨i0, i1⟩, j0, j1⟩, if_pos ⟨⟨i0, i1⟩, j0, j1⟩,
        neg_zero])

/-- Witness of C31: the integers, the shipped mode and two inputs. -/
theorem C31_lstd_lspe_sign_witness :
    (PETERS_TRICK_MODE = PetersTrickMode.PTM_OFF ∨ PETERS_TRICK_MODE = PetersTrickMode.PTM_ON) ∧
    ∃ t p, LSTDLambda.create sampleLSTD VDIM 2 3 = Except.ok t ∧
      LSPELambda.create sampleLSPE VDIM 2 3 = Except.ok p ∧
      (p.feed ([(fun i => i + 1, fun i => 2 * i, 5), (unitFeature, fun _ => 1, 7)].take 2)).A
          1 0 =
        -(t.feed PETERS_TRICK_MODE
          ([(fun i => i + 1, fun i => 2 * i, 5), (unitFeature, fun _ => 1, 7)].take 2)).A 1 0 :=
  ⟨Or.inr rfl,
    (C31_lstd_lspe_sign PETERS_TRICK_MODE (Or.inr rfl) sampleLSTD sampleLSPE 2 3
      [(fun i => i + 1, fun i => 2 * i, 5), (unitFeature, fun _ => 1, 7)] 2).imp
      fun _ h => h.imp fun _ h2 =>
        ⟨h2.1, h2.2.1, h2.2.2.2.2 1 0 (by decide) (by decide) (by decide) (by decide)⟩⟩

/-- C32 (the gradient features have zero mean under the policy). Under exact arithmetic, for
step data and finite probabilities `q` over its actions that sum to 1 (so that there is at
least one action): after `learn` has run for the taken action `a0`, entry `STATEDIM + i` of
the register `phi0` of the critic holds
`g(a0)[i] = s.actions[a0][i] - sum over b of q[b] * s.actions[b][i]`, and the sum over the
actions `a` of `q[a] * g(a)[i]` is 0, for every feature index `i < STATEACTIONDIM`. -/
theorem C32_gradient_zero_mean {F : Type} [LinearOrderedField F] (mode : PetersTrickMode)
    (self : NaturalActorCritic F) (s0 : StepData) (pr0 : Int → Dbl F) (q : Int → F)
    (s1 : StepData) (pr1 : Int → Dbl F) (a1 i : Int)
    (hq : ∀ b, 0 ≤ b → b < s0.actionCount → pr0 b = Dbl.fin (q b))
    (hsum : ∑ b in Finset.range s0.actionCount.toNat, q b = 1)
    (hi0 : 0 ≤ i) (hi1 : i < STATEACTIONDIM) :
    (∀ a0 self1, self.learn mode s0 pr0 a0 s1 pr1 a1 = Except.ok self1 →
      self1.critic.toCritic.phi0 (STATEDIM + i) =
        Dbl.fin (((s0.actions a0 i : Int) : F) -
          ∑ b in Finset.range s0.actionCount.toNat, q b * ((s0.actions b i : Int) : F))) ∧
    (∀ a0, gradientLoop s0 pr0
        (memcpy (memcpy self.critic.toCritic.phi0 0 (fun k => Dbl.ofInt (s0.observation k))
          STATEDIM) STATEDIM (fun k => Dbl.ofInt (s0.actions a0 k)) STATEACTIONDIM)
        (STATEDIM + i) =
      Dbl.fin (((s0.actions a0 i : Int) : F) -
        ∑ b in Finset.range s0.actionCount.toNat, q b * ((s0.actions b i : Int) : F))) ∧
    ∑ a in Finset.range s0.actionCount.toNat,
      q a * (((s0.actions a i : Int) : F) -
        ∑ b in Finset.range s0.actionCount.toNat, q b * ((s0.actions b i : Int) : F)) = 0 := by
  refine ⟨fun a0 self1 h => ?_, fun a0 => gradientBlock_fin s0 pr0 q _ a0 i hq hi0 hi1,
    weighted_deviation_sum s0.actionCount.toNat (fun a => q a)
      (fun a => ((s0.actions a i : Int) : F)) hsum⟩
  unfold NaturalActorCritic.learn at h
  dsimp only at h
  generalize hp1 : (if mode = PetersTrickMode.PTM_OFF then _ else _ : Int → Dbl F) = phi1
    at h
  cases hstep : (self.critic.setRegisters
      (gradientLoop s0 pr0
        (memcpy (memcpy self.critic.toCritic.phi0 0 (fun k => Dbl.ofInt (s0.observation k))
          STATEDIM) STATEDIM (fun k => Dbl.ofInt (s0.actions a0 k)) STATEACTIONDIM))
      phi1).step mode (Dbl.ofInt s1.transitionReward) with
  | error e =>
    rw [hstep] at h
    exact absurd h (by simp [Except.map])
  | ok c1 =>
    rw [hstep] at h
    have e : self1 = { self with critic := c1 } := by
      simpa [Except.map] using h.symm
    rw [e]
    show c1.toCritic.phi0 (STATEDIM + i) = _
    rw [CriticObject_step_toCritic mode _ c1 _ hstep,
      (CriticObject_setRegisters_toCritic self.critic _ phi1).1]
    exact gradientBlock_fin s0 pr0 q _ a0 i hq hi0 hi1

/-- Witness of C32: the three actions of the sample step data with the probabilities
`1/4, 1/2, 1/4`, and feature 0. -/
theorem C32_gradient_zero_mean_witness :
    (1 : Int) ≤ sampleStepData.actionCount ∧
    ∑ b in Finset.range sampleStepData.actionCount.toNat,
      (if (b : Int) = 1 then (1 / 2 : ℚ) else 1 / 4) = 1 ∧
    ∑ a in Finset.range sampleStepData.actionCount.toNat,
      (if (a : Int) = 1 then (1 / 2 : ℚ) else 1 / 4) *
        (((sampleStepData.actions a 0 : Int) : ℚ) -
          ∑ b in Finset.range sampleStepData.actionCount.toNat,
            (if (b : Int) = 1 then (1 / 2 : ℚ) else 1 / 4) *
              ((sampleStepData.actions b 0 : Int) : ℚ)) = 0 :=
  ⟨by decide, by
      rw [show sampleStepData.actionCount.toNat = 3 from rfl]
      simp [Finset.sum_range_succ]
      norm_num,
    (C32_gradient_zero_mean PETERS_TRICK_MODE sampleAgent sampleStepData
      (fun a => Dbl.fin (if a = 1 then 1 / 2 else 1 / 4))
      (fun a => if a = 1 then 1 / 2 else 1 / 4) sampleStepData
      (fun a => Dbl.fin (if a = 1 then 1 / 2 else 1 / 4)) 0 0
      (fun _ _ _ => rfl)
      (by
        rw [show sampleStepData.actionCount.toNat = 3 from rfl]
        simp [Finset.sum_range_succ]
        norm_num)
      (by decide) (by decide)).2.2⟩

/-- C33 (agent step on a terminal state). For every step data with `actionCount = 0`:
`computeActionProbabilities` leaves every probability equal to 0, so that their sum is 0 and
not 1; `drawAction` returns -1 for every draw `r`; and `step`, which succeeds when the critic
has room for a sample, returns -1, which is not an action index. -/
theorem C33_terminal_step {F : Type} [LinearOrderedField F] (exp : F → F)
    (mode : PetersTrickMode) (self : NaturalActorCritic F) (sd : StepData) (r : Dbl F)
    (h0 : sd.actionCount = 0)
    (hroom : ∀ c0, self.critic = CriticObject.fullTD c0 → c0.n < MAXSAMPLES) :
    (∀ a, 0 ≤ a → a < MAXACTIONS →
      (self.computeActionProbabilities exp sd).actionProbabilities a = Dbl.fin 0) ∧
    cumulativeSum (self.computeActionProbabilities exp sd).actionProbabilities
      MAXACTIONS.toNat = Dbl.fin 0 ∧
    (Dbl.fin 0 : Dbl F) ≠ Dbl.fin 1 ∧
    (∀ (other : NaturalActorCritic F) (draw : Dbl F), other.drawAction sd draw = -1) ∧
    (self.act exp sd r).2 = -1 ∧
    (∃ stepped, self.step exp mode sd r = Except.ok stepped ∧ stepped.2 = -1) ∧
    ¬ (0 ≤ (-1 : Int) ∧ (-1 : Int) < sd.actionCount) := by
  have hap : ∀ a, 0 ≤ a → a < MAXACTIONS →
      (self.computeActionProbabilities exp sd).actionProbabilities a = Dbl.fin 0 := by
    intro a a0 a1
    rw [computeActionProbabilities_none exp self sd h0, memsetZero, if_pos ⟨a0, a1⟩]
    rfl
  have hact : (self.act exp sd r).2 = -1 := drawAction_none _ sd r h0
  refine ⟨hap, ?_, ?_, fun other draw => drawAction_none other sd draw h0, hact, ?_,
    by omega⟩
  · have h := cumulativeSum_fin (self.computeActionProbabilities exp sd).actionProbabilities
      (fun _ => (0 : F)) MAXACTIONS.toNat
      (fun i hi => hap (i : Int) (by omega) (by omega)) MAXACTIONS.toNat (le_refl _)
    rw [h, Finset.sum_const_zero]
  · intro h
    have h1 : (0 : F) = 1 := by
      injection h
    exact zero_ne_one h1
  · cases hl : self.learning
    · exact ⟨_, step_not_learning exp mode self sd r hl, hact⟩
    · cases hf : self.firstStep
      · obtain ⟨stepped, x, e, e2, -⟩ := step_update exp mode self sd r hl hf hroom
        exact ⟨stepped, e, e2.trans hact⟩
      · obtain ⟨stepped, e, e2, -⟩ := step_first_ok exp mode self sd r hl hf
        exact ⟨stepped, e, e2.trans hact⟩

/-- Witness of C33: the sample controller, whose raw-sample critic is empty, on step data
without actions. -/
theorem C33_terminal_step_witness :
    ({ sampleStepData with actionCount := 0 } : StepData).actionCount = 0 ∧
    (sampleAgent.act sampleExp ({ sampleStepData with actionCount := 0 } : StepData)
      (Dbl.fin (1 / 2))).2 = -1 ∧
    ∃ stepped, sampleAgent.step sampleExp PETERS_TRICK_MODE
      ({ sampleStepData with actionCount := 0 } : StepData) (Dbl.fin (1 / 2)) =
        Except.ok stepped ∧ stepped.2 = -1 :=
  ⟨rfl,
    (C33_terminal_step sampleExp PETERS_TRICK_MODE sampleAgent
      ({ sampleStepData with actionCount := 0 } : StepData) (Dbl.fin (1 / 2)) rfl
      (fun c0 h => by
        have e : c0.n = 0 := by
          cases h
          rfl
        rw [e]
        decide)).2.2.2.2.1,
    (C33_terminal_step sampleExp PETERS_TRICK_MODE sampleAgent
      ({ sampleStepData with actionCount := 0 } : StepData) (Dbl.fin (1 / 2)) rfl
      (fun c0 h => by
        have e : c0.n = 0 := by
          cases h
          rfl
        rw [e]
        decide)).2.2.2.2.2.1⟩

/-- C34 (flood-fill hole count), the code at the board with piece 6 at the left edge. The state
is reachable, not terminal and its board is not empty. With at least 4 passes for the main
loop of the seed fill, the hole count for `HOLEDEFINITION == HD_FLOODFILL` returns 1: the cell
(19,2) is counted when column 2 is scanned, before the fill from the seed of column 3 reaches
it. Yet every empty cell below the topmost filled cell of its column, (19,2) alone, is connected
to the seed (18,3) by moves through empty cells inside the rows 18..19, so that the number of
cells not connected to a seed is 0. -/
theorem C34_flood_fill_order (fuel : Nat) (hfuel : 4 ≤ fuel) :
    Reachable overhangMade ∧ overhangMade.terminalState = false ∧
    overhangMade.boardHeightmapMin < ROWS ∧
    holesFloodFill fuel overhangMade.board overhangMade.boardHeightmap
      overhangMade.boardHeightmapMin = some 1 ∧
    (∀ r c, 0 ≤ c → c < COLUMNS → overhangMade.boardHeightmap c < r → r < ROWS →
      overhangMade.board r c = false →
      (r = 19 ∧ c = 2) ∧
        FloodConnected overhangMade.board overhangMade.boardHeightmapMin r c) := by
  have hmin : overhangMade.boardHeightmapMin = 18 := by decide!
  have hfill : holesFloodFill 4 overhangMade.board overhangMade.boardHeightmap
      overhangMade.boardHeightmapMin = some 1 := by decide!
  refine ⟨overhangMade_reachable, by decide!, by rw [hmin]; decide, ?_,
    fun r c c0 c1 hr hr1 he => ?_⟩
  · have h := holesFloodFill_mono 4 (fuel - 4) _ _ _ _ hfill
    rw [show 4 + (fuel - 4) = fuel by omega] at h
    exact h
  · have hC : COLUMNS = 10 := rfl
    have hR : ROWS = 20 := rfl
    have h0 : overhangMade.boardHeightmap 0 = 19 := by decide!
    have h1 : overhangMade.boardHeightmap 1 = 18 := by decide!
    have h2 : overhangMade.boardHeightmap 2 = 18 := by decide!
    have h3 : ∀ k : Nat, 3 ≤ k → k < 10 → overhangMade.boardHeightmap k = 20 := by decide!
    have b1 : overhangMade.board 19 1 = true := by decide!
    obtain ⟨k, rfl⟩ := nat_of_range c c0
    have hk : k = 0 ∨ k = 1 ∨ k = 2 ∨ 3 ≤ k := by omega
    rcases hk with rfl | rfl | rfl | hk
    · rw [show ((0 : Nat) : Int) = 0 from rfl, h0] at hr
      omega
    · rw [show ((1 : Nat) : Int) = 1 from rfl, h1] at hr
      have e : r = 19 := by omega
      rw [e, show ((1 : Nat) : Int) = 1 from rfl, b1] at he
      exact absurd he (by decide)
    · rw [show ((2 : Nat) : Int) = 2 from rfl, h2] at hr
      have e : r = 19 := by omega
      subst e
      refine ⟨⟨rfl, rfl⟩, ?_⟩
      rw [hmin]
      exact FloodConnected.move 19 3 19 2
        (FloodConnected.move 18 3 19 3
          (FloodConnected.seed 3 (by decide) (by decide) (by decide!))
          (Or.inr ⟨rfl, Or.inl rfl⟩) (by decide) (by decide) (by decide) (by decide)
          (by decide!))
        (Or.inl ⟨rfl, Or.inr rfl⟩) (by decide) (by decide) (by decide) (by decide)
        (by decide!)
    · rw [h3 k hk (by omega)] at hr
      omega

/-- Witness of C34: four passes of the main loop of the seed fill. -/
theorem C34_flood_fill_order_witness :
    holesFloodFill 4 overhangMade.board overhangMade.boardHeightmap
      overhangMade.boardHeightmapMin = some 1 ∧
    FloodConnected overhangMade.board overhangMade.boardHeightmapMin 19 2 :=
  ⟨(C34_flood_fill_order 4 (le_refl 4)).2.2.2.1,
    ((C34_flood_fill_order 4 (le_refl 4)).2.2.2.2 19 2 (by decide) (by decide) (by decide!)
      (by decide) (by decide!)).2⟩

end TetrisNAC
